import Mathlib

/-!
# AkUTF: a verification development of the UTF-8 codec

Shallow embedding of `src/src/akutf.c` (bulk decoder `u8dec`, encoder `u8enc`),
of `src/src/utf8_iterator.c` (`utf8_decode_sequence` and the iterator), of
`src/src/utf8_utils.c` (validation, length, search, case conversion and
`u8_cp_to_bytes`), and of the string buffer of `src/src/utf8_string.c`.

Conventions of the embedding.

* A byte is a `Nat` below 256; a 32-bit value is a `Nat` below `2 ^ 32`.
  Casts to `uint8_t` / `char` are written `% 256`, arithmetic on `uint32_t`
  that could leave the type is written `% 4294967296`.
* A C array handed to a function is a `List`; the element read at an index
  at or beyond the length of the list is `0`, so a list models a
  0-terminated array whose terminator is implicit (an explicit `0` inside the
  list terminates earlier, exactly as in C).
* Pointers into an array are indices; the null pointer is `none`.
* In `u8dec` and `u8enc`, `calloc` is assumed to succeed; the functions of the
  string buffer take the allocator as a parameter.
-/

namespace AkUTF

/-! ## Data model of the bulk decoder -/

/-- The enum `u8_decoder_state`. -/
inductive u8_decoder_state where
  | U8_DECODE_OK
  | U8_DECODE_FINISH
  | U8_DECODE_ERROR
  | U8_DECODE_CONTINUE
  deriving DecidableEq, Repr

/-- The struct behind `u8_decoder_ctx`; `saveptr` is an index into the source
string, `none` being the null pointer. -/
structure u8_decoder_ctx where
  codepoint : Nat
  seen : Nat
  need : Nat
  lower : Nat
  upper : Nat
  state : u8_decoder_state
  saveptr : Option Nat
  deriving DecidableEq, Repr

/-- The function `u8_decode_ctx`: a zeroed context (`calloc`) with the default
continuation range and a null `saveptr`. -/
def u8_decode_ctx : u8_decoder_ctx :=
  { codepoint := 0, seen := 0, need := 0, lower := 0x80, upper := 0xBF,
    state := .U8_DECODE_OK, saveptr := none }

/-- The function `u8_decode_once`: one byte of the source is read through
`saveptr`; the result is the returned value together with the updated
context. -/
def u8_decode_once (ctx : u8_decoder_ctx) (src : List Nat) : Nat × u8_decoder_ctx :=
  -- if (!ctx->saveptr) ctx->saveptr = src;
  let p : Nat := match ctx.saveptr with
    | none => 0
    | some q => q
  -- uint8_t byte = *ctx->saveptr;
  let byte : Nat := src.getD p 0 % 256
  -- if (byte != 0) ctx->saveptr++;
  let ctx : u8_decoder_ctx := { ctx with saveptr := some (if byte ≠ 0 then p + 1 else p) }
  if byte = 0 ∧ ctx.need > 0 then
    (0, { ctx with need := 0, state := .U8_DECODE_ERROR })
  else if byte = 0 then
    (0, { ctx with state := .U8_DECODE_FINISH })
  else if ctx.need = 0 then
    if byte > 0 ∧ byte ≤ 0x7F then
      (byte, { ctx with state := .U8_DECODE_OK })
    else if byte ≥ 0xC2 ∧ byte ≤ 0xDF then
      (0, { ctx with need := 1, codepoint := byte &&& 0x1F, state := .U8_DECODE_CONTINUE })
    else if byte ≥ 0xE0 ∧ byte ≤ 0xEF then
      let ctx : u8_decoder_ctx :=
        if byte = 0xE0 then { ctx with lower := 0xA0 }
        else if byte = 0xED then { ctx with upper := 0x9F }
        else ctx
      (0, { ctx with need := 2, codepoint := byte &&& 0xF, state := .U8_DECODE_CONTINUE })
    else if byte ≥ 0xF0 ∧ byte ≤ 0xF4 then
      let ctx : u8_decoder_ctx :=
        if byte = 0xF0 then { ctx with lower := 0x90 }
        else if byte = 0xF4 then { ctx with upper := 0x8F }
        else ctx
      (0, { ctx with need := 3, codepoint := byte &&& 0x7, state := .U8_DECODE_CONTINUE })
    else
      (0, { ctx with state := .U8_DECODE_ERROR })
  else if byte < ctx.lower ∨ byte > ctx.upper then
    -- the offending byte is handed back: ctx->saveptr--
    (0, { ctx with codepoint := 0, need := 0, seen := 0, lower := 0x80, upper := 0xBF,
                   saveptr := some (p + 1 - 1), state := .U8_DECODE_ERROR })
  else
    let cp : Nat := ((ctx.codepoint <<< 6) % 4294967296) ||| (byte &&& 0x3F)
    let seen : Nat := ctx.seen + 1
    if seen ≠ ctx.need then
      (0, { ctx with lower := 0x80, upper := 0xBF, codepoint := cp, seen := seen,
                     state := .U8_DECODE_CONTINUE })
    else
      (cp, { ctx with lower := 0x80, upper := 0xBF, codepoint := 0, need := 0, seen := 0,
                      state := .U8_DECODE_OK })

/-- The function `strlen`: number of bytes before the first NUL. -/
def strlen (src : List Nat) : Nat :=
  (src.takeWhile (fun b => b % 256 ≠ 0)).length

/-- What a call of `u8dec` can do. `ok dest` is the return of `start`, `dest`
being the whole `dest_len`-element output array; `null` is the return of
`NULL` in reject mode; `out_of_bounds` is a store outside the output array;
`out_of_fuel` is reported when the loop has not returned within the number of
iterations it was given. -/
inductive u8dec_result where
  | ok (dest : List Nat)
  | null
  | out_of_bounds
  | out_of_fuel
  deriving DecidableEq, Repr

/-- The store `*dest = v` at index `i` of the output array. -/
def store (buf : List Nat) (i : Nat) (v : Nat) : Option (List Nat) :=
  if i < buf.length then some (buf.set i v) else none

/-- The `while (1)` loop of `u8dec`, with the number of iterations bounded by
the first argument. `buf` is the output array, `dest` the index `dest - start`. -/
def u8dec_loop (src : List Nat) (replace : Bool) (dest_len : Nat) :
    Nat → u8_decoder_ctx → List Nat → Nat → u8dec_result
  | 0, _, _, _ => .out_of_fuel
  | fuel + 1, dctx, buf, dest =>
    let r := u8_decode_once dctx src
    let rcp := r.1
    let dctx := r.2
    if dctx.state = .U8_DECODE_FINISH then
      match store buf dest 0 with
      | none => .out_of_bounds
      | some buf => .ok buf
    else if rcp > 0 then
      match store buf dest rcp with
      | none => .out_of_bounds
      | some buf =>
        u8dec_loop src replace dest_len fuel dctx buf
          (if dctx.state ≠ .U8_DECODE_CONTINUE ∧ dest < dest_len then dest + 1 else dest)
    else if dctx.state = .U8_DECODE_ERROR then
      if replace then
        match store buf dest 0xFFFD with
        | none => .out_of_bounds
        | some buf =>
          u8dec_loop src replace dest_len fuel dctx buf
            (if dctx.state ≠ .U8_DECODE_CONTINUE ∧ dest < dest_len then dest + 1 else dest)
      else .null
    else
      u8dec_loop src replace dest_len fuel dctx buf
        (if dctx.state ≠ .U8_DECODE_CONTINUE ∧ dest < dest_len then dest + 1 else dest)

/-- The function `u8dec` on a non-null `src`. The output array has
`strlen(src) + 1` zeroed elements. Every iteration of the loop either consumes
a byte or leaves a pending sequence, so `2 * strlen(src) + 2` iterations are
enough for the loop to return (`u8dec_loop_fuel` below). -/
def u8dec (src : List Nat) (replace : Bool) : u8dec_result :=
  let dest_len := strlen src + 1
  u8dec_loop src replace dest_len (2 * strlen src + 2) u8_decode_ctx
    (List.replicate dest_len 0) 0

/-- The codepoints a caller reads from a returned array: the elements before
the first 0. -/
def codepoints (dest : List Nat) : List Nat :=
  dest.takeWhile (fun c => c ≠ 0)

/-! ## The encoder -/

/-- The function `u8_encode_codepoint`: `some bytes` are the bytes stored at
`dest[0 ..]`, their number being the return value; `none` is the return
of `-1`. -/
def u8_encode_codepoint (cp : Nat) : Option (List Nat) :=
  if cp ≤ 0x7F then
    some [cp % 256]
  else if cp ≤ 0x7FF then
    some [(0xC0 ||| (cp >>> 6)) % 256, (0x80 ||| (cp &&& 0x3F)) % 256]
  else if cp ≤ 0xFFFF then
    if cp ≥ 0xD800 ∧ cp ≤ 0xDFFF then none
    else
      some [(0xE0 ||| (cp >>> 12)) % 256, (0x80 ||| ((cp >>> 6) &&& 0x3F)) % 256,
            (0x80 ||| (cp &&& 0x3F)) % 256]
  else if cp ≤ 0x10FFFF then
    some [(0xF0 ||| (cp >>> 18)) % 256, (0x80 ||| ((cp >>> 12) &&& 0x3F)) % 256,
          (0x80 ||| ((cp >>> 6) &&& 0x3F)) % 256, (0x80 ||| (cp &&& 0x3F)) % 256]
  else none

/-- The second loop of `u8enc`: `out` holds the bytes stored so far
(`dest .. dest_ptr`), the list argument is `src + i`. -/
def u8enc_loop : List Nat → List Nat → Option (List Nat)
  | [], out => some out
  | cp :: rest, out =>
    if cp = 0 then some out
    else
      match u8_encode_codepoint cp with
      | none => none
      | some bytes => u8enc_loop rest (out ++ bytes)

/-- The function `u8enc` on a non-null `src`: `some bytes` is the C string
returned (the bytes before the terminator stored at `dest_ptr`), `none` is the
return of `NULL`. -/
def u8enc (src : List Nat) : Option (List Nat) :=
  u8enc_loop src []

/-! ## A byte-list reading of the decoder loop

`scan` follows the loop of `u8dec` over the bytes that are still unread. Its
arguments are the fields `need`, `seen`, `codepoint`, `lower`, `upper` of the
context; its result is the list of values the loop stores from here on
(`none` when the loop returns `NULL`). A byte that breaks a pending sequence
is read again as a lead byte, which is what stepping `saveptr` back does.
`u8dec_loop_eq_scan` below proves that the loop computes `scan`. -/

/-- The error branch of the loop: store U+FFFD and go on, or give up. -/
def onError (replace : Bool) (k : Option (List Nat)) : Option (List Nat) :=
  if replace then k.map (fun o => 0xFFFD :: o) else none

/-- The values stored by the loop of `u8dec` from a context with the given
`need seen codepoint lower upper` when the unread bytes are the list. -/
def scan (replace : Bool) : Nat → Nat → Nat → Nat → Nat → List Nat → Option (List Nat)
  | need, _, _, _, _, [] =>
    if need > 0 then onError replace (some []) else some []
  | need, seen, cp, lo, hi, b :: rest =>
    let fresh : Option (List Nat) :=
      if b ≤ 0x7F then (scan replace 0 0 0 0x80 0xBF rest).map (fun o => b :: o)
      else if 0xC2 ≤ b ∧ b ≤ 0xDF then scan replace 1 0 (b &&& 0x1F) 0x80 0xBF rest
      else if 0xE0 ≤ b ∧ b ≤ 0xEF then
        scan replace 2 0 (b &&& 0xF) (if b = 0xE0 then 0xA0 else 0x80)
          (if b = 0xED then 0x9F else 0xBF) rest
      else if 0xF0 ≤ b ∧ b ≤ 0xF4 then
        scan replace 3 0 (b &&& 0x7) (if b = 0xF0 then 0x90 else 0x80)
          (if b = 0xF4 then 0x8F else 0xBF) rest
      else onError replace (scan replace 0 0 0 0x80 0xBF rest)
    if need = 0 then fresh
    else if b < lo ∨ b > hi then onError replace fresh
    else
      let cp2 := ((cp <<< 6) % 4294967296) ||| (b &&& 0x3F)
      if seen + 1 ≠ need then scan replace need (seen + 1) cp2 0x80 0xBF rest
      else (scan replace 0 0 0 0x80 0xBF rest).map (fun o => cp2 :: o)

/-- The values `u8dec` stores for a whole string, read off the byte list. -/
def decodeBytes (replace : Bool) (s : List Nat) : Option (List Nat) :=
  scan replace 0 0 0 0x80 0xBF s

/-- The result of `u8dec` for stored values `o` in an array of `n` elements. -/
def pad (n : Nat) (out : List Nat) : List Nat :=
  out ++ List.replicate (n - out.length) 0

/-- The result of `u8dec` for stored values `o` in an array of `n` elements. -/
def finish (n : Nat) : Option (List Nat) → u8dec_result
  | none => .null
  | some o => .ok (pad n o)

/-- A NUL-free byte string: every element is a byte other than 0. -/
def NulFree (s : List Nat) : Prop :=
  ∀ b ∈ s, 0 < b ∧ b < 256

instance (s : List Nat) : Decidable (NulFree s) := by
  unfold NulFree; infer_instance

/-! ## The UTF-8 grammar

The grammar of well-formed sequences as the specification states it:
`01-7F | C2-DF 80-BF | E0 A0-BF 80-BF | E1-EC or EE-EF 80-BF 80-BF |
ED 80-9F 80-BF | F0 90-BF 80-BF 80-BF | F1-F3 80-BF 80-BF 80-BF |
F4 80-8F 80-BF 80-BF`. -/

/-- One well-formed UTF-8 sequence. -/
def IsSeq : List Nat → Prop
  | [a] => 0x01 ≤ a ∧ a ≤ 0x7F
  | [a, b] => (0xC2 ≤ a ∧ a ≤ 0xDF) ∧ (0x80 ≤ b ∧ b ≤ 0xBF)
  | [a, b, c] =>
    ((a = 0xE0 ∧ 0xA0 ≤ b ∧ b ≤ 0xBF)
      ∨ (((0xE1 ≤ a ∧ a ≤ 0xEC) ∨ (0xEE ≤ a ∧ a ≤ 0xEF)) ∧ 0x80 ≤ b ∧ b ≤ 0xBF)
      ∨ (a = 0xED ∧ 0x80 ≤ b ∧ b ≤ 0x9F))
    ∧ (0x80 ≤ c ∧ c ≤ 0xBF)
  | [a, b, c, d] =>
    ((a = 0xF0 ∧ 0x90 ≤ b ∧ b ≤ 0xBF)
      ∨ ((0xF1 ≤ a ∧ a ≤ 0xF3) ∧ 0x80 ≤ b ∧ b ≤ 0xBF)
      ∨ (a = 0xF4 ∧ 0x80 ≤ b ∧ b ≤ 0x8F))
    ∧ (0x80 ≤ c ∧ c ≤ 0xBF) ∧ (0x80 ≤ d ∧ d ≤ 0xBF)
  | _ => False

/-- The scalar value a sequence denotes: the payload bits of the lead byte
(7, 5, 4 or 3 of them) followed by 6 bits of each continuation byte. -/
def seqValue : List Nat → Nat
  | [a] => a % 128
  | [a, b] => (a % 32) * 64 + b % 64
  | [a, b, c] => ((a % 16) * 64 + b % 64) * 64 + c % 64
  | [a, b, c, d] => (((a % 8) * 64 + b % 64) * 64 + c % 64) * 64 + d % 64
  | _ => 0

/-- A well-formed string: a concatenation of well-formed sequences. -/
def WellFormed (s : List Nat) : Prop :=
  ∃ qs : List (List Nat), (∀ q ∈ qs, IsSeq q) ∧ s = qs.flatten

/-- A Unicode scalar value other than 0: in `1 .. 0x10FFFF`, not a surrogate. -/
def IsScalar (cp : Nat) : Prop :=
  1 ≤ cp ∧ cp ≤ 0x10FFFF ∧ ¬ (0xD800 ≤ cp ∧ cp ≤ 0xDFFF)

/-- The standard UTF-8 layout of a value, written with arithmetic: the tag of
each byte plus the bits of `cp` it carries, most significant first. -/
def layout (cp : Nat) : List Nat :=
  if cp ≤ 0x7F then [cp]
  else if cp ≤ 0x7FF then [0xC0 + cp / 64, 0x80 + cp % 64]
  else if cp ≤ 0xFFFF then [0xE0 + cp / 4096, 0x80 + cp / 64 % 64, 0x80 + cp % 64]
  else [0xF0 + cp / 262144, 0x80 + cp / 4096 % 64, 0x80 + cp / 64 % 64, 0x80 + cp % 64]

/-! ## The single-codepoint decoder of the iterator -/

/-- What `utf8_decode_sequence` leaves behind: its return value and the
contents of `*codepoint` and `*bytes_consumed`. -/
structure seq_result where
  ret : Int
  codepoint : Nat
  bytes_consumed : Nat
  deriving DecidableEq, Repr

/-- The function `utf8_decode_sequence` of `utf8_iterator.c`. `window` holds the
bytes of `[data, end)`; `cp0` and `n0` are the contents of `*codepoint` and
`*bytes_consumed` before the call (all pointers are non-null). -/
def utf8_decode_sequence (window : List Nat) (cp0 n0 : Nat) : seq_result :=
  -- data >= end
  if window.length = 0 then ⟨-1, cp0, n0⟩
  else
    let first := window.getD 0 0 % 256
    if first ≤ 0x7F then ⟨0, first, 1⟩
    else if first &&& 0xE0 = 0xC0 then
      if 2 > window.length then ⟨-1, 0, 0⟩
      else
        let second := window.getD 1 0 % 256
        if second &&& 0xC0 ≠ 0x80 then ⟨-1, 0, 0⟩
        else ⟨0, (((first &&& 0x1F) <<< 6) ||| (second &&& 0x3F)) % 4294967296, 2⟩
    else if first &&& 0xF0 = 0xE0 then
      if 3 > window.length then ⟨-1, 0, 0⟩
      else
        let second := window.getD 1 0 % 256
        let third := window.getD 2 0 % 256
        if second &&& 0xC0 ≠ 0x80 ∨ third &&& 0xC0 ≠ 0x80 then ⟨-1, 0, 0⟩
        else
          ⟨0, (((first &&& 0x0F) <<< 12) ||| ((second &&& 0x3F) <<< 6)
                ||| (third &&& 0x3F)) % 4294967296, 3⟩
    else if first &&& 0xF8 = 0xF0 then
      if 4 > window.length then ⟨-1, 0, 0⟩
      else
        let second := window.getD 1 0 % 256
        let third := window.getD 2 0 % 256
        let fourth := window.getD 3 0 % 256
        if second &&& 0xC0 ≠ 0x80 ∨ third &&& 0xC0 ≠ 0x80 ∨ fourth &&& 0xC0 ≠ 0x80 then
          ⟨-1, 0, 0⟩
        else
          ⟨0, (((first &&& 0x07) <<< 18) ||| ((second &&& 0x3F) <<< 12)
                ||| ((third &&& 0x3F) <<< 6) ||| (fourth &&& 0x3F)) % 4294967296, 4⟩
    else ⟨-1, 0, 0⟩

/-! ## Ill-formed sequences named by the specification -/

/-- An overlong encoding or an encoded surrogate: `C0` or `C1` followed by a
continuation byte; `E0 80-9F` and one more continuation byte; `F0 80-8F` and
two more continuation bytes; `ED A0-BF` and one more continuation byte. -/
def IsOverlongOrSurrogate : List Nat → Prop
  | [a, b] => (a = 0xC0 ∨ a = 0xC1) ∧ (0x80 ≤ b ∧ b ≤ 0xBF)
  | [a, b, c] =>
    ((a = 0xE0 ∧ 0x80 ≤ b ∧ b ≤ 0x9F) ∨ (a = 0xED ∧ 0xA0 ≤ b ∧ b ≤ 0xBF))
      ∧ (0x80 ≤ c ∧ c ≤ 0xBF)
  | [a, b, c, d] =>
    (a = 0xF0 ∧ 0x80 ≤ b ∧ b ≤ 0x8F) ∧ (0x80 ≤ c ∧ c ≤ 0xBF) ∧ (0x80 ≤ d ∧ d ≤ 0xBF)
  | _ => False

/-! ## The iterator (`utf8_iterator.c`)

The iterator walks memory it does not own. That memory is the list `mem`
handed to every function; the pointers `data`, `current` and `end` of the
struct are indices into it. -/

/-- The function `utf8_decode_sequence` with its pointer arguments: `data` and
`end_` are indices into `mem`, and the bytes are read at `data`, `data + 1`,
`data + 2`, `data + 3` exactly where the C code reads them. -/
def utf8_decode_sequence_at (mem : List Nat) (data end_ : Nat) (cp0 n0 : Nat) : seq_result :=
  if data ≥ end_ then ⟨-1, cp0, n0⟩
  else
    let first := mem.getD data 0 % 256
    if first ≤ 0x7F then ⟨0, first, 1⟩
    else if first &&& 0xE0 = 0xC0 then
      if data + 2 > end_ then ⟨-1, 0, 0⟩
      else
        let second := mem.getD (data + 1) 0 % 256
        if second &&& 0xC0 ≠ 0x80 then ⟨-1, 0, 0⟩
        else ⟨0, (((first &&& 0x1F) <<< 6) ||| (second &&& 0x3F)) % 4294967296, 2⟩
    else if first &&& 0xF0 = 0xE0 then
      if data + 3 > end_ then ⟨-1, 0, 0⟩
      else
        let second := mem.getD (data + 1) 0 % 256
        let third := mem.getD (data + 2) 0 % 256
        if second &&& 0xC0 ≠ 0x80 ∨ third &&& 0xC0 ≠ 0x80 then ⟨-1, 0, 0⟩
        else
          ⟨0, (((first &&& 0x0F) <<< 12) ||| ((second &&& 0x3F) <<< 6)
                ||| (third &&& 0x3F)) % 4294967296, 3⟩
    else if first &&& 0xF8 = 0xF0 then
      if data + 4 > end_ then ⟨-1, 0, 0⟩
      else
        let second := mem.getD (data + 1) 0 % 256
        let third := mem.getD (data + 2) 0 % 256
        let fourth := mem.getD (data + 3) 0 % 256
        if second &&& 0xC0 ≠ 0x80 ∨ third &&& 0xC0 ≠ 0x80 ∨ fourth &&& 0xC0 ≠ 0x80 then
          ⟨-1, 0, 0⟩
        else
          ⟨0, (((first &&& 0x07) <<< 18) ||| ((second &&& 0x3F) <<< 12)
                ||| ((third &&& 0x3F) <<< 6) ||| (fourth &&& 0x3F)) % 4294967296, 4⟩
    else ⟨-1, 0, 0⟩

/-- The bytes of `mem` in `[data, end_)`. -/
def window (mem : List Nat) (data end_ : Nat) : List Nat :=
  (List.range (end_ - data)).map (fun i => mem.getD (data + i) 0)

/-- The loop of `utf8_find_prev_start`. `back` is `current - ptr`; the first
argument bounds the number of iterations, which the test `current - ptr > 4`
keeps at four. -/
def find_prev_loop (mem : List Nat) (current start : Nat) : Nat → Nat → Option Nat
  | 0, _ => none
  | fuel + 1, back =>
    -- while (ptr >= start)
    if current < start + back then none
    else
      let byte := mem.getD (current - back) 0 % 256
      if byte &&& 0xC0 ≠ 0x80 then some (current - back)
      else if back + 1 > 4 then none
      else find_prev_loop mem current start fuel (back + 1)

/-- The function `utf8_find_prev_start`; `none` is the null pointer. -/
def utf8_find_prev_start (mem : List Nat) (current start : Nat) : Option Nat :=
  if current ≤ start then none
  else find_prev_loop mem current start 4 1

/-- The struct `utf8_iterator`. -/
structure utf8_iterator where
  data : Nat
  current : Nat
  end_ : Nat
  codepoint : Nat
  position : Nat
  error : Int
  deriving DecidableEq, Repr

/-- The function `u8i_new` on a non-null string: `data` is index 0 of the
string. -/
def u8i_new (utf8_data : List Nat) : utf8_iterator :=
  { data := 0, current := 0, end_ := 0 + strlen utf8_data, position := 0, error := 0,
    codepoint := 0 }

/-- The function `u8i_new_with_length` on a non-null pointer. -/
def u8i_new_with_length (byte_len : Nat) : utf8_iterator :=
  { data := 0, current := 0, end_ := 0 + byte_len, position := 0, error := 0, codepoint := 0 }

/-- The function `u8i_next`: the return value and the iterator afterwards. The
local `bytes_consumed` is written by `utf8_decode_sequence` before it is read,
because the call is made with `current < end`. -/
def u8i_next (mem : List Nat) (iter : utf8_iterator) : Int × utf8_iterator :=
  if iter.error ≠ 0 then (-1, iter)
  else if iter.current ≥ iter.end_ then (0, iter)
  else
    let r := utf8_decode_sequence_at mem iter.current iter.end_ iter.codepoint 0
    if r.ret ≠ 0 then (-1, { iter with codepoint := r.codepoint, error := 1 })
    else
      (1, { iter with codepoint := r.codepoint, current := iter.current + r.bytes_consumed,
                      position := iter.position + 1 })

/-- The function `u8i_has_next`. -/
def u8i_has_next (iter : utf8_iterator) : Int :=
  if iter.error ≠ 0 then 0
  else if iter.current < iter.end_ then 1 else 0

/-- The function `u8i_prev`. `position--` on a `size_t` that is 0 gives
`SIZE_MAX`. -/
def u8i_prev (mem : List Nat) (iter : utf8_iterator) : Int × utf8_iterator :=
  if iter.error ≠ 0 then (-1, iter)
  else if iter.current ≤ iter.data then (0, iter)
  else
    match utf8_find_prev_start mem iter.current iter.data with
    | none => (-1, { iter with error := 1 })
    | some prev_start =>
      let r := utf8_decode_sequence_at mem prev_start iter.end_ iter.codepoint 0
      if r.ret ≠ 0 then (-1, { iter with codepoint := r.codepoint, error := 1 })
      else
        (1, { iter with codepoint := r.codepoint, current := prev_start,
                        position := if iter.position = 0 then 18446744073709551615
                                    else iter.position - 1 })

/-- The function `u8i_has_prev`. -/
def u8i_has_prev (iter : utf8_iterator) : Int :=
  if iter.error ≠ 0 then 0
  else if iter.current > iter.data then 1 else 0

/-- The function `u8i_codepoint`. -/
def u8i_codepoint (iter : utf8_iterator) : Nat := iter.codepoint

/-- The function `u8i_position`. -/
def u8i_position (iter : utf8_iterator) : Nat := iter.position

/-- The function `u8i_current_ptr`. -/
def u8i_current_ptr (iter : utf8_iterator) : Nat := iter.current

/-- The function `u8i_error`. -/
def u8i_error (iter : utf8_iterator) : Int := iter.error

/-- The function `u8i_reset`. -/
def u8i_reset (mem : List Nat) (iter : utf8_iterator) : Int × utf8_iterator :=
  let iter : utf8_iterator := { iter with current := iter.data, position := 0, error := 0 }
  if iter.current < iter.end_ then
    let r := utf8_decode_sequence_at mem iter.current iter.end_ iter.codepoint 0
    if r.ret ≠ 0 then (-1, { iter with codepoint := r.codepoint, error := 1 })
    else (0, { iter with codepoint := r.codepoint })
  else (0, { iter with codepoint := 0 })

/-- The `for` loop of `u8i_seek`; the first argument is `position - i`. -/
def u8i_seek_loop (mem : List Nat) : Nat → utf8_iterator → Int × utf8_iterator
  | 0, iter => (0, iter)
  | todo + 1, iter =>
    if u8i_has_next iter ≠ 0 then
      let r := u8i_next mem iter
      if r.1 < 0 then (-1, r.2)
      else u8i_seek_loop mem todo r.2
    else (0, iter)

/-- The function `u8i_seek`. -/
def u8i_seek (mem : List Nat) (iter : utf8_iterator) (position : Nat) : Int × utf8_iterator :=
  let r := u8i_reset mem iter
  if r.1 ≠ 0 then (-1, r.2)
  else u8i_seek_loop mem position r.2

/-- The `while` loop of `u8i_remaining` on the copy `temp`, with the number
of iterations bounded by the first argument; `none` when that number did not
suffice. -/
def u8i_remaining_loop (mem : List Nat) : Nat → utf8_iterator → Nat → Option Nat
  | 0, _, _ => none
  | fuel + 1, temp, count =>
    if u8i_has_next temp ≠ 0 then
      let r := u8i_next mem temp
      if r.1 < 0 then some count
      else u8i_remaining_loop mem fuel r.2 (count + 1)
    else some count

/-- The function `u8i_remaining`. Every iteration of its loop moves `current`
forward, so `end - current + 1` iterations are enough. -/
def u8i_remaining (mem : List Nat) (iter : utf8_iterator) : Option Nat :=
  if iter.error ≠ 0 then some 0
  else u8i_remaining_loop mem (iter.end_ - iter.current + 1) iter 0

/-- The forward loop of `u8i_at`: `none` when a call of `u8i_next` fails. -/
def u8i_at_forward (mem : List Nat) : Nat → utf8_iterator → Option utf8_iterator
  | 0, temp => some temp
  | todo + 1, temp =>
    let r := u8i_next mem temp
    if r.1 < 0 then none else u8i_at_forward mem todo r.2

/-- The backward loop of `u8i_at`: `none` when a call of `u8i_prev` fails. -/
def u8i_at_backward (mem : List Nat) : Nat → utf8_iterator → Option utf8_iterator
  | 0, temp => some temp
  | todo + 1, temp =>
    let r := u8i_prev mem temp
    if r.1 < 0 then none else u8i_at_backward mem todo r.2

/-- The function `u8i_at`; `offset` is the `int` argument. -/
def u8i_at (mem : List Nat) (iter : utf8_iterator) (offset : Int) (is_byte_offset : Bool) :
    Nat :=
  if iter.error ≠ 0 then 0
  else if is_byte_offset then
    let target_ptr : Int := (iter.current : Int) + offset
    if target_ptr < iter.data ∨ target_ptr ≥ iter.end_ then 0
    else
      let r := utf8_decode_sequence_at mem target_ptr.toNat iter.end_ 0 0
      if r.ret ≠ 0 then 0 else r.codepoint
  else
    let moved : Option utf8_iterator :=
      if offset > 0 then u8i_at_forward mem offset.toNat iter
      else if offset < 0 then u8i_at_backward mem (-offset).toNat iter
      else some iter
    match moved with
    | none => 0
    | some temp => if temp.error ≠ 0 then 0 else temp.codepoint

/-! ## Validation and length (`utf8_utils.c`) -/

/-- The `while` loop of `u8_valid`, with the number of iterations bounded by
the first argument; `some 0` is `return 0` inside the loop, `some 1` the
value of `!u8i_error(&iter)` behind it with the flag clear. -/
def u8_valid_loop (mem : List Nat) : Nat → utf8_iterator → Option Int
  | 0, _ => none
  | fuel + 1, iter =>
    if u8i_has_next iter ≠ 0 then
      let r := u8i_next mem iter
      if r.1 < 0 then some 0
      else u8_valid_loop mem fuel r.2
    else some (if u8i_error iter ≠ 0 then 0 else 1)

/-- The function `u8_valid` on a non-null pointer. Every iteration of the loop
moves `current` forward, so `len + 1` iterations are enough. -/
def u8_valid (data : List Nat) (len : Nat) : Option Int :=
  if len = 0 then some 1
  else
    let iter := u8i_new_with_length len
    if u8i_error iter ≠ 0 then some 0
    else u8_valid_loop data (len + 1) iter

/-- The function `u8_valid_cstr` on a non-null string. -/
def u8_valid_cstr (str : List Nat) : Option Int :=
  u8_valid str (strlen str)

/-- The `while` loop of `u8_len`. -/
def u8_len_loop (mem : List Nat) : Nat → utf8_iterator → Nat → Option Nat
  | 0, _, _ => none
  | fuel + 1, iter, count =>
    if u8i_has_next iter ≠ 0 then
      let r := u8i_next mem iter
      if r.1 < 0 then some 0
      else u8_len_loop mem fuel r.2 (count + 1)
    else some count

/-- The function `u8_len` on a non-null pointer. -/
def u8_len (data : List Nat) (byte_len : Nat) : Option Nat :=
  if byte_len = 0 then some 0
  else
    let iter := u8i_new_with_length byte_len
    if u8i_error iter ≠ 0 then some 0
    else u8_len_loop data (byte_len + 1) iter 0

/-- The function `u8_len_cstr` on a non-null string. -/
def u8_len_cstr (str : List Nat) : Option Nat :=
  u8_len str (strlen str)

/-- The results of `n` successive calls of an iterator function, each with the
iterator the previous call left. -/
def calls (f : utf8_iterator → Int × utf8_iterator) :
    Nat → utf8_iterator → List (Int × utf8_iterator)
  | 0, _ => []
  | n + 1, iter => f iter :: calls f n (f iter).2

/-- The iterator after a list of calls that started from `iter`. -/
def lastIter (iter : utf8_iterator) (results : List (Int × utf8_iterator)) : utf8_iterator :=
  match results.getLast? with
  | none => iter
  | some r => r.2

/-- The byte offset at which sequence number `i` of the concatenation of `qs`
starts. -/
def boundary (qs : List (List Nat)) (i : Nat) : Nat :=
  ((qs.take i).flatten).length

/-- The iterator over the string `s` that stands behind `i` sequences of `qs`
and holds the codepoint `c`. -/
def iterAt (s : List Nat) (qs : List (List Nat)) (i c : Nat) : utf8_iterator :=
  { data := 0, current := boundary qs i, end_ := s.length, codepoint := c, position := i,
    error := 0 }

/-! ## The string buffer (`utf8_string.c`)

Conventions for this part.

* A call that does not return a value, because a loop of the C code never
  ends or because the call reads or writes outside an allocated block, is
  `none` of the outer `Option`; the result of a call that returns is `some`.
* `size_t` sums of lengths of objects held in memory are taken in `Nat`;
  the doubling of a capacity is taken modulo `2 ^ 64`, as the C code does it.
* The allocator is a parameter: `ok` says whether the allocation requests of
  the call succeed, `junk` is the value found in bytes of a fresh block. -/

/-- The allocator as seen by one call. -/
structure allocator where
  ok : Bool
  junk : Nat
  deriving DecidableEq, Repr

/-- The struct `utf8_string`; `data` is the allocated block, `none` the null
pointer. -/
structure utf8_string where
  data : Option (List Nat)
  byte_len : Nat
  codepoint_len : Nat
  capacity : Nat
  deriving DecidableEq, Repr

/-- The macro `UTF8_STRING_MIN_CAPACITY`. -/
def UTF8_STRING_MIN_CAPACITY : Nat := 16

/-- The bytes `memcpy` reads from `src[0 .. n)`. -/
def bytes_of (src : List Nat) (n : Nat) : List Nat :=
  (List.range n).map (fun i => src.getD i 0 % 256)

/-- A store of `bytes` at `block[off ..]`; `none` when it leaves the block. -/
def mem_write (block : List Nat) (off : Nat) (bytes : List Nat) : Option (List Nat) :=
  if off + bytes.length ≤ block.length then
    some (block.take off ++ bytes ++ block.drop (off + bytes.length))
  else none

/-- A load of `n` bytes from `block[off ..]`; `none` when it leaves the block. -/
def mem_read (block : List Nat) (off n : Nat) : Option (List Nat) :=
  if off + n ≤ block.length then some ((block.drop off).take n) else none

/-- The call `realloc(data, n)` when it succeeds: the old bytes that fit,
followed by fresh bytes. `realloc(NULL, n)` is `malloc(n)`. -/
def realloc (data : Option (List Nat)) (n junk : Nat) : List Nat :=
  match data with
  | none => List.replicate n junk
  | some block => (block ++ List.replicate (n - block.length) junk).take n

/-- The call `strlen` on a block: the index of its first NUL byte, `none`
when the block holds none. -/
def block_strlen (block : List Nat) : Option Nat :=
  if 0 ∈ block.map (fun b => b % 256) then some (strlen block) else none

/-- The function `u8_seqlen` of `utf8_decode.h`. -/
def u8_seqlen (first_byte : Nat) : Int :=
  if first_byte ≤ 0x7F then 1
  else
    ([1, 1, 1, 1, 1, 1, 1, 1, 1, 1, 1, 1, 1, 1, 1, 1,
      0, 0, 0, 0, 0, 0, 0, 0,
      2, 2, 2, 2,
      3, 3,
      4,
      0] : List Int).getD (first_byte >>> 3) 0

/-- The loop of `utf8_string_count_codepoints`, with the number of iterations
bounded by the first argument. -/
def count_loop (data : List Nat) (end_ : Nat) : Nat → Nat → Nat → Option Nat
  | 0, _, _ => none
  | fuel + 1, ptr, count =>
    if ptr < end_ then
      let seqlen := u8_seqlen (data.getD ptr 0 % 256)
      if seqlen ≤ 0 ∨ (ptr : Int) + seqlen > end_ then some count
      else count_loop data end_ fuel (ptr + seqlen.toNat) (count + 1)
    else some count

/-- The function `utf8_string_count_codepoints`. Every iteration moves `ptr`
forward, so `byte_len + 1` iterations are enough. -/
def utf8_string_count_codepoints (data : List Nat) (byte_len : Nat) : Option Nat :=
  if byte_len = 0 then some 0
  else count_loop data byte_len (byte_len + 1) 0 0

/-- The loop `while (new_capacity < needed_capacity) new_capacity *= 2;` on
`size_t`. After 64 doublings the value is 0 and stays 0, so a loop that has
not ended within 65 tests never ends. -/
def grow_loop : Nat → Nat → Nat → Option Nat
  | 0, _, _ => none
  | fuel + 1, new_capacity, needed_capacity =>
    if new_capacity < needed_capacity then
      grow_loop fuel (new_capacity * 2 % 18446744073709551616) needed_capacity
    else some new_capacity

/-- The function `utf8_string_ensure_capacity`. -/
def utf8_string_ensure_capacity (a : allocator) (str : utf8_string) (needed_capacity : Nat) :
    Option (Int × utf8_string) :=
  if str.capacity ≥ needed_capacity then some (0, str)
  else
    let new_capacity := if str.capacity = 0 then UTF8_STRING_MIN_CAPACITY else str.capacity
    match grow_loop 65 new_capacity needed_capacity with
    | none => none
    | some new_capacity =>
      if ¬ a.ok then some (-1, str)
      else
        some (0, { str with data := some (realloc str.data new_capacity a.junk),
                            capacity := new_capacity })

/-- The function `u8s_new_with_capacity`; `none` is the null pointer. -/
def u8s_new_with_capacity (a : allocator) (capacity : Nat) : Option utf8_string :=
  if ¬ a.ok then none
  else
    let capacity := if capacity < UTF8_STRING_MIN_CAPACITY then UTF8_STRING_MIN_CAPACITY
                    else capacity
    some { data := some ((List.replicate capacity a.junk).set 0 0), byte_len := 0,
           codepoint_len := 0, capacity := capacity }

/-- The function `u8s_new` on a non-null string. -/
def u8s_new (a : allocator) (utf8_data : List Nat) : Option (Option utf8_string) :=
  let byte_len := strlen utf8_data
  match u8s_new_with_capacity a (byte_len + 1) with
  | none => some none
  | some str =>
    match str.data with
    | none => none
    | some block => do
      let block ← mem_write block 0 (bytes_of utf8_data byte_len)
      let block ← mem_write block byte_len [0]
      let count ← utf8_string_count_codepoints block byte_len
      some (some { str with data := some block, byte_len := byte_len,
                            codepoint_len := count })

/-- The function `u8s_cat_cstr` on non-null arguments. -/
def u8s_cat_cstr (a : allocator) (dest : utf8_string) (src : List Nat) :
    Option (Int × utf8_string) :=
  let src_len := strlen src
  if src_len = 0 then some (0, dest)
  else
    let needed_capacity := dest.byte_len + src_len + 1
    match utf8_string_ensure_capacity a dest needed_capacity with
    | none => none
    | some (ret, dest) =>
      if ret ≠ 0 then some (-1, dest)
      else
        match dest.data with
        | none => none
        | some block => do
          let block ← mem_write block dest.byte_len (bytes_of src src_len)
          let byte_len := dest.byte_len + src_len
          let block ← mem_write block byte_len [0]
          let count ← utf8_string_count_codepoints src src_len
          some (0, { dest with data := some block, byte_len := byte_len,
                               codepoint_len := dest.codepoint_len + count })

/-- The function `u8s_cat` on two distinct non-null buffers: the block of `src`
is read as a C string. -/
def u8s_cat (a : allocator) (dest src : utf8_string) : Option (Int × utf8_string) :=
  match src.data with
  | none => some (-1, dest)
  | some src_block =>
    match block_strlen src_block with
    | none => none
    | some n => u8s_cat_cstr a dest (src_block.take n)

/-- The function `u8s_cat_cp`. -/
def u8s_cat_cp (a : allocator) (dest : utf8_string) (codepoint : Nat) :
    Option (Int × utf8_string) :=
  if ¬ a.ok then some (-1, dest)
  else
    match u8enc [codepoint, 0] with
    | none => some (-1, dest)
    | some encoded => u8s_cat_cstr a dest encoded

/-- The function `u8s_reserve`. -/
def u8s_reserve (a : allocator) (str : utf8_string) (new_capacity : Nat) :
    Option (Int × utf8_string) :=
  if new_capacity ≤ str.capacity then some (0, str)
  else utf8_string_ensure_capacity a str new_capacity

/-- The function `u8s_clear` on a non-null buffer. -/
def u8s_clear (str : utf8_string) : Option utf8_string :=
  match str.data with
  | none => none
  | some block => do
    let block ← mem_write block 0 [0]
    some { str with data := some block, byte_len := 0, codepoint_len := 0 }

/-- The decoding of one codepoint at `ptr` that both branches of `u8s_at`
contain; `end_` is `data + byte_len`. -/
def u8s_at_decode (data : List Nat) (ptr end_ : Nat) : Nat :=
  let first := data.getD ptr 0 % 256
  let at_ (i : Nat) : Nat := data.getD (ptr + i) 0 % 256
  let r : Option (Nat × Nat) :=
    if first &&& 0x80 = 0 then some (first, 1)
    else if first &&& 0xE0 = 0xC0 then
      if ptr + 1 ≥ end_ then none
      else some ((((first &&& 0x1F) <<< 6) ||| (at_ 1 &&& 0x3F)) % 4294967296, 2)
    else if first &&& 0xF0 = 0xE0 then
      if ptr + 2 ≥ end_ then none
      else
        some ((((first &&& 0x0F) <<< 12) ||| ((at_ 1 &&& 0x3F) <<< 6)
          ||| (at_ 2 &&& 0x3F)) % 4294967296, 3)
    else if first &&& 0xF8 = 0xF0 then
      if ptr + 3 ≥ end_ then none
      else
        some ((((first &&& 0x07) <<< 18) ||| ((at_ 1 &&& 0x3F) <<< 12)
          ||| ((at_ 2 &&& 0x3F) <<< 6) ||| (at_ 3 &&& 0x3F)) % 4294967296, 4)
    else none
  match r with
  | none => 0
  | some (codepoint, seq_len) =>
    -- for (int i = 1; i < seq_len; i++) the continuation bytes are validated
    if (List.range (seq_len - 1)).all (fun i => at_ (i + 1) &&& 0xC0 = 0x80) then codepoint
    else 0

/-- The loop at the head of the codepoint branch of `u8s_at` and of
`codepoint_to_byte_offset`: skip `todo` sequences by their lead bytes.
`none` when a byte is no lead byte. -/
def skip_loop (data : List Nat) (end_ : Nat) : Nat → Nat → Option Nat
  | 0, ptr => some ptr
  | todo + 1, ptr =>
    if ptr < end_ then
      let b := data.getD ptr 0 % 256
      if b &&& 0x80 = 0 then skip_loop data end_ todo (ptr + 1)
      else if b &&& 0xE0 = 0xC0 then skip_loop data end_ todo (ptr + 2)
      else if b &&& 0xF0 = 0xE0 then skip_loop data end_ todo (ptr + 3)
      else if b &&& 0xF8 = 0xF0 then skip_loop data end_ todo (ptr + 4)
      else none
    else some ptr

/-- The function `u8s_at` on a non-null buffer. -/
def u8s_at (str : utf8_string) (offset : Nat) (is_byte_offset : Bool) : Nat :=
  match str.data with
  | none => 0
  | some data =>
    if is_byte_offset then
      if offset ≥ str.byte_len then 0
      else if offset ≥ str.byte_len then 0
      else u8s_at_decode data offset str.byte_len
    else
      if offset ≥ str.codepoint_len then 0
      else
        match skip_loop data str.byte_len offset 0 with
        | none => 0
        | some ptr =>
          if ptr ≥ str.byte_len then 0
          else u8s_at_decode data ptr str.byte_len

/-- The function `codepoint_to_byte_offset`; `none` is `SIZE_MAX`. -/
def codepoint_to_byte_offset (str : utf8_string) (cp_offset : Nat) : Option Nat :=
  match str.data with
  | none => none
  | some data =>
    if cp_offset ≥ str.codepoint_len then none
    else skip_loop data str.byte_len cp_offset 0

/-- The function `encode_codepoint` of `utf8_string.c`: the bytes stored in
`buffer`, their number being `*bytes_written`; `none` is the return of -1. -/
def encode_codepoint (codepoint : Nat) : Option (List Nat) :=
  if codepoint ≤ 0x7F then some [codepoint % 256]
  else if codepoint ≤ 0x7FF then
    some [(0xC0 ||| (codepoint >>> 6)) % 256, (0x80 ||| (codepoint &&& 0x3F)) % 256]
  else if codepoint ≤ 0xFFFF then
    some [(0xE0 ||| (codepoint >>> 12)) % 256, (0x80 ||| ((codepoint >>> 6) &&& 0x3F)) % 256,
          (0x80 ||| (codepoint &&& 0x3F)) % 256]
  else if codepoint ≤ 0x10FFFF then
    some [(0xF0 ||| (codepoint >>> 18)) % 256, (0x80 ||| ((codepoint >>> 12) &&& 0x3F)) % 256,
          (0x80 ||| ((codepoint >>> 6) &&& 0x3F)) % 256, (0x80 ||| (codepoint &&& 0x3F)) % 256]
  else none

/-- The loop `while (new_capacity <= byte_len + n) new_capacity *= 2;` of the
insert functions, on `size_t`. -/
def grow_loop_le : Nat → Nat → Nat → Option Nat
  | 0, _, _ => none
  | fuel + 1, new_capacity, used =>
    if new_capacity ≤ used then
      grow_loop_le fuel (new_capacity * 2 % 18446744073709551616) used
    else some new_capacity

/-- The translation of an insert offset to a byte offset, shared by the three
insert functions; `none` is the return of -1. -/
def insert_byte_offset (str : utf8_string) (offset : Nat) (is_byte_offset : Bool) :
    Option Nat :=
  if is_byte_offset then
    if offset > str.byte_len then none else some offset
  else
    if offset > str.codepoint_len then none
    else if offset = str.codepoint_len then some str.byte_len
    else codepoint_to_byte_offset str offset

/-- The tail shared by the three insert functions: make room for `n = |bytes|`
bytes, move the bytes behind `byte_offset`, store `bytes`, update the lengths
and the terminator. `cps` is what is added to `codepoint_len`. -/
def insert_bytes (a : allocator) (str : utf8_string) (byte_offset : Nat) (bytes : List Nat)
    (cps : Nat) : Option (Int × utf8_string) :=
  let n := bytes.length
  let grown : Option (Int × utf8_string) :=
    if str.byte_len + n ≥ str.capacity then
      let new_capacity :=
        if str.capacity = 0 then 16 else str.capacity * 2 % 18446744073709551616
      match grow_loop_le 65 new_capacity (str.byte_len + n) with
      | none => none
      | some new_capacity => u8s_reserve a str new_capacity
    else some (0, str)
  match grown with
  | none => none
  | some (ret, str) =>
    if ret < 0 then some (-1, str)
    else
      match str.data with
      | none => none
      | some block => do
        let block ←
          if byte_offset < str.byte_len then do
            let tail ← mem_read block byte_offset (str.byte_len - byte_offset)
            mem_write block (byte_offset + n) tail
          else some block
        let block ← mem_write block byte_offset bytes
        let byte_len := str.byte_len + n
        let block ← mem_write block byte_len [0]
        some (0, { str with data := some block, byte_len := byte_len,
                            codepoint_len := str.codepoint_len + cps })

/-- The function `u8s_insert_cp` on a non-null buffer. -/
def u8s_insert_cp (a : allocator) (str : utf8_string) (offset codepoint : Nat)
    (is_byte_offset : Bool) : Option (Int × utf8_string) :=
  match str.data with
  | none => some (-1, str)
  | some _ =>
    match insert_byte_offset str offset is_byte_offset with
    | none => some (-1, str)
    | some byte_offset =>
      match encode_codepoint codepoint with
      | none => some (-1, str)
      | some encoded => insert_bytes a str byte_offset encoded 1

/-- The function `u8s_insert_str` on non-null arguments. -/
def u8s_insert_str (a : allocator) (str : utf8_string) (offset : Nat) (src : List Nat)
    (is_byte_offset : Bool) : Option (Int × utf8_string) :=
  match str.data with
  | none => some (-1, str)
  | some _ =>
    let src_byte_len := strlen src
    if src_byte_len = 0 then some (0, str)
    else
      match u8_len src src_byte_len with
      | none => none
      | some src_cp_len =>
        if src_cp_len = 0 then some (-1, str)
        else
          match insert_byte_offset str offset is_byte_offset with
          | none => some (-1, str)
          | some byte_offset =>
            insert_bytes a str byte_offset (bytes_of src src_byte_len) src_cp_len

/-- The function `u8s_insert_u8s` on two distinct non-null buffers. -/
def u8s_insert_u8s (a : allocator) (str : utf8_string) (offset : Nat) (src : utf8_string)
    (is_byte_offset : Bool) : Option (Int × utf8_string) :=
  match str.data, src.data with
  | some _, some src_block =>
    if src.byte_len = 0 then some (0, str)
    else
      match insert_byte_offset str offset is_byte_offset with
      | none => some (-1, str)
      | some byte_offset =>
        match mem_read src_block 0 src.byte_len with
        | none => none
        | some bytes => insert_bytes a str byte_offset bytes src.codepoint_len
  | _, _ => some (-1, str)

/-- The invariant of a buffer: the block has `capacity` bytes, `byte_len` is
inside it and the byte there is the terminator. -/
def Terminated (str : utf8_string) : Prop :=
  ∃ block, str.data = some block ∧ block.length = str.capacity ∧
    str.byte_len < str.capacity ∧ block[str.byte_len]? = some 0

/-- The bytes of `mem` from `p` on are those of the sequence `q`. -/
def HoldsAt (mem : List Nat) (p : Nat) (q : List Nat) : Prop :=
  ∀ j < q.length, mem.getD (p + j) 0 = q.getD j 0

/-! ## The string buffer: move, substrings and well-formed contents -/

/-- The function `u8s_move` on two distinct non-null buffers: the structs
`*dest` and `*src` after the call. The old block of `dest` is freed. -/
def u8s_move (_dest src : utf8_string) : utf8_string × utf8_string :=
  ({ data := src.data, byte_len := src.byte_len, codepoint_len := src.codepoint_len,
     capacity := src.capacity },
   { data := none, byte_len := 0, codepoint_len := 0, capacity := 0 })

/-- The function `u8s_substr` on a non-null buffer. The block is handed to
`u8dec` as a C string: the bytes before its first NUL. `start + len` is a
sum of two `size_t` arguments and is taken modulo `2 ^ 64`. The copy into
`subset` is rendered by the load of its `len` source elements from the array
`u8dec` returned; a load that leaves that array is a call that does not
return. -/
def u8s_substr (a : allocator) (str : utf8_string) (start len : Nat) :
    Option (Option utf8_string) :=
  if start ≥ str.codepoint_len then some none
  else if len = 0 then u8s_new a []
  else
    match str.data with
    | none => some none
    | some block =>
      match block_strlen block with
      | none => none
      | some n =>
        if ¬ a.ok then some none
        else
          match u8dec (block.take n) false with
          | .null => some none
          | .out_of_bounds => none
          | .out_of_fuel => none
          | .ok codepoints =>
            let len :=
              if (start + len) % 18446744073709551616 > str.codepoint_len then
                str.codepoint_len - start
              else len
            match mem_read codepoints start len with
            | none => none
            | some subset =>
              match u8enc (subset ++ [0]) with
              | none => some none
              | some encoded => u8s_new a encoded

/-- The function `u8s_substr_bytes` on a non-null buffer. -/
def u8s_substr_bytes (a : allocator) (str : utf8_string) (start_byte len_bytes : Nat) :
    Option (Option utf8_string) :=
  if start_byte ≥ str.byte_len then some none
  else if len_bytes = 0 then u8s_new a []
  else
    let len_bytes :=
      if (start_byte + len_bytes) % 18446744073709551616 > str.byte_len then
        str.byte_len - start_byte
      else len_bytes
    if ¬ a.ok then some none
    else
      match str.data with
      | none => none
      | some block =>
        match mem_read block start_byte len_bytes with
        | none => none
        | some temp => u8s_new a (temp ++ [0])

/-- The function `u8_cp_bytelen` of `utf8_utils.c`. -/
def u8_cp_bytelen (codepoint : Nat) : Nat :=
  if codepoint ≤ 0x7F then 1
  else if codepoint ≤ 0x7FF then 2
  else if codepoint ≤ 0xFFFF then 3
  else if codepoint ≤ 0x10FFFF then 4
  else 0

/-- The bytes a buffer holds: `data[0 .. byte_len)`. -/
def contents (str : utf8_string) : List Nat :=
  match str.data with
  | none => []
  | some block => block.take str.byte_len

/-- The buffers made from well-formed material: `u8s_new` of a well-formed
string, then any sequence of calls that return, whatever they return, of the
appending functions with well-formed strings and such buffers, of the
inserting functions with scalar values, well-formed strings and such buffers
at a codepoint offset or at a byte offset that splits the contents into two
well-formed strings, of `u8s_substr`, and of `u8s_substr_bytes` on a byte
range that is a well-formed string, the two sums `start + len` staying inside
`size_t`. -/
inductive WfReachable : utf8_string → Prop
  | new (a : allocator) (s : List Nat) (str : utf8_string) :
      WellFormed s → u8s_new a s = some (some str) → WfReachable str
  | cat (a : allocator) (dest src : utf8_string) (r : Int × utf8_string) :
      WfReachable dest → WfReachable src → u8s_cat a dest src = some r → WfReachable r.2
  | cat_cstr (a : allocator) (dest : utf8_string) (src : List Nat) (r : Int × utf8_string) :
      WfReachable dest → WellFormed src → u8s_cat_cstr a dest src = some r →
      WfReachable r.2
  | cat_cp (a : allocator) (dest : utf8_string) (codepoint : Nat) (r : Int × utf8_string) :
      WfReachable dest → u8s_cat_cp a dest codepoint = some r → WfReachable r.2
  | insert_cp (a : allocator) (str : utf8_string) (offset codepoint : Nat)
      (is_byte_offset : Bool) (r : Int × utf8_string) :
      WfReachable str → IsScalar codepoint →
      (is_byte_offset = true →
        WellFormed ((contents str).take offset) ∧ WellFormed ((contents str).drop offset)) →
      u8s_insert_cp a str offset codepoint is_byte_offset = some r → WfReachable r.2
  | insert_str (a : allocator) (str : utf8_string) (offset : Nat) (src : List Nat)
      (is_byte_offset : Bool) (r : Int × utf8_string) :
      WfReachable str → WellFormed src →
      (is_byte_offset = true →
        WellFormed ((contents str).take offset) ∧ WellFormed ((contents str).drop offset)) →
      u8s_insert_str a str offset src is_byte_offset = some r → WfReachable r.2
  | insert_u8s (a : allocator) (str : utf8_string) (offset : Nat) (src : utf8_string)
      (is_byte_offset : Bool) (r : Int × utf8_string) :
      WfReachable str → WfReachable src →
      (is_byte_offset = true →
        WellFormed ((contents str).take offset) ∧ WellFormed ((contents str).drop offset)) →
      u8s_insert_u8s a str offset src is_byte_offset = some r → WfReachable r.2
  | substr (a : allocator) (str : utf8_string) (start len : Nat) (r : utf8_string) :
      WfReachable str → start + len < 18446744073709551616 →
      u8s_substr a str start len = some (some r) → WfReachable r
  | substr_bytes (a : allocator) (str : utf8_string) (start_byte len_bytes : Nat)
      (r : utf8_string) :
      WfReachable str → start_byte + len_bytes < 18446744073709551616 →
      WellFormed (((contents str).drop start_byte).take len_bytes) →
      u8s_substr_bytes a str start_byte len_bytes = some (some r) → WfReachable r

/-- The recount `u8_len(str->data, str->byte_len)`; `u8_len` returns 0 for a
null pointer. -/
def recount (str : utf8_string) : Option Nat :=
  match str.data with
  | none => some 0
  | some block => u8_len block str.byte_len

/-- A buffer in good order with well-formed contents whose `codepoint_len` is
the recount `u8_len(data, byte_len)`. -/
def Counted (str : utf8_string) : Prop :=
  Terminated str ∧ WellFormed (contents str) ∧
    ∃ block, str.data = some block ∧ u8_len block str.byte_len = some str.codepoint_len

/-- A buffer in good order whose contents are the sequences `qs` and whose
`codepoint_len` is their number. -/
def Parsed (str : utf8_string) (qs : List (List Nat)) : Prop :=
  (∀ q ∈ qs, IsSeq q) ∧ Terminated str ∧ contents str = qs.flatten ∧
    str.codepoint_len = qs.length

/-- The capacity step the three insert functions start with, for `n` bytes
to insert: the result of `u8s_reserve`, or `(0, str)` when there is room. -/
def insert_grow (a : allocator) (str : utf8_string) (n : Nat) : Option (Int × utf8_string) :=
  if str.byte_len + n ≥ str.capacity then
    let new_capacity :=
      if str.capacity = 0 then 16 else str.capacity * 2 % 18446744073709551616
    match grow_loop_le 65 new_capacity (str.byte_len + n) with
    | none => none
    | some new_capacity => u8s_reserve a str new_capacity
  else some (0, str)

/-! ## Search, case conversion and single codepoints (`utf8_utils.c`)

The functions below return `const char *` or `char *`. A returned pointer into
an argument is the index it points at; a returned fresh C string is the list
of its bytes before the terminator; `some none` is the return of `NULL`, and
the outer `none` a call that does not return in good order (a loop that has
not ended within its bound, a load or store outside an array). `malloc` and
`calloc` are assumed to succeed here, as in `u8dec` and `u8enc`. -/

/-- The `do ... while` loop of `u8_chr_n`, with the number of passes bounded
by the first argument: the stored codepoint is compared first, then the
iterator is moved. -/
def u8_chr_loop (mem : List Nat) (cp : Nat) : Nat → utf8_iterator → Option (Option Nat)
  | 0, _ => none
  | fuel + 1, iter =>
    if u8i_codepoint iter = cp then some (some (u8i_current_ptr iter))
    else if u8i_has_next iter ≠ 0 then
      let r := u8i_next mem iter
      if r.1 ≥ 0 then u8_chr_loop mem cp fuel r.2 else some none
    else some none

/-- The function `u8_chr_n` on a non-null pointer. Every pass but the last
moves `current` forward, so `len + 2` passes are enough. -/
def u8_chr_n (str : List Nat) (len cp : Nat) : Option (Option Nat) :=
  let iter := u8i_new_with_length len
  if u8i_error iter ≠ 0 then some none
  else u8_chr_loop str cp (len + 2) iter

/-- The function `u8_chr` on a non-null string. -/
def u8_chr (str : List Nat) (cp : Nat) : Option (Option Nat) :=
  u8_chr_n str (strlen str) cp

/-- The function `memcmp` of the C library on the first `n` bytes of two
arrays: 0 when they agree, else the difference of the first two bytes that
differ. -/
def memcmp (s1 s2 : List Nat) : Nat → Int
  | 0 => 0
  | n + 1 =>
    let a := s1.getD 0 0 % 256
    let b := s2.getD 0 0 % 256
    if a ≠ b then (a : Int) - (b : Int) else memcmp s1.tail s2.tail n

/-- The `for` loop of `u8_str_n`, with the number of iterations bounded by the
first argument. -/
def u8_str_loop (haystack needle : List Nat) (haystack_len needle_len : Nat) :
    Nat → Nat → Option (Option Nat)
  | 0, _ => none
  | fuel + 1, i =>
    if i ≤ haystack_len - needle_len then
      if memcmp (haystack.drop i) needle needle_len = 0 then some (some i)
      else u8_str_loop haystack needle haystack_len needle_len fuel (i + 1)
    else some none

/-- The function `u8_str_n` on non-null pointers. The subtraction
`haystack_len - needle_len` is made behind the test `needle_len > haystack_len`
and so does not wrap; the loop makes at most `haystack_len - needle_len + 1`
iterations. -/
def u8_str_n (haystack : List Nat) (haystack_len : Nat) (needle : List Nat) :
    Option (Option Nat) :=
  let needle_len := strlen needle
  if needle_len = 0 then some (some 0)
  else if needle_len > haystack_len then some none
  else u8_str_loop haystack needle haystack_len needle_len (haystack_len - needle_len + 2) 0

/-- The function `u8_str` on non-null strings. -/
def u8_str (haystack needle : List Nat) : Option (Option Nat) :=
  u8_str_n haystack (strlen haystack) needle

/-- The function `utf8_simple_to_upper`; the result of `cp - 'a' + 'A'` is at
most `'Z'`, so the arithmetic stays inside `uint32_t`. -/
def utf8_simple_to_upper (cp : Nat) : Nat :=
  if cp ≥ 97 ∧ cp ≤ 122 then cp - 97 + 65 else cp

/-- The function `utf8_simple_to_lower`. -/
def utf8_simple_to_lower (cp : Nat) : Nat :=
  if cp ≥ 65 ∧ cp ≤ 90 then cp - 65 + 97 else cp

/-- The function `utf8_transform_case` on non-null arguments. `len` is read
by the test `len == 0` and nowhere else: the string handed to `u8dec` is
`str` up to its terminator. -/
def utf8_transform_case (str : List Nat) (len : Nat) (transform_func : Nat → Nat) :
    Option (Option (List Nat)) :=
  if len = 0 then some (some [])
  else
    match u8dec str false with
    | .null => some none
    | .out_of_bounds => none
    | .out_of_fuel => none
    | .ok codepoints =>
      -- while (codepoints[cp_count] != 0) cp_count++;
      let cp_count := (codepoints.takeWhile (fun c => c ≠ 0)).length
      if cp_count ≥ codepoints.length then none
      else
        let codepoints :=
          (codepoints.take cp_count).map transform_func ++ codepoints.drop cp_count
        some (u8enc codepoints)

/-- The function `u8_upper` on a non-null string. -/
def u8_upper (str : List Nat) : Option (Option (List Nat)) :=
  utf8_transform_case str (strlen str) utf8_simple_to_upper

/-- The function `u8_lower` on a non-null string. -/
def u8_lower (str : List Nat) : Option (Option (List Nat)) :=
  utf8_transform_case str (strlen str) utf8_simple_to_lower

/-- The function `u8_upper_n` on a non-null string. -/
def u8_upper_n (str : List Nat) (len : Nat) : Option (Option (List Nat)) :=
  utf8_transform_case str len utf8_simple_to_upper

/-- The function `u8_lower_n` on a non-null string. -/
def u8_lower_n (str : List Nat) (len : Nat) : Option (Option (List Nat)) :=
  utf8_transform_case str len utf8_simple_to_lower

/-- The function `u8_cp_to_bytes` on a non-null `buffer`: the return value and
the buffer afterwards. `buffer` is the block the pointer designates, which may
be shorter or longer than `buffer_size` says. -/
def u8_cp_to_bytes (codepoint : Nat) (buffer : List Nat) (buffer_size : Nat) :
    Option (Int × List Nat) :=
  let needed := u8_cp_bytelen codepoint
  if needed = 0 ∨ buffer_size < needed then some (-1, buffer)
  else
    match u8enc [codepoint, 0] with
    | none => some (-1, buffer)
    | some encoded =>
      let encoded_len := strlen encoded
      if encoded_len ≠ needed ∨ buffer_size < encoded_len then some (-1, buffer)
      else
        match mem_write buffer 0 (bytes_of encoded encoded_len) with
        | none => none
        | some buffer => some ((encoded_len : Int), buffer)

/-- The loop of `u8dec` once more, reporting not the array but the comparison
`(dest - start) < dest_len` in the last statement of the body: `true` when it
held every time it was evaluated, which is in every pass that goes on with a
state other than `U8_DECODE_CONTINUE`. -/
def u8dec_guard (src : List Nat) (replace : Bool) (dest_len : Nat) :
    Nat → u8_decoder_ctx → List Nat → Nat → Bool
  | 0, _, _, _ => true
  | fuel + 1, dctx, buf, dest =>
    let r := u8_decode_once dctx src
    let rcp := r.1
    let dctx := r.2
    if dctx.state = .U8_DECODE_FINISH then true
    else if rcp > 0 then
      match store buf dest rcp with
      | none => true
      | some buf =>
        decide (dctx.state ≠ .U8_DECODE_CONTINUE → dest < dest_len) &&
        u8dec_guard src replace dest_len fuel dctx buf
          (if dctx.state ≠ .U8_DECODE_CONTINUE ∧ dest < dest_len then dest + 1 else dest)
    else if dctx.state = .U8_DECODE_ERROR then
      if replace then
        match store buf dest 0xFFFD with
        | none => true
        | some buf =>
          decide (dctx.state ≠ .U8_DECODE_CONTINUE → dest < dest_len) &&
          u8dec_guard src replace dest_len fuel dctx buf
            (if dctx.state ≠ .U8_DECODE_CONTINUE ∧ dest < dest_len then dest + 1 else dest)
      else true
    else
      decide (dctx.state ≠ .U8_DECODE_CONTINUE → dest < dest_len) &&
      u8dec_guard src replace dest_len fuel dctx buf
        (if dctx.state ≠ .U8_DECODE_CONTINUE ∧ dest < dest_len then dest + 1 else dest)

/-- A byte sequence `utf8_decode_sequence` accepts as a whole: called on
exactly these bytes it returns 0 and consumes all of them. -/
def Accepted (q : List Nat) : Prop :=
  (utf8_decode_sequence q 0 0).ret = 0 ∧ (utf8_decode_sequence q 0 0).bytes_consumed = q.length

instance (q : List Nat) : Decidable (Accepted q) := by
  unfold Accepted; infer_instance

/-- The states of an iterator over the memory `mem`: those `u8i_new` and
`u8i_new_with_length` return, and those left by a call of `u8i_next`,
`u8i_prev`, `u8i_reset` or `u8i_seek` on such a state. -/
inductive IterReachable (mem : List Nat) : utf8_iterator → Prop
  | new : IterReachable mem (u8i_new mem)
  | new_with_length (byte_len : Nat) : IterReachable mem (u8i_new_with_length byte_len)
  | next (iter : utf8_iterator) :
    IterReachable mem iter → IterReachable mem (u8i_next mem iter).2
  | prev (iter : utf8_iterator) :
    IterReachable mem iter → IterReachable mem (u8i_prev mem iter).2
  | reset (iter : utf8_iterator) :
    IterReachable mem iter → IterReachable mem (u8i_reset mem iter).2
  | seek (iter : utf8_iterator) (position : Nat) :
    IterReachable mem iter → IterReachable mem (u8i_seek mem iter position).2

/-- The bytes of `mem` in `[data, current)` split into `n` sequences, each
accepted by `utf8_decode_sequence`. -/
def SplitsInto (mem : List Nat) (data current n : Nat) : Prop :=
  ∃ qs : List (List Nat),
    (∀ q ∈ qs, Accepted q) ∧ window mem data current = qs.flatten ∧ qs.length = n

/-- The invariant of the iterator: `end` is not before `data`, and with the
error flag clear `current` lies between them and stands behind `position`
accepted sequences. -/
def IterInv (mem : List Nat) (iter : utf8_iterator) : Prop :=
  iter.data ≤ iter.end_ ∧
  (iter.error = 0 →
    iter.data ≤ iter.current ∧ iter.current ≤ iter.end_ ∧
    SplitsInto mem iter.data iter.current iter.position)

/-! # Theorems -/

/-! ### Bit operations as arithmetic -/

theorem and_mask5 (b : Nat) : b &&& 0x1F = b % 32 := Nat.and_pow_two_sub_one_eq_mod b 5

theorem and_mask4 (b : Nat) : b &&& 0xF = b % 16 := Nat.and_pow_two_sub_one_eq_mod b 4

theorem and_mask3 (b : Nat) : b &&& 0x7 = b % 8 := Nat.and_pow_two_sub_one_eq_mod b 3

theorem and_mask6 (b : Nat) : b &&& 0x3F = b % 64 := Nat.and_pow_two_sub_one_eq_mod b 6

theorem shift_or (c b : Nat) (h : c < 67108864) :
    ((c <<< 6) % 4294967296) ||| (b &&& 0x3F) = c * 64 + b % 64 := by
  rw [and_mask6, Nat.shiftLeft_eq, Nat.mod_eq_of_lt (by omega)]
  have := Nat.mul_add_lt_is_or (i := 6) (b := b % 64) (by omega) c
  simp only [Nat.reducePow] at this ⊢
  rw [Nat.mul_comm c 64, this]

theorem or_tag (t k x : Nat) (ht : t % 2 ^ k = 0) (hx : x < 2 ^ k) : t ||| x = t + x := by
  obtain ⟨a, rfl⟩ : ∃ a, t = 2 ^ k * a := ⟨t / 2 ^ k, by
    have := Nat.div_add_mod t (2 ^ k); omega⟩
  exact (Nat.mul_add_lt_is_or hx a).symm

theorem shr6 (c : Nat) : c >>> 6 = c / 64 := Nat.shiftRight_eq_div_pow c 6

theorem shr12 (c : Nat) : c >>> 12 = c / 4096 := Nat.shiftRight_eq_div_pow c 12

theorem shr18 (c : Nat) : c >>> 18 = c / 262144 := Nat.shiftRight_eq_div_pow c 18

/-! ### Equations of `scan` -/

theorem scan_nil (r : Bool) (need seen cp lo hi : Nat) :
    scan r need seen cp lo hi [] = if need > 0 then onError r (some []) else some [] := by
  simp [scan]

theorem scan_fresh (r : Bool) (seen cp lo hi b : Nat) (rest : List Nat) :
    scan r 0 seen cp lo hi (b :: rest) =
      if b ≤ 0x7F then (scan r 0 0 0 0x80 0xBF rest).map (fun o => b :: o)
      else if 0xC2 ≤ b ∧ b ≤ 0xDF then scan r 1 0 (b &&& 0x1F) 0x80 0xBF rest
      else if 0xE0 ≤ b ∧ b ≤ 0xEF then
        scan r 2 0 (b &&& 0xF) (if b = 0xE0 then 0xA0 else 0x80)
          (if b = 0xED then 0x9F else 0xBF) rest
      else if 0xF0 ≤ b ∧ b ≤ 0xF4 then
        scan r 3 0 (b &&& 0x7) (if b = 0xF0 then 0x90 else 0x80)
          (if b = 0xF4 then 0x8F else 0xBF) rest
      else onError r (scan r 0 0 0 0x80 0xBF rest) := by
  simp [scan]

theorem scan_break (r : Bool) (need seen cp lo hi b : Nat) (rest : List Nat)
    (hn : need ≠ 0) (hb : b < lo ∨ hi < b) :
    scan r need seen cp lo hi (b :: rest) = onError r (scan r 0 0 0 0x80 0xBF (b :: rest)) := by
  rw [scan_fresh]
  simp [scan, hn, hb]

theorem scan_cont (r : Bool) (need seen cp lo hi b : Nat) (rest : List Nat)
    (hn : need ≠ 0) (h1 : lo ≤ b) (h2 : b ≤ hi) :
    scan r need seen cp lo hi (b :: rest) =
      if seen + 1 ≠ need then
        scan r need (seen + 1) (((cp <<< 6) % 4294967296) ||| (b &&& 0x3F)) 0x80 0xBF rest
      else (scan r 0 0 0 0x80 0xBF rest).map
        (fun o => (((cp <<< 6) % 4294967296) ||| (b &&& 0x3F)) :: o) := by
  have h : ¬ (b < lo ∨ hi < b) := by omega
  simp [scan, hn, h]

theorem store_pad (out : List Nat) (n v : Nat) (h : out.length < n) :
    store (pad n out) out.length v = some (pad n (out ++ [v])) := by
  obtain ⟨k, hk⟩ : ∃ k, n - out.length = k + 1 := ⟨n - out.length - 1, by omega⟩
  have hk2 : n - (out ++ [v]).length = k := by simp; omega
  unfold pad
  rw [hk, hk2]
  simp [store, List.replicate_succ]

theorem pad_skip (out : List Nat) (n : Nat) (h : out.length < n) :
    pad n out = pad n (out ++ [0]) := by
  obtain ⟨k, hk⟩ : ∃ k, n - out.length = k + 1 := ⟨n - out.length - 1, by omega⟩
  have hk2 : n - (out ++ [0]).length = k := by simp; omega
  unfold pad
  rw [hk, hk2]
  simp [List.replicate_succ]

theorem store_pad_zero (out : List Nat) (n : Nat) (h : out.length < n) :
    store (pad n out) out.length 0 = some (pad n out) := by
  rw [store_pad out n 0 h, ← pad_skip out n h]

theorem getD_of_drop_cons (src : List Nat) (p b : Nat) (rest : List Nat)
    (h : src.drop p = b :: rest) : src.getD p 0 = b ∧ src.drop (p + 1) = rest ∧ b ∈ src := by
  have hlt : p < src.length := by
    by_contra hc
    rw [List.drop_eq_nil_of_le (by omega)] at h
    exact absurd h (by simp)
  rw [List.drop_eq_getElem_cons hlt] at h
  simp only [List.cons.injEq] at h
  refine ⟨?_, h.2, ?_⟩
  · rw [List.getD_eq_getElem _ _ hlt]; exact h.1
  · rw [← h.1]; exact List.getElem_mem hlt

theorem getD_of_drop_nil (src : List Nat) (p : Nat) (h : src.drop p = []) :
    src.getD p 0 = 0 := by
  have : src.length ≤ p := by
    simpa using h
  exact List.getD_eq_default _ _ this

/-! ### The cases of `u8_decode_once` -/

theorem once_nul_pending (ctx : u8_decoder_ctx) (src : List Nat) (p : Nat)
    (hp : ctx.saveptr = some p) (h0 : src.getD p 0 = 0) (hn : ctx.need ≠ 0) :
    u8_decode_once ctx src
      = (0, { ctx with saveptr := some p, need := 0, state := .U8_DECODE_ERROR }) := by
  have : 0 < ctx.need := Nat.pos_of_ne_zero hn
  simp only [u8_decode_once, hp, h0]
  simp [this]

theorem once_nul (ctx : u8_decoder_ctx) (src : List Nat) (p : Nat)
    (hp : ctx.saveptr = some p) (h0 : src.getD p 0 = 0) (hn : ctx.need = 0) :
    u8_decode_once ctx src
      = (0, { ctx with saveptr := some p, state := .U8_DECODE_FINISH }) := by
  simp only [u8_decode_once, hp, h0]
  simp [hn]

theorem once_lead (ctx : u8_decoder_ctx) (src : List Nat) (p b : Nat)
    (hp : ctx.saveptr = some p) (hb : src.getD p 0 = b) (h0 : 0 < b) (h256 : b < 256)
    (hn : ctx.need = 0) :
    u8_decode_once ctx src =
      if b ≤ 0x7F then (b, { ctx with saveptr := some (p + 1), state := .U8_DECODE_OK })
      else if 0xC2 ≤ b ∧ b ≤ 0xDF then
        (0, { ctx with saveptr := some (p + 1), need := 1, codepoint := b &&& 0x1F,
                       state := .U8_DECODE_CONTINUE })
      else if 0xE0 ≤ b ∧ b ≤ 0xEF then
        (0, { ctx with saveptr := some (p + 1), need := 2, codepoint := b &&& 0xF,
                       lower := if b = 0xE0 then 0xA0 else ctx.lower,
                       upper := if b = 0xED then 0x9F else ctx.upper,
                       state := .U8_DECODE_CONTINUE })
      else if 0xF0 ≤ b ∧ b ≤ 0xF4 then
        (0, { ctx with saveptr := some (p + 1), need := 3, codepoint := b &&& 0x7,
                       lower := if b = 0xF0 then 0x90 else ctx.lower,
                       upper := if b = 0xF4 then 0x8F else ctx.upper,
                       state := .U8_DECODE_CONTINUE })
      else (0, { ctx with saveptr := some (p + 1), state := .U8_DECODE_ERROR }) := by
  have hm : b % 256 = b := Nat.mod_eq_of_lt h256
  have hne : b ≠ 0 := by omega
  simp only [u8_decode_once, hp, hb, hm, hn]
  simp only [hne, false_and, if_false, ne_eq, not_false_eq_true, if_true, gt_iff_lt, h0, true_and,
    ge_iff_le]
  split_ifs <;> first | rfl | (exfalso; omega)

theorem once_break (ctx : u8_decoder_ctx) (src : List Nat) (p b : Nat)
    (hp : ctx.saveptr = some p) (hb : src.getD p 0 = b) (h0 : 0 < b) (h256 : b < 256)
    (hn : ctx.need ≠ 0) (hr : b < ctx.lower ∨ ctx.upper < b) :
    u8_decode_once ctx src =
      (0, { ctx with codepoint := 0, need := 0, seen := 0, lower := 0x80, upper := 0xBF,
                     saveptr := some p, state := .U8_DECODE_ERROR }) := by
  have hm : b % 256 = b := Nat.mod_eq_of_lt h256
  have hne : b ≠ 0 := by omega
  simp only [u8_decode_once, hp, hb, hm]
  simp [hne, hn, hr]

theorem once_cont (ctx : u8_decoder_ctx) (src : List Nat) (p b : Nat)
    (hp : ctx.saveptr = some p) (hb : src.getD p 0 = b) (h0 : 0 < b) (h256 : b < 256)
    (hn : ctx.need ≠ 0) (h1 : ctx.lower ≤ b) (h2 : b ≤ ctx.upper) :
    u8_decode_once ctx src =
      if ctx.seen + 1 ≠ ctx.need then
        (0, { ctx with lower := 0x80, upper := 0xBF,
                       codepoint := ((ctx.codepoint <<< 6) % 4294967296) ||| (b &&& 0x3F),
                       seen := ctx.seen + 1, saveptr := some (p + 1),
                       state := .U8_DECODE_CONTINUE })
      else
        (((ctx.codepoint <<< 6) % 4294967296) ||| (b &&& 0x3F),
          { ctx with lower := 0x80, upper := 0xBF, codepoint := 0, need := 0, seen := 0,
                     saveptr := some (p + 1), state := .U8_DECODE_OK }) := by
  have hm : b % 256 = b := Nat.mod_eq_of_lt h256
  have hne : b ≠ 0 := by omega
  have hr : ¬ (b < ctx.lower ∨ ctx.upper < b) := by omega
  simp only [u8_decode_once, hp, hb, hm]
  simp [hne, hn, hr]

/-! ### One iteration of the loop -/

theorem loop_finish (src : List Nat) (r : Bool) (n fuel rcp : Nat) (ctx ctx2 : u8_decoder_ctx)
    (out : List Nat) (h : u8_decode_once ctx src = (rcp, ctx2))
    (hst : ctx2.state = .U8_DECODE_FINISH) (hl : out.length < n) :
    u8dec_loop src r n (fuel + 1) ctx (pad n out) out.length = .ok (pad n out) := by
  rw [u8dec_loop]
  simp only [h, hst, if_true, store_pad_zero out n hl]

theorem loop_ok (src : List Nat) (r : Bool) (n fuel rcp : Nat) (ctx ctx2 : u8_decoder_ctx)
    (out : List Nat) (h : u8_decode_once ctx src = (rcp, ctx2))
    (hst : ctx2.state = .U8_DECODE_OK) (hl : out.length < n) :
    u8dec_loop src r n (fuel + 1) ctx (pad n out) out.length
      = u8dec_loop src r n fuel ctx2 (pad n (out ++ [rcp])) (out ++ [rcp]).length := by
  rw [u8dec_loop]
  simp only [h, hst, reduceCtorEq, if_false, ne_eq, not_false_eq_true, true_and, hl, if_true]
  by_cases hr : rcp > 0
  · simp only [hr, if_true, store_pad out n rcp hl]
    simp
  · have : rcp = 0 := by omega
    subst this
    simp only [lt_irrefl, if_false, gt_iff_lt, ← pad_skip out n hl]
    simp

theorem loop_error (src : List Nat) (r : Bool) (n fuel : Nat) (ctx ctx2 : u8_decoder_ctx)
    (out : List Nat) (h : u8_decode_once ctx src = (0, ctx2))
    (hst : ctx2.state = .U8_DECODE_ERROR) (hl : out.length < n) :
    u8dec_loop src r n (fuel + 1) ctx (pad n out) out.length
      = if r then u8dec_loop src r n fuel ctx2 (pad n (out ++ [0xFFFD])) (out ++ [0xFFFD]).length
        else .null := by
  rw [u8dec_loop]
  simp only [h, hst, reduceCtorEq, if_false, ne_eq, not_false_eq_true, true_and, hl, if_true,
    gt_iff_lt, lt_irrefl, store_pad out n _ hl]
  simp

theorem loop_continue (src : List Nat) (r : Bool) (n fuel : Nat) (ctx ctx2 : u8_decoder_ctx)
    (out : List Nat) (h : u8_decode_once ctx src = (0, ctx2))
    (hst : ctx2.state = .U8_DECODE_CONTINUE) :
    u8dec_loop src r n (fuel + 1) ctx (pad n out) out.length
      = u8dec_loop src r n fuel ctx2 (pad n out) out.length := by
  rw [u8dec_loop]
  simp only [h, hst, reduceCtorEq, if_false, ne_eq, not_true_eq_false, false_and,
    gt_iff_lt, lt_irrefl]

/-! ### The loop computes `scan` -/

theorem scan_need_zero (r : Bool) (seen cp lo hi : Nat) (rest : List Nat) :
    scan r 0 seen cp lo hi rest = scan r 0 0 0 0x80 0xBF rest := by
  cases rest with
  | nil => simp [scan_nil]
  | cons b rest => rw [scan_fresh, scan_fresh]

theorem finish_map_cons (n v : Nat) (out : List Nat) (x : Option (List Nat)) :
    finish n ((x.map (fun o => v :: o)).map (fun o => out ++ o))
      = finish n (x.map (fun o => (out ++ [v]) ++ o)) := by
  cases x <;> simp [finish]

theorem finish_onError (n : Nat) (r : Bool) (out : List Nat) (x : Option (List Nat)) :
    finish n ((onError r x).map (fun o => out ++ o))
      = if r then finish n (x.map (fun o => (out ++ [0xFFFD]) ++ o)) else .null := by
  cases x <;> cases r <;> simp [finish, onError]

theorem loop_eq_scan (src : List Nat) (r : Bool) (hs : NulFree src) :
    ∀ (rest : List Nat) (fuel : Nat) (ctx : u8_decoder_ctx) (out : List Nat) (p : Nat),
      ctx.saveptr = some p → src.drop p = rest →
      (ctx.need = 0 → ctx.seen = 0 ∧ ctx.lower = 0x80 ∧ ctx.upper = 0xBF) →
      out.length + (if ctx.need = 0 then 0 else 1) + rest.length ≤ src.length →
      2 * rest.length + 2 ≤ fuel →
      u8dec_loop src r (src.length + 1) fuel ctx (pad (src.length + 1) out) out.length
        = finish (src.length + 1)
            ((scan r ctx.need ctx.seen ctx.codepoint ctx.lower ctx.upper rest).map
              (fun o => out ++ o)) := by
  intro rest
  induction rest with
  | nil =>
    intro fuel ctx out p hp hd hclean hlen hfuel
    obtain ⟨f, rfl⟩ : ∃ f, fuel = f + 2 := ⟨fuel - 2, by omega⟩
    have h0 := getD_of_drop_nil src p hd
    by_cases hn : ctx.need = 0
    · have hl : out.length < src.length + 1 := by simp at hlen; omega
      rw [loop_finish src r _ _ _ ctx _ out (once_nul ctx src p hp h0 hn) rfl hl]
      simp [scan_nil, hn, finish]
    · simp only [if_neg hn] at hlen
      have hl : out.length < src.length + 1 := by simp at hlen; omega
      have hl2 : (out ++ [0xFFFD]).length < src.length + 1 := by simp at hlen ⊢; omega
      rw [loop_error src r _ _ ctx _ out (once_nul_pending ctx src p hp h0 hn) rfl hl]
      rw [scan_nil, if_pos (Nat.pos_of_ne_zero hn), finish_onError]
      cases r with
      | false => simp
      | true =>
        simp only [if_true]
        rw [loop_finish src true _ _ _ _ _ (out ++ [0xFFFD]) (once_nul _ src p rfl h0 rfl) rfl hl2]
        simp [finish]
  | cons b rest ih =>
    intro fuel ctx out p hp hd hclean hlen hfuel
    obtain ⟨hb, hd1, hmem⟩ := getD_of_drop_cons src p b rest hd
    obtain ⟨hb0, hb256⟩ := hs b hmem
    simp only [List.length_cons] at hlen hfuel
    -- reading `b` as a lead byte
    have fresh : ∀ (fuel : Nat) (ctx : u8_decoder_ctx) (out : List Nat),
        ctx.saveptr = some p → ctx.need = 0 → ctx.seen = 0 → ctx.lower = 0x80 →
        ctx.upper = 0xBF → out.length + 1 + rest.length ≤ src.length →
        2 * rest.length + 3 ≤ fuel →
        u8dec_loop src r (src.length + 1) fuel ctx (pad (src.length + 1) out) out.length
          = finish (src.length + 1)
              ((scan r 0 0 0 0x80 0xBF (b :: rest)).map (fun o => out ++ o)) := by
      intro fuel ctx out hp hn hseen hlo hhi hlen hfuel
      obtain ⟨f, rfl⟩ : ∃ f, fuel = f + 1 := ⟨fuel - 1, by omega⟩
      have hl : out.length < src.length + 1 := by omega
      have hstep := once_lead ctx src p b hp hb hb0 hb256 hn
      rw [scan_fresh]
      by_cases c1 : b ≤ 0x7F
      · rw [if_pos c1] at hstep
        rw [if_pos c1, loop_ok src r _ _ _ ctx _ out hstep rfl hl]
        rw [ih f _ (out ++ [b]) (p + 1) rfl hd1 (by intro _; exact ⟨hseen, hlo, hhi⟩)
          (by simp [hn]; omega) (by omega)]
        simp only [hn, hseen, hlo, hhi]
        rw [scan_need_zero, finish_map_cons]
      · rw [if_neg c1] at hstep
        rw [if_neg c1]
        by_cases c2 : 0xC2 ≤ b ∧ b ≤ 0xDF
        · rw [if_pos c2] at hstep
          rw [if_pos c2, loop_continue src r _ _ ctx _ out hstep rfl]
          rw [ih f _ out (p + 1) rfl hd1 (by simp) (by simp; omega) (by omega)]
          simp only [hn, hseen, hlo, hhi]
        · rw [if_neg c2] at hstep
          rw [if_neg c2]
          by_cases c3 : 0xE0 ≤ b ∧ b ≤ 0xEF
          · rw [if_pos c3] at hstep
            rw [if_pos c3, loop_continue src r _ _ ctx _ out hstep rfl]
            rw [ih f _ out (p + 1) rfl hd1 (by simp) (by simp; omega) (by omega)]
            simp only [hn, hseen, hlo, hhi]
          · rw [if_neg c3] at hstep
            rw [if_neg c3]
            by_cases c4 : 0xF0 ≤ b ∧ b ≤ 0xF4
            · rw [if_pos c4] at hstep
              rw [if_pos c4, loop_continue src r _ _ ctx _ out hstep rfl]
              rw [ih f _ out (p + 1) rfl hd1 (by simp) (by simp; omega) (by omega)]
              simp only [hn, hseen, hlo, hhi]
            · rw [if_neg c4] at hstep
              rw [if_neg c4, loop_error src r _ _ ctx _ out hstep rfl hl, finish_onError]
              cases r with
              | false => simp
              | true =>
                simp only [if_true]
                rw [ih f _ (out ++ [0xFFFD]) (p + 1) rfl hd1
                  (by intro _; exact ⟨hseen, hlo, hhi⟩) (by simp [hn]; omega) (by omega)]
                simp only [hn, hseen, hlo, hhi]
                rw [scan_need_zero]
    by_cases hn : ctx.need = 0
    · obtain ⟨hseen, hlo, hhi⟩ := hclean hn
      rw [fresh fuel ctx out hp hn hseen hlo hhi (by simp [hn] at hlen; omega) (by omega)]
      rw [hn, scan_need_zero r ctx.seen]
    · simp only [if_neg hn] at hlen
      obtain ⟨f, rfl⟩ : ∃ f, fuel = f + 1 := ⟨fuel - 1, by omega⟩
      have hl : out.length < src.length + 1 := by omega
      by_cases hr : b < ctx.lower ∨ ctx.upper < b
      · rw [loop_error src r _ _ ctx _ out (once_break ctx src p b hp hb hb0 hb256 hn hr) rfl hl]
        rw [scan_break r _ _ _ _ _ b rest hn hr, finish_onError]
        cases r with
        | false => simp
        | true =>
          simp only [if_true]
          rw [fresh f _ (out ++ [0xFFFD]) rfl rfl rfl rfl rfl (by simp; omega) (by omega)]
      · have h1 : ctx.lower ≤ b := by omega
        have h2 : b ≤ ctx.upper := by omega
        have hstep := once_cont ctx src p b hp hb hb0 hb256 hn h1 h2
        rw [scan_cont r _ _ _ _ _ b rest hn h1 h2]
        by_cases hm : ctx.seen + 1 ≠ ctx.need
        · rw [if_pos hm] at hstep
          rw [if_pos hm, loop_continue src r _ _ ctx _ out hstep rfl]
          rw [ih f _ out (p + 1) rfl hd1 (by intro h; exact absurd h hn)
            (by simp [hn]; omega) (by omega)]
        · rw [if_neg hm] at hstep
          rw [if_neg hm, loop_ok src r _ _ _ ctx _ out hstep rfl hl]
          rw [ih f _ (out ++ [_]) (p + 1) rfl hd1 (by intro _; exact ⟨rfl, rfl, rfl⟩)
            (by simp; omega) (by omega)]
          simp only []
          rw [finish_map_cons]

theorem strlen_nulFree (s : List Nat) (hs : NulFree s) : strlen s = s.length := by
  unfold strlen
  rw [List.takeWhile_eq_self_iff.mpr]
  intro b hb
  have := hs b hb
  have h2 : b % 256 = b := Nat.mod_eq_of_lt this.2
  simp [h2]; omega

theorem once_null_saveptr (ctx : u8_decoder_ctx) (src : List Nat) (h : ctx.saveptr = none) :
    u8_decode_once ctx src = u8_decode_once { ctx with saveptr := some 0 } src := by
  simp [u8_decode_once, h]

theorem loop_null_saveptr (src : List Nat) (r : Bool) (n fuel : Nat) (ctx : u8_decoder_ctx)
    (buf : List Nat) (pos : Nat) (h : ctx.saveptr = none) :
    u8dec_loop src r n fuel ctx buf pos
      = u8dec_loop src r n fuel { ctx with saveptr := some 0 } buf pos := by
  cases fuel with
  | zero => simp [u8dec_loop]
  | succ f => rw [u8dec_loop, u8dec_loop, once_null_saveptr ctx src h]

/-- On a NUL-free string `u8dec` returns what `scan` computes. -/
theorem u8dec_eq_decodeBytes (s : List Nat) (r : Bool) (hs : NulFree s) :
    u8dec s r = finish (s.length + 1) (decodeBytes r s) := by
  unfold u8dec decodeBytes
  simp only [strlen_nulFree s hs]
  have h := loop_eq_scan s r hs s (2 * s.length + 2) { u8_decode_ctx with saveptr := some 0 } []
    0 rfl rfl (by intro _; exact ⟨rfl, rfl, rfl⟩) (by simp [u8_decode_ctx]) (by omega)
  simp only [pad, List.nil_append, List.length_nil, Nat.sub_zero] at h
  have e : (fun (o : List Nat) => o) = id := rfl
  simp only [e, Option.map_id, id] at h
  rw [loop_null_saveptr _ _ _ _ _ _ _ rfl, h]
  rfl

/-! ### Well-formed sequences under `scan` -/

theorem scan_seq1 (r : Bool) (a : Nat) (rest : List Nat) (h : IsSeq [a]) :
    scan r 0 0 0 0x80 0xBF (a :: rest)
      = (scan r 0 0 0 0x80 0xBF rest).map (fun o => seqValue [a] :: o) := by
  simp only [IsSeq] at h
  have hv : seqValue [a] = a := by simp only [seqValue]; omega
  rw [scan_fresh, if_pos (by omega), hv]

theorem scan_seq2 (r : Bool) (a b : Nat) (rest : List Nat) (h : IsSeq [a, b]) :
    scan r 0 0 0 0x80 0xBF (a :: b :: rest)
      = (scan r 0 0 0 0x80 0xBF rest).map (fun o => seqValue [a, b] :: o) := by
  simp only [IsSeq] at h
  rw [scan_fresh, if_neg (by omega), if_pos (by omega),
    scan_cont r 1 0 _ _ _ b rest (by decide) (by omega) (by omega)]
  simp only [ne_eq, not_true_eq_false, if_false, Nat.zero_add]
  rw [and_mask5, shift_or _ _ (by omega)]
  rfl

theorem scan_seq3 (r : Bool) (a b c : Nat) (rest : List Nat) (h : IsSeq [a, b, c]) :
    scan r 0 0 0 0x80 0xBF (a :: b :: c :: rest)
      = (scan r 0 0 0 0x80 0xBF rest).map (fun o => seqValue [a, b, c] :: o) := by
  simp only [IsSeq] at h
  rw [scan_fresh, if_neg (by omega), if_neg (by omega), if_pos (by omega),
    scan_cont r 2 0 _ _ _ b (c :: rest) (by decide) (by split_ifs <;> omega)
      (by split_ifs <;> omega)]
  simp only [ne_eq, Nat.zero_add, Nat.succ_ne_self, not_false_eq_true, if_true,
    show (1 : Nat) = 2 ↔ False from by decide]
  rw [scan_cont r 2 1 _ _ _ c rest (by decide) (by omega) (by omega)]
  simp only [ne_eq, not_true_eq_false, if_false]
  rw [and_mask4, shift_or (a % 16) b (by omega), shift_or _ c (by omega)]
  rfl

theorem scan_seq4 (r : Bool) (a b c d : Nat) (rest : List Nat) (h : IsSeq [a, b, c, d]) :
    scan r 0 0 0 0x80 0xBF (a :: b :: c :: d :: rest)
      = (scan r 0 0 0 0x80 0xBF rest).map (fun o => seqValue [a, b, c, d] :: o) := by
  simp only [IsSeq] at h
  rw [scan_fresh, if_neg (by omega), if_neg (by omega), if_neg (by omega), if_pos (by omega),
    scan_cont r 3 0 _ _ _ b (c :: d :: rest) (by decide) (by split_ifs <;> omega)
      (by split_ifs <;> omega)]
  simp only [ne_eq, Nat.zero_add, not_false_eq_true, if_true,
    show (1 : Nat) = 3 ↔ False from by decide]
  rw [scan_cont r 3 1 _ _ _ c (d :: rest) (by decide) (by omega) (by omega)]
  simp only [ne_eq, not_false_eq_true, if_true, show (1 + 1 : Nat) = 3 ↔ False from by decide]
  rw [scan_cont r 3 2 _ _ _ d rest (by decide) (by omega) (by omega)]
  simp only [ne_eq, not_true_eq_false, if_false]
  rw [and_mask3, shift_or (a % 8) b (by omega), shift_or _ c (by omega),
    shift_or _ d (by omega)]
  rfl

/-- A well-formed sequence at the head of the unread bytes is stored as its
value, in either mode, and the scan goes on behind it. -/
theorem scan_seq (r : Bool) (q rest : List Nat) (h : IsSeq q) :
    scan r 0 0 0 0x80 0xBF (q ++ rest)
      = (scan r 0 0 0 0x80 0xBF rest).map (fun o => seqValue q :: o) := by
  rcases q with _ | ⟨a, _ | ⟨b, _ | ⟨c, _ | ⟨d, _ | ⟨e, t⟩⟩⟩⟩⟩
  · simp [IsSeq] at h
  · exact scan_seq1 r a rest h
  · exact scan_seq2 r a b rest h
  · exact scan_seq3 r a b c rest h
  · exact scan_seq4 r a b c d rest h
  · simp [IsSeq] at h

theorem scan_seqs (r : Bool) (qs : List (List Nat)) (rest : List Nat)
    (h : ∀ q ∈ qs, IsSeq q) :
    scan r 0 0 0 0x80 0xBF (qs.flatten ++ rest)
      = (scan r 0 0 0 0x80 0xBF rest).map (fun o => qs.map seqValue ++ o) := by
  induction qs with
  | nil => simp
  | cons q qs ih =>
    rw [List.flatten_cons, List.append_assoc, scan_seq r q _ (h q (by simp)),
      ih (fun q hq => h q (by simp [hq]))]
    cases scan r 0 0 0 0x80 0xBF rest <;> simp

theorem decodeBytes_wellFormed (r : Bool) (qs : List (List Nat)) (h : ∀ q ∈ qs, IsSeq q) :
    decodeBytes r qs.flatten = some (qs.map seqValue) := by
  have := scan_seqs r qs [] h
  simp only [List.append_nil, scan_nil] at this
  simpa [decodeBytes] using this

/-! ### What reject mode accepts -/

theorem onError_false (k : Option (List Nat)) : onError false k = none := by
  simp [onError]

/-- In reject mode a pending sequence can only go on with a byte inside the
current bounds. -/
theorem scan_reject_pending (need seen cp lo hi : Nat) (t o : List Nat) (hn : need ≠ 0)
    (h : scan false need seen cp lo hi t = some o) :
    ∃ b t2, t = b :: t2 ∧ lo ≤ b ∧ b ≤ hi ∧
      (if seen + 1 ≠ need then
        scan false need (seen + 1) (((cp <<< 6) % 4294967296) ||| (b &&& 0x3F)) 0x80 0xBF t2
      else (scan false 0 0 0 0x80 0xBF t2).map
        (fun o => (((cp <<< 6) % 4294967296) ||| (b &&& 0x3F)) :: o)) = some o := by
  cases t with
  | nil =>
    rw [scan_nil, if_pos (Nat.pos_of_ne_zero hn), onError_false] at h
    exact absurd h (by simp)
  | cons b t2 =>
    by_cases hr : b < lo ∨ hi < b
    · rw [scan_break false need seen cp lo hi b t2 hn hr, onError_false] at h
      exact absurd h (by simp)
    · have h1 : lo ≤ b := by omega
      have h2 : b ≤ hi := by omega
      rw [scan_cont false need seen cp lo hi b t2 hn h1 h2] at h
      exact ⟨b, t2, rfl, h1, h2, h⟩

theorem wellFormed_cons (q t : List Nat) (hq : IsSeq q) (ht : WellFormed t) :
    WellFormed (q ++ t) := by
  obtain ⟨qs, hqs, rfl⟩ := ht
  refine ⟨q :: qs, ?_, by simp⟩
  intro x hx
  rcases List.mem_cons.mp hx with rfl | hx
  · exact hq
  · exact hqs x hx

theorem reject_wellFormed_aux (n : Nat) :
    ∀ s : List Nat, s.length ≤ n → NulFree s →
      ∀ o, scan false 0 0 0 0x80 0xBF s = some o → WellFormed s := by
  induction n with
  | zero =>
    intro s hl _ o _
    have : s = [] := List.length_eq_zero.mp (by omega)
    subst this
    exact ⟨[], by simp, by simp⟩
  | succ n ih =>
    intro s hl hs o h
    cases s with
    | nil => exact ⟨[], by simp, by simp⟩
    | cons a t =>
      have ha := hs a (by simp)
      have hst : ∀ t2 : List Nat, (∀ x ∈ t2, x ∈ a :: t) → NulFree t2 :=
        fun t2 hsub x hx => hs x (hsub x hx)
      simp only [List.length_cons] at hl
      rw [scan_fresh] at h
      by_cases c1 : a ≤ 0x7F
      · rw [if_pos c1] at h
        obtain ⟨o1, h1, -⟩ := Option.map_eq_some'.mp h
        have := ih t (by omega) (hst t (by intro x hx; simp [hx])) o1 h1
        exact wellFormed_cons [a] t (by simp only [IsSeq]; omega) this
      · rw [if_neg c1] at h
        by_cases c2 : 0xC2 ≤ a ∧ a ≤ 0xDF
        · rw [if_pos c2] at h
          obtain ⟨b, t2, rfl, hb1, hb2, h⟩ := scan_reject_pending _ _ _ _ _ _ _ (by decide) h
          simp only [ne_eq, not_true_eq_false, if_false, Nat.zero_add] at h
          obtain ⟨o1, h1, -⟩ := Option.map_eq_some'.mp h
          simp only [List.length_cons] at hl
          have := ih t2 (by omega) (hst t2 (by intro x hx; simp [hx])) o1 h1
          exact wellFormed_cons [a, b] t2 (by simp only [IsSeq]; omega) this
        · rw [if_neg c2] at h
          by_cases c3 : 0xE0 ≤ a ∧ a ≤ 0xEF
          · rw [if_pos c3] at h
            obtain ⟨b, t2, rfl, hb1, hb2, h⟩ := scan_reject_pending _ _ _ _ _ _ _ (by decide) h
            simp only [ne_eq, Nat.zero_add, not_false_eq_true, if_true,
              show (1 : Nat) = 2 ↔ False from by decide] at h
            obtain ⟨c, t3, rfl, hc1, hc2, h⟩ := scan_reject_pending _ _ _ _ _ _ _ (by decide) h
            simp only [ne_eq, not_true_eq_false, if_false] at h
            obtain ⟨o1, h1, -⟩ := Option.map_eq_some'.mp h
            simp only [List.length_cons] at hl
            have := ih t3 (by omega) (hst t3 (by intro x hx; simp [hx])) o1 h1
            refine wellFormed_cons [a, b, c] t3 ?_ this
            simp only [IsSeq]
            split_ifs at hb1 hb2 <;> omega
          · rw [if_neg c3] at h
            by_cases c4 : 0xF0 ≤ a ∧ a ≤ 0xF4
            · rw [if_pos c4] at h
              obtain ⟨b, t2, rfl, hb1, hb2, h⟩ :=
                scan_reject_pending _ _ _ _ _ _ _ (by decide) h
              simp only [ne_eq, Nat.zero_add, not_false_eq_true, if_true,
                show (1 : Nat) = 3 ↔ False from by decide] at h
              obtain ⟨c, t3, rfl, hc1, hc2, h⟩ :=
                scan_reject_pending _ _ _ _ _ _ _ (by decide) h
              simp only [ne_eq, not_false_eq_true, if_true,
                show (1 + 1 : Nat) = 3 ↔ False from by decide] at h
              obtain ⟨d, t4, rfl, hd1, hd2, h⟩ :=
                scan_reject_pending _ _ _ _ _ _ _ (by decide) h
              simp only [ne_eq, not_true_eq_false, if_false] at h
              obtain ⟨o1, h1, -⟩ := Option.map_eq_some'.mp h
              simp only [List.length_cons] at hl
              have := ih t4 (by omega) (hst t4 (by intro x hx; simp [hx])) o1 h1
              refine wellFormed_cons [a, b, c, d] t4 ?_ this
              simp only [IsSeq]
              split_ifs at hb1 hb2 <;> omega
            · rw [if_neg c4, onError_false] at h
              exact absurd h (by simp)

/-- Reject mode accepts exactly the well-formed strings. -/
theorem decodeBytes_reject_iff (s : List Nat) (hs : NulFree s) :
    (∃ o, decodeBytes false s = some o) ↔ WellFormed s := by
  constructor
  · rintro ⟨o, h⟩
    exact reject_wellFormed_aux s.length s (le_refl _) hs o h
  · rintro ⟨qs, hqs, rfl⟩
    exact ⟨_, decodeBytes_wellFormed false qs hqs⟩

theorem isSeq_bytes (q : List Nat) (h : IsSeq q) : q ≠ [] ∧ ∀ b ∈ q, 0 < b ∧ b < 256 := by
  rcases q with _ | ⟨a, _ | ⟨b, _ | ⟨c, _ | ⟨d, _ | ⟨e, t⟩⟩⟩⟩⟩ <;> simp only [IsSeq] at h
  all_goals
    refine ⟨by simp, ?_⟩
    intro x hx
    simp only [List.mem_cons, List.mem_singleton, List.not_mem_nil, or_false] at hx
    omega

theorem wellFormed_nulFree (s : List Nat) (h : WellFormed s) : NulFree s := by
  obtain ⟨qs, hqs, rfl⟩ := h
  intro b hb
  obtain ⟨q, hq, hbq⟩ := List.mem_flatten.mp hb
  exact (isSeq_bytes q (hqs q hq)).2 b hbq

/-! ### The encoder -/

theorem or_c0 (x : Nat) (h : x < 64) : 0xC0 ||| x = 0xC0 + x :=
  or_tag 0xC0 6 x (by decide) (by simpa using h)

theorem or_80 (x : Nat) (h : x < 64) : 0x80 ||| x = 0x80 + x :=
  or_tag 0x80 6 x (by decide) (by simpa using h)

theorem or_e0 (x : Nat) (h : x < 16) : 0xE0 ||| x = 0xE0 + x :=
  or_tag 0xE0 4 x (by decide) (by simpa using h)

theorem or_f0 (x : Nat) (h : x < 8) : 0xF0 ||| x = 0xF0 + x :=
  or_tag 0xF0 3 x (by decide) (by simpa using h)

/-- On a value that can be encoded `u8_encode_codepoint` stores the standard
layout. -/
theorem u8_encode_codepoint_layout (cp : Nat) (h1 : cp ≤ 0x10FFFF)
    (h2 : ¬ (0xD800 ≤ cp ∧ cp ≤ 0xDFFF)) :
    u8_encode_codepoint cp = some (layout cp) := by
  unfold u8_encode_codepoint layout
  simp only [shr6, shr12, shr18, and_mask6]
  by_cases c1 : cp ≤ 0x7F
  · simp only [if_pos c1, Nat.mod_eq_of_lt (show cp < 256 by omega)]
  · simp only [if_neg c1]
    by_cases c2 : cp ≤ 0x7FF
    · simp only [if_pos c2]
      rw [or_c0 _ (by omega), or_80 _ (by omega), Nat.mod_eq_of_lt (show _ < 256 by omega),
        Nat.mod_eq_of_lt (show _ < 256 by omega)]
    · simp only [if_neg c2]
      by_cases c3 : cp ≤ 0xFFFF
      · simp only [if_pos c3, ge_iff_le, if_neg h2]
        rw [or_e0 _ (by omega), or_80 _ (by omega), or_80 _ (by omega),
          Nat.mod_eq_of_lt (show _ < 256 by omega), Nat.mod_eq_of_lt (show _ < 256 by omega), Nat.mod_eq_of_lt (show _ < 256 by omega)]
      · simp only [if_neg c3, if_pos h1]
        rw [or_f0 _ (by omega), or_80 _ (by omega), or_80 _ (by omega), or_80 _ (by omega),
          Nat.mod_eq_of_lt (show _ < 256 by omega), Nat.mod_eq_of_lt (show _ < 256 by omega), Nat.mod_eq_of_lt (show _ < 256 by omega),
          Nat.mod_eq_of_lt (show _ < 256 by omega)]

/-- The encoder of one value fails exactly on surrogates and above U+10FFFF. -/
theorem u8_encode_codepoint_none (cp : Nat) :
    u8_encode_codepoint cp = none ↔ (0xD800 ≤ cp ∧ cp ≤ 0xDFFF) ∨ 0x10FFFF < cp := by
  constructor
  · intro h
    by_contra hc
    rw [u8_encode_codepoint_layout cp (by omega) (by omega)] at h
    exact absurd h (by simp)
  · intro h
    unfold u8_encode_codepoint
    rcases h with h | h
    · rw [if_neg (by omega), if_neg (by omega), if_pos (by omega), if_pos (by omega)]
    · rw [if_neg (by omega), if_neg (by omega), if_neg (by omega), if_neg (by omega)]

theorem layout_isSeq (cp : Nat) (h : IsScalar cp) :
    IsSeq (layout cp) ∧ seqValue (layout cp) = cp := by
  obtain ⟨h0, h1, h2⟩ := h
  unfold layout
  by_cases c1 : cp ≤ 0x7F
  · simp only [if_pos c1, IsSeq, seqValue]; omega
  · simp only [if_neg c1]
    by_cases c2 : cp ≤ 0x7FF
    · simp only [if_pos c2, IsSeq, seqValue]; omega
    · simp only [if_neg c2]
      by_cases c3 : cp ≤ 0xFFFF
      · simp only [if_pos c3, IsSeq, seqValue]; omega
      · simp only [if_neg c3, IsSeq, seqValue]; omega

theorem seqValue_layout (q : List Nat) (h : IsSeq q) :
    IsScalar (seqValue q) ∧ layout (seqValue q) = q := by
  rcases q with _ | ⟨a, _ | ⟨b, _ | ⟨c, _ | ⟨d, _ | ⟨e, t⟩⟩⟩⟩⟩ <;> simp only [IsSeq] at h
  · have hv : seqValue [a] = a := by simp only [seqValue]; omega
    rw [hv]
    refine ⟨⟨by omega, by omega, by omega⟩, ?_⟩
    simp only [layout, if_pos h.2]
  · obtain ⟨v, hv⟩ : ∃ v, v = seqValue [a, b] := ⟨_, rfl⟩
    rw [← hv]
    simp only [seqValue] at hv
    refine ⟨⟨by omega, by omega, by omega⟩, ?_⟩
    simp only [layout]
    rw [if_neg (by omega), if_pos (by omega)]
    congr 1
    · omega
    · congr 1; omega
  · obtain ⟨v, hv⟩ : ∃ v, v = seqValue [a, b, c] := ⟨_, rfl⟩
    rw [← hv]
    simp only [seqValue] at hv
    refine ⟨⟨by omega, by omega, by omega⟩, ?_⟩
    simp only [layout]
    rw [if_neg (by omega), if_neg (by omega), if_pos (by omega)]
    congr 1
    · omega
    · congr 1
      · omega
      · congr 1; omega
  · obtain ⟨v, hv⟩ : ∃ v, v = seqValue [a, b, c, d] := ⟨_, rfl⟩
    rw [← hv]
    simp only [seqValue] at hv
    refine ⟨⟨by omega, by omega, by omega⟩, ?_⟩
    simp only [layout]
    rw [if_neg (by omega), if_neg (by omega), if_neg (by omega)]
    congr 1
    · omega
    · congr 1
      · omega
      · congr 1
        · omega
        · congr 1; omega

/-! ### The encoder loop -/

theorem u8enc_loop_scalars (cps rest out : List Nat) (h : ∀ c ∈ cps, IsScalar c) :
    u8enc_loop (cps ++ rest) out = u8enc_loop rest (out ++ (cps.map layout).flatten) := by
  induction cps generalizing out with
  | nil => simp
  | cons c cps ih =>
    obtain ⟨h0, h1, h2⟩ := h c (by simp)
    have hc : c ≠ 0 := by omega
    rw [List.cons_append, u8enc_loop, if_neg hc, u8_encode_codepoint_layout c h1 h2]
    simp only []
    rw [ih _ (fun x hx => h x (by simp [hx]))]
    simp

theorem u8enc_loop_zeros (k : Nat) (out : List Nat) :
    u8enc_loop (List.replicate k 0) out = some out := by
  cases k with
  | zero => simp [u8enc_loop]
  | succ k => simp [List.replicate_succ, u8enc_loop]

theorem u8enc_loop_spec (src out : List Nat) :
    (u8enc_loop src out = none ↔
      ∃ c ∈ src.takeWhile (fun c => c ≠ 0), (0xD800 ≤ c ∧ c ≤ 0xDFFF) ∨ 0x10FFFF < c) ∧
    (∀ bytes, u8enc_loop src out = some bytes →
      bytes = out ++ ((src.takeWhile (fun c => c ≠ 0)).map layout).flatten) := by
  induction src generalizing out with
  | nil => simp [u8enc_loop]
  | cons c src ih =>
    by_cases hc : c = 0
    · subst hc
      simp [u8enc_loop]
    · rw [u8enc_loop, if_neg hc, List.takeWhile_cons_of_pos (by simpa using hc)]
      by_cases hbad : (0xD800 ≤ c ∧ c ≤ 0xDFFF) ∨ 0x10FFFF < c
      · rw [(u8_encode_codepoint_none c).mpr hbad]
        simp only [true_iff, reduceCtorEq, false_implies, implies_true, and_true]
        exact ⟨c, by simp, hbad⟩
      · rw [u8_encode_codepoint_layout c (by omega) (by omega)]
        simp only []
        obtain ⟨ih1, ih2⟩ := ih (out ++ layout c)
        constructor
        · rw [ih1]
          constructor
          · rintro ⟨x, hx, hx2⟩
            exact ⟨x, List.mem_cons_of_mem _ hx, hx2⟩
          · rintro ⟨x, hx, hx2⟩
            rcases List.mem_cons.mp hx with rfl | hx
            · exact absurd hx2 hbad
            · exact ⟨x, hx, hx2⟩
        · intro bytes hb
          rw [ih2 bytes hb]
          simp

/-! ### Reading the returned array -/

theorem length_le_flatten (qs : List (List Nat)) (h : ∀ q ∈ qs, q ≠ []) :
    qs.length ≤ qs.flatten.length := by
  induction qs with
  | nil => simp
  | cons q qs ih =>
    have hq : 0 < q.length := List.length_pos.mpr (h q (by simp))
    have := ih (fun x hx => h x (by simp [hx]))
    simp only [List.length_cons, List.flatten_cons, List.length_append]
    omega

theorem pad_eq (n : Nat) (vals : List Nat) (h : vals.length < n) :
    pad n vals = vals ++ 0 :: List.replicate (n - vals.length - 1) 0 := by
  obtain ⟨k, hk⟩ : ∃ k, n - vals.length = k + 1 := ⟨n - vals.length - 1, by omega⟩
  unfold pad
  rw [hk]
  simp [List.replicate_succ]

theorem take_pad (n : Nat) (vals : List Nat) (h : vals.length < n) :
    (pad n vals).take (vals.length + 1) = vals ++ [0] := by
  rw [pad_eq n vals h, List.take_append_eq_append_take]
  simp

theorem codepoints_pad (n : Nat) (vals : List Nat) (h : ∀ v ∈ vals, v ≠ 0) :
    codepoints (pad n vals) = vals := by
  unfold codepoints pad
  rw [List.takeWhile_append]
  have h1 : List.takeWhile (fun c => decide (c ≠ 0)) vals = vals :=
    List.takeWhile_eq_self_iff.mpr (fun v hv => by simpa using h v hv)
  rw [h1, if_pos rfl]
  cases hk : n - vals.length with
  | zero => simp
  | succ k => simp [List.replicate_succ]

theorem seqValues_ne_zero (qs : List (List Nat)) (h : ∀ q ∈ qs, IsSeq q) :
    ∀ v ∈ qs.map seqValue, v ≠ 0 := by
  intro v hv
  obtain ⟨q, hq, rfl⟩ := List.mem_map.mp hv
  have := (seqValue_layout q (h q hq)).1.1
  omega

theorem flatten_layout (qs : List (List Nat)) (h : ∀ q ∈ qs, IsSeq q) :
    ((qs.map seqValue).map layout).flatten = qs.flatten := by
  induction qs with
  | nil => simp
  | cons q qs ih =>
    simp only [List.map_cons, List.flatten_cons]
    rw [(seqValue_layout q (h q (by simp))).2, ih (fun x hx => h x (by simp [hx]))]

/-- The result of `u8dec` in either mode on a well-formed string. -/
theorem u8dec_wellFormed (r : Bool) (qs : List (List Nat)) (h : ∀ q ∈ qs, IsSeq q) :
    u8dec qs.flatten r = .ok (pad (qs.flatten.length + 1) (qs.map seqValue)) := by
  rw [u8dec_eq_decodeBytes _ r (wellFormed_nulFree _ ⟨qs, h, rfl⟩),
    decodeBytes_wellFormed r qs h]
  rfl

/-! ### Replace mode against reject mode -/

theorem scan_bad_lead (r : Bool) (b : Nat) (t : List Nat)
    (hb : (0x80 ≤ b ∧ b ≤ 0xC1) ∨ 0xF5 ≤ b) :
    scan r 0 0 0 0x80 0xBF (b :: t) = onError r (scan r 0 0 0 0x80 0xBF t) := by
  rw [scan_fresh, if_neg (by omega), if_neg (by omega), if_neg (by omega), if_neg (by omega)]

theorem onError_true (o : List Nat) : onError true (some o) = some (0xFFFD :: o) := by
  simp [onError]

theorem scan_replace_total (t : List Nat) :
    ∀ need seen cp lo hi, ∃ o, scan true need seen cp lo hi t = some o := by
  induction t with
  | nil =>
    intro need seen cp lo hi
    rw [scan_nil]
    split_ifs
    · exact ⟨_, onError_true []⟩
    · exact ⟨_, rfl⟩
  | cons b t ih =>
    have hfresh : ∃ o, scan true 0 0 0 0x80 0xBF (b :: t) = some o := by
      rw [scan_fresh]
      obtain ⟨o, ho⟩ := ih 0 0 0 0x80 0xBF
      split_ifs <;> first
        | exact ih _ _ _ _ _
        | exact ⟨b :: o, by rw [ho]; rfl⟩
        | exact ⟨_, by rw [ho, onError_true]⟩
    intro need seen cp lo hi
    by_cases hn : need = 0
    · subst hn
      rw [scan_need_zero]
      exact hfresh
    · by_cases hr : b < lo ∨ hi < b
      · obtain ⟨o, ho⟩ := hfresh
        rw [scan_break true need seen cp lo hi b t hn hr, ho]
        exact ⟨_, onError_true o⟩
      · rw [scan_cont true need seen cp lo hi b t hn (by omega) (by omega)]
        split_ifs
        · exact ih _ _ _ _ _
        · obtain ⟨o, ho⟩ := ih 0 0 0 0x80 0xBF
          exact ⟨_, by rw [ho]; rfl⟩

theorem scan_reject_agree (t : List Nat) :
    ∀ need seen cp lo hi o, scan false need seen cp lo hi t = some o →
      scan true need seen cp lo hi t = some o := by
  induction t with
  | nil =>
    intro need seen cp lo hi o h
    rw [scan_nil] at h ⊢
    split_ifs at h ⊢
    · rw [onError_false] at h; exact absurd h (by simp)
    · exact h
  | cons b t ih =>
    have hfresh : ∀ o, scan false 0 0 0 0x80 0xBF (b :: t) = some o →
        scan true 0 0 0 0x80 0xBF (b :: t) = some o := by
      intro o h
      rw [scan_fresh] at h ⊢
      split_ifs at h ⊢ <;> first
        | exact ih _ _ _ _ _ o h
        | (rw [onError_false] at h; exact absurd h (by simp))
        | (obtain ⟨o1, h1, rfl⟩ := Option.map_eq_some'.mp h
           rw [ih _ _ _ _ _ o1 h1]; rfl)
    intro need seen cp lo hi o h
    by_cases hn : need = 0
    · subst hn
      rw [scan_need_zero] at h ⊢
      exact hfresh o h
    · by_cases hr : b < lo ∨ hi < b
      · rw [scan_break false need seen cp lo hi b t hn hr, onError_false] at h
        exact absurd h (by simp)
      · rw [scan_cont false need seen cp lo hi b t hn (by omega) (by omega)] at h
        rw [scan_cont true need seen cp lo hi b t hn (by omega) (by omega)]
        split_ifs at h ⊢
        · exact ih _ _ _ _ _ o h
        · obtain ⟨o1, h1, rfl⟩ := Option.map_eq_some'.mp h
          rw [ih _ _ _ _ _ o1 h1]; rfl

/-- A pending sequence stops at the end of the string or at a byte outside
`80 .. BF`, with one error; the byte is then read as a lead byte. -/
theorem scan_pending_stop (r : Bool) (need seen cp lo hi : Nat) (rest : List Nat)
    (hn : need ≠ 0) (hlo : 0x80 ≤ lo) (hhi : hi ≤ 0xBF)
    (hrest : ∀ c ∈ rest.head?, c < 0x80 ∨ 0xBF < c) :
    scan r need seen cp lo hi rest = onError r (scan r 0 0 0 0x80 0xBF rest) := by
  cases rest with
  | nil => rw [scan_nil, scan_nil, if_pos (Nat.pos_of_ne_zero hn), if_neg (by decide)]
  | cons c rest =>
    have := hrest c (by simp)
    rw [scan_break r need seen cp lo hi c rest hn (by omega)]

theorem scan_overlong (r : Bool) (s : List Nat) (h : IsOverlongOrSurrogate s) :
    scan r 0 0 0 0x80 0xBF s
      = if r then some (List.replicate s.length 0xFFFD) else none := by
  have e0 : scan r 0 0 0 0x80 0xBF [] = some [] := by rw [scan_nil, if_neg (by decide)]
  rcases s with _ | ⟨a, _ | ⟨b, _ | ⟨c, _ | ⟨d, _ | ⟨e, t⟩⟩⟩⟩⟩ <;>
    simp only [IsOverlongOrSurrogate] at h
  · rw [scan_bad_lead r a _ (by omega), scan_bad_lead r b _ (by omega), e0]
    cases r <;> simp [onError, List.replicate_succ]
  · rw [scan_fresh, if_neg (by omega), if_neg (by omega), if_pos (by omega),
      scan_break r 2 0 _ _ _ b [c] (by decide) (by split_ifs <;> omega),
      scan_bad_lead r b _ (by omega), scan_bad_lead r c _ (by omega), e0]
    cases r <;> simp [onError, List.replicate_succ]
  · rw [scan_fresh, if_neg (by omega), if_neg (by omega), if_neg (by omega), if_pos (by omega),
      scan_break r 3 0 _ _ _ b [c, d] (by decide) (by split_ifs <;> omega),
      scan_bad_lead r b _ (by omega), scan_bad_lead r c _ (by omega),
      scan_bad_lead r d _ (by omega), e0]
    cases r <;> simp [onError, List.replicate_succ]

theorem overlong_nulFree (s : List Nat) (h : IsOverlongOrSurrogate s) : NulFree s := by
  rcases s with _ | ⟨a, _ | ⟨b, _ | ⟨c, _ | ⟨d, _ | ⟨e, t⟩⟩⟩⟩⟩ <;>
    simp only [IsOverlongOrSurrogate] at h
  all_goals
    intro x hx
    simp only [List.mem_cons, List.mem_singleton, List.not_mem_nil, or_false] at hx
    omega

theorem nulFree_append (s t : List Nat) (hs : NulFree s) (ht : NulFree t) :
    NulFree (s ++ t) := by
  intro b hb
  rcases List.mem_append.mp hb with h | h
  · exact hs b h
  · exact ht b h

/-- The values stored around one error between two well-formed strings. -/
theorem u8dec_one_error (u m v : List Nat) (hu : WellFormed u) (hv : WellFormed v)
    (hm : NulFree m)
    (hstep : ∀ (r : Bool) (rest : List Nat), (∀ c ∈ rest.head?, c < 0x80 ∨ 0xBF < c) →
      scan r 0 0 0 0x80 0xBF (m ++ rest) = onError r (scan r 0 0 0 0x80 0xBF rest))
    (hhead : ∀ c ∈ v.head?, c < 0x80 ∨ 0xBF < c) :
    u8dec (u ++ m ++ v) false = .null ∧
    ∃ du dv dest, u8dec u false = .ok du ∧ u8dec v false = .ok dv ∧
      u8dec (u ++ m ++ v) true = .ok dest ∧
      codepoints dest = codepoints du ++ [0xFFFD] ++ codepoints dv := by
  have hnf : NulFree (u ++ m ++ v) :=
    nulFree_append _ _ (nulFree_append _ _ (wellFormed_nulFree u hu) hm)
      (wellFormed_nulFree v hv)
  obtain ⟨qu, hqu, rfl⟩ := hu
  obtain ⟨qv, hqv, rfl⟩ := hv
  have hscan : ∀ r : Bool, decodeBytes r (qu.flatten ++ m ++ qv.flatten)
      = (onError r (some (qv.map seqValue))).map (fun o => qu.map seqValue ++ o) := by
    intro r
    rw [decodeBytes, List.append_assoc, scan_seqs r qu _ hqu, hstep r _ hhead]
    have := decodeBytes_wellFormed r qv hqv
    rw [decodeBytes] at this
    rw [this]
  refine ⟨?_, _, _,
    pad ((qu.flatten ++ m ++ qv.flatten).length + 1)
      (qu.map seqValue ++ 0xFFFD :: qv.map seqValue),
    u8dec_wellFormed false qu hqu, u8dec_wellFormed false qv hqv, ?_, ?_⟩
  · rw [u8dec_eq_decodeBytes _ false hnf, hscan false, onError_false]
    rfl
  · rw [u8dec_eq_decodeBytes _ true hnf, hscan true, onError_true]
    rfl
  · rw [codepoints_pad _ _ (seqValues_ne_zero qu hqu),
      codepoints_pad _ _ (seqValues_ne_zero qv hqv), codepoints_pad]
    · simp
    · intro x hx
      simp only [List.mem_append, List.mem_cons] at hx
      rcases hx with h | h | h
      · exact seqValues_ne_zero qu hqu x h
      · omega
      · exact seqValues_ne_zero qv hqv x h

theorem wellFormed_head (v : List Nat) (hv : WellFormed v) :
    ∀ c ∈ v.head?, c < 0x80 ∨ 0xBF < c := by
  obtain ⟨qs, hqs, rfl⟩ := hv
  cases qs with
  | nil => simp
  | cons q qs =>
    have hq := hqs q (by simp)
    rcases q with _ | ⟨a, _ | ⟨b, _ | ⟨c, _ | ⟨d, _ | ⟨e, t⟩⟩⟩⟩⟩ <;>
      simp only [IsSeq] at hq <;>
      simp only [List.flatten_cons, List.cons_append, List.head?_cons, Option.mem_def,
        Option.some.injEq, forall_eq'] <;> omega

/-- A proper non-empty prefix of a well-formed sequence, followed by the end of
the string or by a byte outside `80 .. BF`, is one error. -/
theorem scan_truncated (r : Bool) (p t rest : List Nat) (hp : p ≠ []) (ht : t ≠ [])
    (hseq : IsSeq (p ++ t)) (hrest : ∀ c ∈ rest.head?, c < 0x80 ∨ 0xBF < c) :
    scan r 0 0 0 0x80 0xBF (p ++ rest) = onError r (scan r 0 0 0 0x80 0xBF rest) := by
  rcases p with _ | ⟨a, _ | ⟨b, _ | ⟨c, _ | ⟨d, p⟩⟩⟩⟩
  · exact absurd rfl hp
  · -- the lead byte alone
    rcases t with _ | ⟨b, _ | ⟨c, _ | ⟨d, _ | ⟨e, t⟩⟩⟩⟩ <;>
      simp only [List.cons_append, List.nil_append, IsSeq] at hseq
    · exact absurd rfl ht
    · rw [List.cons_append, List.nil_append, scan_fresh, if_neg (by omega), if_pos (by omega)]
      exact scan_pending_stop r _ _ _ _ _ rest (by decide) (by omega) (by omega) hrest
    · rw [List.cons_append, List.nil_append, scan_fresh, if_neg (by omega), if_neg (by omega),
        if_pos (by omega)]
      exact scan_pending_stop r _ _ _ _ _ rest (by decide) (by split_ifs <;> omega)
        (by split_ifs <;> omega) hrest
    · rw [List.cons_append, List.nil_append, scan_fresh, if_neg (by omega), if_neg (by omega),
        if_neg (by omega), if_pos (by omega)]
      exact scan_pending_stop r _ _ _ _ _ rest (by decide) (by split_ifs <;> omega)
        (by split_ifs <;> omega) hrest
  · -- the lead byte and one continuation byte
    rcases t with _ | ⟨c, _ | ⟨d, _ | ⟨e, t⟩⟩⟩ <;>
      simp only [List.cons_append, List.nil_append, IsSeq] at hseq
    · exact absurd rfl ht
    · rw [List.cons_append, List.cons_append, List.nil_append, scan_fresh, if_neg (by omega),
        if_neg (by omega), if_pos (by omega),
        scan_cont r 2 0 _ _ _ b rest (by decide) (by split_ifs <;> omega)
          (by split_ifs <;> omega), if_pos (by decide)]
      exact scan_pending_stop r _ _ _ _ _ rest (by decide) (by omega) (by omega) hrest
    · rw [List.cons_append, List.cons_append, List.nil_append, scan_fresh, if_neg (by omega),
        if_neg (by omega), if_neg (by omega), if_pos (by omega),
        scan_cont r 3 0 _ _ _ b rest (by decide) (by split_ifs <;> omega)
          (by split_ifs <;> omega), if_pos (by decide)]
      exact scan_pending_stop r _ _ _ _ _ rest (by decide) (by omega) (by omega) hrest
  · -- the lead byte and two continuation bytes
    rcases t with _ | ⟨d, _ | ⟨e, t⟩⟩ <;>
      simp only [List.cons_append, List.nil_append, IsSeq] at hseq
    · exact absurd rfl ht
    · rw [List.cons_append, List.cons_append, List.cons_append, List.nil_append, scan_fresh,
        if_neg (by omega), if_neg (by omega), if_neg (by omega), if_pos (by omega),
        scan_cont r 3 0 _ _ _ b (c :: rest) (by decide) (by split_ifs <;> omega)
          (by split_ifs <;> omega), if_pos (by decide),
        scan_cont r 3 (0 + 1) _ _ _ c rest (by decide) (by omega) (by omega),
        if_pos (by decide)]
      exact scan_pending_stop r _ _ _ _ _ rest (by decide) (by omega) (by omega) hrest
  · -- four bytes or more are no proper prefix
    rcases t with _ | ⟨e, t⟩
    · exact absurd rfl ht
    · simp [IsSeq] at hseq

theorem isSeq_prefix_nulFree (p t : List Nat) (hseq : IsSeq (p ++ t)) : NulFree p := by
  intro x hx
  exact (isSeq_bytes _ hseq).2 x (List.mem_append_left t hx)

/-- The array `u8dec` returns in reject mode for the concatenation of the
well-formed sequences `qs`: their values, then the terminator. -/
theorem u8dec_wellFormed_read (qs : List (List Nat)) (hqs : ∀ q ∈ qs, IsSeq q) :
    ∃ dest, u8dec qs.flatten false = .ok dest ∧
      dest.take (qs.length + 1) = qs.map seqValue ++ [0] ∧
      codepoints dest = qs.map seqValue := by
  refine ⟨_, u8dec_wellFormed false qs hqs, ?_, codepoints_pad _ _ (seqValues_ne_zero qs hqs)⟩
  have hlen : (qs.map seqValue).length < qs.flatten.length + 1 := by
    have := length_le_flatten qs (fun q hq => (isSeq_bytes q (hqs q hq)).1)
    simp only [List.length_map]
    omega
  have := take_pad _ _ hlen
  simpa using this

/-- Any number of iterations from `2 * strlen(src) + 2` on gives the loop of
`u8dec` the same result, which is an array or `NULL`. -/
theorem u8dec_loop_fuel (s : List Nat) (r : Bool) (hs : NulFree s) (fuel : Nat)
    (hfuel : 2 * s.length + 2 ≤ fuel) :
    u8dec_loop s r (s.length + 1) fuel u8_decode_ctx (List.replicate (s.length + 1) 0) 0
      = u8dec s r := by
  rw [u8dec_eq_decodeBytes s r hs]
  have h := loop_eq_scan s r hs s fuel { u8_decode_ctx with saveptr := some 0 } []
    0 rfl rfl (by intro _; exact ⟨rfl, rfl, rfl⟩) (by simp [u8_decode_ctx]) hfuel
  simp only [pad, List.nil_append, List.length_nil, Nat.sub_zero] at h
  have e : (fun (o : List Nat) => o) = id := rfl
  simp only [e, Option.map_id, id] at h
  rw [loop_null_saveptr _ _ _ _ _ _ _ rfl, h]
  rfl

/-! ### The single-codepoint decoder on well-formed sequences -/

set_option maxRecDepth 100000 in
theorem ascii_iff : ∀ x < 256, (x &&& 0x80 = 0 ↔ x ≤ 0x7F) := by decide

set_option maxRecDepth 100000 in
theorem lead2_iff : ∀ x < 256, (x &&& 0xE0 = 0xC0 ↔ 0xC0 ≤ x ∧ x ≤ 0xDF) := by decide

set_option maxRecDepth 100000 in
theorem lead3_iff : ∀ x < 256, (x &&& 0xF0 = 0xE0 ↔ 0xE0 ≤ x ∧ x ≤ 0xEF) := by decide

set_option maxRecDepth 100000 in
theorem lead4_iff : ∀ x < 256, (x &&& 0xF8 = 0xF0 ↔ 0xF0 ≤ x ∧ x ≤ 0xF7) := by decide

set_option maxRecDepth 100000 in
theorem cont_iff : ∀ x < 256, (x &&& 0xC0 = 0x80 ↔ 0x80 ≤ x ∧ x ≤ 0xBF) := by decide

theorem pack2 (a b : Nat) :
    (((a &&& 0x1F) <<< 6) ||| (b &&& 0x3F)) % 4294967296 = (a % 32) * 64 + b % 64 := by
  rw [and_mask5, and_mask6, Nat.shiftLeft_eq,
    or_tag _ 6 _ (by simp [Nat.mul_mod_left]) (by simp; omega)]
  simp only [Nat.reducePow]
  omega

theorem pack3 (a b c : Nat) :
    (((a &&& 0x0F) <<< 12) ||| ((b &&& 0x3F) <<< 6) ||| (c &&& 0x3F)) % 4294967296
      = ((a % 16) * 64 + b % 64) * 64 + c % 64 := by
  rw [and_mask4, and_mask6, and_mask6, Nat.shiftLeft_eq, Nat.shiftLeft_eq,
    or_tag (a % 16 * 2 ^ 12) 12 (b % 64 * 2 ^ 6) (by simp) (by simp; omega),
    or_tag (a % 16 * 2 ^ 12 + b % 64 * 2 ^ 6) 6 (c % 64) (by simp; omega) (by simp; omega)]
  simp only [Nat.reducePow]
  omega

theorem pack4 (a b c d : Nat) :
    (((a &&& 0x07) <<< 18) ||| ((b &&& 0x3F) <<< 12) ||| ((c &&& 0x3F) <<< 6)
        ||| (d &&& 0x3F)) % 4294967296
      = (((a % 8) * 64 + b % 64) * 64 + c % 64) * 64 + d % 64 := by
  rw [and_mask3, and_mask6, and_mask6, and_mask6, Nat.shiftLeft_eq, Nat.shiftLeft_eq,
    Nat.shiftLeft_eq,
    or_tag (a % 8 * 2 ^ 18) 18 (b % 64 * 2 ^ 12) (by simp) (by simp; omega),
    or_tag (a % 8 * 2 ^ 18 + b % 64 * 2 ^ 12) 12 (c % 64 * 2 ^ 6) (by simp; omega)
      (by simp; omega),
    or_tag (a % 8 * 2 ^ 18 + b % 64 * 2 ^ 12 + c % 64 * 2 ^ 6) 6 (d % 64) (by simp; omega)
      (by simp; omega)]
  simp only [Nat.reducePow]
  omega

/-- On a window that starts with a well-formed sequence `utf8_decode_sequence`
succeeds with the value and the length of that sequence: on well-formed input
the single-codepoint decoder and the bulk decoder agree. -/
theorem utf8_decode_sequence_isSeq (q rest : List Nat) (cp0 n0 : Nat) (h : IsSeq q) :
    utf8_decode_sequence (q ++ rest) cp0 n0 = ⟨0, seqValue q, q.length⟩ := by
  have hbytes := (isSeq_bytes q h).2
  rcases q with _ | ⟨a, _ | ⟨b, _ | ⟨c, _ | ⟨d, _ | ⟨e, t⟩⟩⟩⟩⟩ <;> simp only [IsSeq] at h
  · have ha : a % 256 = a := Nat.mod_eq_of_lt (hbytes a (by simp)).2
    have hv : seqValue [a] = a := by simp only [seqValue]; omega
    simp only [utf8_decode_sequence, List.cons_append, List.nil_append, List.length_cons,
      List.getD_cons_zero, ha, hv]
    simp [h.2]
  · have ha : a % 256 = a := Nat.mod_eq_of_lt (hbytes a (by simp)).2
    have hb : b % 256 = b := Nat.mod_eq_of_lt (hbytes b (by simp)).2
    have h1 : a &&& 0xE0 = 0xC0 := (lead2_iff a (by omega)).mpr (by omega)
    have h2 : b &&& 0xC0 = 0x80 := (cont_iff b (by omega)).mpr (by omega)
    simp only [utf8_decode_sequence, List.cons_append, List.nil_append, List.length_cons,
      List.getD_cons_zero, List.getD_cons_succ, ha, hb, h1, h2, pack2, seqValue]
    have hA : ¬ a ≤ 127 := by omega
    simp [hA]
  · have ha : a % 256 = a := Nat.mod_eq_of_lt (hbytes a (by simp)).2
    have hb : b % 256 = b := Nat.mod_eq_of_lt (hbytes b (by simp)).2
    have hc : c % 256 = c := Nat.mod_eq_of_lt (hbytes c (by simp)).2
    have h0 : ¬ (a &&& 0xE0 = 0xC0) := fun e => by
      have := (lead2_iff a (by omega)).mp e; omega
    have h1 : a &&& 0xF0 = 0xE0 := (lead3_iff a (by omega)).mpr (by omega)
    have h2 : b &&& 0xC0 = 0x80 := (cont_iff b (by omega)).mpr (by omega)
    have h3 : c &&& 0xC0 = 0x80 := (cont_iff c (by omega)).mpr (by omega)
    simp only [utf8_decode_sequence, List.cons_append, List.nil_append, List.length_cons,
      List.getD_cons_zero, List.getD_cons_succ, ha, hb, hc, h1, h2, h3, pack3, seqValue]
    have hA : ¬ a ≤ 127 := by omega
    simp [hA, h0]
  · have ha : a % 256 = a := Nat.mod_eq_of_lt (hbytes a (by simp)).2
    have hb : b % 256 = b := Nat.mod_eq_of_lt (hbytes b (by simp)).2
    have hc : c % 256 = c := Nat.mod_eq_of_lt (hbytes c (by simp)).2
    have hd : d % 256 = d := Nat.mod_eq_of_lt (hbytes d (by simp)).2
    have h0 : ¬ (a &&& 0xE0 = 0xC0) := fun e => by
      have := (lead2_iff a (by omega)).mp e; omega
    have h00 : ¬ (a &&& 0xF0 = 0xE0) := fun e => by
      have := (lead3_iff a (by omega)).mp e; omega
    have h1 : a &&& 0xF8 = 0xF0 := (lead4_iff a (by omega)).mpr (by omega)
    have h2 : b &&& 0xC0 = 0x80 := (cont_iff b (by omega)).mpr (by omega)
    have h3 : c &&& 0xC0 = 0x80 := (cont_iff c (by omega)).mpr (by omega)
    have h4 : d &&& 0xC0 = 0x80 := (cont_iff d (by omega)).mpr (by omega)
    simp only [utf8_decode_sequence, List.cons_append, List.nil_append, List.length_cons,
      List.getD_cons_zero, List.getD_cons_succ, ha, hb, hc, hd, h1, h2, h3, h4, pack4, seqValue]
    have hA : ¬ a ≤ 127 := by omega
    simp [hA, h0, h00]

/-! ### The single-codepoint decoder and its window -/

theorem window_length (mem : List Nat) (data end_ : Nat) :
    (window mem data end_).length = end_ - data := by
  simp [window]

theorem window_getD (mem : List Nat) (data end_ i : Nat) (h : data + i < end_) :
    (window mem data end_).getD i 0 = mem.getD (data + i) 0 := by
  have hi : i < end_ - data := by omega
  rw [List.getD_eq_getElem _ _ (by rw [window_length]; exact hi)]
  simp [window]

/-- The pointer form of `utf8_decode_sequence` reads nothing but the bytes of
`[data, end_)`: it is the window form applied to those bytes. -/
theorem utf8_decode_sequence_at_eq (mem : List Nat) (data end_ cp0 n0 : Nat) :
    utf8_decode_sequence_at mem data end_ cp0 n0
      = utf8_decode_sequence (window mem data end_) cp0 n0 := by
  unfold utf8_decode_sequence_at utf8_decode_sequence
  rw [window_length]
  by_cases h0 : data ≥ end_
  · rw [if_pos h0, if_pos (show end_ - data = 0 by omega)]
  · rw [if_neg h0, if_neg (show ¬ (end_ - data = 0) by omega)]
    have e0 : (window mem data end_).getD 0 0 = mem.getD data 0 := by
      simpa using window_getD mem data end_ 0 (by omega)
    rw [e0]
    simp only []
    by_cases c1 : mem.getD data 0 % 256 ≤ 0x7F
    · rw [if_pos c1, if_pos c1]
    · rw [if_neg c1, if_neg c1]
      by_cases c2 : mem.getD data 0 % 256 &&& 0xE0 = 0xC0
      · rw [if_pos c2, if_pos c2]
        by_cases b2 : data + 2 > end_
        · rw [if_pos b2, if_pos (show 2 > end_ - data by omega)]
        · rw [if_neg b2, if_neg (show ¬ (2 > end_ - data) by omega), window_getD mem data end_ 1 (by omega)]
      · rw [if_neg c2, if_neg c2]
        by_cases c3 : mem.getD data 0 % 256 &&& 0xF0 = 0xE0
        · rw [if_pos c3, if_pos c3]
          by_cases b3 : data + 3 > end_
          · rw [if_pos b3, if_pos (show 3 > end_ - data by omega)]
          · rw [if_neg b3, if_neg (show ¬ (3 > end_ - data) by omega), window_getD mem data end_ 1 (by omega),
              window_getD mem data end_ 2 (by omega)]
        · rw [if_neg c3, if_neg c3]
          by_cases c4 : mem.getD data 0 % 256 &&& 0xF8 = 0xF0
          · rw [if_pos c4, if_pos c4]
            by_cases b4 : data + 4 > end_
            · rw [if_pos b4, if_pos (show 4 > end_ - data by omega)]
            · rw [if_neg b4, if_neg (show ¬ (4 > end_ - data) by omega), window_getD mem data end_ 1 (by omega),
                window_getD mem data end_ 2 (by omega), window_getD mem data end_ 3 (by omega)]
          · rw [if_neg c4, if_neg c4]

theorem window_congr (mem mem2 : List Nat) (data end_ : Nat)
    (h : ∀ i, data ≤ i → i < end_ → mem.getD i 0 = mem2.getD i 0) :
    window mem data end_ = window mem2 data end_ := by
  unfold window
  apply List.map_congr_left
  intro i hi
  have := List.mem_range.mp hi
  exact h (data + i) (by omega) (by omega)

/-- A successful `utf8_decode_sequence` consumed between 1 and 4 bytes, all of
them before `end_`. -/
theorem utf8_decode_sequence_at_consumed (mem : List Nat) (data end_ cp0 n0 : Nat)
    (h : (utf8_decode_sequence_at mem data end_ cp0 n0).ret = 0) :
    1 ≤ (utf8_decode_sequence_at mem data end_ cp0 n0).bytes_consumed ∧
    (utf8_decode_sequence_at mem data end_ cp0 n0).bytes_consumed ≤ 4 ∧
    data + (utf8_decode_sequence_at mem data end_ cp0 n0).bytes_consumed ≤ end_ := by
  revert h
  unfold utf8_decode_sequence_at
  simp only []
  split_ifs <;> simp <;> omega

theorem window_eq_drop (s : List Nat) (p : Nat) : window s p s.length = s.drop p := by
  apply List.ext_getElem
  · simp [window]
  · intro i h1 h2
    simp only [window, List.getElem_map, List.getElem_range, List.getElem_drop]
    rw [window_length] at h1
    exact List.getD_eq_getElem _ _ (by omega)

/-! ### The iterator on a well-formed string -/

theorem flatten_split (qs : List (List Nat)) (i : Nat) (h : i < qs.length) :
    qs.flatten = (qs.take i).flatten ++ (qs.getD i [] ++ (qs.drop (i + 1)).flatten) := by
  have h1 : qs = qs.take i ++ (qs.getD i [] :: qs.drop (i + 1)) := by
    rw [List.getD_eq_getElem _ _ h, List.getElem_cons_drop, List.take_append_drop]
  conv_lhs => rw [h1]
  rw [List.flatten_append, List.flatten_cons]

theorem boundary_succ (qs : List (List Nat)) (i : Nat) (h : i < qs.length) :
    boundary qs (i + 1) = boundary qs i + (qs.getD i []).length := by
  unfold boundary
  have : qs.take (i + 1) = qs.take i ++ [qs.getD i []] := by
    rw [List.getD_eq_getElem _ _ h, List.take_succ, List.getElem?_eq_getElem h]
    rfl
  rw [this]
  simp

theorem boundary_zero (qs : List (List Nat)) : boundary qs 0 = 0 := by
  simp [boundary]

theorem boundary_length (qs : List (List Nat)) : boundary qs qs.length = qs.flatten.length := by
  simp [boundary]

theorem getD_mem_isSeq (qs : List (List Nat)) (hqs : ∀ q ∈ qs, IsSeq q) (i : Nat)
    (h : i < qs.length) : IsSeq (qs.getD i []) := by
  rw [List.getD_eq_getElem _ _ h]
  exact hqs _ (List.getElem_mem h)

theorem boundary_lt (qs : List (List Nat)) (hqs : ∀ q ∈ qs, IsSeq q) (i : Nat)
    (h : i < qs.length) : boundary qs i < qs.flatten.length := by
  have hq := (isSeq_bytes _ (getD_mem_isSeq qs hqs i h)).1
  have hl : 0 < (qs.getD i []).length := List.length_pos.mpr hq
  have := congrArg List.length (flatten_split qs i h)
  simp only [List.length_append] at this
  unfold boundary
  omega

/-- The sequences from number `i` on take at least one byte each. -/
theorem boundary_add_le (qs : List (List Nat)) (hqs : ∀ q ∈ qs, IsSeq q) (k i : Nat)
    (h : i + k ≤ qs.length) : boundary qs i + k ≤ qs.flatten.length := by
  induction k generalizing i with
  | zero =>
    rcases Nat.lt_or_ge i qs.length with hi | hi
    · exact Nat.le_of_lt (boundary_lt qs hqs i hi)
    · have : i = qs.length := by omega
      subst this
      rw [boundary_length]; omega
  | succ k ih =>
    have hi : i < qs.length := by omega
    have := ih (i + 1) (by omega)
    rw [boundary_succ qs i hi] at this
    have hl : 0 < (qs.getD i []).length :=
      List.length_pos.mpr (isSeq_bytes _ (getD_mem_isSeq qs hqs i hi)).1
    omega

/-- At the start of sequence number `i` the decoder returns its value and
its length. -/
theorem decode_at_boundary (qs : List (List Nat)) (hqs : ∀ q ∈ qs, IsSeq q) (i : Nat)
    (h : i < qs.length) (cp0 n0 : Nat) :
    utf8_decode_sequence_at qs.flatten (boundary qs i) qs.flatten.length cp0 n0
      = ⟨0, seqValue (qs.getD i []), (qs.getD i []).length⟩ := by
  rw [utf8_decode_sequence_at_eq, window_eq_drop]
  have hd : qs.flatten.drop (boundary qs i) = qs.getD i [] ++ (qs.drop (i + 1)).flatten := by
    conv_lhs => rw [flatten_split qs i h]
    unfold boundary
    rw [List.drop_left]
  rw [hd]
  exact utf8_decode_sequence_isSeq _ _ cp0 n0 (getD_mem_isSeq qs hqs i h)

theorem u8i_next_iterAt (qs : List (List Nat)) (hqs : ∀ q ∈ qs, IsSeq q) (i c : Nat)
    (h : i < qs.length) :
    u8i_next qs.flatten (iterAt qs.flatten qs i c)
      = (1, iterAt qs.flatten qs (i + 1) (seqValue (qs.getD i []))) := by
  have hlt := boundary_lt qs hqs i h
  unfold u8i_next iterAt
  simp only [ne_eq, not_true_eq_false, if_false, ge_iff_le]
  rw [if_neg (by omega), decode_at_boundary qs hqs i h]
  simp only [not_true_eq_false, if_false, boundary_succ qs i h]

theorem u8i_next_iterAt_end (qs : List (List Nat)) (c : Nat) :
    u8i_next qs.flatten (iterAt qs.flatten qs qs.length c)
      = (0, iterAt qs.flatten qs qs.length c) := by
  unfold u8i_next iterAt
  simp only [ne_eq, not_true_eq_false, if_false, ge_iff_le, boundary_length]
  rw [if_pos (le_refl _)]

theorem u8i_has_next_iterAt (qs : List (List Nat)) (hqs : ∀ q ∈ qs, IsSeq q) (i c : Nat)
    (h : i ≤ qs.length) :
    u8i_has_next (iterAt qs.flatten qs i c) = if i < qs.length then 1 else 0 := by
  unfold u8i_has_next iterAt
  simp only [ne_eq, not_true_eq_false, if_false]
  by_cases hi : i < qs.length
  · rw [if_pos (boundary_lt qs hqs i hi), if_pos hi]
  · have : i = qs.length := by omega
    subst this
    rw [boundary_length, if_neg (lt_irrefl _), if_neg hi]

theorem calls_next_iterAt (qs : List (List Nat)) (hqs : ∀ q ∈ qs, IsSeq q) (k i c : Nat)
    (h : i + k ≤ qs.length) :
    calls (u8i_next qs.flatten) k (iterAt qs.flatten qs i c)
      = (List.range k).map (fun j =>
          ((1 : Int), iterAt qs.flatten qs (i + j + 1) (seqValue (qs.getD (i + j) [])))) := by
  induction k generalizing i c with
  | zero => simp [calls]
  | succ k ih =>
    rw [calls, u8i_next_iterAt qs hqs i c (by omega), ih (i + 1) _ (by omega),
      List.range_succ_eq_map, List.map_cons, List.map_map]
    simp only [Nat.add_zero, List.cons.injEq, true_and]
    apply List.map_congr_left
    intro j _
    simp only [Function.comp, Nat.succ_eq_add_one]
    have e : i + 1 + j = i + (j + 1) := by omega
    rw [e]

theorem getD_append_at (pre t : List Nat) (j : Nat) :
    (pre ++ t).getD (pre.length + j) 0 = t.getD j 0 := by
  rw [List.getD_append_right _ _ _ _ (by omega)]
  congr 1
  omega

theorem not_cont_of_lead (a : Nat) (h256 : a < 256) (h : a < 0x80 ∨ 0xBF < a) :
    ¬ (a % 256 &&& 0xC0 = 0x80) := by
  rw [Nat.mod_eq_of_lt h256]
  intro e
  have := (cont_iff a h256).mp e
  omega

theorem cont_of_range (a : Nat) (h1 : 0x80 ≤ a) (h2 : a ≤ 0xBF) :
    a % 256 &&& 0xC0 = 0x80 := by
  rw [Nat.mod_eq_of_lt (by omega)]
  exact (cont_iff a (by omega)).mpr ⟨h1, h2⟩

/-- The search of `utf8_find_prev_start`: it returns the nearest byte before
`current` that is no continuation byte, when that byte is at most 4 back and
not before `start`. -/
theorem utf8_find_prev_start_spec (mem : List Nat) (current start k : Nat)
    (hk1 : 1 ≤ k) (hk4 : k ≤ 4) (hstart : start + k ≤ current)
    (hcont : ∀ j, 1 ≤ j → j < k → mem.getD (current - j) 0 % 256 &&& 0xC0 = 0x80)
    (hlead : ¬ (mem.getD (current - k) 0 % 256 &&& 0xC0 = 0x80)) :
    utf8_find_prev_start mem current start = some (current - k) := by
  have n1 : ¬ current ≤ start := by omega
  have m1 : ¬ current < start + 1 := by omega
  unfold utf8_find_prev_start
  rw [if_neg n1]
  obtain rfl | rfl | rfl | rfl : k = 1 ∨ k = 2 ∨ k = 3 ∨ k = 4 := by omega
  · rw [find_prev_loop, if_neg m1]
    simp only [ne_eq, hlead, not_false_eq_true, if_true]
  · have c1 := hcont 1 (by omega) (by omega)
    have m2 : ¬ current < start + (1 + 1) := by omega
    rw [find_prev_loop, if_neg m1]
    simp only [ne_eq, c1, not_true_eq_false, if_false]
    rw [if_neg (by omega), find_prev_loop, if_neg m2]
    simp only [ne_eq, hlead, not_false_eq_true, if_true]
  · have c1 := hcont 1 (by omega) (by omega)
    have c2 := hcont 2 (by omega) (by omega)
    have m2 : ¬ current < start + (1 + 1) := by omega
    have m3 : ¬ current < start + (1 + 1 + 1) := by omega
    rw [find_prev_loop, if_neg m1]
    simp only [ne_eq, c1, not_true_eq_false, if_false]
    rw [if_neg (by omega), find_prev_loop, if_neg m2]
    simp only [ne_eq, c2, not_true_eq_false, if_false]
    rw [if_neg (by omega), find_prev_loop, if_neg m3]
    simp only [ne_eq, hlead, not_false_eq_true, if_true]
  · have c1 := hcont 1 (by omega) (by omega)
    have c2 := hcont 2 (by omega) (by omega)
    have c3 := hcont 3 (by omega) (by omega)
    have m2 : ¬ current < start + (1 + 1) := by omega
    have m3 : ¬ current < start + (1 + 1 + 1) := by omega
    have m4 : ¬ current < start + (1 + 1 + 1 + 1) := by omega
    rw [find_prev_loop, if_neg m1]
    simp only [ne_eq, c1, not_true_eq_false, if_false]
    rw [if_neg (by omega), find_prev_loop, if_neg m2]
    simp only [ne_eq, c2, not_true_eq_false, if_false]
    rw [if_neg (by omega), find_prev_loop, if_neg m3]
    simp only [ne_eq, c3, not_true_eq_false, if_false]
    rw [if_neg (by omega), find_prev_loop, if_neg m4]
    simp only [ne_eq, hlead, not_false_eq_true, if_true]

/-- From the end of a well-formed sequence `utf8_find_prev_start` finds its
first byte. -/
theorem utf8_find_prev_start_isSeq (pre q rest : List Nat) (start : Nat) (h : IsSeq q)
    (hstart : start ≤ pre.length) :
    utf8_find_prev_start (pre ++ (q ++ rest)) (pre.length + q.length) start
      = some pre.length := by
  have g : ∀ j, j < q.length → (pre ++ (q ++ rest)).getD (pre.length + j) 0 = q.getD j 0 := by
    intro j hj
    rw [getD_append_at, List.getD_append _ _ _ _ hj]
  have hq1 : 1 ≤ q.length := List.length_pos.mpr (isSeq_bytes q h).1
  have hq4 : q.length ≤ 4 := by
    rcases q with _ | ⟨a, _ | ⟨b, _ | ⟨c, _ | ⟨d, _ | ⟨e, t⟩⟩⟩⟩⟩ <;> simp [IsSeq] at h ⊢
  have key := utf8_find_prev_start_spec (pre ++ (q ++ rest)) (pre.length + q.length) start
    q.length hq1 hq4 (by omega)
  rw [Nat.add_sub_cancel] at key
  apply key
  · intro j hj1 hj2
    have e : pre.length + q.length - j = pre.length + (q.length - j) := by omega
    rw [e, g _ (by omega)]
    rcases q with _ | ⟨a, _ | ⟨b, _ | ⟨c, _ | ⟨d, _ | ⟨e, t⟩⟩⟩⟩⟩ <;> simp only [IsSeq] at h
    · simp at hj2; omega
    · simp only [List.length_cons, List.length_nil] at hj2 ⊢
      obtain rfl : j = 1 := by omega
      exact cont_of_range b (by omega) (by omega)
    · simp only [List.length_cons, List.length_nil] at hj2 ⊢
      obtain rfl | rfl : j = 1 ∨ j = 2 := by omega
      · exact cont_of_range c (by omega) (by omega)
      · exact cont_of_range b (by omega) (by omega)
    · simp only [List.length_cons, List.length_nil] at hj2 ⊢
      obtain rfl | rfl | rfl : j = 1 ∨ j = 2 ∨ j = 3 := by omega
      · exact cont_of_range d (by omega) (by omega)
      · exact cont_of_range c (by omega) (by omega)
      · exact cont_of_range b (by omega) (by omega)
  · have := g 0 (by omega)
    rw [Nat.add_zero] at this
    rw [this]
    rcases q with _ | ⟨a, _ | ⟨b, _ | ⟨c, _ | ⟨d, _ | ⟨e, t⟩⟩⟩⟩⟩ <;> simp only [IsSeq] at h <;>
      exact not_cont_of_lead a (by omega) (by omega)

theorem u8i_prev_iterAt (qs : List (List Nat)) (hqs : ∀ q ∈ qs, IsSeq q) (i c : Nat)
    (h : i < qs.length) :
    u8i_prev qs.flatten (iterAt qs.flatten qs (i + 1) c)
      = (1, iterAt qs.flatten qs i (seqValue (qs.getD i []))) := by
  have hq := getD_mem_isSeq qs hqs i h
  have hl : 0 < (qs.getD i []).length := List.length_pos.mpr (isSeq_bytes _ hq).1
  have hfind : utf8_find_prev_start qs.flatten (boundary qs (i + 1)) 0
      = some (boundary qs i) := by
    rw [boundary_succ qs i h]
    conv_lhs => rw [flatten_split qs i h]
    exact utf8_find_prev_start_isSeq _ _ _ 0 hq (Nat.zero_le _)
  unfold u8i_prev iterAt
  simp only [ne_eq, not_true_eq_false, if_false]
  rw [if_neg (by rw [boundary_succ qs i h]; omega), hfind]
  simp only [decode_at_boundary qs hqs i h, not_true_eq_false, if_false,
    Nat.add_one_ne_zero, Nat.add_sub_cancel]

theorem u8i_prev_iterAt_start (qs : List (List Nat)) (c : Nat) :
    u8i_prev qs.flatten (iterAt qs.flatten qs 0 c) = (0, iterAt qs.flatten qs 0 c) := by
  unfold u8i_prev iterAt
  simp only [ne_eq, not_true_eq_false, if_false, boundary_zero]
  rw [if_pos (le_refl _)]

theorem calls_prev_iterAt (qs : List (List Nat)) (hqs : ∀ q ∈ qs, IsSeq q) (k i c : Nat)
    (hi : i ≤ qs.length) (h : k ≤ i) :
    calls (u8i_prev qs.flatten) k (iterAt qs.flatten qs i c)
      = (List.range k).map (fun j =>
          ((1 : Int), iterAt qs.flatten qs (i - (j + 1)) (seqValue (qs.getD (i - (j + 1)) [])))) := by
  induction k generalizing i c with
  | zero => simp [calls]
  | succ k ih =>
    obtain ⟨m, rfl⟩ : ∃ m, i = m + 1 := ⟨i - 1, by omega⟩
    rw [calls, u8i_prev_iterAt qs hqs m c (by omega), ih m _ (by omega) (by omega),
      List.range_succ_eq_map, List.map_cons, List.map_map]
    simp only [Nat.zero_add, Nat.add_sub_cancel, List.cons.injEq, true_and]
    apply List.map_congr_left
    intro j _
    simp only [Function.comp, Nat.succ_eq_add_one]
    have e : m + 1 - (j + 1 + 1) = m - (j + 1) := by omega
    rw [e]

theorem lastIter_map (iter : utf8_iterator) (k : Nat) (f : Nat → Int × utf8_iterator)
    (hk : 0 < k) : lastIter iter ((List.range k).map f) = (f (k - 1)).2 := by
  obtain ⟨m, rfl⟩ : ∃ m, k = m + 1 := ⟨k - 1, by omega⟩
  unfold lastIter
  rw [List.range_succ, List.map_append]
  simp

theorem u8i_new_nulFree (s : List Nat) (hs : NulFree s) (qs : List (List Nat))
    (h : s = qs.flatten) : u8i_new s = iterAt qs.flatten qs 0 0 := by
  subst h
  unfold u8i_new iterAt
  rw [strlen_nulFree _ hs, boundary_zero]
  simp

/-! ### Loops over a well-formed string -/

/-- The codepoints of the reject-mode decode of a well-formed string. -/
theorem u8dec_codepoints (qs : List (List Nat)) (hqs : ∀ q ∈ qs, IsSeq q) (dest : List Nat)
    (hd : u8dec qs.flatten false = .ok dest) : codepoints dest = qs.map seqValue := by
  rw [u8dec_wellFormed false qs hqs] at hd
  injection hd with hd
  rw [← hd]
  exact codepoints_pad _ _ (seqValues_ne_zero qs hqs)

theorem layout_length_seqValue (q : List Nat) (h : IsSeq q) :
    (layout (seqValue q)).length = q.length := by
  rw [(seqValue_layout q h).2]

theorem u8i_remaining_loop_iterAt (qs : List (List Nat)) (hqs : ∀ q ∈ qs, IsSeq q)
    (k : Nat) : ∀ (i c fuel count : Nat), i + k = qs.length → k + 1 ≤ fuel →
      u8i_remaining_loop qs.flatten fuel (iterAt qs.flatten qs i c) count
        = some (count + k) := by
  induction k with
  | zero =>
    intro i c fuel count hi hf
    obtain ⟨f, rfl⟩ : ∃ f, fuel = f + 1 := ⟨fuel - 1, by omega⟩
    rw [u8i_remaining_loop, u8i_has_next_iterAt qs hqs i c (by omega), if_neg (by omega)]
    simp
  | succ k ih =>
    intro i c fuel count hi hf
    obtain ⟨f, rfl⟩ : ∃ f, fuel = f + 1 := ⟨fuel - 1, by omega⟩
    rw [u8i_remaining_loop, u8i_has_next_iterAt qs hqs i c (by omega), if_pos (by omega)]
    simp only [ne_eq, one_ne_zero, not_false_eq_true, if_true,
      u8i_next_iterAt qs hqs i c (by omega)]
    rw [if_neg (by decide), ih (i + 1) _ f (count + 1) (by omega) (by omega)]
    congr 1
    omega

theorem u8i_remaining_iterAt (qs : List (List Nat)) (hqs : ∀ q ∈ qs, IsSeq q) (i c : Nat)
    (h : i ≤ qs.length) :
    u8i_remaining qs.flatten (iterAt qs.flatten qs i c) = some (qs.length - i) := by
  have hb := boundary_add_le qs hqs (qs.length - i) i (by omega)
  unfold u8i_remaining
  rw [if_neg (by simp [iterAt])]
  have := u8i_remaining_loop_iterAt qs hqs (qs.length - i) i c
    ((iterAt qs.flatten qs i c).end_ - (iterAt qs.flatten qs i c).current + 1) 0 (by omega)
    (by simp only [iterAt]; omega)
  rw [this]
  simp

theorem u8_len_loop_iterAt (qs : List (List Nat)) (hqs : ∀ q ∈ qs, IsSeq q)
    (k : Nat) : ∀ (i c fuel count : Nat), i + k = qs.length → k + 1 ≤ fuel →
      u8_len_loop qs.flatten fuel (iterAt qs.flatten qs i c) count = some (count + k) := by
  induction k with
  | zero =>
    intro i c fuel count hi hf
    obtain ⟨f, rfl⟩ : ∃ f, fuel = f + 1 := ⟨fuel - 1, by omega⟩
    rw [u8_len_loop, u8i_has_next_iterAt qs hqs i c (by omega), if_neg (by omega)]
    simp
  | succ k ih =>
    intro i c fuel count hi hf
    obtain ⟨f, rfl⟩ : ∃ f, fuel = f + 1 := ⟨fuel - 1, by omega⟩
    rw [u8_len_loop, u8i_has_next_iterAt qs hqs i c (by omega), if_pos (by omega)]
    simp only [ne_eq, one_ne_zero, not_false_eq_true, if_true,
      u8i_next_iterAt qs hqs i c (by omega)]
    rw [if_neg (by decide), ih (i + 1) _ f (count + 1) (by omega) (by omega)]
    congr 1
    omega

theorem u8i_new_with_length_eq (qs : List (List Nat)) :
    u8i_new_with_length qs.flatten.length = iterAt qs.flatten qs 0 0 := by
  unfold u8i_new_with_length iterAt
  rw [boundary_zero]
  simp

/-- On a well-formed string `u8_len_cstr` counts the sequences. -/
theorem u8_len_cstr_wellFormed (qs : List (List Nat)) (hqs : ∀ q ∈ qs, IsSeq q) :
    u8_len_cstr qs.flatten = some qs.length := by
  have hs := wellFormed_nulFree _ ⟨qs, hqs, rfl⟩
  have hb := boundary_add_le qs hqs qs.length 0 (by omega)
  rw [boundary_zero] at hb
  unfold u8_len_cstr u8_len
  rw [strlen_nulFree _ hs]
  by_cases h0 : qs.flatten.length = 0
  · rw [if_pos h0]
    congr 1
    omega
  · rw [if_neg h0]
    simp only [u8i_new_with_length_eq]
    rw [if_neg (by simp [u8i_error, iterAt]),
      u8_len_loop_iterAt qs hqs qs.length 0 0 _ 0 (by omega) (by omega)]
    simp

theorem u8_valid_loop_iterAt (qs : List (List Nat)) (hqs : ∀ q ∈ qs, IsSeq q)
    (k : Nat) : ∀ (i c fuel : Nat), i + k = qs.length → k + 1 ≤ fuel →
      u8_valid_loop qs.flatten fuel (iterAt qs.flatten qs i c) = some 1 := by
  induction k with
  | zero =>
    intro i c fuel hi hf
    obtain ⟨f, rfl⟩ : ∃ f, fuel = f + 1 := ⟨fuel - 1, by omega⟩
    rw [u8_valid_loop, u8i_has_next_iterAt qs hqs i c (by omega), if_neg (by omega)]
    simp [u8i_error, iterAt]
  | succ k ih =>
    intro i c fuel hi hf
    obtain ⟨f, rfl⟩ : ∃ f, fuel = f + 1 := ⟨fuel - 1, by omega⟩
    rw [u8_valid_loop, u8i_has_next_iterAt qs hqs i c (by omega), if_pos (by omega)]
    simp only [ne_eq, one_ne_zero, not_false_eq_true, if_true,
      u8i_next_iterAt qs hqs i c (by omega)]
    rw [if_neg (by decide), ih (i + 1) _ f (by omega) (by omega)]

/-- Every well-formed string is valid for `u8_valid_cstr`. -/
theorem u8_valid_cstr_wellFormed (qs : List (List Nat)) (hqs : ∀ q ∈ qs, IsSeq q) :
    u8_valid_cstr qs.flatten = some 1 := by
  have hs := wellFormed_nulFree _ ⟨qs, hqs, rfl⟩
  have hb := boundary_add_le qs hqs qs.length 0 (by omega)
  rw [boundary_zero] at hb
  unfold u8_valid_cstr u8_valid
  rw [strlen_nulFree _ hs]
  by_cases h0 : qs.flatten.length = 0
  · rw [if_pos h0]
  · rw [if_neg h0]
    simp only [u8i_new_with_length_eq]
    rw [if_neg (by simp [u8i_error, iterAt]),
      u8_valid_loop_iterAt qs hqs qs.length 0 0 _ (by omega) (by omega)]

theorem u8i_reset_iterAt (qs : List (List Nat)) (hqs : ∀ q ∈ qs, IsSeq q)
    (iter : utf8_iterator) (hd : iter.data = 0) (he : iter.end_ = qs.flatten.length) :
    u8i_reset qs.flatten iter
      = (0, iterAt qs.flatten qs 0 (if 0 < qs.length then seqValue (qs.getD 0 []) else 0)) := by
  unfold u8i_reset
  simp only [hd, he]
  by_cases h0 : 0 < qs.length
  · have hlt := boundary_lt qs hqs 0 h0
    rw [boundary_zero] at hlt
    have hdec := decode_at_boundary qs hqs 0 h0 iter.codepoint 0
    rw [boundary_zero] at hdec
    rw [if_pos hlt, hdec, if_pos h0]
    simp [iterAt, boundary_zero]
  · have : qs = [] := List.length_eq_zero.mp (by omega)
    subst this
    simp [iterAt, boundary_zero]

theorem u8i_seek_loop_iterAt (qs : List (List Nat)) (hqs : ∀ q ∈ qs, IsSeq q) (todo : Nat) :
    ∀ (i c : Nat), i ≤ qs.length →
      u8i_seek_loop qs.flatten todo (iterAt qs.flatten qs i c)
        = (0, iterAt qs.flatten qs (min (i + todo) qs.length)
            (if todo = 0 ∨ i = qs.length then c
             else seqValue (qs.getD (min (i + todo) qs.length - 1) []))) := by
  induction todo with
  | zero =>
    intro i c hi
    rw [u8i_seek_loop]
    simp [Nat.min_eq_left hi]
  | succ todo ih =>
    intro i c hi
    rw [u8i_seek_loop, u8i_has_next_iterAt qs hqs i c hi]
    by_cases hlt : i < qs.length
    · rw [if_pos hlt]
      simp only [ne_eq, one_ne_zero, not_false_eq_true, if_true,
        u8i_next_iterAt qs hqs i c hlt]
      rw [if_neg (by decide), ih (i + 1) _ (by omega)]
      have e : i + 1 + todo = i + (todo + 1) := by omega
      rw [e]
      congr 2
      by_cases ht : todo = 0
      · subst ht
        have : min (i + (0 + 1)) qs.length = i + 1 := by omega
        simp [this, Nat.ne_of_lt hlt]
      · by_cases hi2 : i + 1 = qs.length
        · have : min (i + (todo + 1)) qs.length = i + 1 := by omega
          have e2 : qs.length - 1 = i := by omega
          simp [this, hi2, ht, Nat.ne_of_lt hlt, e2]
        · simp [ht, hi2, Nat.ne_of_lt hlt]
    · have : i = qs.length := by omega
      subst this
      rw [if_neg (lt_irrefl _)]
      have : min (qs.length + (todo + 1)) qs.length = qs.length := by omega
      simp [this]

/-! ### What one call of the iterator does -/

theorem u8i_next_of_error (mem : List Nat) (iter : utf8_iterator) (he : iter.error ≠ 0) :
    u8i_next mem iter = (-1, iter) := by
  unfold u8i_next
  rw [if_pos he]

theorem u8i_prev_of_error (mem : List Nat) (iter : utf8_iterator) (he : iter.error ≠ 0) :
    u8i_prev mem iter = (-1, iter) := by
  unfold u8i_prev
  rw [if_pos he]

theorem u8i_next_of_end (mem : List Nat) (iter : utf8_iterator) (he : iter.error = 0)
    (hc : iter.end_ ≤ iter.current) : u8i_next mem iter = (0, iter) := by
  unfold u8i_next
  rw [if_neg (by simp [he]), if_pos hc]

/-- A call of `u8i_next` before the end of the data either fails and sets the
error flag, or returns 1 and moves forward by one sequence. -/
theorem u8i_next_spec (mem : List Nat) (iter : utf8_iterator) (he : iter.error = 0)
    (hc : iter.current < iter.end_) :
    ((u8i_next mem iter).1 = -1 ∧ (u8i_next mem iter).2.error = 1) ∨
    ((u8i_next mem iter).1 = 1 ∧ (u8i_next mem iter).2.error = 0 ∧
      (u8i_next mem iter).2.position = iter.position + 1 ∧
      (u8i_next mem iter).2.end_ = iter.end_ ∧ (u8i_next mem iter).2.data = iter.data ∧
      iter.current < (u8i_next mem iter).2.current ∧
      (u8i_next mem iter).2.current ≤ iter.end_) := by
  have hcons := utf8_decode_sequence_at_consumed mem iter.current iter.end_ iter.codepoint 0
  unfold u8i_next
  rw [if_neg (by simp [he]), if_neg (by omega)]
  simp only []
  by_cases hr : (utf8_decode_sequence_at mem iter.current iter.end_ iter.codepoint 0).ret ≠ 0
  · rw [if_pos hr]
    exact Or.inl ⟨rfl, rfl⟩
  · rw [if_neg hr]
    have := hcons (by simpa using hr)
    exact Or.inr ⟨rfl, he, rfl, rfl, rfl, by simp only []; omega, by simp only []; omega⟩

/-- The first component of `u8i_next` is -1 only with the error flag set. -/
theorem u8i_next_fail_error (mem : List Nat) (iter : utf8_iterator)
    (h : (u8i_next mem iter).1 = -1) : (u8i_next mem iter).2.error ≠ 0 := by
  by_cases he : iter.error ≠ 0
  · rw [u8i_next_of_error mem iter he]; exact he
  · have he0 : iter.error = 0 := by simpa using he
    by_cases hc : iter.end_ ≤ iter.current
    · rw [u8i_next_of_end mem iter he0 hc] at h
      exact absurd h (by simp)
    · rcases u8i_next_spec mem iter he0 (by omega) with ⟨_, h2⟩ | ⟨h1, _⟩
      · rw [h2]; decide
      · rw [h1] at h; exact absurd h (by simp)

theorem u8i_prev_fail_error (mem : List Nat) (iter : utf8_iterator)
    (h : (u8i_prev mem iter).1 = -1) : (u8i_prev mem iter).2.error ≠ 0 := by
  by_cases he : iter.error ≠ 0
  · rw [u8i_prev_of_error mem iter he]; exact he
  · revert h
    unfold u8i_prev
    rw [if_neg he]
    by_cases hc : iter.current ≤ iter.data
    · rw [if_pos hc]; intro h; exact absurd h (by simp)
    · rw [if_neg hc]
      cases utf8_find_prev_start mem iter.current iter.data with
      | none => intro _; simp
      | some p =>
        simp only []
        by_cases hr : (utf8_decode_sequence_at mem p iter.end_ iter.codepoint 0).ret ≠ 0
        · rw [if_pos hr]; intro _; simp
        · rw [if_neg hr]; intro h; exact absurd h (by simp)

theorem u8i_has_next_of_error (iter : utf8_iterator) (he : iter.error ≠ 0) :
    u8i_has_next iter = 0 := by
  unfold u8i_has_next
  rw [if_pos he]

theorem u8i_has_prev_of_error (iter : utf8_iterator) (he : iter.error ≠ 0) :
    u8i_has_prev iter = 0 := by
  unfold u8i_has_prev
  rw [if_pos he]

theorem u8i_has_next_ne_zero (iter : utf8_iterator) (h : u8i_has_next iter ≠ 0) :
    iter.error = 0 ∧ iter.current < iter.end_ := by
  unfold u8i_has_next at h
  by_cases he : iter.error ≠ 0
  · rw [if_pos he] at h; exact absurd rfl h
  · rw [if_neg he] at h
    by_cases hc : iter.current < iter.end_
    · exact ⟨by simpa using he, hc⟩
    · rw [if_neg hc] at h; exact absurd rfl h

theorem u8i_has_next_eq_zero (iter : utf8_iterator) (h : ¬ u8i_has_next iter ≠ 0)
    (he : iter.error = 0) : iter.end_ ≤ iter.current := by
  unfold u8i_has_next at h
  rw [if_neg (by simp [he])] at h
  by_cases hc : iter.current < iter.end_
  · rw [if_pos hc] at h; exact absurd (by decide) h
  · omega

/-- A `u8i_reset` that returns 0 leaves the iterator at the start with the
error flag clear. -/
theorem u8i_reset_ok (mem : List Nat) (iter : utf8_iterator)
    (h : (u8i_reset mem iter).1 = 0) :
    (u8i_reset mem iter).2.error = 0 ∧ (u8i_reset mem iter).2.position = 0 ∧
    (u8i_reset mem iter).2.current = iter.data ∧ (u8i_reset mem iter).2.data = iter.data ∧
    (u8i_reset mem iter).2.end_ = iter.end_ := by
  revert h
  unfold u8i_reset
  simp only []
  by_cases hc : iter.data < iter.end_
  · rw [if_pos hc]
    by_cases hr : (utf8_decode_sequence_at mem iter.data iter.end_ iter.codepoint 0).ret ≠ 0
    · rw [if_pos hr]; intro h; exact absurd h (by simp)
    · rw [if_neg hr]; intro _; exact ⟨rfl, rfl, rfl, rfl, rfl⟩
  · rw [if_neg hc]; intro _; exact ⟨rfl, rfl, rfl, rfl, rfl⟩

/-- The loop of `u8i_seek`, when it returns 0, has made at most `todo` steps
and stopped short only at the end of the data. -/
theorem u8i_seek_loop_ok (mem : List Nat) (todo : Nat) :
    ∀ iter : utf8_iterator, iter.error = 0 → (u8i_seek_loop mem todo iter).1 = 0 →
      (u8i_seek_loop mem todo iter).2.error = 0 ∧
      (u8i_seek_loop mem todo iter).2.position ≤ iter.position + todo ∧
      ((u8i_seek_loop mem todo iter).2.position = iter.position + todo ∨
        (u8i_seek_loop mem todo iter).2.end_ ≤ (u8i_seek_loop mem todo iter).2.current) := by
  induction todo with
  | zero =>
    intro iter he _
    rw [u8i_seek_loop]
    exact ⟨he, le_refl _, Or.inl rfl⟩
  | succ todo ih =>
    intro iter he h
    rw [u8i_seek_loop] at h ⊢
    by_cases hn : u8i_has_next iter ≠ 0
    · rw [if_pos hn] at h ⊢
      obtain ⟨_, hc⟩ := u8i_has_next_ne_zero iter hn
      simp only [] at h ⊢
      rcases u8i_next_spec mem iter he hc with ⟨h1, _⟩ | ⟨h1, h2, h3, _⟩
      · rw [if_pos (by rw [h1]; decide)] at h
        exact absurd h (by simp)
      · rw [if_neg (by rw [h1]; decide)] at h ⊢
        obtain ⟨a, b, c⟩ := ih _ h2 h
        rw [h3] at b c
        refine ⟨a, by omega, ?_⟩
        rcases c with c | c
        · exact Or.inl (by omega)
        · exact Or.inr c
    · rw [if_neg hn]
      exact ⟨he, Nat.le_add_right _ _, Or.inr (u8i_has_next_eq_zero iter hn he)⟩

/-! ### Forward and backward traces -/

theorem range_map_reverse (n : Nat) (f : Nat → Nat) :
    (List.range n).map (fun j => f (n - (j + 1))) = ((List.range n).map f).reverse := by
  apply List.ext_getElem
  · simp
  · intro i h1 h2
    simp only [List.length_map, List.length_range] at h1
    simp only [List.getElem_map, List.getElem_range, List.getElem_reverse, List.length_map,
      List.length_range]
    congr 1
    omega

theorem boundary_eq_sum (qs : List (List Nat)) (hqs : ∀ q ∈ qs, IsSeq q) (k : Nat) :
    boundary qs k = (((qs.map seqValue).take k).map (fun c => (layout c).length)).sum := by
  unfold boundary
  rw [List.length_flatten, ← List.map_take, List.map_map]
  congr 1
  apply List.map_congr_left
  intro q hq
  simp only [Function.comp]
  exact (layout_length_seqValue q (hqs q (List.mem_of_mem_take hq))).symm

theorem getD_map_seqValue (qs : List (List Nat)) (i : Nat) (h : i < qs.length) :
    (qs.map seqValue).getD i 0 = seqValue (qs.getD i []) := by
  rw [List.getD_eq_getElem _ _ (by simpa using h), List.getD_eq_getElem _ _ h]
  simp

/-- The trace of `n` calls of `u8i_next` from `u8i_new` on the concatenation
of `n` well-formed sequences. -/
theorem forward_trace (qs : List (List Nat)) (hqs : ∀ q ∈ qs, IsSeq q) :
    calls (u8i_next qs.flatten) qs.length (u8i_new qs.flatten)
      = (List.range qs.length).map (fun j =>
          ((1 : Int), iterAt qs.flatten qs (j + 1) (seqValue (qs.getD j [])))) := by
  rw [u8i_new_nulFree _ (wellFormed_nulFree _ ⟨qs, hqs, rfl⟩) qs rfl,
    calls_next_iterAt qs hqs qs.length 0 0 (by omega)]
  simp

/-- The iterator after that trace stands at the end. -/
theorem forward_last (qs : List (List Nat)) (hqs : ∀ q ∈ qs, IsSeq q) :
    ∃ c, lastIter (u8i_new qs.flatten) (calls (u8i_next qs.flatten) qs.length
      (u8i_new qs.flatten)) = iterAt qs.flatten qs qs.length c := by
  rw [forward_trace qs hqs]
  by_cases h0 : 0 < qs.length
  · rw [lastIter_map _ _ _ h0]
    simp only [Nat.sub_add_cancel h0]
    exact ⟨_, rfl⟩
  · have : qs = [] := List.length_eq_zero.mp (by omega)
    subst this
    refine ⟨0, ?_⟩
    simp [lastIter, u8i_new, iterAt, boundary, strlen]

theorem calls_next_last (qs : List (List Nat)) (hqs : ∀ q ∈ qs, IsSeq q) (k : Nat)
    (hk : k ≤ qs.length) :
    ∃ c, lastIter (u8i_new qs.flatten) (calls (u8i_next qs.flatten) k (u8i_new qs.flatten))
      = iterAt qs.flatten qs k c := by
  rw [u8i_new_nulFree _ (wellFormed_nulFree _ ⟨qs, hqs, rfl⟩) qs rfl,
    calls_next_iterAt qs hqs k 0 0 (by omega)]
  by_cases h0 : 0 < k
  · rw [lastIter_map _ _ _ h0]
    have e : 0 + (k - 1) + 1 = k := by omega
    simp only [e]
    exact ⟨_, rfl⟩
  · have : k = 0 := by omega
    subst this
    exact ⟨0, by simp [lastIter]⟩

/-- On well-formed data `u8i_seek` stops after `min n m` sequences. -/
theorem u8i_seek_wellFormed (qs : List (List Nat)) (hqs : ∀ q ∈ qs, IsSeq q)
    (iter : utf8_iterator) (hd : iter.data = 0) (he : iter.end_ = qs.flatten.length)
    (n : Nat) :
    ∃ c, u8i_seek qs.flatten iter n = (0, iterAt qs.flatten qs (min n qs.length) c) ∧
      (1 ≤ n → 1 ≤ qs.length → c = seqValue (qs.getD (min n qs.length - 1) [])) := by
  unfold u8i_seek
  rw [u8i_reset_iterAt qs hqs iter hd he]
  simp only [ne_eq, not_true_eq_false, if_false]
  rw [u8i_seek_loop_iterAt qs hqs n 0 _ (Nat.zero_le _), Nat.zero_add]
  refine ⟨_, rfl, ?_⟩
  intro h1 h2
  rw [if_neg (by omega)]

/-! ### The string buffer: blocks, terminator and capacity -/

theorem mem_write_length (block bytes block2 : List Nat) (off : Nat)
    (h : mem_write block off bytes = some block2) : block2.length = block.length := by
  unfold mem_write at h
  split_ifs at h with hle
  injection h with h
  subst h
  simp only [List.length_append, List.length_take, List.length_drop]
  omega

theorem mem_write_bound (block bytes block2 : List Nat) (off : Nat)
    (h : mem_write block off bytes = some block2) : off + bytes.length ≤ block.length := by
  unfold mem_write at h
  split_ifs at h with hle
  exact hle

theorem mem_write_term (block block2 : List Nat) (off : Nat)
    (h : mem_write block off [0] = some block2) : block2[off]? = some 0 := by
  have hb := mem_write_bound _ _ _ _ h
  unfold mem_write at h
  split_ifs at h
  injection h with h
  subst h
  simp only [List.length_singleton] at hb
  have hl : (List.take off block).length = off := by
    rw [List.length_take]; omega
  rw [List.append_assoc, List.getElem?_append_right (by omega), hl]
  simp

theorem realloc_length (data : Option (List Nat)) (n junk : Nat) :
    (realloc data n junk).length = n := by
  unfold realloc
  cases data with
  | none => simp
  | some block =>
    simp only [List.length_take, List.length_append, List.length_replicate]
    omega

theorem realloc_get (block : List Nat) (n junk i : Nat) (hi : i < n) (hb : i < block.length) :
    (realloc (some block) n junk)[i]? = block[i]? := by
  unfold realloc
  simp only
  rw [List.getElem?_take_of_lt hi, List.getElem?_append_left hb]

theorem grow_loop_ge (needed : Nat) : ∀ (fuel c r : Nat),
    grow_loop fuel c needed = some r → needed ≤ r := by
  intro fuel
  induction fuel with
  | zero => intro c r h; simp [grow_loop] at h
  | succ fuel ih =>
    intro c r h
    rw [grow_loop] at h
    split_ifs at h with hlt
    · exact ih _ _ h
    · injection h with h
      omega

theorem grow_loop_le_gt (used : Nat) : ∀ (fuel c r : Nat),
    grow_loop_le fuel c used = some r → used < r := by
  intro fuel
  induction fuel with
  | zero => intro c r h; simp [grow_loop_le] at h
  | succ fuel ih =>
    intro c r h
    rw [grow_loop_le] at h
    split_ifs at h with hlt
    · exact ih _ _ h
    · injection h with h
      omega

theorem ensure_capacity_terminated (a : allocator) (str : utf8_string) (needed : Nat)
    (r : Int × utf8_string) (hinv : Terminated str)
    (h : utf8_string_ensure_capacity a str needed = some r) :
    Terminated r.2 ∧ r.2.byte_len = str.byte_len ∧ r.2.codepoint_len = str.codepoint_len ∧
      (r.1 = 0 ∧ needed ≤ r.2.capacity ∨ r.1 = -1 ∧ r.2 = str) := by
  obtain ⟨block, hdata, hlen, hlt, hterm⟩ := hinv
  unfold utf8_string_ensure_capacity at h
  by_cases hge : str.capacity ≥ needed
  · rw [if_pos hge] at h
    injection h with h
    subst h
    exact ⟨⟨block, hdata, hlen, hlt, hterm⟩, rfl, rfl, Or.inl ⟨rfl, hge⟩⟩
  · have hc0 : str.capacity ≠ 0 := by omega
    rw [if_neg hge] at h
    simp only [if_neg hc0] at h
    cases hg : grow_loop 65 str.capacity needed with
    | none => rw [hg] at h; simp at h
    | some nc =>
      rw [hg] at h
      have hnc := grow_loop_ge _ _ _ _ hg
      simp only at h
      by_cases hok : ¬ a.ok = true
      · rw [if_pos hok] at h
        injection h with h
        subst h
        exact ⟨⟨block, hdata, hlen, hlt, hterm⟩, rfl, rfl, Or.inr ⟨rfl, rfl⟩⟩
      · rw [if_neg hok] at h
        injection h with h
        subst h
        refine ⟨⟨_, rfl, realloc_length _ _ _, by simp only; omega, ?_⟩, rfl, rfl,
          Or.inl ⟨rfl, hnc⟩⟩
        simp only [hdata]
        rw [realloc_get _ _ _ _ (by omega) (by omega)]
        exact hterm

theorem u8s_new_with_capacity_terminated (a : allocator) (capacity : Nat) (str : utf8_string)
    (h : u8s_new_with_capacity a capacity = some str) :
    Terminated str ∧ str.byte_len = 0 ∧ capacity ≤ str.capacity := by
  unfold u8s_new_with_capacity UTF8_STRING_MIN_CAPACITY at h
  split_ifs at h with hok hc
  · injection h with h
    subst h
    exact ⟨⟨_, rfl, by simp, by simp, by simp⟩, rfl, by simp only; omega⟩
  · injection h with h
    subst h
    refine ⟨⟨_, rfl, by simp, by simp only; omega, ?_⟩, rfl, by simp⟩
    simp only
    rw [List.getElem?_set_self (by simp; omega)]

/-- The loop of `utf8_string_count_codepoints` ends within the iterations it is
given: the function returns a count for every block and length. -/
theorem count_loop_total (data : List Nat) (end_ : Nat) : ∀ (fuel ptr count : Nat),
    end_ - ptr + 1 ≤ fuel → ∃ c, count_loop data end_ fuel ptr count = some c := by
  intro fuel
  induction fuel with
  | zero => intro ptr count h; omega
  | succ fuel ih =>
    intro ptr count h
    rw [count_loop]
    by_cases hp : ptr < end_
    · rw [if_pos hp]
      simp only
      by_cases hc : u8_seqlen (data.getD ptr 0 % 256) ≤ 0 ∨
          (ptr : Int) + u8_seqlen (data.getD ptr 0 % 256) > end_
      · rw [if_pos hc]
        exact ⟨_, rfl⟩
      · rw [if_neg hc]
        apply ih
        have : 0 < u8_seqlen (data.getD ptr 0 % 256) := by omega
        omega
    · rw [if_neg hp]
      exact ⟨_, rfl⟩

theorem utf8_string_count_codepoints_total (data : List Nat) (byte_len : Nat) :
    ∃ c, utf8_string_count_codepoints data byte_len = some c := by
  unfold utf8_string_count_codepoints
  by_cases h : byte_len = 0
  · rw [if_pos h]
    exact ⟨_, rfl⟩
  · rw [if_neg h]
    exact count_loop_total data byte_len _ 0 0 (by omega)

/-- Once the capacity has wrapped to 0 the doubling loop never ends. -/
theorem grow_loop_zero (needed : Nat) (h : 0 < needed) :
    ∀ fuel, grow_loop fuel 0 needed = none := by
  intro fuel
  induction fuel with
  | zero => rfl
  | succ fuel ih =>
    rw [grow_loop, if_pos h]
    exact ih

/-- The doubling loop of `utf8_string_ensure_capacity` is decided by 65 tests:
more iterations give the same outcome, `none` meaning that the loop never
ends. -/
theorem grow_loop_fuel (needed : Nat) : ∀ (k c fuel : Nat),
    c * 2 ^ k % 18446744073709551616 = 0 → k + 1 ≤ fuel →
    grow_loop fuel c needed = grow_loop (k + 1) c needed := by
  intro k
  induction k with
  | zero =>
    intro c fuel hc hf
    obtain ⟨f, rfl⟩ : ∃ f, fuel = f + 1 := ⟨fuel - 1, by omega⟩
    rw [grow_loop, grow_loop]
    by_cases hlt : c < needed
    · rw [if_pos hlt, if_pos hlt]
      have : c * 2 % 18446744073709551616 = 0 := by
        simp only [pow_zero, Nat.mul_one] at hc
        omega
      rw [this, grow_loop_zero needed (by omega), grow_loop_zero needed (by omega)]
    · rw [if_neg hlt, if_neg hlt]
  | succ k ih =>
    intro c fuel hc hf
    obtain ⟨f, rfl⟩ : ∃ f, fuel = f + 1 := ⟨fuel - 1, by omega⟩
    rw [grow_loop, grow_loop]
    by_cases hlt : c < needed
    · rw [if_pos hlt, if_pos hlt]
      apply ih _ _ _ (by omega)
      rw [Nat.mod_mul_mod]
      rw [← hc]
      congr 1
      rw [pow_succ]
      ring
    · rw [if_neg hlt, if_neg hlt]

theorem grow_loop_65 (needed c fuel : Nat) (hf : 65 ≤ fuel) :
    grow_loop fuel c needed = grow_loop 65 c needed := by
  apply grow_loop_fuel needed 64 c fuel _ hf
  have : (2 : Nat) ^ 64 = 18446744073709551616 := by norm_num
  rw [this]
  exact Nat.mul_mod_left _ _

/-- Once the capacity has wrapped to 0 the doubling loop of the insert
functions never ends. -/
theorem grow_loop_le_zero (used : Nat) : ∀ fuel, grow_loop_le fuel 0 used = none := by
  intro fuel
  induction fuel with
  | zero => rfl
  | succ fuel ih =>
    rw [grow_loop_le, if_pos (Nat.zero_le _)]
    exact ih

theorem grow_loop_le_fuel (used : Nat) : ∀ (k c fuel : Nat),
    c * 2 ^ k % 18446744073709551616 = 0 → k + 1 ≤ fuel →
    grow_loop_le fuel c used = grow_loop_le (k + 1) c used := by
  intro k
  induction k with
  | zero =>
    intro c fuel hc hf
    obtain ⟨f, rfl⟩ : ∃ f, fuel = f + 1 := ⟨fuel - 1, by omega⟩
    rw [grow_loop_le, grow_loop_le]
    by_cases hle : c ≤ used
    · rw [if_pos hle, if_pos hle]
      have : c * 2 % 18446744073709551616 = 0 := by
        simp only [pow_zero, Nat.mul_one] at hc
        omega
      rw [this, grow_loop_le_zero, grow_loop_le_zero]
    · rw [if_neg hle, if_neg hle]
  | succ k ih =>
    intro c fuel hc hf
    obtain ⟨f, rfl⟩ : ∃ f, fuel = f + 1 := ⟨fuel - 1, by omega⟩
    rw [grow_loop_le, grow_loop_le]
    by_cases hle : c ≤ used
    · rw [if_pos hle, if_pos hle]
      apply ih _ _ _ (by omega)
      rw [Nat.mod_mul_mod]
      rw [← hc]
      congr 1
      rw [pow_succ]
      ring
    · rw [if_neg hle, if_neg hle]

/-- The doubling loop of the insert functions is decided by 65 tests. -/
theorem grow_loop_le_65 (used c fuel : Nat) (hf : 65 ≤ fuel) :
    grow_loop_le fuel c used = grow_loop_le 65 c used := by
  apply grow_loop_le_fuel used 64 c fuel _ hf
  have : (2 : Nat) ^ 64 = 18446744073709551616 := by norm_num
  rw [this]
  exact Nat.mul_mod_left _ _

/-! ### The string buffer on a well-formed string -/

theorem mem_write_get_lt (block bytes block2 : List Nat) (off i : Nat)
    (h : mem_write block off bytes = some block2) (hi : i < off) : block2[i]? = block[i]? := by
  have hb := mem_write_bound _ _ _ _ h
  unfold mem_write at h
  split_ifs at h
  injection h with h
  subst h
  rw [List.append_assoc, List.getElem?_append_left (by rw [List.length_take]; omega),
    List.getElem?_take_of_lt hi]

theorem mem_write_get_in (block bytes block2 : List Nat) (off i : Nat)
    (h : mem_write block off bytes = some block2) (hi : i < bytes.length) :
    block2[off + i]? = bytes[i]? := by
  have hb := mem_write_bound _ _ _ _ h
  unfold mem_write at h
  split_ifs at h
  injection h with h
  subst h
  have hl : (List.take off block).length = off := by
    rw [List.length_take]; omega
  rw [List.append_assoc, List.getElem?_append_right (by omega), hl,
    List.getElem?_append_left (by omega)]
  congr 1
  omega

theorem bytes_of_nulFree (s : List Nat) (hs : NulFree s) : bytes_of s s.length = s := by
  apply List.ext_getElem
  · simp [bytes_of]
  · intro i h1 h2
    simp only [bytes_of, List.getElem_map, List.getElem_range]
    rw [List.getD_eq_getElem _ _ h2]
    exact Nat.mod_eq_of_lt (hs _ (List.getElem_mem h2)).2

set_option maxRecDepth 100000 in
theorem u8_seqlen_table : ∀ x < 256,
    u8_seqlen x = if x ≤ 0x7F then 1 else if x < 0xC0 then 0 else if x ≤ 0xDF then 2
      else if x ≤ 0xEF then 3 else if x ≤ 0xF7 then 4 else 0 := by decide

theorem u8_seqlen_isSeq (mem : List Nat) (p : Nat) (q : List Nat) (h : IsSeq q)
    (hm : HoldsAt mem p q) : u8_seqlen (mem.getD p 0 % 256) = q.length := by
  have hbytes := (isSeq_bytes q h).2
  have h0 := hm 0 (List.length_pos.mpr (isSeq_bytes q h).1)
  rw [Nat.add_zero] at h0
  rw [h0]
  rcases q with _ | ⟨a, _ | ⟨b, _ | ⟨c, _ | ⟨d, _ | ⟨e, t⟩⟩⟩⟩⟩ <;> simp only [IsSeq] at h
  all_goals
    have ha : a % 256 = a := Nat.mod_eq_of_lt (hbytes a (by simp)).2
    simp only [List.getD_cons_zero, ha, List.length_cons, List.length_nil]
    rw [u8_seqlen_table a (hbytes a (by simp)).2]
    split_ifs <;> first | rfl | omega

theorem skip_loop_isSeq (mem : List Nat) (p end_ todo : Nat) (q : List Nat) (h : IsSeq q)
    (hm : HoldsAt mem p q) (hp : p < end_) :
    skip_loop mem end_ (todo + 1) p = skip_loop mem end_ todo (p + q.length) := by
  have hbytes := (isSeq_bytes q h).2
  have h0 := hm 0 (List.length_pos.mpr (isSeq_bytes q h).1)
  rw [Nat.add_zero] at h0
  rw [skip_loop, if_pos hp]
  simp only [h0]
  rcases q with _ | ⟨a, _ | ⟨b, _ | ⟨c, _ | ⟨d, _ | ⟨e, t⟩⟩⟩⟩⟩ <;> simp only [IsSeq] at h
  all_goals
    have ha : a % 256 = a := Nat.mod_eq_of_lt (hbytes a (by simp)).2
    have h256 : a < 256 := (hbytes a (by simp)).2
    simp only [List.getD_cons_zero, ha, List.length_cons, List.length_nil]
  · have h1 : a &&& 0x80 = 0 := (ascii_iff a h256).mpr (by omega)
    rw [if_pos h1]
  · have h1 : ¬ (a &&& 0x80 = 0) := fun e => by
      have := (ascii_iff a h256).mp e; omega
    have h2 : a &&& 0xE0 = 0xC0 := (lead2_iff a h256).mpr (by omega)
    rw [if_neg h1, if_pos h2]
  · have h1 : ¬ (a &&& 0x80 = 0) := fun e => by
      have := (ascii_iff a h256).mp e; omega
    have h2 : ¬ (a &&& 0xE0 = 0xC0) := fun e => by
      have := (lead2_iff a h256).mp e; omega
    have h3 : a &&& 0xF0 = 0xE0 := (lead3_iff a h256).mpr (by omega)
    rw [if_neg h1, if_neg h2, if_pos h3]
  · have h1 : ¬ (a &&& 0x80 = 0) := fun e => by
      have := (ascii_iff a h256).mp e; omega
    have h2 : ¬ (a &&& 0xE0 = 0xC0) := fun e => by
      have := (lead2_iff a h256).mp e; omega
    have h3 : ¬ (a &&& 0xF0 = 0xE0) := fun e => by
      have := (lead3_iff a h256).mp e; omega
    have h4 : a &&& 0xF8 = 0xF0 := (lead4_iff a h256).mpr (by omega)
    rw [if_neg h1, if_neg h2, if_neg h3, if_pos h4]

theorem u8s_at_decode_isSeq (mem : List Nat) (p end_ : Nat) (q : List Nat) (h : IsSeq q)
    (hm : HoldsAt mem p q) (hp : p + q.length ≤ end_) :
    u8s_at_decode mem p end_ = seqValue q := by
  have hbytes := (isSeq_bytes q h).2
  have h0 := hm 0 (List.length_pos.mpr (isSeq_bytes q h).1)
  rw [Nat.add_zero] at h0
  unfold u8s_at_decode
  simp only [h0]
  rcases q with _ | ⟨a, _ | ⟨b, _ | ⟨c, _ | ⟨d, _ | ⟨e, t⟩⟩⟩⟩⟩ <;> simp only [IsSeq] at h
  all_goals
    have ha : a % 256 = a := Nat.mod_eq_of_lt (hbytes a (by simp)).2
    have h256 : a < 256 := (hbytes a (by simp)).2
    simp only [List.length_cons, List.length_nil] at hp
    simp only [List.getD_cons_zero, ha]
  · have h1 : a &&& 0x80 = 0 := (ascii_iff a h256).mpr (by omega)
    rw [if_pos h1]
    simp [seqValue]
    omega
  · have hb : b % 256 = b := Nat.mod_eq_of_lt (hbytes b (by simp)).2
    have e1 := hm 1 (by simp)
    simp only [List.getD_cons_succ, List.getD_cons_zero] at e1
    have h1 : ¬ (a &&& 0x80 = 0) := fun e => by
      have := (ascii_iff a h256).mp e; omega
    have h2 : a &&& 0xE0 = 0xC0 := (lead2_iff a h256).mpr (by omega)
    have c1 : b &&& 0xC0 = 0x80 := (cont_iff b (by omega)).mpr (by omega)
    rw [if_neg h1, if_pos h2, if_neg (by omega)]
    simp only [List.range_succ, List.range_zero, List.nil_append, List.singleton_append, List.cons_append,
      List.all_cons, List.all_nil, Nat.zero_add, Nat.reduceAdd, Nat.reduceSub, e1, hb, c1, pack2,
      seqValue]
    simp
  · have hb : b % 256 = b := Nat.mod_eq_of_lt (hbytes b (by simp)).2
    have hc : c % 256 = c := Nat.mod_eq_of_lt (hbytes c (by simp)).2
    have e1 := hm 1 (by simp)
    have e2 := hm 2 (by simp)
    simp only [List.getD_cons_succ, List.getD_cons_zero] at e1 e2
    have h1 : ¬ (a &&& 0x80 = 0) := fun e => by
      have := (ascii_iff a h256).mp e; omega
    have h2 : ¬ (a &&& 0xE0 = 0xC0) := fun e => by
      have := (lead2_iff a h256).mp e; omega
    have h3 : a &&& 0xF0 = 0xE0 := (lead3_iff a h256).mpr (by omega)
    have c1 : b &&& 0xC0 = 0x80 := (cont_iff b (by omega)).mpr (by omega)
    have c2 : c &&& 0xC0 = 0x80 := (cont_iff c (by omega)).mpr (by omega)
    rw [if_neg h1, if_neg h2, if_pos h3, if_neg (by omega)]
    simp only [List.range_succ, List.range_zero, List.nil_append, List.singleton_append, List.cons_append,
      List.all_cons, List.all_nil, Nat.zero_add, Nat.reduceAdd, Nat.reduceSub, e1, e2, hb, hc, c1, c2,
      pack3, seqValue]
    simp
  · have hb : b % 256 = b := Nat.mod_eq_of_lt (hbytes b (by simp)).2
    have hc : c % 256 = c := Nat.mod_eq_of_lt (hbytes c (by simp)).2
    have hd : d % 256 = d := Nat.mod_eq_of_lt (hbytes d (by simp)).2
    have e1 := hm 1 (by simp)
    have e2 := hm 2 (by simp)
    have e3 := hm 3 (by simp)
    simp only [List.getD_cons_succ, List.getD_cons_zero] at e1 e2 e3
    have h1 : ¬ (a &&& 0x80 = 0) := fun e => by
      have := (ascii_iff a h256).mp e; omega
    have h2 : ¬ (a &&& 0xE0 = 0xC0) := fun e => by
      have := (lead2_iff a h256).mp e; omega
    have h3 : ¬ (a &&& 0xF0 = 0xE0) := fun e => by
      have := (lead3_iff a h256).mp e; omega
    have h4 : a &&& 0xF8 = 0xF0 := (lead4_iff a h256).mpr (by omega)
    have c1 : b &&& 0xC0 = 0x80 := (cont_iff b (by omega)).mpr (by omega)
    have c2 : c &&& 0xC0 = 0x80 := (cont_iff c (by omega)).mpr (by omega)
    have c3 : d &&& 0xC0 = 0x80 := (cont_iff d (by omega)).mpr (by omega)
    rw [if_neg h1, if_neg h2, if_neg h3, if_pos h4, if_neg (by omega)]
    simp only [List.range_succ, List.range_zero, List.nil_append, List.singleton_append, List.cons_append,
      List.all_cons, List.all_nil, Nat.zero_add, Nat.reduceAdd, Nat.reduceSub, e1, e2, e3, hb, hc, hd,
      c1, c2, c3, pack4, seqValue]
    simp

theorem holdsAt_boundary (qs : List (List Nat)) (hqs : ∀ q ∈ qs, IsSeq q) (mem : List Nat)
    (hmem : ∀ i < qs.flatten.length, mem.getD i 0 = qs.flatten.getD i 0) (i : Nat)
    (h : i < qs.length) : HoldsAt mem (boundary qs i) (qs.getD i []) := by
  intro j hj
  have hb := boundary_add_le qs hqs 0 (i + 1) (by omega)
  rw [boundary_succ qs i h, Nat.add_zero] at hb
  rw [hmem _ (by omega)]
  conv_lhs => rw [flatten_split qs i h]
  unfold boundary
  rw [getD_append_at, List.getD_append _ _ _ _ hj]

theorem count_loop_wellFormed (qs : List (List Nat)) (hqs : ∀ q ∈ qs, IsSeq q)
    (mem : List Nat) (hmem : ∀ i < qs.flatten.length, mem.getD i 0 = qs.flatten.getD i 0)
    (k : Nat) : ∀ (i fuel count : Nat), i + k = qs.length → k + 1 ≤ fuel →
      count_loop mem qs.flatten.length fuel (boundary qs i) count = some (count + k) := by
  induction k with
  | zero =>
    intro i fuel count hi hf
    obtain ⟨f, rfl⟩ : ∃ f, fuel = f + 1 := ⟨fuel - 1, by omega⟩
    have : i = qs.length := by omega
    subst this
    rw [count_loop, boundary_length, if_neg (lt_irrefl _)]
    rfl
  | succ k ih =>
    intro i fuel count hi hf
    obtain ⟨f, rfl⟩ : ∃ f, fuel = f + 1 := ⟨fuel - 1, by omega⟩
    have hlt : i < qs.length := by omega
    have hb := boundary_add_le qs hqs 0 (i + 1) (by omega)
    rw [boundary_succ qs i hlt, Nat.add_zero] at hb
    have hq := getD_mem_isSeq qs hqs i hlt
    have hpos : 0 < (qs.getD i []).length := List.length_pos.mpr (isSeq_bytes _ hq).1
    rw [count_loop, if_pos (boundary_lt qs hqs i hlt)]
    simp only [u8_seqlen_isSeq mem _ _ hq (holdsAt_boundary qs hqs mem hmem i hlt)]
    rw [if_neg (by omega), Int.toNat_ofNat, ← boundary_succ qs i hlt,
      ih (i + 1) f (count + 1) (by omega) (by omega)]
    congr 1
    omega

theorem skip_loop_wellFormed (qs : List (List Nat)) (hqs : ∀ q ∈ qs, IsSeq q)
    (mem : List Nat) (hmem : ∀ i < qs.flatten.length, mem.getD i 0 = qs.flatten.getD i 0)
    (todo : Nat) : ∀ (i : Nat), i + todo ≤ qs.length →
      skip_loop mem qs.flatten.length todo (boundary qs i) = some (boundary qs (i + todo)) := by
  induction todo with
  | zero =>
    intro i _
    rw [skip_loop, Nat.add_zero]
  | succ todo ih =>
    intro i hi
    have hlt : i < qs.length := by omega
    rw [skip_loop_isSeq mem _ _ todo _ (getD_mem_isSeq qs hqs i hlt)
      (holdsAt_boundary qs hqs mem hmem i hlt) (boundary_lt qs hqs i hlt),
      ← boundary_succ qs i hlt, ih (i + 1) (by omega)]
    congr 2
    omega

/-- What `u8s_new` builds from a well-formed string. -/
theorem u8s_new_wellFormed (qs : List (List Nat)) (hqs : ∀ q ∈ qs, IsSeq q) (a : allocator)
    (ha : a.ok = true) :
    ∃ str block, u8s_new a qs.flatten = some (some str) ∧ str.data = some block ∧
      str.byte_len = qs.flatten.length ∧ str.codepoint_len = qs.length ∧
      ∀ i < qs.flatten.length, block.getD i 0 = qs.flatten.getD i 0 := by
  have hs := wellFormed_nulFree _ ⟨qs, hqs, rfl⟩
  have hcap : ∃ s0, u8s_new_with_capacity a (qs.flatten.length + 1) = some s0 := by
    unfold u8s_new_with_capacity
    rw [if_neg (by simp [ha])]
    exact ⟨_, rfl⟩
  obtain ⟨s0, hs0⟩ := hcap
  obtain ⟨⟨b0, hb0, hl0, -, -⟩, -, hc0⟩ := u8s_new_with_capacity_terminated _ _ _ hs0
  have hw1 : ∃ b1, mem_write b0 0 qs.flatten = some b1 := by
    unfold mem_write
    rw [if_pos (by omega)]
    exact ⟨_, rfl⟩
  obtain ⟨b1, hb1⟩ := hw1
  have hl1 := mem_write_length _ _ _ _ hb1
  have hw2 : ∃ b2, mem_write b1 qs.flatten.length [0] = some b2 := by
    unfold mem_write
    rw [if_pos (by simp only [List.length_singleton]; omega)]
    exact ⟨_, rfl⟩
  obtain ⟨b2, hb2⟩ := hw2
  have hmem : ∀ i < qs.flatten.length, b2.getD i 0 = qs.flatten.getD i 0 := by
    intro i hi
    have e1 := mem_write_get_lt _ _ _ _ i hb2 hi
    have e2 := mem_write_get_in _ _ _ 0 i hb1 hi
    rw [Nat.zero_add] at e2
    rw [List.getD_eq_getElem?_getD, List.getD_eq_getElem?_getD, e1, e2]
  have hcount : utf8_string_count_codepoints b2 qs.flatten.length = some qs.length := by
    unfold utf8_string_count_codepoints
    by_cases h0 : qs.flatten.length = 0
    · rw [if_pos h0]
      have := boundary_add_le qs hqs qs.length 0 (by omega)
      rw [boundary_zero] at this
      congr 1
      omega
    · rw [if_neg h0]
      have hle := boundary_add_le qs hqs qs.length 0 (by omega)
      rw [boundary_zero] at hle
      have := count_loop_wellFormed qs hqs b2 hmem qs.length 0 (qs.flatten.length + 1) 0
        (by omega) (by omega)
      rw [boundary_zero, Nat.zero_add] at this
      exact this
  refine ⟨{ s0 with data := some b2, byte_len := qs.flatten.length,
                    codepoint_len := qs.length }, b2, ?_, rfl, rfl, rfl, hmem⟩
  unfold u8s_new
  simp only [strlen_nulFree _ hs, hs0, hb0, bytes_of_nulFree _ hs, hb1, hb2, hcount,
    Option.bind_eq_bind, Option.some_bind]

/-- The codepoint branch of `u8s_at` on the buffer of a well-formed string. -/
theorem u8s_at_wellFormed (qs : List (List Nat)) (hqs : ∀ q ∈ qs, IsSeq q)
    (str : utf8_string) (block : List Nat) (hdata : str.data = some block)
    (hbl : str.byte_len = qs.flatten.length) (hcl : str.codepoint_len = qs.length)
    (hmem : ∀ i < qs.flatten.length, block.getD i 0 = qs.flatten.getD i 0) (k : Nat) :
    u8s_at str k false = if k < qs.length then seqValue (qs.getD k []) else 0 := by
  unfold u8s_at
  simp only [hdata, hbl, hcl, Bool.false_eq_true, if_false]
  by_cases hk : k < qs.length
  · rw [if_neg (by omega), if_pos hk]
    have := skip_loop_wellFormed qs hqs block hmem k 0 (by omega)
    rw [boundary_zero, Nat.zero_add] at this
    rw [this]
    simp only
    have hb := boundary_add_le qs hqs 0 (k + 1) (by omega)
    rw [boundary_succ qs k hk, Nat.add_zero] at hb
    rw [if_neg (by have := boundary_lt qs hqs k hk; omega)]
    exact u8s_at_decode_isSeq block _ _ _ (getD_mem_isSeq qs hqs k hk)
      (holdsAt_boundary qs hqs block hmem k hk) hb
  · rw [if_pos (by omega), if_neg hk]

theorem u8i_at_forward_iterAt (qs : List (List Nat)) (hqs : ∀ q ∈ qs, IsSeq q) (todo : Nat) :
    ∀ (i c : Nat), i ≤ qs.length →
      u8i_at_forward qs.flatten todo (iterAt qs.flatten qs i c)
        = some (iterAt qs.flatten qs (min (i + todo) qs.length)
            (if todo = 0 ∨ i = qs.length then c
             else seqValue (qs.getD (min (i + todo) qs.length - 1) []))) := by
  induction todo with
  | zero =>
    intro i c hi
    rw [u8i_at_forward]
    simp [Nat.min_eq_left hi]
  | succ todo ih =>
    intro i c hi
    rw [u8i_at_forward]
    by_cases hlt : i < qs.length
    · simp only [u8i_next_iterAt qs hqs i c hlt]
      rw [if_neg (by decide), ih (i + 1) _ (by omega)]
      have e : i + 1 + todo = i + (todo + 1) := by omega
      rw [e]
      congr 2
      by_cases ht : todo = 0
      · subst ht
        have : min (i + (0 + 1)) qs.length = i + 1 := by omega
        simp [this, Nat.ne_of_lt hlt]
      · by_cases hi2 : i + 1 = qs.length
        · have : min (i + (todo + 1)) qs.length = i + 1 := by omega
          have e2 : qs.length - 1 = i := by omega
          simp [this, hi2, ht, Nat.ne_of_lt hlt, e2]
        · simp [ht, hi2, Nat.ne_of_lt hlt]
    · have : i = qs.length := by omega
      subst this
      simp only [u8i_next_iterAt_end qs c]
      rw [if_neg (by decide), ih qs.length c (le_refl _)]
      have e1 : min (qs.length + (todo + 1)) qs.length = qs.length := by omega
      have e2 : min (qs.length + todo) qs.length = qs.length := by omega
      simp [e1, e2]

/-- The codepoint branch of `u8i_at`, forward, on an iterator just reset to the
start of a well-formed string: it returns the codepoint the last of its
`k` calls of `u8i_next` stepped over. -/
theorem u8i_at_reset_wellFormed (qs : List (List Nat)) (hqs : ∀ q ∈ qs, IsSeq q) (k : Nat) :
    u8i_at qs.flatten (u8i_reset qs.flatten (u8i_new qs.flatten)).2 (k : Int) false
      = if qs.length = 0 then 0 else seqValue (qs.getD (min k qs.length - 1) []) := by
  have hs := wellFormed_nulFree _ ⟨qs, hqs, rfl⟩
  rw [u8i_new_nulFree _ hs qs rfl, u8i_reset_iterAt qs hqs _ rfl rfl]
  unfold u8i_at
  simp only [Bool.false_eq_true, if_false]
  rw [if_neg (by simp [iterAt])]
  by_cases hk : k = 0
  · subst hk
    simp only [Nat.cast_zero, lt_self_iff_false, if_false]
    by_cases h0 : qs.length = 0
    · simp [iterAt, h0]
    · have : 0 < qs.length := by omega
      simp [iterAt, h0, this]
  · have hpos : (k : Int) > 0 := by omega
    rw [if_pos hpos, Int.toNat_ofNat, u8i_at_forward_iterAt qs hqs k 0 _ (Nat.zero_le _)]
    simp only [Nat.zero_add]
    by_cases h0 : qs.length = 0
    · simp [iterAt, h0, hk]
    · have : 0 < qs.length := by omega
      have h0b : ¬ (0 = qs.length) := by omega
      simp [iterAt, h0, hk, h0b]

/-! ### Stores into a block, byte by byte -/

theorem mem_write_some (block bytes : List Nat) (off : Nat)
    (h : off + bytes.length ≤ block.length) :
    ∃ b2, mem_write block off bytes = some b2 := by
  unfold mem_write
  rw [if_pos h]
  exact ⟨_, rfl⟩

/-- The bytes of a block after a store. -/
theorem mem_write_get (block bytes block2 : List Nat) (off : Nat)
    (h : mem_write block off bytes = some block2) (i : Nat) :
    block2[i]? = if i < off then block[i]?
      else if i < off + bytes.length then bytes[i - off]? else block[i]? := by
  have hb := mem_write_bound _ _ _ _ h
  by_cases h1 : i < off
  · rw [if_pos h1]
    exact mem_write_get_lt _ _ _ _ i h h1
  · rw [if_neg h1]
    by_cases h2 : i < off + bytes.length
    · rw [if_pos h2]
      have := mem_write_get_in _ _ _ off (i - off) h (by omega)
      rw [← this]
      congr 1
      omega
    · rw [if_neg h2]
      unfold mem_write at h
      rw [if_pos hb] at h
      injection h with h
      subst h
      have hl : (List.take off block).length = off := by
        rw [List.length_take]; omega
      rw [List.getElem?_append_right (by simp only [List.length_append, hl]; omega)]
      simp only [List.length_append, hl, List.getElem?_drop]
      congr 1
      omega

theorem mem_read_some (block : List Nat) (off n : Nat) (h : off + n ≤ block.length) :
    mem_read block off n = some ((block.drop off).take n) := by
  unfold mem_read
  rw [if_pos h]

theorem mem_read_get (block bytes : List Nat) (off n : Nat)
    (h : mem_read block off n = some bytes) :
    bytes.length = n ∧ ∀ i, i < n → bytes[i]? = block[off + i]? := by
  unfold mem_read at h
  split_ifs at h with hle
  injection h with h
  subst h
  refine ⟨by simp only [List.length_take, List.length_drop]; omega, ?_⟩
  intro i hi
  rw [List.getElem?_take_of_lt hi, List.getElem?_drop]

/-- Storing `bytes` at `off` and a terminator behind them. -/
theorem append_chain (block bytes : List Nat) (off : Nat)
    (h : off + bytes.length < block.length) :
    ∃ b1 b2, mem_write block off bytes = some b1 ∧
      mem_write b1 (off + bytes.length) [0] = some b2 ∧ b2.length = block.length ∧
      b2.take (off + bytes.length) = block.take off ++ bytes ∧
      b2[off + bytes.length]? = some 0 := by
  obtain ⟨b1, hb1⟩ := mem_write_some block bytes off (by omega)
  have hl1 := mem_write_length _ _ _ _ hb1
  obtain ⟨b2, hb2⟩ := mem_write_some b1 [0] (off + bytes.length)
    (by simp only [List.length_singleton]; omega)
  have hl2 := mem_write_length _ _ _ _ hb2
  refine ⟨b1, b2, hb1, hb2, by omega, ?_, mem_write_term _ _ _ hb2⟩
  apply List.ext_getElem?
  intro i
  by_cases hi : i < off + bytes.length
  · rw [List.getElem?_take_of_lt hi, mem_write_get _ _ _ _ hb2 i, if_pos hi,
      mem_write_get _ _ _ _ hb1 i]
    by_cases h1 : i < off
    · rw [if_pos h1, List.getElem?_append_left (by rw [List.length_take]; omega),
        List.getElem?_take_of_lt h1]
    · rw [if_neg h1, if_pos hi, List.getElem?_append_right (by rw [List.length_take]; omega)]
      congr 1
      rw [List.length_take]
      omega
  · rw [List.getElem?_eq_none (by rw [List.length_take]; omega),
      List.getElem?_eq_none (by
        simp only [List.length_append, List.length_take]; omega)]

/-- The stores of the insert functions: the bytes behind `bo` move up by the
length of `bytes`, `bytes` go to `bo`, and the terminator follows. -/
theorem insert_chain (block bytes : List Nat) (bo bl : Nat) (hbo : bo ≤ bl)
    (h : bl + bytes.length < block.length) :
    ∃ b1 b2 b3,
      (if bo < bl then
        (mem_read block bo (bl - bo)).bind
          (fun tail => mem_write block (bo + bytes.length) tail)
       else some block) = some b1 ∧
      mem_write b1 bo bytes = some b2 ∧
      mem_write b2 (bl + bytes.length) [0] = some b3 ∧ b3.length = block.length ∧
      b3.take (bl + bytes.length) = block.take bo ++ bytes ++ (block.take bl).drop bo ∧
      b3[bl + bytes.length]? = some 0 := by
  have hmove : ∃ b1, (if bo < bl then
        (mem_read block bo (bl - bo)).bind
          (fun tail => mem_write block (bo + bytes.length) tail)
       else some block) = some b1 ∧ b1.length = block.length ∧
       ∀ i, b1[i]? = if bo + bytes.length ≤ i ∧ i < bl + bytes.length
              then block[i - bytes.length]? else block[i]? := by
    by_cases hlt : bo < bl
    · rw [if_pos hlt, mem_read_some _ _ _ (by omega), Option.some_bind]
      have hr := mem_read_get block _ bo (bl - bo) (mem_read_some _ _ _ (by omega))
      obtain ⟨b1, hb1⟩ := mem_write_some block ((block.drop bo).take (bl - bo))
        (bo + bytes.length) (by rw [hr.1]; omega)
      refine ⟨b1, hb1, mem_write_length _ _ _ _ hb1, ?_⟩
      intro i
      rw [mem_write_get _ _ _ _ hb1 i, hr.1]
      by_cases h1 : i < bo + bytes.length
      · rw [if_pos h1, if_neg (by omega)]
      · rw [if_neg h1]
        by_cases h2 : i < bo + bytes.length + (bl - bo)
        · rw [if_pos h2, if_pos (by omega), hr.2 _ (by omega)]
          congr 1
          omega
        · rw [if_neg h2, if_neg (by omega)]
    · rw [if_neg hlt]
      refine ⟨block, rfl, rfl, ?_⟩
      intro i
      rw [if_neg (by omega)]
  obtain ⟨b1, hb1, hl1, hg1⟩ := hmove
  obtain ⟨b2, hb2⟩ := mem_write_some b1 bytes bo (by omega)
  have hl2 := mem_write_length _ _ _ _ hb2
  obtain ⟨b3, hb3⟩ := mem_write_some b2 [0] (bl + bytes.length)
    (by simp only [List.length_singleton]; omega)
  have hl3 := mem_write_length _ _ _ _ hb3
  refine ⟨b1, b2, b3, hb1, hb2, hb3, by omega, ?_, mem_write_term _ _ _ hb3⟩
  apply List.ext_getElem?
  intro i
  by_cases hi : i < bl + bytes.length
  · rw [List.getElem?_take_of_lt hi, mem_write_get _ _ _ _ hb3 i, if_pos hi,
      mem_write_get _ _ _ _ hb2 i]
    have hlp : (List.take bo block).length = bo := by rw [List.length_take]; omega
    by_cases h1 : i < bo
    · rw [if_pos h1, hg1, if_neg (by omega), List.append_assoc,
        List.getElem?_append_left (by omega), List.getElem?_take_of_lt h1]
    · rw [if_neg h1, List.append_assoc, List.getElem?_append_right (by omega), hlp]
      by_cases h2 : i < bo + bytes.length
      · rw [if_pos h2, List.getElem?_append_left (by omega)]
      · rw [if_neg h2, hg1, if_pos (by omega), List.getElem?_append_right (by omega),
          List.getElem?_drop, List.getElem?_take_of_lt (by omega)]
        congr 1
        omega
  · rw [List.getElem?_eq_none (by rw [List.length_take]; omega),
      List.getElem?_eq_none (by
        simp only [List.length_append, List.length_take, List.length_drop]; omega)]

/-! ### The doubling loops -/

/-- The doubling loop of `utf8_string_ensure_capacity` while no product leaves
`size_t`: it stops at `c * 2 ^ k` for the least `k` with
`needed <= c * 2 ^ k`. -/
theorem grow_loop_spec (needed : Nat) : ∀ (K c fuel : Nat), needed ≤ c * 2 ^ K →
    c * 2 ^ K < 18446744073709551616 → K + 1 ≤ fuel →
    ∃ k, k ≤ K ∧ grow_loop fuel c needed = some (c * 2 ^ k) ∧ needed ≤ c * 2 ^ k ∧
      ∀ j, j < k → c * 2 ^ j < needed := by
  intro K
  induction K with
  | zero =>
    intro c fuel h1 _ hf
    obtain ⟨f, rfl⟩ : ∃ f, fuel = f + 1 := ⟨fuel - 1, by omega⟩
    simp only [pow_zero, Nat.mul_one] at h1
    refine ⟨0, le_refl _, ?_, by simpa using h1, fun j hj => by omega⟩
    rw [grow_loop, if_neg (by omega)]
    simp
  | succ K ih =>
    intro c fuel h1 h2 hf
    obtain ⟨f, rfl⟩ : ∃ f, fuel = f + 1 := ⟨fuel - 1, by omega⟩
    by_cases hc : c < needed
    · have e : c * 2 ^ (K + 1) = c * 2 * 2 ^ K := by rw [pow_succ]; ring
      have hle : c * 2 ≤ c * 2 * 2 ^ K := Nat.le_mul_of_pos_right _ (by positivity)
      have hmod : c * 2 % 18446744073709551616 = c * 2 :=
        Nat.mod_eq_of_lt (by omega)
      obtain ⟨k, hk, hg, hn, hj⟩ := ih (c * 2) f (by omega) (by omega) (by omega)
      refine ⟨k + 1, by omega, ?_, ?_, ?_⟩
      · rw [grow_loop, if_pos hc, hmod, hg]
        congr 1
        rw [pow_succ]; ring
      · have : c * 2 ^ (k + 1) = c * 2 * 2 ^ k := by rw [pow_succ]; ring
        omega
      · intro j hjk
        rcases j with _ | j
        · simpa using hc
        · have := hj j (by omega)
          have e2 : c * 2 ^ (j + 1) = c * 2 * 2 ^ j := by rw [pow_succ]; ring
          omega
    · refine ⟨0, Nat.zero_le _, ?_, by simpa using Nat.le_of_not_lt hc, fun j hj => by omega⟩
      rw [grow_loop, if_neg hc]
      simp

/-- A request of at most `2 ^ 63` bytes is reached by doubling without
leaving `size_t`. -/
theorem exists_doubling (c needed : Nat) (hc : 1 ≤ c) (hlt : c < 18446744073709551616)
    (hn : needed ≤ 9223372036854775808) :
    ∃ K, K ≤ 64 ∧ needed ≤ c * 2 ^ K ∧ c * 2 ^ K < 18446744073709551616 := by
  have hex : ∃ K, needed ≤ c * 2 ^ K := by
    refine ⟨63, ?_⟩
    have : (2 : Nat) ^ 63 = 9223372036854775808 := by norm_num
    rw [this]
    have := Nat.mul_le_mul_right 9223372036854775808 hc
    omega
  classical
  let K := Nat.find hex
  have hK : needed ≤ c * 2 ^ K := Nat.find_spec hex
  have hK63 : K ≤ 63 := Nat.find_min' hex (by
    have : (2 : Nat) ^ 63 = 9223372036854775808 := by norm_num
    rw [this]
    have := Nat.mul_le_mul_right 9223372036854775808 hc
    omega)
  refine ⟨K, by omega, hK, ?_⟩
  rcases Nat.eq_zero_or_pos K with h0 | hpos
  · rw [h0]; simpa using hlt
  · have hmin : ¬ needed ≤ c * 2 ^ (K - 1) := Nat.find_min hex (by omega)
    have e : c * 2 ^ K = c * 2 ^ (K - 1) * 2 := by
      have : K = K - 1 + 1 := by omega
      conv_lhs => rw [this, pow_succ]
      ring
    omega

/-- The doubling loop of the insert functions while no product leaves
`size_t`. -/
theorem grow_loop_le_spec (used : Nat) : ∀ (K c fuel : Nat), used < c * 2 ^ K →
    c * 2 ^ K < 18446744073709551616 → K + 1 ≤ fuel →
    ∃ k, k ≤ K ∧ grow_loop_le fuel c used = some (c * 2 ^ k) ∧ used < c * 2 ^ k ∧
      ∀ j, j < k → c * 2 ^ j ≤ used := by
  intro K
  induction K with
  | zero =>
    intro c fuel h1 _ hf
    obtain ⟨f, rfl⟩ : ∃ f, fuel = f + 1 := ⟨fuel - 1, by omega⟩
    simp only [pow_zero, Nat.mul_one] at h1
    refine ⟨0, le_refl _, ?_, by simpa using h1, fun j hj => by omega⟩
    rw [grow_loop_le, if_neg (by omega)]
    simp
  | succ K ih =>
    intro c fuel h1 h2 hf
    obtain ⟨f, rfl⟩ : ∃ f, fuel = f + 1 := ⟨fuel - 1, by omega⟩
    by_cases hc : c ≤ used
    · have e : c * 2 ^ (K + 1) = c * 2 * 2 ^ K := by rw [pow_succ]; ring
      have hle : c * 2 ≤ c * 2 * 2 ^ K := Nat.le_mul_of_pos_right _ (by positivity)
      have hmod : c * 2 % 18446744073709551616 = c * 2 :=
        Nat.mod_eq_of_lt (by omega)
      obtain ⟨k, hk, hg, hn, hj⟩ := ih (c * 2) f (by omega) (by omega) (by omega)
      refine ⟨k + 1, by omega, ?_, ?_, ?_⟩
      · rw [grow_loop_le, if_pos hc, hmod, hg]
        congr 1
        rw [pow_succ]; ring
      · have : c * 2 ^ (k + 1) = c * 2 * 2 ^ k := by rw [pow_succ]; ring
        omega
      · intro j hjk
        rcases j with _ | j
        · simpa using hc
        · have := hj j (by omega)
          have e2 : c * 2 ^ (j + 1) = c * 2 * 2 ^ j := by rw [pow_succ]; ring
          omega
    · refine ⟨0, Nat.zero_le _, ?_, by simpa using Nat.lt_of_not_le hc, fun j hj => by omega⟩
      rw [grow_loop_le, if_neg hc]
      simp

/-! ### Growth of a buffer -/

theorem contents_eq (str : utf8_string) (block : List Nat) (h : str.data = some block) :
    contents str = block.take str.byte_len := by
  unfold contents
  rw [h]

theorem contents_length (str : utf8_string) (h : Terminated str) :
    (contents str).length = str.byte_len := by
  obtain ⟨block, hdata, hlen, hlt, -⟩ := h
  rw [contents_eq _ _ hdata, List.length_take]
  omega

/-- What `utf8_string_ensure_capacity` does to a buffer in good order. -/
theorem ensure_capacity_spec (a : allocator) (str : utf8_string) (needed : Nat)
    (r : Int × utf8_string) (hinv : Terminated str)
    (h : utf8_string_ensure_capacity a str needed = some r) :
    Terminated r.2 ∧ r.2.byte_len = str.byte_len ∧ r.2.codepoint_len = str.codepoint_len ∧
      contents r.2 = contents str ∧
      (r.1 = 0 ∧ needed ≤ r.2.capacity ∨ r.1 = -1 ∧ r.2 = str) := by
  obtain ⟨h1, h2, h3, h4⟩ := ensure_capacity_terminated a str needed r hinv h
  refine ⟨h1, h2, h3, ?_, h4⟩
  obtain ⟨block, hdata, hlen, hlt, hterm⟩ := hinv
  unfold utf8_string_ensure_capacity at h
  by_cases hge : str.capacity ≥ needed
  · rw [if_pos hge] at h
    injection h with h
    subst h
    rfl
  · have hc0 : str.capacity ≠ 0 := by omega
    rw [if_neg hge] at h
    simp only [if_neg hc0] at h
    cases hg : grow_loop 65 str.capacity needed with
    | none => rw [hg] at h; simp at h
    | some nc =>
      rw [hg] at h
      have hnc := grow_loop_ge _ _ _ _ hg
      simp only at h
      by_cases hok : ¬ a.ok = true
      · rw [if_pos hok] at h
        injection h with h
        subst h
        rfl
      · rw [if_neg hok] at h
        injection h with h
        subst h
        unfold contents
        simp only [hdata, realloc]
        rw [List.take_take, Nat.min_eq_left (by omega), List.take_append_of_le_length (by omega)]

/-- With a serving allocator and a request of at most `2 ^ 63` bytes
`utf8_string_ensure_capacity` returns 0. -/
theorem ensure_capacity_returns (a : allocator) (str : utf8_string) (needed : Nat)
    (ha : a.ok = true) (hn : needed ≤ 9223372036854775808) :
    ∃ d1, utf8_string_ensure_capacity a str needed = some (0, d1) := by
  unfold utf8_string_ensure_capacity
  by_cases hge : str.capacity ≥ needed
  · rw [if_pos hge]
    exact ⟨_, rfl⟩
  · rw [if_neg hge]
    simp only [UTF8_STRING_MIN_CAPACITY]
    have hc : 1 ≤ (if str.capacity = 0 then 16 else str.capacity) := by
      split_ifs <;> omega
    have hlt : (if str.capacity = 0 then 16 else str.capacity) < 18446744073709551616 := by
      split_ifs <;> omega
    obtain ⟨K, hK, h1, h2⟩ := exists_doubling _ needed hc hlt hn
    obtain ⟨k, -, hg, -, -⟩ := grow_loop_spec needed K _ 65 h1 h2 (by omega)
    rw [hg]
    simp only [ha, not_true_eq_false, if_false]
    exact ⟨_, rfl⟩

/-! ### C strings in blocks -/

theorem strlen_append_nul (s rest : List Nat) (hs : NulFree s) :
    strlen (s ++ 0 :: rest) = s.length := by
  unfold strlen
  rw [List.takeWhile_append_of_pos, List.takeWhile_cons_of_neg (by simp)]
  · simp
  · intro b hb
    have := hs b hb
    have h2 : b % 256 = b := Nat.mod_eq_of_lt this.2
    simp [h2]; omega

theorem bytes_of_append (s rest : List Nat) (hs : NulFree s) :
    bytes_of (s ++ rest) s.length = s := by
  have e : bytes_of (s ++ rest) s.length = bytes_of s s.length := by
    unfold bytes_of
    apply List.map_congr_left
    intro i hi
    rw [List.mem_range] at hi
    rw [List.getD_append _ _ _ _ hi]
  rw [e, bytes_of_nulFree s hs]

/-- A block whose first `n` bytes are `s` and whose byte `n` is 0. -/
theorem block_split (block s : List Nat) (n : Nat) (h1 : block.take n = s)
    (h2 : block[n]? = some 0) : block = s ++ 0 :: block.drop (n + 1) ∧ s.length = n := by
  have hn : n < block.length := by
    by_contra hc
    rw [List.getElem?_eq_none (by omega)] at h2
    exact absurd h2 (by simp)
  have hl : s.length = n := by rw [← h1, List.length_take]; omega
  refine ⟨?_, hl⟩
  conv_lhs => rw [← List.take_append_drop n block]
  rw [h1]
  congr 1
  rw [List.drop_eq_getElem_cons hn]
  congr 1
  rw [List.getElem?_eq_getElem hn] at h2
  injection h2

theorem block_strlen_terminated (block s : List Nat) (n : Nat) (h1 : block.take n = s)
    (h2 : block[n]? = some 0) (hs : NulFree s) : block_strlen block = some n := by
  obtain ⟨hb, hl⟩ := block_split block s n h1 h2
  unfold block_strlen
  have hmem : 0 ∈ block.map (fun b => b % 256) := by
    rw [hb]
    simp
  rw [if_pos hmem]
  congr 1
  rw [hb, strlen_append_nul _ _ hs, hl]

/-! ### `u8s_new` on a NUL-free string -/

/-- What `u8s_new` builds from a NUL-free string: the null pointer when the
allocation fails, otherwise a buffer in good order whose bytes are the string
and whose capacity is `max 16 (strlen + 1)`. -/
theorem u8s_new_spec (a : allocator) (s : List Nat) (hs : NulFree s) :
    (a.ok = false → u8s_new a s = some none) ∧
    (a.ok = true → ∃ str, u8s_new a s = some (some str) ∧ Terminated str ∧
      contents str = s ∧ str.byte_len = s.length ∧
      str.capacity = max 16 (s.length + 1) ∧
      ∃ block, str.data = some block ∧
        utf8_string_count_codepoints block s.length = some str.codepoint_len) := by
  constructor
  · intro ha
    unfold u8s_new u8s_new_with_capacity
    simp [ha]
  · intro ha
    have hcap : ∃ s0, u8s_new_with_capacity a (s.length + 1) = some s0 ∧
        s0.capacity = max 16 (s.length + 1) := by
      unfold u8s_new_with_capacity UTF8_STRING_MIN_CAPACITY
      rw [if_neg (by simp [ha])]
      refine ⟨_, rfl, ?_⟩
      simp only
      split_ifs <;> omega
    obtain ⟨s0, hs0, hc0⟩ := hcap
    obtain ⟨⟨b0, hb0, hl0, -, -⟩, -, -⟩ := u8s_new_with_capacity_terminated _ _ _ hs0
    obtain ⟨b1, b2, hb1, hb2, hl2, htake, hterm⟩ := append_chain b0 s 0 (by omega)
    simp only [Nat.zero_add, List.take_zero, List.nil_append] at hb2 htake hterm
    obtain ⟨c, hc⟩ := utf8_string_count_codepoints_total b2 s.length
    refine ⟨{ s0 with data := some b2, byte_len := s.length, codepoint_len := c }, ?_,
      ⟨b2, rfl, by rw [hl2, hl0], by simp only; omega, hterm⟩, ?_, rfl, hc0, b2, rfl, hc⟩
    · unfold u8s_new
      simp only [strlen_nulFree _ hs, hs0, hb0, bytes_of_nulFree _ hs, hb1, hb2, hc,
        Option.bind_eq_bind, Option.some_bind]
    · unfold contents
      exact htake

theorem u8s_new_append_nul (a : allocator) (s rest : List Nat) (hs : NulFree s) :
    u8s_new a (s ++ 0 :: rest) = u8s_new a s := by
  unfold u8s_new
  simp only [strlen_append_nul _ _ hs, strlen_nulFree _ hs, bytes_of_append _ _ hs,
    bytes_of_nulFree _ hs]

/-- Whatever `u8s_new` returns for a NUL-free string is in good order and
holds the string. -/
theorem u8s_new_result (a : allocator) (s : List Nat) (hs : NulFree s) (str : utf8_string)
    (h : u8s_new a s = some (some str)) :
    a.ok = true ∧ Terminated str ∧ contents str = s ∧ str.byte_len = s.length ∧
      str.capacity = max 16 (s.length + 1) ∧
      ∃ block, str.data = some block ∧
        utf8_string_count_codepoints block s.length = some str.codepoint_len := by
  obtain ⟨h1, h2⟩ := u8s_new_spec a s hs
  cases ha : a.ok with
  | false =>
    rw [h1 ha] at h
    exact absurd h (by simp)
  | true =>
    obtain ⟨str2, e, rest⟩ := h2 ha
    rw [e] at h
    injection h with h
    injection h with h
    subst h
    exact ⟨rfl, rest⟩

/-! ### Appending -/

theorem count_codepoints_nil (data : List Nat) : utf8_string_count_codepoints data 0 = some 0 := by
  unfold utf8_string_count_codepoints
  rw [if_pos rfl]

/-- One run of `u8s_cat_cstr` on a buffer in good order and a non-empty
NUL-free string, given what `utf8_string_ensure_capacity` returns. -/
theorem u8s_cat_cstr_run (a : allocator) (d : utf8_string) (t : List Nat)
    (hinv : Terminated d) (ht : NulFree t) (hne : t ≠ []) (ret : Int) (d1 : utf8_string)
    (he : utf8_string_ensure_capacity a d (d.byte_len + t.length + 1) = some (ret, d1)) :
    (ret ≠ 0 → u8s_cat_cstr a d t = some (-1, d)) ∧
    (ret = 0 → ∃ d' c, u8s_cat_cstr a d t = some (0, d') ∧ Terminated d' ∧
      contents d' = contents d ++ t ∧ d'.byte_len = d.byte_len + t.length ∧
      utf8_string_count_codepoints t t.length = some c ∧
      d'.codepoint_len = d.codepoint_len + c ∧ d'.capacity = d1.capacity) := by
  have hlen : t.length ≠ 0 := fun e => hne (List.length_eq_zero.mp e)
  obtain ⟨hinv1, hbl, hcl, hcont, hret⟩ := ensure_capacity_spec a d _ _ hinv he
  simp only at hinv1 hbl hcl hcont hret
  constructor
  · intro hr
    unfold u8s_cat_cstr
    simp only [strlen_nulFree _ ht, if_neg hlen, he, if_pos hr]
    rcases hret with ⟨h0, -⟩ | ⟨-, h1⟩
    · exact absurd h0 hr
    · rw [h1]
  · intro hr
    rcases hret with ⟨-, hcap⟩ | ⟨h1, -⟩
    · obtain ⟨block, hdata, hblen, hlt, hterm⟩ := hinv1
      obtain ⟨b1, b2, hb1, hb2, hl2, htake, hterm2⟩ := append_chain block t d1.byte_len
        (by rw [hbl, hblen]; omega)
      obtain ⟨c, hc⟩ := utf8_string_count_codepoints_total t t.length
      refine ⟨{ d1 with data := some b2, byte_len := d1.byte_len + t.length,
                        codepoint_len := d1.codepoint_len + c }, c, ?_,
        ⟨b2, rfl, by rw [hl2, hblen], by simp only; rw [hbl]; omega, hterm2⟩, ?_,
        by simp only; rw [hbl], hc, by simp only; rw [hcl], rfl⟩
      · unfold u8s_cat_cstr
        simp only [strlen_nulFree _ ht, if_neg hlen, he, hr, ne_eq, not_true_eq_false,
          if_false, hdata, bytes_of_nulFree _ ht, hb1, hb2, hc, Option.bind_eq_bind,
          Option.some_bind]
      · rw [← hcont]
        unfold contents
        simp only [hdata]
        exact htake
    · rw [hr] at h1
      exact absurd h1 (by decide)

/-- What `u8s_cat_cstr` does to a buffer in good order, for a NUL-free string:
a call that returns either returns -1 and leaves the buffer as it was, or
returns 0 with the string appended; with a serving allocator and at most
`2 ^ 63` bytes in all it returns 0. -/
theorem u8s_cat_cstr_spec (a : allocator) (d : utf8_string) (t : List Nat)
    (hinv : Terminated d) (ht : NulFree t) :
    (∀ r, u8s_cat_cstr a d t = some r →
      r = (-1, d) ∨
      (r.1 = 0 ∧ Terminated r.2 ∧ contents r.2 = contents d ++ t ∧
        r.2.byte_len = d.byte_len + t.length ∧
        ∃ c, utf8_string_count_codepoints t t.length = some c ∧
          r.2.codepoint_len = d.codepoint_len + c)) ∧
    (a.ok = true → d.byte_len + t.length + 1 ≤ 9223372036854775808 →
      ∃ d', u8s_cat_cstr a d t = some (0, d')) := by
  by_cases hne : t = []
  · subst hne
    have e : u8s_cat_cstr a d [] = some (0, d) := by
      unfold u8s_cat_cstr
      simp [strlen]
    rw [e]
    refine ⟨?_, fun _ _ => ⟨d, rfl⟩⟩
    intro r hr
    injection hr with hr
    subst hr
    exact Or.inr ⟨rfl, hinv, by simp, by simp, 0, count_codepoints_nil _, by simp⟩
  · constructor
    · intro r hr
      cases he : utf8_string_ensure_capacity a d (d.byte_len + t.length + 1) with
      | none =>
        have hlen : t.length ≠ 0 := fun e => hne (List.length_eq_zero.mp e)
        unfold u8s_cat_cstr at hr
        simp only [strlen_nulFree _ ht, if_neg hlen, he] at hr
        exact absurd hr (by simp)
      | some r1 =>
        obtain ⟨ret, d1⟩ := r1
        obtain ⟨h1, h2⟩ := u8s_cat_cstr_run a d t hinv ht hne ret d1 he
        by_cases h0 : ret = 0
        · obtain ⟨d', c, e, p1, p2, p3, p4, p5, -⟩ := h2 h0
          rw [e] at hr
          injection hr with hr
          subst hr
          exact Or.inr ⟨rfl, p1, p2, p3, c, p4, p5⟩
        · rw [h1 h0] at hr
          injection hr with hr
          exact Or.inl hr.symm
    · intro ha hsz
      obtain ⟨d1, he⟩ := ensure_capacity_returns a d (d.byte_len + t.length + 1) ha hsz
      obtain ⟨-, h2⟩ := u8s_cat_cstr_run a d t hinv ht hne 0 d1 he
      obtain ⟨d', c, e, -⟩ := h2 rfl
      exact ⟨d', e⟩

/-- The function `u8s_cat` hands the bytes of `src` to `u8s_cat_cstr`. -/
theorem u8s_cat_eq (a : allocator) (dest src : utf8_string) (hsrc : Terminated src)
    (hs : NulFree (contents src)) :
    u8s_cat a dest src = u8s_cat_cstr a dest (contents src) := by
  obtain ⟨block, hdata, hlen, hlt, hterm⟩ := hsrc
  have hc := contents_eq _ _ hdata
  unfold u8s_cat
  simp only [hdata]
  rw [block_strlen_terminated block (contents src) src.byte_len hc.symm hterm hs]
  simp only
  rw [hc]

/-- The string `u8enc` returns for the array `{codepoint, 0}`. -/
theorem u8enc_single (cp : Nat) :
    u8enc [cp, 0] = if cp = 0 then some []
      else if (0xD800 ≤ cp ∧ cp ≤ 0xDFFF) ∨ 0x10FFFF < cp then none else some (layout cp) := by
  unfold u8enc
  by_cases h0 : cp = 0
  · subst h0
    simp [u8enc_loop]
  · rw [if_neg h0, u8enc_loop, if_neg h0]
    by_cases hbad : (0xD800 ≤ cp ∧ cp ≤ 0xDFFF) ∨ 0x10FFFF < cp
    · rw [if_pos hbad, (u8_encode_codepoint_none cp).mpr hbad]
    · rw [if_neg hbad]
      have h1 : cp ≤ 0x10FFFF := by omega
      have h2 : ¬ (0xD800 ≤ cp ∧ cp ≤ 0xDFFF) := fun h => hbad (Or.inl h)
      rw [u8_encode_codepoint_layout cp h1 h2]
      simp [u8enc_loop]

theorem layout_length (cp : Nat) (h : cp ≤ 0x10FFFF) : (layout cp).length = u8_cp_bytelen cp := by
  unfold layout u8_cp_bytelen
  split_ifs <;> rfl

/-! ### Inserting -/

theorem u8s_reserve_spec (a : allocator) (str : utf8_string) (n : Nat)
    (r : Int × utf8_string) (hinv : Terminated str) (h : u8s_reserve a str n = some r) :
    Terminated r.2 ∧ r.2.byte_len = str.byte_len ∧ r.2.codepoint_len = str.codepoint_len ∧
      contents r.2 = contents str ∧
      (r.1 = 0 ∧ n ≤ r.2.capacity ∨ r.1 = -1 ∧ r.2 = str) := by
  unfold u8s_reserve at h
  by_cases hle : n ≤ str.capacity
  · rw [if_pos hle] at h
    injection h with h
    subst h
    exact ⟨hinv, rfl, rfl, rfl, Or.inl ⟨rfl, hle⟩⟩
  · rw [if_neg hle] at h
    exact ensure_capacity_spec a str n r hinv h

theorem u8s_reserve_returns (a : allocator) (str : utf8_string) (n : Nat)
    (ha : a.ok = true) (hn : n ≤ 9223372036854775808) :
    ∃ d1, u8s_reserve a str n = some (0, d1) := by
  unfold u8s_reserve
  by_cases hle : n ≤ str.capacity
  · rw [if_pos hle]
    exact ⟨_, rfl⟩
  · rw [if_neg hle]
    exact ensure_capacity_returns a str n ha hn

theorem insert_bytes_eq (a : allocator) (str : utf8_string) (byte_offset : Nat)
    (bytes : List Nat) (cps : Nat) :
    insert_bytes a str byte_offset bytes cps
      = (match insert_grow a str bytes.length with
        | none => none
        | some (ret, str) =>
          if ret < 0 then some (-1, str)
          else
            match str.data with
            | none => none
            | some block => do
              let block ←
                if byte_offset < str.byte_len then do
                  let tail ← mem_read block byte_offset (str.byte_len - byte_offset)
                  mem_write block (byte_offset + bytes.length) tail
                else some block
              let block ← mem_write block byte_offset bytes
              let byte_len := str.byte_len + bytes.length
              let block ← mem_write block byte_len [0]
              some (0, { str with data := some block, byte_len := byte_len,
                                  codepoint_len := str.codepoint_len + cps })) := by
  rfl

/-- The capacity step of the insert functions on a buffer in good order. -/
theorem insert_grow_spec (a : allocator) (str : utf8_string) (n : Nat)
    (r : Int × utf8_string) (hinv : Terminated str) (h : insert_grow a str n = some r) :
    Terminated r.2 ∧ r.2.byte_len = str.byte_len ∧ r.2.codepoint_len = str.codepoint_len ∧
      contents r.2 = contents str ∧
      (r.1 = 0 ∧ str.byte_len + n < r.2.capacity ∨ r.1 = -1 ∧ r.2 = str) := by
  unfold insert_grow at h
  by_cases hge : str.byte_len + n ≥ str.capacity
  · rw [if_pos hge] at h
    simp only at h
    cases hg : grow_loop_le 65
        (if str.capacity = 0 then 16 else str.capacity * 2 % 18446744073709551616)
        (str.byte_len + n) with
    | none => rw [hg] at h; simp at h
    | some nc =>
      rw [hg] at h
      simp only at h
      have hnc := grow_loop_le_gt _ _ _ _ hg
      obtain ⟨h1, h2, h3, h4, h5⟩ := u8s_reserve_spec a str nc r hinv h
      refine ⟨h1, h2, h3, h4, ?_⟩
      rcases h5 with ⟨e, hc⟩ | h5
      · exact Or.inl ⟨e, by omega⟩
      · exact Or.inr h5
  · rw [if_neg hge] at h
    injection h with h
    subst h
    exact ⟨hinv, rfl, rfl, rfl, Or.inl ⟨rfl, by simp only; omega⟩⟩

theorem insert_grow_returns (a : allocator) (str : utf8_string) (n : Nat)
    (hinv : Terminated str) (ha : a.ok = true)
    (hsz : str.byte_len + n < 4611686018427387904) :
    ∃ s1, insert_grow a str n = some (0, s1) := by
  obtain ⟨block, hdata, hlen, hlt, hterm⟩ := hinv
  unfold insert_grow
  by_cases hge : str.byte_len + n ≥ str.capacity
  · rw [if_pos hge]
    have hc0 : str.capacity ≠ 0 := by omega
    have hmod : str.capacity * 2 % 18446744073709551616 = str.capacity * 2 :=
      Nat.mod_eq_of_lt (by omega)
    simp only [if_neg hc0, hmod]
    obtain ⟨K, hK, h1, h2⟩ := exists_doubling (str.capacity * 2) (str.byte_len + n + 1)
      (by omega) (by omega) (by omega)
    obtain ⟨k, -, hg, hgt, hj⟩ := grow_loop_le_spec (str.byte_len + n) K _ 65 (by omega) h2
      (by omega)
    rw [hg]
    simp only
    apply u8s_reserve_returns a str _ ha
    rcases Nat.eq_zero_or_pos k with hk0 | hkpos
    · rw [hk0]
      simp only [pow_zero, Nat.mul_one]
      omega
    · have := hj (k - 1) (by omega)
      have e : str.capacity * 2 * 2 ^ k = str.capacity * 2 * 2 ^ (k - 1) * 2 := by
        have : k = k - 1 + 1 := by omega
        conv_lhs => rw [this, pow_succ]
        ring
      omega
  · rw [if_neg hge]
    exact ⟨_, rfl⟩

/-- One run of the tail of the insert functions on a buffer in good order, for
a byte offset inside the contents, given the result of the capacity step. -/
theorem insert_bytes_run (a : allocator) (str : utf8_string) (bo : Nat) (bytes : List Nat)
    (cps : Nat) (hinv : Terminated str) (hbo : bo ≤ str.byte_len) (ret : Int)
    (s1 : utf8_string) (hg : insert_grow a str bytes.length = some (ret, s1)) :
    (ret ≠ 0 → insert_bytes a str bo bytes cps = some (-1, str)) ∧
    (ret = 0 → ∃ d', insert_bytes a str bo bytes cps = some (0, d') ∧ Terminated d' ∧
      contents d' = (contents str).take bo ++ bytes ++ (contents str).drop bo ∧
      d'.byte_len = str.byte_len + bytes.length ∧
      d'.codepoint_len = str.codepoint_len + cps) := by
  obtain ⟨hinv1, hbl, hcl, hcont, hret⟩ := insert_grow_spec a str _ _ hinv hg
  simp only at hinv1 hbl hcl hcont hret
  rw [insert_bytes_eq, hg]
  simp only
  constructor
  · intro hr
    rcases hret with ⟨h0, -⟩ | ⟨h1, h2⟩
    · exact absurd h0 hr
    · rw [if_pos (by omega), h2]
  · intro hr
    rcases hret with ⟨-, hcap⟩ | ⟨h1, -⟩
    · obtain ⟨block, hdata, hblen, hlt, hterm⟩ := hinv1
      obtain ⟨b1, b2, b3, hb1, hb2, hb3, hl3, htake, hterm3⟩ :=
        insert_chain block bytes bo s1.byte_len (by omega) (by rw [hbl, hblen]; omega)
      refine ⟨{ s1 with data := some b3, byte_len := s1.byte_len + bytes.length,
                        codepoint_len := s1.codepoint_len + cps }, ?_,
        ⟨b3, rfl, by rw [hl3, hblen], by simp only; rw [hbl]; omega, hterm3⟩, ?_,
        by simp only; rw [hbl], by simp only; rw [hcl]⟩
      · rw [if_neg (by omega)]
        simp only [hdata]
        by_cases hlt2 : bo < s1.byte_len
        · rw [if_pos hlt2] at hb1
          simp only [Option.bind_eq_some] at hb1
          obtain ⟨tail, ht1, ht2⟩ := hb1
          simp only [if_pos hlt2, ht1, ht2, hb2, hb3, Option.bind_eq_bind, Option.some_bind]
        · rw [if_neg hlt2] at hb1
          injection hb1 with hb1
          subst hb1
          simp only [if_neg hlt2, hb2, hb3, Option.bind_eq_bind, Option.some_bind]
      · rw [← hcont]
        unfold contents
        simp only [hdata]
        rw [htake, List.take_take, Nat.min_eq_left (by omega)]
    · rw [hr] at h1
      exact absurd h1 (by decide)

/-- What the tail of the insert functions does to a buffer in good order: a
call that returns either returns -1 and leaves the buffer as it was, or
returns 0 with the bytes inserted at the byte offset; with a serving allocator
and less than `2 ^ 62` bytes in all it returns 0. -/
theorem insert_bytes_spec (a : allocator) (str : utf8_string) (bo : Nat) (bytes : List Nat)
    (cps : Nat) (hinv : Terminated str) (hbo : bo ≤ str.byte_len) :
    (∀ r, insert_bytes a str bo bytes cps = some r →
      r = (-1, str) ∨
      (r.1 = 0 ∧ Terminated r.2 ∧
        contents r.2 = (contents str).take bo ++ bytes ++ (contents str).drop bo ∧
        r.2.byte_len = str.byte_len + bytes.length ∧
        r.2.codepoint_len = str.codepoint_len + cps)) ∧
    (a.ok = true → str.byte_len + bytes.length < 4611686018427387904 →
      ∃ d', insert_bytes a str bo bytes cps = some (0, d')) := by
  constructor
  · intro r hr
    cases hg : insert_grow a str bytes.length with
    | none =>
      rw [insert_bytes_eq, hg] at hr
      exact absurd hr (by simp)
    | some r1 =>
      obtain ⟨ret, s1⟩ := r1
      obtain ⟨h1, h2⟩ := insert_bytes_run a str bo bytes cps hinv hbo ret s1 hg
      by_cases h0 : ret = 0
      · obtain ⟨d', e, p⟩ := h2 h0
        rw [e] at hr
        injection hr with hr
        subst hr
        exact Or.inr ⟨rfl, p⟩
      · rw [h1 h0] at hr
        injection hr with hr
        exact Or.inl hr.symm
  · intro ha hsz
    obtain ⟨s1, hg⟩ := insert_grow_returns a str bytes.length hinv ha hsz
    obtain ⟨-, h2⟩ := insert_bytes_run a str bo bytes cps hinv hbo 0 s1 hg
    obtain ⟨d', e, -⟩ := h2 rfl
    exact ⟨d', e⟩

/-- Outside the surrogates the encoder of the buffer is the encoder of the
codec. -/
theorem encode_codepoint_eq (cp : Nat) (h : ¬ (0xD800 ≤ cp ∧ cp ≤ 0xDFFF)) :
    encode_codepoint cp = u8_encode_codepoint cp := by
  unfold encode_codepoint u8_encode_codepoint
  by_cases h1 : cp ≤ 0x7F
  · rw [if_pos h1, if_pos h1]
  · rw [if_neg h1, if_neg h1]
    by_cases h2 : cp ≤ 0x7FF
    · rw [if_pos h2, if_pos h2]
    · rw [if_neg h2, if_neg h2]
      by_cases h3 : cp ≤ 0xFFFF
      · rw [if_pos h3, if_pos h3, if_neg (by omega)]
      · rw [if_neg h3, if_neg h3]

theorem encode_codepoint_scalar (cp : Nat) (h : IsScalar cp) :
    encode_codepoint cp = some (layout cp) := by
  rw [encode_codepoint_eq cp h.2.2, u8_encode_codepoint_layout cp h.2.1 h.2.2]

/-! ### Counting the sequences of well-formed contents -/

theorem u8i_next_congr (mem mem2 : List Nat) (iter : utf8_iterator)
    (h : ∀ i, i < iter.end_ → mem.getD i 0 = mem2.getD i 0) :
    u8i_next mem iter = u8i_next mem2 iter := by
  unfold u8i_next
  rw [utf8_decode_sequence_at_eq mem, utf8_decode_sequence_at_eq mem2,
    window_congr mem mem2 iter.current iter.end_ (fun i _ hi => h i hi)]

theorem u8i_next_end (mem : List Nat) (iter : utf8_iterator) :
    (u8i_next mem iter).2.end_ = iter.end_ := by
  unfold u8i_next
  simp only
  split_ifs <;> rfl

theorem u8_len_loop_congr (mem mem2 : List Nat) : ∀ (fuel : Nat) (iter : utf8_iterator)
    (count : Nat), (∀ i, i < iter.end_ → mem.getD i 0 = mem2.getD i 0) →
    u8_len_loop mem fuel iter count = u8_len_loop mem2 fuel iter count := by
  intro fuel
  induction fuel with
  | zero => intro iter count _; rfl
  | succ fuel ih =>
    intro iter count h
    rw [u8_len_loop, u8_len_loop, u8i_next_congr mem mem2 iter h]
    by_cases hn : u8i_has_next iter ≠ 0
    · rw [if_pos hn, if_pos hn]
      simp only
      by_cases hr : (u8i_next mem2 iter).1 < 0
      · rw [if_pos hr, if_pos hr]
      · rw [if_neg hr, if_neg hr]
        apply ih
        intro i hi
        rw [u8i_next_end] at hi
        exact h i hi
    · rw [if_neg hn, if_neg hn]

/-- The recount `u8_len(data, byte_len)` reads the bytes `data[0 .. byte_len)`
only. -/
theorem u8_len_congr (mem mem2 : List Nat) (n : Nat)
    (h : ∀ i, i < n → mem.getD i 0 = mem2.getD i 0) : u8_len mem n = u8_len mem2 n := by
  unfold u8_len
  by_cases h0 : n = 0
  · rw [if_pos h0, if_pos h0]
  · rw [if_neg h0, if_neg h0]
    simp only
    by_cases he : u8i_error (u8i_new_with_length n) ≠ 0
    · rw [if_pos he, if_pos he]
    · rw [if_neg he, if_neg he]
      apply u8_len_loop_congr
      intro i hi
      apply h
      simpa [u8i_new_with_length] using hi

theorem getD_of_take (block s : List Nat) (n : Nat) (h : block.take n = s) (i : Nat)
    (hi : i < n) : block.getD i 0 = s.getD i 0 := by
  rw [← h, List.getD_eq_getElem?_getD, List.getD_eq_getElem?_getD,
    List.getElem?_take_of_lt hi]

/-- The recount of well-formed contents is the number of their sequences. -/
theorem u8_len_of_parse (qs : List (List Nat)) (hqs : ∀ q ∈ qs, IsSeq q) (mem : List Nat)
    (hmem : ∀ i < qs.flatten.length, mem.getD i 0 = qs.flatten.getD i 0) :
    u8_len mem qs.flatten.length = some qs.length := by
  rw [u8_len_congr mem qs.flatten _ hmem]
  have := u8_len_cstr_wellFormed qs hqs
  unfold u8_len_cstr at this
  rw [strlen_nulFree _ (wellFormed_nulFree _ ⟨qs, hqs, rfl⟩)] at this
  exact this

/-- The count of `utf8_string_count_codepoints` on well-formed contents is the
number of their sequences. -/
theorem count_of_parse (qs : List (List Nat)) (hqs : ∀ q ∈ qs, IsSeq q) (mem : List Nat)
    (hmem : ∀ i < qs.flatten.length, mem.getD i 0 = qs.flatten.getD i 0) :
    utf8_string_count_codepoints mem qs.flatten.length = some qs.length := by
  have hle := boundary_add_le qs hqs qs.length 0 (by omega)
  rw [boundary_zero] at hle
  unfold utf8_string_count_codepoints
  by_cases h0 : qs.flatten.length = 0
  · rw [if_pos h0]
    congr 1
    omega
  · rw [if_neg h0]
    have := count_loop_wellFormed qs hqs mem hmem qs.length 0 (qs.flatten.length + 1) 0
      (by omega) (by omega)
    rw [boundary_zero, Nat.zero_add] at this
    exact this

/-- Two parses of one string have the same number of sequences. -/
theorem parse_length_unique (qs qs2 : List (List Nat)) (h1 : ∀ q ∈ qs, IsSeq q)
    (h2 : ∀ q ∈ qs2, IsSeq q) (h : qs.flatten = qs2.flatten) : qs.length = qs2.length := by
  have e1 := u8_len_cstr_wellFormed qs h1
  have e2 := u8_len_cstr_wellFormed qs2 h2
  rw [h, e2] at e1
  injection e1 with e1
  exact e1.symm

theorem take_boundary (qs : List (List Nat)) (k : Nat) :
    qs.flatten.take (boundary qs k) = (qs.take k).flatten ∧
    qs.flatten.drop (boundary qs k) = (qs.drop k).flatten := by
  have e : qs.flatten = (qs.take k).flatten ++ (qs.drop k).flatten := by
    rw [← List.flatten_append, List.take_append_drop]
  unfold boundary
  constructor
  · conv_lhs => rw [e]
    rw [List.take_left]
  · conv_lhs => rw [e]
    rw [List.drop_left]

/-- The memory of a parsed buffer. -/
theorem parsed_block (str : utf8_string) (qs : List (List Nat)) (h : Parsed str qs) :
    ∃ block, str.data = some block ∧ block.length = str.capacity ∧
      str.byte_len = qs.flatten.length ∧ str.byte_len < str.capacity ∧
      block.take str.byte_len = qs.flatten ∧ block[str.byte_len]? = some 0 ∧
      ∀ i < qs.flatten.length, block.getD i 0 = qs.flatten.getD i 0 := by
  obtain ⟨hqs, hterm, hcont, hcl⟩ := h
  have hlen := contents_length str hterm
  rw [hcont] at hlen
  obtain ⟨block, hdata, hblen, hlt, ht⟩ := hterm
  rw [contents_eq _ _ hdata] at hcont
  refine ⟨block, hdata, hblen, hlen.symm, hlt, hcont, ht, ?_⟩
  intro i hi
  exact getD_of_take block _ str.byte_len hcont i (by omega)

/-- A buffer is counted exactly when it has a parse. -/
theorem counted_iff_parsed (str : utf8_string) : Counted str ↔ ∃ qs, Parsed str qs := by
  constructor
  · rintro ⟨hterm, ⟨qs, hqs, hcont⟩, block, hdata, hlen⟩
    refine ⟨qs, hqs, hterm, hcont, ?_⟩
    have hbl := contents_length str hterm
    rw [hcont] at hbl
    have hmem : ∀ i < qs.flatten.length, block.getD i 0 = qs.flatten.getD i 0 := by
      intro i hi
      rw [contents_eq _ _ hdata] at hcont
      exact getD_of_take block _ str.byte_len hcont i (by omega)
    have := u8_len_of_parse qs hqs block hmem
    rw [hbl, hlen] at this
    injection this
  · rintro ⟨qs, hp⟩
    obtain ⟨block, hdata, -, hbl, -, -, -, hmem⟩ := parsed_block str qs hp
    obtain ⟨hqs, hterm, hcont, hcl⟩ := hp
    refine ⟨hterm, ⟨qs, hqs, hcont⟩, block, hdata, ?_⟩
    rw [hbl, hcl]
    exact u8_len_of_parse qs hqs block hmem

/-- The scan of `codepoint_to_byte_offset` on a parsed buffer ends at the start
of sequence `k`. -/
theorem codepoint_to_byte_offset_parsed (str : utf8_string) (qs : List (List Nat))
    (h : Parsed str qs) (k : Nat) (hk : k < qs.length) :
    codepoint_to_byte_offset str k = some (boundary qs k) := by
  obtain ⟨block, hdata, -, hbl, -, -, -, hmem⟩ := parsed_block str qs h
  unfold codepoint_to_byte_offset
  simp only [hdata, h.2.2.2, hbl]
  rw [if_neg (by omega)]
  have := skip_loop_wellFormed qs h.1 block hmem k 0 (by omega)
  rw [boundary_zero, Nat.zero_add] at this
  exact this

theorem insert_byte_offset_parsed (str : utf8_string) (qs : List (List Nat))
    (h : Parsed str qs) (k : Nat) (hk : k ≤ qs.length) :
    insert_byte_offset str k false = some (boundary qs k) := by
  obtain ⟨block, hdata, -, hbl, -, -, -, hmem⟩ := parsed_block str qs h
  unfold insert_byte_offset
  simp only [Bool.false_eq_true, if_false, h.2.2.2]
  rw [if_neg (by omega)]
  by_cases he : k = qs.length
  · rw [if_pos he, he, boundary_length, hbl]
  · rw [if_neg he]
    exact codepoint_to_byte_offset_parsed str qs h k (by omega)

/-! ### A failing mutation leaves the buffer as it was -/

theorem ensure_capacity_fail (a : allocator) (str : utf8_string) (needed : Nat)
    (r : Int × utf8_string) (h : utf8_string_ensure_capacity a str needed = some r) :
    r.1 = 0 ∨ r = (-1, str) := by
  unfold utf8_string_ensure_capacity at h
  by_cases hge : str.capacity ≥ needed
  · rw [if_pos hge] at h
    injection h with h
    subst h
    exact Or.inl rfl
  · rw [if_neg hge] at h
    simp only at h
    cases hg : grow_loop 65 (if str.capacity = 0 then UTF8_STRING_MIN_CAPACITY
        else str.capacity) needed with
    | none => rw [hg] at h; simp at h
    | some nc =>
      rw [hg] at h
      simp only at h
      by_cases hok : ¬ a.ok = true
      · rw [if_pos hok] at h
        injection h with h
        exact Or.inr h.symm
      · rw [if_neg hok] at h
        injection h with h
        subst h
        exact Or.inl rfl

theorem u8s_reserve_fail (a : allocator) (str : utf8_string) (n : Nat)
    (r : Int × utf8_string) (h : u8s_reserve a str n = some r) :
    r.1 = 0 ∨ r = (-1, str) := by
  unfold u8s_reserve at h
  by_cases hle : n ≤ str.capacity
  · rw [if_pos hle] at h
    injection h with h
    subst h
    exact Or.inl rfl
  · rw [if_neg hle] at h
    exact ensure_capacity_fail a str n r h

theorem insert_grow_fail (a : allocator) (str : utf8_string) (n : Nat)
    (r : Int × utf8_string) (h : insert_grow a str n = some r) :
    r.1 = 0 ∨ r = (-1, str) := by
  unfold insert_grow at h
  by_cases hge : str.byte_len + n ≥ str.capacity
  · rw [if_pos hge] at h
    simp only at h
    cases hg : grow_loop_le 65
        (if str.capacity = 0 then 16 else str.capacity * 2 % 18446744073709551616)
        (str.byte_len + n) with
    | none => rw [hg] at h; simp at h
    | some nc =>
      rw [hg] at h
      exact u8s_reserve_fail a str nc r h
  · rw [if_neg hge] at h
    injection h with h
    subst h
    exact Or.inl rfl

theorem insert_bytes_fail (a : allocator) (str : utf8_string) (bo : Nat) (bytes : List Nat)
    (cps : Nat) (r : Int × utf8_string) (h : insert_bytes a str bo bytes cps = some r) :
    r.1 = 0 ∨ r = (-1, str) := by
  rw [insert_bytes_eq] at h
  cases hg : insert_grow a str bytes.length with
  | none => rw [hg] at h; simp at h
  | some r1 =>
    obtain ⟨ret, s1⟩ := r1
    rw [hg] at h
    simp only at h
    rcases insert_grow_fail a str _ _ hg with h0 | h1
    · simp only at h0
      rw [if_neg (by omega)] at h
      cases hd : s1.data with
      | none => rw [hd] at h; simp at h
      | some block =>
        rw [hd] at h
        by_cases hlt : bo < s1.byte_len
        · simp only [if_pos hlt, Option.bind_eq_bind, Option.bind_eq_some] at h
          obtain ⟨tail, -, b1, -, b2, -, b3, -, h⟩ := h
          injection h with h
          subst h
          exact Or.inl rfl
        · simp only [if_neg hlt, Option.bind_eq_bind, Option.bind_eq_some] at h
          obtain ⟨b1, -, b2, -, b3, -, h⟩ := h
          injection h with h
          subst h
          exact Or.inl rfl
    · injection h1 with e1 e2
      subst e1 e2
      rw [if_pos (by decide)] at h
      injection h with h
      exact Or.inr h.symm

theorem u8s_cat_cstr_fail (a : allocator) (d : utf8_string) (t : List Nat)
    (r : Int × utf8_string) (h : u8s_cat_cstr a d t = some r) :
    r.1 = 0 ∨ r = (-1, d) := by
  unfold u8s_cat_cstr at h
  simp only at h
  by_cases h0 : strlen t = 0
  · rw [if_pos h0] at h
    injection h with h
    subst h
    exact Or.inl rfl
  · rw [if_neg h0] at h
    cases he : utf8_string_ensure_capacity a d (d.byte_len + strlen t + 1) with
    | none => rw [he] at h; simp at h
    | some r1 =>
      obtain ⟨ret, d1⟩ := r1
      rw [he] at h
      simp only at h
      rcases ensure_capacity_fail a d _ _ he with h1 | h1
      · simp only at h1
        rw [if_neg (by simp [h1])] at h
        cases hd : d1.data with
        | none => rw [hd] at h; simp at h
        | some block =>
          rw [hd] at h
          simp only [Option.bind_eq_bind, Option.bind_eq_some] at h
          obtain ⟨b1, -, b2, -, c, -, h⟩ := h
          injection h with h
          subst h
          exact Or.inl rfl
      · injection h1 with e1 e2
        subst e1 e2
        rw [if_pos (by decide)] at h
        injection h with h
        exact Or.inr h.symm

theorem u8s_cat_cp_fail (a : allocator) (d : utf8_string) (cp : Nat)
    (r : Int × utf8_string) (h : u8s_cat_cp a d cp = some r) :
    r.1 = 0 ∨ r = (-1, d) := by
  unfold u8s_cat_cp at h
  by_cases hok : ¬ a.ok = true
  · rw [if_pos hok] at h
    injection h with h
    exact Or.inr h.symm
  · rw [if_neg hok] at h
    cases he : u8enc [cp, 0] with
    | none =>
      rw [he] at h
      injection h with h
      exact Or.inr h.symm
    | some enc =>
      rw [he] at h
      exact u8s_cat_cstr_fail a d enc r h

theorem u8s_insert_cp_fail (a : allocator) (str : utf8_string) (offset cp : Nat)
    (b : Bool) (r : Int × utf8_string) (h : u8s_insert_cp a str offset cp b = some r) :
    r.1 = 0 ∨ r = (-1, str) := by
  unfold u8s_insert_cp at h
  cases hd : str.data with
  | none => rw [hd] at h; injection h with h; exact Or.inr h.symm
  | some block =>
    rw [hd] at h
    simp only at h
    cases ho : insert_byte_offset str offset b with
    | none => rw [ho] at h; injection h with h; exact Or.inr h.symm
    | some bo =>
      rw [ho] at h
      simp only at h
      cases he : encode_codepoint cp with
      | none => rw [he] at h; injection h with h; exact Or.inr h.symm
      | some enc =>
        rw [he] at h
        exact insert_bytes_fail _ _ _ _ _ _ h

theorem u8s_insert_str_fail (a : allocator) (str : utf8_string) (offset : Nat)
    (src : List Nat) (b : Bool) (r : Int × utf8_string)
    (h : u8s_insert_str a str offset src b = some r) : r.1 = 0 ∨ r = (-1, str) := by
  unfold u8s_insert_str at h
  cases hd : str.data with
  | none => rw [hd] at h; injection h with h; exact Or.inr h.symm
  | some block =>
    rw [hd] at h
    simp only at h
    by_cases h0 : strlen src = 0
    · rw [if_pos h0] at h
      injection h with h
      subst h
      exact Or.inl rfl
    · rw [if_neg h0] at h
      cases hl : u8_len src (strlen src) with
      | none => rw [hl] at h; simp at h
      | some n =>
        rw [hl] at h
        simp only at h
        by_cases hn : n = 0
        · rw [if_pos hn] at h
          injection h with h
          exact Or.inr h.symm
        · rw [if_neg hn] at h
          cases ho : insert_byte_offset str offset b with
          | none => rw [ho] at h; injection h with h; exact Or.inr h.symm
          | some bo =>
            rw [ho] at h
            exact insert_bytes_fail _ _ _ _ _ _ h

theorem u8s_insert_u8s_fail (a : allocator) (str : utf8_string) (offset : Nat)
    (src : utf8_string) (b : Bool) (r : Int × utf8_string)
    (h : u8s_insert_u8s a str offset src b = some r) : r.1 = 0 ∨ r = (-1, str) := by
  unfold u8s_insert_u8s at h
  cases hd : str.data with
  | none => rw [hd] at h; injection h with h; exact Or.inr h.symm
  | some block =>
    cases hs : src.data with
    | none => rw [hd, hs] at h; injection h with h; exact Or.inr h.symm
    | some sb =>
      rw [hd, hs] at h
      simp only at h
      by_cases h0 : src.byte_len = 0
      · rw [if_pos h0] at h
        injection h with h
        subst h
        exact Or.inl rfl
      · rw [if_neg h0] at h
        cases ho : insert_byte_offset str offset b with
        | none => rw [ho] at h; injection h with h; exact Or.inr h.symm
        | some bo =>
          rw [ho] at h
          simp only at h
          cases hm : mem_read sb 0 src.byte_len with
          | none => rw [hm] at h; simp at h
          | some bytes =>
            rw [hm] at h
            exact insert_bytes_fail _ _ _ _ _ _ h

/-! ### Well-formed contents under the operations of the buffer -/

theorem u8s_new_parsed (a : allocator) (qs : List (List Nat)) (hqs : ∀ q ∈ qs, IsSeq q)
    (str : utf8_string) (h : u8s_new a qs.flatten = some (some str)) : Parsed str qs := by
  have hs := wellFormed_nulFree _ ⟨qs, hqs, rfl⟩
  obtain ⟨-, hterm, hcont, hbl, -, block, hdata, hcount⟩ := u8s_new_result a _ hs str h
  refine ⟨hqs, hterm, hcont, ?_⟩
  rw [contents_eq _ _ hdata, hbl] at hcont
  have := count_of_parse qs hqs block (fun i hi => getD_of_take block _ _ hcont i hi)
  rw [hcount] at this
  injection this

theorem u8s_new_parsed_returns (a : allocator) (qs : List (List Nat))
    (hqs : ∀ q ∈ qs, IsSeq q) (ha : a.ok = true) :
    ∃ str, u8s_new a qs.flatten = some (some str) ∧ Parsed str qs ∧
      str.capacity = max 16 (qs.flatten.length + 1) := by
  have hs := wellFormed_nulFree _ ⟨qs, hqs, rfl⟩
  obtain ⟨str, h, -, -, -, hcap, -⟩ := (u8s_new_spec a _ hs).2 ha
  exact ⟨str, h, u8s_new_parsed a qs hqs str h, hcap⟩

theorem isSeq_append (qs ts : List (List Nat)) (h1 : ∀ q ∈ qs, IsSeq q)
    (h2 : ∀ q ∈ ts, IsSeq q) : ∀ q ∈ qs ++ ts, IsSeq q := by
  intro q hq
  rcases List.mem_append.mp hq with h | h
  · exact h1 q h
  · exact h2 q h

theorem u8s_cat_cstr_parsed (a : allocator) (d : utf8_string) (qs ts : List (List Nat))
    (hd : Parsed d qs) (hts : ∀ q ∈ ts, IsSeq q) (r : Int × utf8_string)
    (h : u8s_cat_cstr a d ts.flatten = some r) :
    r = (-1, d) ∨ (r.1 = 0 ∧ Parsed r.2 (qs ++ ts)) := by
  have ht := wellFormed_nulFree _ ⟨ts, hts, rfl⟩
  rcases (u8s_cat_cstr_spec a d _ hd.2.1 ht).1 r h with h1 | ⟨h0, hterm, hcont, hbl, c, hc, hcl⟩
  · exact Or.inl h1
  · refine Or.inr ⟨h0, isSeq_append qs ts hd.1 hts, hterm, ?_, ?_⟩
    · rw [hcont, hd.2.2.1, List.flatten_append]
    · have := count_of_parse ts hts ts.flatten (fun _ _ => rfl)
      rw [hc] at this
      injection this with this
      rw [hcl, hd.2.2.2, this, List.length_append]

theorem u8s_cat_parsed (a : allocator) (d src : utf8_string) (qs bs : List (List Nat))
    (hd : Parsed d qs) (hsrc : Parsed src bs) (r : Int × utf8_string)
    (h : u8s_cat a d src = some r) :
    r = (-1, d) ∨ (r.1 = 0 ∧ Parsed r.2 (qs ++ bs)) := by
  have hs : NulFree (contents src) := by
    rw [hsrc.2.2.1]
    exact wellFormed_nulFree _ ⟨bs, hsrc.1, rfl⟩
  rw [u8s_cat_eq a d src hsrc.2.1 hs, hsrc.2.2.1] at h
  exact u8s_cat_cstr_parsed a d qs bs hd hsrc.1 r h

/-- What `u8s_cat_cp` does to a buffer in good order: it returns -1 and leaves
the buffer as it was, or it returns 0 for the codepoint 0 and leaves the buffer
as it was, or it returns 0 for a scalar value and has appended its encoding. -/
theorem u8s_cat_cp_spec (a : allocator) (d : utf8_string) (cp : Nat) (hinv : Terminated d)
    (r : Int × utf8_string) (h : u8s_cat_cp a d cp = some r) :
    r = (-1, d) ∨ (cp = 0 ∧ r = (0, d)) ∨
    (r.1 = 0 ∧ IsScalar cp ∧ Terminated r.2 ∧ contents r.2 = contents d ++ layout cp ∧
      r.2.byte_len = d.byte_len + (layout cp).length ∧
      r.2.codepoint_len = d.codepoint_len + 1) := by
  unfold u8s_cat_cp at h
  by_cases hok : ¬ a.ok = true
  · rw [if_pos hok] at h
    injection h with h
    exact Or.inl h.symm
  · rw [if_neg hok, u8enc_single] at h
    by_cases h0 : cp = 0
    · rw [if_pos h0] at h
      simp only at h
      have e : u8s_cat_cstr a d [] = some (0, d) := by
        unfold u8s_cat_cstr
        simp [strlen]
      rw [e] at h
      injection h with h
      exact Or.inr (Or.inl ⟨h0, h.symm⟩)
    · rw [if_neg h0] at h
      by_cases hbad : (0xD800 ≤ cp ∧ cp ≤ 0xDFFF) ∨ 0x10FFFF < cp
      · rw [if_pos hbad] at h
        injection h with h
        exact Or.inl h.symm
      · rw [if_neg hbad] at h
        simp only at h
        have hsc : IsScalar cp := ⟨by omega, by omega, fun hh => hbad (Or.inl hh)⟩
        have hseq := (layout_isSeq cp hsc).1
        have hq : ∀ q ∈ [layout cp], IsSeq q := by
          intro q hq
          rw [List.mem_singleton] at hq
          rw [hq]; exact hseq
        have hfl : [layout cp].flatten = layout cp := by simp
        have ht : NulFree (layout cp) := by
          rw [← hfl]
          exact wellFormed_nulFree _ ⟨[layout cp], hq, rfl⟩
        rcases (u8s_cat_cstr_spec a d _ hinv ht).1 r h with
          h1 | ⟨hr, hterm, hcont, hbl, c, hc, hcl⟩
        · exact Or.inl h1
        · have := count_of_parse [layout cp] hq (layout cp) (fun _ _ => by rw [hfl])
          rw [hfl, hc] at this
          injection this with this
          refine Or.inr (Or.inr ⟨hr, hsc, hterm, hcont, hbl, ?_⟩)
          rw [hcl, this]
          rfl

theorem u8s_cat_cp_returns (a : allocator) (d : utf8_string) (cp : Nat)
    (hinv : Terminated d) (hsc : IsScalar cp) (ha : a.ok = true)
    (hsz : d.byte_len + 5 ≤ 9223372036854775808) :
    ∃ d', u8s_cat_cp a d cp = some (0, d') := by
  have hseq := (layout_isSeq cp hsc).1
  have hq : ∀ q ∈ [layout cp], IsSeq q := by
    intro q hq
    rw [List.mem_singleton] at hq
    rw [hq]; exact hseq
  have hfl : [layout cp].flatten = layout cp := by simp
  have ht : NulFree (layout cp) := by
    rw [← hfl]
    exact wellFormed_nulFree _ ⟨[layout cp], hq, rfl⟩
  have hl : (layout cp).length ≤ 4 := by
    rw [layout_length cp hsc.2.1]
    unfold u8_cp_bytelen
    split_ifs <;> omega
  unfold u8s_cat_cp
  rw [if_neg (by simp [ha]), u8enc_single, if_neg (by have := hsc.1; omega),
    if_neg (by
      intro hbad
      rcases hbad with hh | hh
      · exact hsc.2.2 hh
      · have := hsc.2.1; omega)]
  simp only
  exact (u8s_cat_cstr_spec a d _ hinv ht).2 ha (by omega)

theorem u8s_cat_cp_parsed (a : allocator) (d : utf8_string) (qs : List (List Nat))
    (hd : Parsed d qs) (cp : Nat) (r : Int × utf8_string)
    (h : u8s_cat_cp a d cp = some r) :
    r.2 = d ∨ (r.1 = 0 ∧ IsScalar cp ∧ Parsed r.2 (qs ++ [layout cp])) := by
  rcases u8s_cat_cp_spec a d cp hd.2.1 r h with h1 | ⟨-, h1⟩ | ⟨hr, hsc, hterm, hcont, -, hcl⟩
  · rw [h1]; exact Or.inl rfl
  · rw [h1]; exact Or.inl rfl
  · have hseq := (layout_isSeq cp hsc).1
    have hq : ∀ q ∈ [layout cp], IsSeq q := by
      intro q hq
      rw [List.mem_singleton] at hq
      rw [hq]; exact hseq
    refine Or.inr ⟨hr, hsc, isSeq_append qs _ hd.1 hq, hterm, ?_, ?_⟩
    · rw [hcont, hd.2.2.1, List.flatten_append]
      simp
    · rw [hcl, hd.2.2.2]
      simp

/-! ### Inserting into well-formed contents -/

/-- The byte offset the insert functions compute on a parsed buffer splits the
contents into two well-formed strings. -/
theorem insert_byte_offset_split (str : utf8_string) (qs : List (List Nat))
    (hp : Parsed str qs) (offset : Nat) (b : Bool)
    (hb : b = true →
      WellFormed ((contents str).take offset) ∧ WellFormed ((contents str).drop offset))
    (bo : Nat) (h : insert_byte_offset str offset b = some bo) :
    bo ≤ str.byte_len ∧ ∃ qs1 qs2, (∀ q ∈ qs1, IsSeq q) ∧ (∀ q ∈ qs2, IsSeq q) ∧
      (contents str).take bo = qs1.flatten ∧ (contents str).drop bo = qs2.flatten ∧
      (b = false → qs1 = qs.take offset ∧ qs2 = qs.drop offset ∧ offset ≤ qs.length) := by
  obtain ⟨block, hdata, -, hbl, -, -, -, -⟩ := parsed_block str qs hp
  cases b with
  | true =>
    unfold insert_byte_offset at h
    simp only [if_true] at h
    by_cases hgt : offset > str.byte_len
    · rw [if_pos hgt] at h
      exact absurd h (by simp)
    · rw [if_neg hgt] at h
      injection h with h
      subst h
      obtain ⟨⟨qs1, h1, e1⟩, ⟨qs2, h2, e2⟩⟩ := hb rfl
      exact ⟨by omega, qs1, qs2, h1, h2, e1, e2, fun hh => absurd hh (by simp)⟩
  | false =>
    have hle : offset ≤ qs.length := by
      by_contra hc
      unfold insert_byte_offset at h
      simp only [Bool.false_eq_true, if_false, hp.2.2.2] at h
      rw [if_pos (by omega)] at h
      exact absurd h (by simp)
    rw [insert_byte_offset_parsed str qs hp offset hle] at h
    injection h with h
    subst h
    have hb2 := boundary_add_le qs hp.1 0 offset (by omega)
    rw [Nat.add_zero] at hb2
    obtain ⟨t1, t2⟩ := take_boundary qs offset
    refine ⟨by omega, qs.take offset, qs.drop offset,
      fun q hq => hp.1 q (List.mem_of_mem_take hq),
      fun q hq => hp.1 q (List.mem_of_mem_drop hq), ?_, ?_, fun _ => ⟨rfl, rfl, hle⟩⟩
    · rw [hp.2.2.1]; exact t1
    · rw [hp.2.2.1]; exact t2

/-- The tail of the insert functions on a parsed buffer, for well-formed bytes
and a byte offset that splits the contents into two well-formed strings. -/
theorem insert_bytes_parsed (a : allocator) (str : utf8_string)
    (qs qs1 qs2 ts : List (List Nat)) (hp : Parsed str qs) (bo : Nat)
    (hbo : bo ≤ str.byte_len) (h1 : ∀ q ∈ qs1, IsSeq q) (h2 : ∀ q ∈ qs2, IsSeq q)
    (e1 : (contents str).take bo = qs1.flatten) (e2 : (contents str).drop bo = qs2.flatten)
    (hts : ∀ q ∈ ts, IsSeq q) (r : Int × utf8_string)
    (h : insert_bytes a str bo ts.flatten ts.length = some r) :
    r = (-1, str) ∨ (r.1 = 0 ∧ Parsed r.2 (qs1 ++ ts ++ qs2) ∧
      r.2.byte_len = str.byte_len + ts.flatten.length) := by
  rcases (insert_bytes_spec a str bo _ _ hp.2.1 hbo).1 r h with
    hf | ⟨hr, hterm, hcont, hbl, hcl⟩
  · exact Or.inl hf
  · refine Or.inr ⟨hr, ⟨isSeq_append _ _ (isSeq_append _ _ h1 hts) h2, hterm, ?_, ?_⟩, hbl⟩
    · rw [hcont, e1, e2, List.flatten_append, List.flatten_append]
    · have hsplit : qs.flatten = (qs1 ++ qs2).flatten := by
        rw [List.flatten_append, ← e1, ← e2, List.take_append_drop, hp.2.2.1]
      have := parse_length_unique qs (qs1 ++ qs2) hp.1 (isSeq_append _ _ h1 h2) hsplit
      rw [hcl, hp.2.2.2, this]
      simp only [List.length_append]
      omega

theorem isSeq_singleton_layout (cp : Nat) (h : IsScalar cp) : ∀ q ∈ [layout cp], IsSeq q := by
  intro q hq
  rw [List.mem_singleton] at hq
  rw [hq]
  exact (layout_isSeq cp h).1

theorem u8s_insert_cp_parsed (a : allocator) (str : utf8_string) (qs : List (List Nat))
    (hp : Parsed str qs) (offset cp : Nat) (b : Bool) (hsc : IsScalar cp)
    (hb : b = true →
      WellFormed ((contents str).take offset) ∧ WellFormed ((contents str).drop offset))
    (r : Int × utf8_string) (h : u8s_insert_cp a str offset cp b = some r) :
    r = (-1, str) ∨ (r.1 = 0 ∧ ∃ qs1 qs2, Parsed r.2 (qs1 ++ [layout cp] ++ qs2) ∧
      r.2.byte_len = str.byte_len + (layout cp).length ∧
      (b = false → qs1 = qs.take offset ∧ qs2 = qs.drop offset ∧ offset ≤ qs.length)) := by
  obtain ⟨block, hdata, -⟩ := parsed_block str qs hp
  unfold u8s_insert_cp at h
  simp only [hdata] at h
  cases ho : insert_byte_offset str offset b with
  | none => rw [ho] at h; injection h with h; exact Or.inl h.symm
  | some bo =>
    rw [ho, encode_codepoint_scalar cp hsc] at h
    simp only at h
    obtain ⟨hbo, qs1, qs2, h1, h2, e1, e2, e3⟩ :=
      insert_byte_offset_split str qs hp offset b hb bo ho
    have hfl : [layout cp].flatten = layout cp := by simp
    have h' : insert_bytes a str bo [layout cp].flatten [layout cp].length = some r := by
      rw [hfl]; exact h
    rcases insert_bytes_parsed a str qs qs1 qs2 [layout cp] hp bo hbo h1 h2 e1 e2
      (isSeq_singleton_layout cp hsc) r h' with hf | ⟨hr, hpar, hbl⟩
    · exact Or.inl hf
    · rw [hfl] at hbl
      exact Or.inr ⟨hr, qs1, qs2, hpar, hbl, e3⟩

theorem u8s_insert_cp_returns (a : allocator) (str : utf8_string) (qs : List (List Nat))
    (hp : Parsed str qs) (k cp : Nat) (hk : k ≤ qs.length) (hsc : IsScalar cp)
    (ha : a.ok = true) (hsz : str.byte_len + 4 < 4611686018427387904) :
    ∃ d', u8s_insert_cp a str k cp false = some (0, d') := by
  obtain ⟨block, hdata, -⟩ := parsed_block str qs hp
  have hl : (layout cp).length ≤ 4 := by
    rw [layout_length cp hsc.2.1]
    unfold u8_cp_bytelen
    split_ifs <;> omega
  have hb2 := boundary_add_le qs hp.1 0 k (by omega)
  rw [Nat.add_zero, ← (parsed_block str qs hp).choose_spec.2.2.1] at hb2
  unfold u8s_insert_cp
  simp only [hdata, insert_byte_offset_parsed str qs hp k hk, encode_codepoint_scalar cp hsc]
  exact (insert_bytes_spec a str _ _ 1 hp.2.1 hb2).2 ha (by omega)

theorem u8s_insert_str_parsed (a : allocator) (str : utf8_string) (qs ts : List (List Nat))
    (hp : Parsed str qs) (offset : Nat) (b : Bool) (hts : ∀ q ∈ ts, IsSeq q)
    (hb : b = true →
      WellFormed ((contents str).take offset) ∧ WellFormed ((contents str).drop offset))
    (r : Int × utf8_string) (h : u8s_insert_str a str offset ts.flatten b = some r) :
    r.2 = str ∨ (r.1 = 0 ∧ ∃ qs1 qs2, Parsed r.2 (qs1 ++ ts ++ qs2)) := by
  obtain ⟨block, hdata, -⟩ := parsed_block str qs hp
  have hs := wellFormed_nulFree _ ⟨ts, hts, rfl⟩
  have hlen := u8_len_cstr_wellFormed ts hts
  unfold u8_len_cstr at hlen
  rw [strlen_nulFree _ hs] at hlen
  unfold u8s_insert_str at h
  simp only [hdata, strlen_nulFree _ hs, hlen, bytes_of_nulFree _ hs] at h
  by_cases h0 : ts.flatten.length = 0
  · rw [if_pos h0] at h
    injection h with h
    rw [← h]; exact Or.inl rfl
  · rw [if_neg h0] at h
    by_cases hn : ts.length = 0
    · rw [if_pos hn] at h
      injection h with h
      rw [← h]; exact Or.inl rfl
    · rw [if_neg hn] at h
      cases ho : insert_byte_offset str offset b with
      | none => rw [ho] at h; injection h with h; rw [← h]; exact Or.inl rfl
      | some bo =>
        rw [ho] at h
        simp only at h
        obtain ⟨hbo, qs1, qs2, h1, h2, e1, e2, -⟩ :=
          insert_byte_offset_split str qs hp offset b hb bo ho
        rcases insert_bytes_parsed a str qs qs1 qs2 ts hp bo hbo h1 h2 e1 e2 hts r h with
          hf | ⟨hr, hpar, -⟩
        · rw [hf]; exact Or.inl rfl
        · exact Or.inr ⟨hr, qs1, qs2, hpar⟩

theorem u8s_insert_u8s_parsed (a : allocator) (str src : utf8_string)
    (qs bs : List (List Nat)) (hp : Parsed str qs) (hsrc : Parsed src bs) (offset : Nat)
    (b : Bool)
    (hb : b = true →
      WellFormed ((contents str).take offset) ∧ WellFormed ((contents str).drop offset))
    (r : Int × utf8_string) (h : u8s_insert_u8s a str offset src b = some r) :
    r.2 = str ∨ (r.1 = 0 ∧ ∃ qs1 qs2, Parsed r.2 (qs1 ++ bs ++ qs2)) := by
  obtain ⟨block, hdata, -⟩ := parsed_block str qs hp
  obtain ⟨sb, hsdata, hslen, hsbl, hslt, hstake, -⟩ := parsed_block src bs hsrc
  unfold u8s_insert_u8s at h
  simp only [hdata, hsdata] at h
  by_cases h0 : src.byte_len = 0
  · rw [if_pos h0] at h
    injection h with h
    rw [← h]; exact Or.inl rfl
  · rw [if_neg h0] at h
    cases ho : insert_byte_offset str offset b with
    | none => rw [ho] at h; injection h with h; rw [← h]; exact Or.inl rfl
    | some bo =>
      rw [ho] at h
      simp only at h
      rw [mem_read_some _ _ _ (by omega)] at h
      simp only [List.drop_zero, hstake, hsrc.2.2.2] at h
      obtain ⟨hbo, qs1, qs2, h1, h2, e1, e2, -⟩ :=
        insert_byte_offset_split str qs hp offset b hb bo ho
      rcases insert_bytes_parsed a str qs qs1 qs2 bs hp bo hbo h1 h2 e1 e2 hsrc.1 r h with
        hf | ⟨hr, hpar, -⟩
      · rw [hf]; exact Or.inl rfl
      · exact Or.inr ⟨hr, qs1, qs2, hpar⟩

/-! ### Substrings -/

theorem nulFree_sublist (s t : List Nat) (h : NulFree s) (hsub : ∀ b ∈ t, b ∈ s) :
    NulFree t := fun b hb => h b (hsub b hb)

/-- With `start_byte + len_bytes` inside `size_t`, `u8s_substr_bytes` on a
buffer in good order with NUL-free contents is `u8s_new` of the byte range. -/
theorem u8s_substr_bytes_spec (a : allocator) (str : utf8_string) (start len : Nat)
    (hinv : Terminated str) (hs : NulFree (contents str))
    (hov : start + len < 18446744073709551616) :
    u8s_substr_bytes a str start len
      = if start ≥ str.byte_len then some none
        else u8s_new a (((contents str).drop start).take len) := by
  obtain ⟨block, hdata, hlen, hlt, hterm⟩ := id hinv
  have hc := contents_eq _ _ hdata
  have hsl : NulFree (((contents str).drop start).take len) :=
    nulFree_sublist _ _ hs (fun b hb => List.mem_of_mem_drop (List.mem_of_mem_take hb))
  unfold u8s_substr_bytes
  by_cases hge : start ≥ str.byte_len
  · rw [if_pos hge, if_pos hge]
  · rw [if_neg hge, if_neg hge]
    by_cases h0 : len = 0
    · rw [if_pos h0, h0]
      simp
    · rw [if_neg h0, Nat.mod_eq_of_lt hov]
      simp only
      by_cases hok : ¬ a.ok = true
      · rw [if_pos hok, (u8s_new_spec a _ hsl).1 (by simpa using hok)]
      · rw [if_neg hok]
        simp only [hdata]
        have hL : (if start + len > str.byte_len then str.byte_len - start else len)
            = min len (str.byte_len - start) := by
          split_ifs <;> omega
        rw [hL, mem_read_some _ _ _ (by omega)]
        simp only
        have e : (block.drop start).take (min len (str.byte_len - start))
            = ((contents str).drop start).take len := by
          rw [hc, List.drop_take, List.take_take]
        rw [e]
        have := u8s_new_append_nul a _ [] hsl
        exact this

theorem pad_length (n : Nat) (out : List Nat) (h : out.length ≤ n) : (pad n out).length = n := by
  unfold pad
  rw [List.length_append, List.length_replicate]
  omega

/-- With `start + len` inside `size_t`, `u8s_substr` on a parsed buffer is
`u8s_new` of the sequences `start .. start + len` of the contents. -/
theorem u8s_substr_parsed (a : allocator) (str : utf8_string) (qs : List (List Nat))
    (hp : Parsed str qs) (start len : Nat) (hov : start + len < 18446744073709551616) :
    u8s_substr a str start len
      = if start ≥ qs.length then some none
        else u8s_new a ((qs.drop start).take len).flatten := by
  obtain ⟨block, hdata, hblen, hbl, hlt, htake, hterm, -⟩ := parsed_block str qs hp
  have hqs := hp.1
  have hs := wellFormed_nulFree _ ⟨qs, hqs, rfl⟩
  have hsub : ∀ q ∈ (qs.drop start).take len, IsSeq q :=
    fun q hq => hqs q (List.mem_of_mem_drop (List.mem_of_mem_take hq))
  have hsl := wellFormed_nulFree _ ⟨_, hsub, rfl⟩
  unfold u8s_substr
  rw [hp.2.2.2]
  by_cases hge : start ≥ qs.length
  · rw [if_pos hge, if_pos hge]
  · rw [if_neg hge, if_neg hge]
    by_cases h0 : len = 0
    · rw [if_pos h0, h0]
      simp
    · rw [if_neg h0]
      simp only [hdata]
      rw [block_strlen_terminated block qs.flatten str.byte_len htake hterm hs]
      simp only
      by_cases hok : ¬ a.ok = true
      · rw [if_pos hok, (u8s_new_spec a _ hsl).1 (by simpa using hok)]
      · rw [if_neg hok, htake, u8dec_wellFormed false qs hqs, Nat.mod_eq_of_lt hov]
        simp only
        have hL : (if start + len > qs.length then qs.length - start else len)
            = min len (qs.length - start) := by
          split_ifs <;> omega
        have hnl := length_le_flatten qs (fun q hq => (isSeq_bytes q (hqs q hq)).1)
        have hpl : (pad (qs.flatten.length + 1) (qs.map seqValue)).length
            = qs.flatten.length + 1 := pad_length _ _ (by rw [List.length_map]; omega)
        rw [hL, mem_read_some _ _ _ (by rw [hpl]; omega)]
        simp only
        have e : ((pad (qs.flatten.length + 1) (qs.map seqValue)).drop start).take
              (min len (qs.length - start))
            = ((qs.drop start).take len).map seqValue := by
          unfold pad
          rw [List.drop_append_of_le_length (by rw [List.length_map]; omega),
            List.take_append_of_le_length (by
              rw [List.length_drop, List.length_map]; omega),
            List.map_take, List.map_drop]
          apply List.ext_getElem?
          intro i
          rw [List.getElem?_take, List.getElem?_take]
          by_cases hi : i < len
          · rw [if_pos hi]
            by_cases hi2 : i < qs.length - start
            · rw [if_pos (by omega)]
            · rw [if_neg (by omega), List.getElem?_eq_none (by
                rw [List.length_drop, List.length_map]; omega)]
          · rw [if_neg hi, if_neg (by omega)]
        rw [e]
        have hsc : ∀ c ∈ ((qs.drop start).take len).map seqValue, IsScalar c := by
          intro c hc
          obtain ⟨q, hq, rfl⟩ := List.mem_map.mp hc
          exact (seqValue_layout q (hsub q hq)).1
        have henc : u8enc (((qs.drop start).take len).map seqValue ++ [0])
            = some ((qs.drop start).take len).flatten := by
          unfold u8enc
          rw [u8enc_loop_scalars _ [0] [] hsc, flatten_layout _ hsub]
          simp [u8enc_loop]
        rw [henc]

/-! ### The buffers made from well-formed material -/

/-- Every buffer made from well-formed material has a parse. -/
theorem wfReachable_parsed (str : utf8_string) (h : WfReachable str) :
    ∃ qs, Parsed str qs := by
  induction h with
  | new a s str hwf h =>
    obtain ⟨qs, hqs, rfl⟩ := hwf
    exact ⟨qs, u8s_new_parsed a qs hqs str h⟩
  | cat a dest src r _ _ h ihd ihs =>
    obtain ⟨qs, hd⟩ := ihd
    obtain ⟨bs, hs⟩ := ihs
    rcases u8s_cat_parsed a dest src qs bs hd hs r h with h1 | ⟨-, h2⟩
    · rw [h1]; exact ⟨qs, hd⟩
    · exact ⟨_, h2⟩
  | cat_cstr a dest src r _ hwf h ihd =>
    obtain ⟨qs, hd⟩ := ihd
    obtain ⟨ts, hts, rfl⟩ := hwf
    rcases u8s_cat_cstr_parsed a dest qs ts hd hts r h with h1 | ⟨-, h2⟩
    · rw [h1]; exact ⟨qs, hd⟩
    · exact ⟨_, h2⟩
  | cat_cp a dest cp r _ h ihd =>
    obtain ⟨qs, hd⟩ := ihd
    rcases u8s_cat_cp_parsed a dest qs hd cp r h with h1 | ⟨-, -, h2⟩
    · rw [h1]; exact ⟨qs, hd⟩
    · exact ⟨_, h2⟩
  | insert_cp a str offset cp b r _ hsc hb h ih =>
    obtain ⟨qs, hp⟩ := ih
    rcases u8s_insert_cp_parsed a str qs hp offset cp b hsc hb r h with
      h1 | ⟨-, qs1, qs2, h2, -⟩
    · rw [h1]; exact ⟨qs, hp⟩
    · exact ⟨_, h2⟩
  | insert_str a str offset src b r _ hwf hb h ih =>
    obtain ⟨qs, hp⟩ := ih
    obtain ⟨ts, hts, rfl⟩ := hwf
    rcases u8s_insert_str_parsed a str qs ts hp offset b hts hb r h with
      h1 | ⟨-, qs1, qs2, h2⟩
    · rw [h1]; exact ⟨qs, hp⟩
    · exact ⟨_, h2⟩
  | insert_u8s a str offset src b r _ _ hb h ih ihs =>
    obtain ⟨qs, hp⟩ := ih
    obtain ⟨bs, hs⟩ := ihs
    rcases u8s_insert_u8s_parsed a str src qs bs hp hs offset b hb r h with
      h1 | ⟨-, qs1, qs2, h2⟩
    · rw [h1]; exact ⟨qs, hp⟩
    · exact ⟨_, h2⟩
  | substr a str start len r _ hov h ih =>
    obtain ⟨qs, hp⟩ := ih
    rw [u8s_substr_parsed a str qs hp start len hov] at h
    by_cases hge : start ≥ qs.length
    · rw [if_pos hge] at h
      exact absurd h (by simp)
    · rw [if_neg hge] at h
      exact ⟨_, u8s_new_parsed a _
        (fun q hq => hp.1 q (List.mem_of_mem_drop (List.mem_of_mem_take hq))) r h⟩
  | substr_bytes a str start len r _ hov hwf h ih =>
    obtain ⟨qs, hp⟩ := ih
    have hs : NulFree (contents str) := by
      rw [hp.2.2.1]
      exact wellFormed_nulFree _ ⟨qs, hp.1, rfl⟩
    rw [u8s_substr_bytes_spec a str start len hp.2.1 hs hov] at h
    by_cases hge : start ≥ str.byte_len
    · rw [if_pos hge] at h
      exact absurd h (by simp)
    · rw [if_neg hge] at h
      obtain ⟨ts, hts, e⟩ := hwf
      rw [e] at h
      exact ⟨ts, u8s_new_parsed a ts hts r h⟩

theorem recount_parsed (str : utf8_string) (qs : List (List Nat)) (hp : Parsed str qs) :
    recount str = some str.codepoint_len := by
  obtain ⟨block, hdata, -, hbl, -, -, -, hmem⟩ := parsed_block str qs hp
  unfold recount
  simp only [hdata]
  rw [hbl, hp.2.2.2]
  exact u8_len_of_parse qs hp.1 block hmem

/-- The byte branch of `u8s_at` at the start of a sequence of a parsed buffer. -/
theorem u8s_at_byte_parsed (str : utf8_string) (qs : List (List Nat)) (hp : Parsed str qs)
    (k : Nat) (hk : k < qs.length) :
    u8s_at str (boundary qs k) true = seqValue (qs.getD k []) := by
  obtain ⟨block, hdata, -, hbl, -, -, -, hmem⟩ := parsed_block str qs hp
  have hlt := boundary_lt qs hp.1 k hk
  have hb := boundary_add_le qs hp.1 0 (k + 1) (by omega)
  rw [boundary_succ qs k hk, Nat.add_zero] at hb
  unfold u8s_at
  simp only [hdata, hbl, if_true]
  rw [if_neg (by omega), if_neg (by omega)]
  exact u8s_at_decode_isSeq block _ _ _ (getD_mem_isSeq qs hp.1 k hk)
    (holdsAt_boundary qs hp.1 block hmem k hk) hb

theorem u8s_at_codepoint_parsed (str : utf8_string) (qs : List (List Nat))
    (hp : Parsed str qs) (k : Nat) :
    u8s_at str k false = if k < qs.length then seqValue (qs.getD k []) else 0 := by
  obtain ⟨block, hdata, -, hbl, -, -, -, hmem⟩ := parsed_block str qs hp
  exact u8s_at_wellFormed qs hp.1 str block hdata hbl hp.2.2.2 hmem k

/-- The capacity `utf8_string_ensure_capacity` chooses when it grows a buffer
and the doubling stays inside `size_t`. -/
theorem ensure_capacity_growth (a : allocator) (str : utf8_string) (n K : Nat)
    (hc : 0 < str.capacity) (hlt : str.capacity < n) (h1 : n ≤ str.capacity * 2 ^ K)
    (h2 : str.capacity * 2 ^ K < 18446744073709551616) (r : Int × utf8_string)
    (h : utf8_string_ensure_capacity a str n = some r) (hr : r.1 = 0) :
    ∃ k, 1 ≤ k ∧ r.2.capacity = str.capacity * 2 ^ k ∧ n ≤ str.capacity * 2 ^ k ∧
      ∀ j, j < k → str.capacity * 2 ^ j < n := by
  have hK : K < 64 := by
    by_contra hcon
    have : (2 : Nat) ^ 64 ≤ 2 ^ K := Nat.pow_le_pow_right (by norm_num) (by omega)
    have h3 : (2 : Nat) ^ 64 = 18446744073709551616 := by norm_num
    have h4 : 2 ^ K ≤ str.capacity * 2 ^ K := Nat.le_mul_of_pos_left _ hc
    omega
  obtain ⟨k, -, hg, hn, hj⟩ := grow_loop_spec n K str.capacity 65 h1 h2 (by omega)
  have hk1 : 1 ≤ k := by
    rcases Nat.eq_zero_or_pos k with h0 | hpos
    · rw [h0] at hn
      simp only [pow_zero, Nat.mul_one] at hn
      omega
    · exact hpos
  unfold utf8_string_ensure_capacity at h
  rw [if_neg (by omega)] at h
  simp only [if_neg (show ¬ str.capacity = 0 by omega), hg] at h
  by_cases hok : ¬ a.ok = true
  · rw [if_pos hok] at h
    injection h with h
    rw [← h] at hr
    exact absurd hr (by simp)
  · rw [if_neg hok] at h
    injection h with h
    rw [← h]
    exact ⟨k, hk1, rfl, hn, hj⟩

/-! ### Character search -/

/-- The loop of `u8_chr_n` returns: a pass either returns or moves `current`
forward. -/
theorem u8_chr_loop_total (mem : List Nat) (cp : Nat) : ∀ (fuel : Nat) (iter : utf8_iterator),
    iter.end_ - iter.current + 1 ≤ fuel → ∃ r, u8_chr_loop mem cp fuel iter = some r := by
  intro fuel
  induction fuel with
  | zero => intro iter h; omega
  | succ f ih =>
    intro iter hf
    rw [u8_chr_loop]
    by_cases hc : u8i_codepoint iter = cp
    · rw [if_pos hc]; exact ⟨_, rfl⟩
    · rw [if_neg hc]
      by_cases hn : u8i_has_next iter ≠ 0
      · rw [if_pos hn]
        obtain ⟨he, hlt⟩ := u8i_has_next_ne_zero iter hn
        simp only
        by_cases hr : (u8i_next mem iter).1 ≥ 0
        · rw [if_pos hr]
          rcases u8i_next_spec mem iter he hlt with h | h
          · rw [h.1] at hr; exact absurd hr (by decide)
          · exact ih _ (by rw [h.2.2.2.1]; omega)
        · rw [if_neg hr]; exact ⟨_, rfl⟩
      · rw [if_neg hn]; exact ⟨_, rfl⟩

/-- The function `u8_chr_n` returns on every input. -/
theorem u8_chr_n_total (str : List Nat) (len cp : Nat) : ∃ r, u8_chr_n str len cp = some r := by
  unfold u8_chr_n
  simp only [u8i_error, u8i_new_with_length, ne_eq, not_true_eq_false, if_false]
  exact u8_chr_loop_total str cp _ _ (by simp)

/-- The loop of `u8_chr_n` over a well-formed string, started behind `i`
sequences with a stored codepoint other than `cp`: the first later sequence
with value `cp` ends the loop, and the pointer returned is the one behind that
sequence. -/
theorem u8_chr_loop_iterAt (qs : List (List Nat)) (hqs : ∀ q ∈ qs, IsSeq q) (cp : Nat)
    (k : Nat) : ∀ (i c fuel : Nat), i + k = qs.length → k + 1 ≤ fuel → c ≠ cp →
      (∀ j, i ≤ j → j < qs.length → seqValue (qs.getD j []) = cp →
        (∀ m, i ≤ m → m < j → seqValue (qs.getD m []) ≠ cp) →
        u8_chr_loop qs.flatten cp fuel (iterAt qs.flatten qs i c)
          = some (some (boundary qs (j + 1)))) ∧
      ((∀ m, i ≤ m → m < qs.length → seqValue (qs.getD m []) ≠ cp) →
        u8_chr_loop qs.flatten cp fuel (iterAt qs.flatten qs i c) = some none) := by
  induction k with
  | zero =>
    intro i c fuel hi hf hc
    obtain ⟨f, rfl⟩ : ∃ f, fuel = f + 1 := ⟨fuel - 1, by omega⟩
    have e : u8_chr_loop qs.flatten cp (f + 1) (iterAt qs.flatten qs i c) = some none := by
      rw [u8_chr_loop, if_neg (by simpa [u8i_codepoint, iterAt] using hc),
        u8i_has_next_iterAt qs hqs i c (by omega), if_neg (by omega)]
    refine ⟨?_, fun _ => e⟩
    intro j h1 h2
    omega
  | succ k ih =>
    intro i c fuel hi hf hc
    obtain ⟨f, rfl⟩ : ∃ f, fuel = f + 1 := ⟨fuel - 1, by omega⟩
    have e : u8_chr_loop qs.flatten cp (f + 1) (iterAt qs.flatten qs i c)
        = u8_chr_loop qs.flatten cp f
            (iterAt qs.flatten qs (i + 1) (seqValue (qs.getD i []))) := by
      rw [u8_chr_loop, if_neg (by simpa [u8i_codepoint, iterAt] using hc),
        u8i_has_next_iterAt qs hqs i c (by omega), if_pos (by omega)]
      simp only [ne_eq, one_ne_zero, not_false_eq_true, if_true,
        u8i_next_iterAt qs hqs i c (by omega)]
      rw [if_pos (by decide)]
    rw [e]
    by_cases hv : seqValue (qs.getD i []) = cp
    · obtain ⟨f2, rfl⟩ : ∃ f2, f = f2 + 1 := ⟨f - 1, by omega⟩
      have e2 : u8_chr_loop qs.flatten cp (f2 + 1)
          (iterAt qs.flatten qs (i + 1) (seqValue (qs.getD i [])))
          = some (some (boundary qs (i + 1))) := by
        rw [u8_chr_loop, if_pos (by simpa [u8i_codepoint, iterAt] using hv)]
        simp [u8i_current_ptr, iterAt]
      rw [e2]
      constructor
      · intro j h1 h2 h3 h4
        by_cases hji : j = i
        · rw [hji]
        · exact absurd hv (h4 i (le_refl _) (by omega))
      · intro h
        exact absurd hv (h i (le_refl _) (by omega))
    · obtain ⟨ih1, ih2⟩ := ih (i + 1) (seqValue (qs.getD i [])) f (by omega) (by omega) hv
      constructor
      · intro j h1 h2 h3 h4
        have hji : j ≠ i := by
          intro hji
          rw [hji] at h3
          exact hv h3
        exact ih1 j (by omega) h2 h3 (fun m hm1 hm2 => h4 m (by omega) hm2)
      · intro h
        exact ih2 (fun m hm1 hm2 => h m (by omega) hm2)

/-- The function `u8_chr` on a well-formed string: the pointer behind the
first sequence with value `cp`, or `NULL` when there is none. -/
theorem u8_chr_wellFormed (qs : List (List Nat)) (hqs : ∀ q ∈ qs, IsSeq q) (cp : Nat)
    (hcp : 1 ≤ cp) :
    (∀ j, j < qs.length → seqValue (qs.getD j []) = cp →
      (∀ m, m < j → seqValue (qs.getD m []) ≠ cp) →
      u8_chr qs.flatten cp = some (some (boundary qs (j + 1)))) ∧
    ((∀ m, m < qs.length → seqValue (qs.getD m []) ≠ cp) →
      u8_chr qs.flatten cp = some none) := by
  have hs := wellFormed_nulFree _ ⟨qs, hqs, rfl⟩
  have hlen := length_le_flatten qs (fun q hq => (isSeq_bytes q (hqs q hq)).1)
  have e : u8_chr qs.flatten cp
      = u8_chr_loop qs.flatten cp (qs.flatten.length + 2) (iterAt qs.flatten qs 0 0) := by
    unfold u8_chr u8_chr_n
    rw [strlen_nulFree _ hs]
    simp only [u8i_new_with_length_eq]
    rw [if_neg (by simp [u8i_error, iterAt])]
  obtain ⟨h1, h2⟩ := u8_chr_loop_iterAt qs hqs cp qs.length 0 0 (qs.flatten.length + 2)
    (by omega) (by omega) (by omega)
  rw [e]
  exact ⟨fun j hj hv hmin => h1 j (Nat.zero_le _) hj hv (fun m _ hm => hmin m hm),
    fun h => h2 (fun m _ hm => h m hm)⟩

/-! ### Substring search -/

theorem memcmp_eq_zero : ∀ (n : Nat) (s1 s2 : List Nat),
    memcmp s1 s2 n = 0 ↔ ∀ j, j < n → s1.getD j 0 % 256 = s2.getD j 0 % 256 := by
  intro n
  induction n with
  | zero => intro s1 s2; simp [memcmp]
  | succ n ih =>
    intro s1 s2
    rw [memcmp]
    have tl : ∀ (s : List Nat) (j : Nat), s.tail.getD j 0 = s.getD (j + 1) 0 := by
      intro s j
      cases s <;> simp
    by_cases hab : s1.getD 0 0 % 256 = s2.getD 0 0 % 256
    · rw [if_neg (by simpa using hab), ih]
      constructor
      · intro h j hj
        cases j with
        | zero => exact hab
        | succ j =>
          have := h j (by omega)
          rwa [tl, tl] at this
      · intro h j hj
        rw [tl, tl]
        exact h (j + 1) (by omega)
    · rw [if_pos (by simpa using hab)]
      constructor
      · intro h
        exfalso
        apply hab
        omega
      · intro h
        exact absurd (h 0 (by omega)) hab

/-- On bytes, `memcmp` returning 0 says that the slice of the haystack is the
needle. -/
theorem memcmp_slice (haystack needle : List Nat) (i : Nat)
    (hb : ∀ b ∈ haystack, b < 256) (hn : NulFree needle)
    (hi : i + needle.length ≤ haystack.length) :
    memcmp (haystack.drop i) needle needle.length = 0
      ↔ (haystack.drop i).take needle.length = needle := by
  rw [memcmp_eq_zero]
  have hl : ((haystack.drop i).take needle.length).length = needle.length := by
    rw [List.length_take, List.length_drop]; omega
  constructor
  · intro h
    apply List.ext_getElem hl
    intro j h1 h2
    have hj := h j h2
    have hd : j < (haystack.drop i).length := by rw [List.length_drop]; omega
    rw [List.getD_eq_getElem _ _ hd, List.getD_eq_getElem _ _ h2,
      Nat.mod_eq_of_lt (hb _ (List.mem_of_mem_drop (List.getElem_mem hd))),
      Nat.mod_eq_of_lt (hn _ (List.getElem_mem h2)).2] at hj
    rw [List.getElem_take]
    exact hj
  · intro h j hj
    have hd : j < (haystack.drop i).length := by rw [List.length_drop]; omega
    have e : (haystack.drop i).getD j 0 = needle.getD j 0 := by
      have := congrArg (fun l => l.getD j 0) h
      simp only [List.getD_eq_getElem?_getD, List.getElem?_take_of_lt hj] at this
      simpa only [List.getD_eq_getElem?_getD] using this
    rw [e]

/-- The loop of `u8_str_n` returns the first index from `i` on at which
`memcmp` gives 0, and `NULL` when there is none up to
`haystack_len - needle_len`. -/
theorem u8_str_loop_spec (haystack needle : List Nat) (hl nl : Nat) :
    ∀ (fuel i : Nat), hl - nl + 2 ≤ fuel + i → i ≤ hl - nl + 1 →
      (∀ j, i ≤ j → j ≤ hl - nl → memcmp (haystack.drop j) needle nl = 0 →
        (∀ t, i ≤ t → t < j → memcmp (haystack.drop t) needle nl ≠ 0) →
        u8_str_loop haystack needle hl nl fuel i = some (some j)) ∧
      ((∀ t, i ≤ t → t ≤ hl - nl → memcmp (haystack.drop t) needle nl ≠ 0) →
        u8_str_loop haystack needle hl nl fuel i = some none) := by
  intro fuel
  induction fuel with
  | zero =>
    intro i hf hi
    omega
  | succ f ih =>
    intro i hf _
    rw [u8_str_loop]
    by_cases hi : i ≤ hl - nl
    · rw [if_pos hi]
      by_cases hm : memcmp (haystack.drop i) needle nl = 0
      · rw [if_pos hm]
        constructor
        · intro j h1 h2 h3 h4
          by_cases hji : j = i
          · rw [hji]
          · exact absurd hm (h4 i (le_refl _) (by omega))
        · intro h
          exact absurd hm (h i (le_refl _) hi)
      · rw [if_neg hm]
        obtain ⟨ih1, ih2⟩ := ih (i + 1) (by omega) (by omega)
        constructor
        · intro j h1 h2 h3 h4
          have hji : j ≠ i := by
            intro hji
            rw [hji] at h3
            exact hm h3
          exact ih1 j (by omega) h2 h3 (fun t ht1 ht2 => h4 t (by omega) ht2)
        · intro h
          exact ih2 (fun t ht1 ht2 => h t (by omega) ht2)
    · rw [if_neg hi]
      constructor
      · intro j h1 h2; omega
      · intro _; rfl

/-! ### Counting a string the iterator rejects -/

/-- At the end of the data every further call of `u8i_next` returns 0. -/
theorem calls_next_at_end (mem : List Nat) (iter : utf8_iterator) (he : iter.error = 0)
    (hc : iter.end_ ≤ iter.current) :
    ∀ n, ∀ r ∈ calls (u8i_next mem) n iter, r.1 = 0 := by
  intro n
  induction n with
  | zero => intro r hr; simp [calls] at hr
  | succ n ih =>
    intro r hr
    rw [calls, u8i_next_of_end mem iter he hc] at hr
    rcases List.mem_cons.mp hr with h | h
    · rw [h]
    · exact ih r h

/-- When one of the successive calls of `u8i_next` from `iter` returns -1, the
loop of `u8_len` started at `iter` returns 0. -/
theorem u8_len_loop_rejected (mem : List Nat) : ∀ (n : Nat) (iter : utf8_iterator)
    (fuel count : Nat), iter.error = 0 → iter.end_ - iter.current + 1 ≤ fuel →
    (∃ r ∈ calls (u8i_next mem) n iter, r.1 = -1) →
    u8_len_loop mem fuel iter count = some 0 := by
  intro n
  induction n with
  | zero =>
    intro iter fuel count _ _ h
    obtain ⟨r, hr, _⟩ := h
    simp [calls] at hr
  | succ n ih =>
    intro iter fuel count he hf h
    obtain ⟨r, hr, hr1⟩ := h
    obtain ⟨f, rfl⟩ : ∃ f, fuel = f + 1 := ⟨fuel - 1, by omega⟩
    rw [u8_len_loop]
    by_cases hn : u8i_has_next iter ≠ 0
    · rw [if_pos hn]
      obtain ⟨_, hlt⟩ := u8i_has_next_ne_zero iter hn
      simp only
      rcases u8i_next_spec mem iter he hlt with h1 | h1
      · rw [if_pos (by rw [h1.1]; decide)]
      · rw [if_neg (by rw [h1.1]; decide)]
        rw [calls] at hr
        rcases List.mem_cons.mp hr with h2 | h2
        · rw [h2, h1.1] at hr1
          exact absurd hr1 (by decide)
        · exact ih _ f (count + 1) h1.2.1 (by rw [h1.2.2.2.1]; omega) ⟨r, h2, hr1⟩
    · have hend := u8i_has_next_eq_zero iter hn he
      have := calls_next_at_end mem iter he hend (n + 1) r hr
      rw [this] at hr1
      exact absurd hr1 (by decide)

/-- The function `u8_len` returns 0 for data on which a call of `u8i_next`,
made in succession from the fresh iterator, returns -1. -/
theorem u8_len_rejected (data : List Nat) (byte_len : Nat)
    (h : ∃ n, ∃ r ∈ calls (u8i_next data) n (u8i_new_with_length byte_len), r.1 = -1) :
    u8_len data byte_len = some 0 := by
  obtain ⟨n, hn⟩ := h
  unfold u8_len
  by_cases h0 : byte_len = 0
  · rw [if_pos h0]
  · rw [if_neg h0]
    simp only
    rw [if_neg (by simp [u8i_error, u8i_new_with_length])]
    exact u8_len_loop_rejected data n _ _ 0 rfl (by simp [u8i_new_with_length]) hn

/-! ### Case conversion -/

/-- On a well-formed string and with `len` other than 0, `utf8_transform_case`
returns the encoding of the transformed scalar values, provided these are
scalar values again. -/
theorem utf8_transform_case_wellFormed (qs : List (List Nat)) (hqs : ∀ q ∈ qs, IsSeq q)
    (len : Nat) (hlen : len ≠ 0) (f : Nat → Nat) (hf : ∀ q ∈ qs, IsScalar (f (seqValue q))) :
    utf8_transform_case qs.flatten len f
      = some (some ((qs.map (fun q => layout (f (seqValue q)))).flatten)) := by
  have hle := length_le_flatten qs (fun q hq => (isSeq_bytes q (hqs q hq)).1)
  have hvl : (qs.map seqValue).length = qs.length := List.length_map _ _
  have h1 : (pad (qs.flatten.length + 1) (qs.map seqValue)).takeWhile (fun c => c ≠ 0)
      = qs.map seqValue := codepoints_pad _ _ (seqValues_ne_zero qs hqs)
  have h2 : (pad (qs.flatten.length + 1) (qs.map seqValue)).length = qs.flatten.length + 1 :=
    pad_length _ _ (by omega)
  unfold utf8_transform_case
  rw [if_neg hlen, u8dec_wellFormed false qs hqs]
  simp only [h1, h2, hvl]
  rw [if_neg (by omega)]
  have h3 : (pad (qs.flatten.length + 1) (qs.map seqValue)).take qs.length
      = qs.map seqValue := by
    unfold pad
    rw [List.take_append_of_le_length (by omega), List.take_of_length_le (by omega)]
  have h4 : (pad (qs.flatten.length + 1) (qs.map seqValue)).drop qs.length
      = List.replicate (qs.flatten.length + 1 - qs.length) 0 := by
    unfold pad
    rw [← hvl, List.drop_left]
  rw [h3, h4]
  unfold u8enc
  rw [u8enc_loop_scalars _ _ _ (by
    intro c hc
    obtain ⟨v, hv, rfl⟩ := List.mem_map.mp hc
    obtain ⟨q, hq, rfl⟩ := List.mem_map.mp hv
    exact hf q hq), u8enc_loop_zeros]
  simp only [List.nil_append, List.map_map]
  rfl

theorem layout_bytes_high (v : Nat) (hv : 0x7F < v) : ∀ b ∈ layout v, 0x80 ≤ b := by
  intro b hb
  unfold layout at hb
  rw [if_neg (by omega)] at hb
  split_ifs at hb <;> simp at hb <;> omega

/-- What `utf8_simple_to_upper` does to a sequence, read on its bytes: a
lower-case basic Latin letter becomes the upper-case one, every other byte
stays. -/
theorem upper_seq (q : List Nat) (h : IsSeq q) :
    IsScalar (utf8_simple_to_upper (seqValue q)) ∧
    layout (utf8_simple_to_upper (seqValue q))
      = q.map (fun b => if 97 ≤ b ∧ b ≤ 122 then b - 97 + 65 else b) := by
  obtain ⟨hsc, hlay⟩ := seqValue_layout q h
  obtain ⟨s1, s2, s3⟩ := hsc
  by_cases hv : seqValue q ≤ 0x7F
  · have hq : q = [seqValue q] := by
      have e := hlay
      simp only [layout, if_pos hv] at e
      exact e.symm
    obtain ⟨v, hvdef⟩ : ∃ v, v = seqValue q := ⟨_, rfl⟩
    rw [← hvdef] at hq hv s1 ⊢
    rw [hq]
    unfold utf8_simple_to_upper
    by_cases hl : v ≥ 97 ∧ v ≤ 122
    · rw [if_pos hl]
      refine ⟨⟨by omega, by omega, by omega⟩, ?_⟩
      simp only [layout, List.map_cons, List.map_nil]
      rw [if_pos (by omega), if_pos (by omega)]
    · rw [if_neg hl]
      refine ⟨⟨by omega, by omega, by omega⟩, ?_⟩
      simp only [layout, List.map_cons, List.map_nil]
      rw [if_pos (by omega), if_neg (by omega)]
  · have hid : utf8_simple_to_upper (seqValue q) = seqValue q := by
      unfold utf8_simple_to_upper
      rw [if_neg (by omega)]
    rw [hid, hlay]
    refine ⟨⟨s1, s2, s3⟩, ?_⟩
    have hb := layout_bytes_high (seqValue q) (by omega)
    rw [hlay] at hb
    symm
    conv_rhs => rw [← List.map_id q]
    apply List.map_congr_left
    intro b hbq
    have := hb b hbq
    rw [if_neg (by omega)]
    rfl

/-- The same for `utf8_simple_to_lower`. -/
theorem lower_seq (q : List Nat) (h : IsSeq q) :
    IsScalar (utf8_simple_to_lower (seqValue q)) ∧
    layout (utf8_simple_to_lower (seqValue q))
      = q.map (fun b => if 65 ≤ b ∧ b ≤ 90 then b - 65 + 97 else b) := by
  obtain ⟨hsc, hlay⟩ := seqValue_layout q h
  obtain ⟨s1, s2, s3⟩ := hsc
  by_cases hv : seqValue q ≤ 0x7F
  · have hq : q = [seqValue q] := by
      have e := hlay
      simp only [layout, if_pos hv] at e
      exact e.symm
    obtain ⟨v, hvdef⟩ : ∃ v, v = seqValue q := ⟨_, rfl⟩
    rw [← hvdef] at hq hv s1 ⊢
    rw [hq]
    unfold utf8_simple_to_lower
    by_cases hl : v ≥ 65 ∧ v ≤ 90
    · rw [if_pos hl]
      refine ⟨⟨by omega, by omega, by omega⟩, ?_⟩
      simp only [layout, List.map_cons, List.map_nil]
      rw [if_pos (by omega), if_pos (by omega)]
    · rw [if_neg hl]
      refine ⟨⟨by omega, by omega, by omega⟩, ?_⟩
      simp only [layout, List.map_cons, List.map_nil]
      rw [if_pos (by omega), if_neg (by omega)]
  · have hid : utf8_simple_to_lower (seqValue q) = seqValue q := by
      unfold utf8_simple_to_lower
      rw [if_neg (by omega)]
    rw [hid, hlay]
    refine ⟨⟨s1, s2, s3⟩, ?_⟩
    have hb := layout_bytes_high (seqValue q) (by omega)
    rw [hlay] at hb
    symm
    conv_rhs => rw [← List.map_id q]
    apply List.map_congr_left
    intro b hbq
    have := hb b hbq
    rw [if_neg (by omega)]
    rfl

theorem map_flatten_seqs (qs : List (List Nat)) (g : Nat → Nat) :
    (qs.map (fun q => q.map g)).flatten = qs.flatten.map g := by
  induction qs with
  | nil => rfl
  | cons q qs ih => simp only [List.map_cons, List.flatten_cons, List.map_append, ih]

/-- The function `u8_upper` on a well-formed string. -/
theorem u8_upper_wellFormed (qs : List (List Nat)) (hqs : ∀ q ∈ qs, IsSeq q) :
    u8_upper qs.flatten
      = some (some (qs.flatten.map (fun b => if 97 ≤ b ∧ b ≤ 122 then b - 97 + 65 else b))) := by
  have hs := wellFormed_nulFree _ ⟨qs, hqs, rfl⟩
  unfold u8_upper
  rw [strlen_nulFree _ hs]
  by_cases h0 : qs.flatten.length = 0
  · rw [List.length_eq_zero.mp h0]
    rfl
  · rw [utf8_transform_case_wellFormed qs hqs _ h0 _ (fun q hq => (upper_seq q (hqs q hq)).1),
      ← map_flatten_seqs]
    congr 3
    apply List.map_congr_left
    intro q hq
    exact (upper_seq q (hqs q hq)).2

/-- The function `u8_lower` on a well-formed string. -/
theorem u8_lower_wellFormed (qs : List (List Nat)) (hqs : ∀ q ∈ qs, IsSeq q) :
    u8_lower qs.flatten
      = some (some (qs.flatten.map (fun b => if 65 ≤ b ∧ b ≤ 90 then b - 65 + 97 else b))) := by
  have hs := wellFormed_nulFree _ ⟨qs, hqs, rfl⟩
  unfold u8_lower
  rw [strlen_nulFree _ hs]
  by_cases h0 : qs.flatten.length = 0
  · rw [List.length_eq_zero.mp h0]
    rfl
  · rw [utf8_transform_case_wellFormed qs hqs _ h0 _ (fun q hq => (lower_seq q (hqs q hq)).1),
      ← map_flatten_seqs]
    congr 3
    apply List.map_congr_left
    intro q hq
    exact (lower_seq q (hqs q hq)).2

/-- Converting the bytes of a well-formed string gives a well-formed string:
the sequences are the converted sequences. -/
theorem upper_wellFormed (qs : List (List Nat)) (hqs : ∀ q ∈ qs, IsSeq q) :
    ∀ q ∈ qs.map (fun q => q.map (fun b => if 97 ≤ b ∧ b ≤ 122 then b - 97 + 65 else b)),
      IsSeq q := by
  intro q hq
  obtain ⟨p, hp, rfl⟩ := List.mem_map.mp hq
  rw [← (upper_seq p (hqs p hp)).2]
  exact (layout_isSeq _ (upper_seq p (hqs p hp)).1).1

/-- With `len` other than 0 the length handed to `utf8_transform_case` has no
effect on what it returns. -/
theorem utf8_transform_case_len (str : List Nat) (len len2 : Nat) (f : Nat → Nat)
    (h1 : len ≠ 0) (h2 : len2 ≠ 0) :
    utf8_transform_case str len f = utf8_transform_case str len2 f := by
  unfold utf8_transform_case
  rw [if_neg h1, if_neg h2]

/-- The function `u8_upper_n` on a well-formed string, for any `len` other
than 0: the conversion of the whole string. -/
theorem u8_upper_n_wellFormed (qs : List (List Nat)) (hqs : ∀ q ∈ qs, IsSeq q) (len : Nat)
    (hlen : len ≠ 0) :
    u8_upper_n qs.flatten len
      = some (some (qs.flatten.map (fun b => if 97 ≤ b ∧ b ≤ 122 then b - 97 + 65 else b))) := by
  unfold u8_upper_n
  rw [utf8_transform_case_wellFormed qs hqs _ hlen _ (fun q hq => (upper_seq q (hqs q hq)).1),
    ← map_flatten_seqs]
  congr 3
  apply List.map_congr_left
  intro q hq
  exact (upper_seq q (hqs q hq)).2

/-- The function `u8_lower_n` on a well-formed string, for any `len` other
than 0: the conversion of the whole string. -/
theorem u8_lower_n_wellFormed (qs : List (List Nat)) (hqs : ∀ q ∈ qs, IsSeq q) (len : Nat)
    (hlen : len ≠ 0) :
    u8_lower_n qs.flatten len
      = some (some (qs.flatten.map (fun b => if 65 ≤ b ∧ b ≤ 90 then b - 65 + 97 else b))) := by
  unfold u8_lower_n
  rw [utf8_transform_case_wellFormed qs hqs _ hlen _ (fun q hq => (lower_seq q (hqs q hq)).1),
    ← map_flatten_seqs]
  congr 3
  apply List.map_congr_left
  intro q hq
  exact (lower_seq q (hqs q hq)).2

/-! ### One codepoint into a caller's buffer -/

/-- The function `u8_cp_to_bytes` on a scalar value other than 0 and a buffer
that has room: the layout of the value is stored at the front of the buffer
and its length returned. -/
theorem u8_cp_to_bytes_scalar (cp : Nat) (h : IsScalar cp) (buffer : List Nat) (n : Nat)
    (hn : u8_cp_bytelen cp ≤ n) (hb : u8_cp_bytelen cp ≤ buffer.length) :
    u8_cp_to_bytes cp buffer n
      = some ((u8_cp_bytelen cp : Int), layout cp ++ buffer.drop (u8_cp_bytelen cp)) := by
  obtain ⟨h0, h1, h2⟩ := h
  have hlen := layout_length cp h1
  have hnf : NulFree (layout cp) :=
    fun b hb => (isSeq_bytes _ (layout_isSeq cp ⟨h0, h1, h2⟩).1).2 b hb
  have hpos : 1 ≤ u8_cp_bytelen cp := by
    unfold u8_cp_bytelen
    split_ifs <;> omega
  unfold u8_cp_to_bytes
  simp only
  rw [if_neg (by omega), u8enc_single, if_neg (by omega), if_neg (by omega)]
  simp only [strlen_nulFree _ hnf, hlen]
  rw [if_neg (by omega), ← hlen, bytes_of_nulFree _ hnf]
  unfold mem_write
  rw [if_pos (by omega)]
  simp

/-- The function `u8_cp_to_bytes` returns -1 for 0, whatever the buffer. -/
theorem u8_cp_to_bytes_zero (buffer : List Nat) (n : Nat) :
    u8_cp_to_bytes 0 buffer n = some (-1, buffer) := by
  unfold u8_cp_to_bytes
  simp only
  by_cases h : u8_cp_bytelen 0 = 0 ∨ n < u8_cp_bytelen 0
  · rw [if_pos h]
  · rw [if_neg h, u8enc_single, if_pos rfl]
    simp only
    rw [if_pos (Or.inl (by decide))]

/-- The function `u8_cp_to_bytes` returns -1 for a surrogate and for a value
above 0x10FFFF, whatever the buffer. -/
theorem u8_cp_to_bytes_invalid (cp : Nat) (buffer : List Nat) (n : Nat)
    (h : (0xD800 ≤ cp ∧ cp ≤ 0xDFFF) ∨ 0x10FFFF < cp) :
    u8_cp_to_bytes cp buffer n = some (-1, buffer) := by
  unfold u8_cp_to_bytes
  simp only
  by_cases hc : u8_cp_bytelen cp = 0 ∨ n < u8_cp_bytelen cp
  · rw [if_pos hc]
  · rw [if_neg hc, u8enc_single, if_neg (by omega), if_pos h]

/-! ### The number of values the decoder stores -/

theorem onError_some (r : Bool) (k : Option (List Nat)) (o : List Nat)
    (h : onError r k = some o) : ∃ o2, k = some o2 ∧ o = 0xFFFD :: o2 := by
  cases r with
  | false => simp [onError] at h
  | true =>
    cases k with
    | none => simp [onError] at h
    | some o2 =>
      simp only [onError, if_true, Option.map_some', Option.some.injEq] at h
      exact ⟨o2, rfl, h.symm⟩

theorem map_cons_some (x : Option (List Nat)) (v : Nat) (o : List Nat)
    (h : x.map (fun o => v :: o) = some o) : ∃ o2, x = some o2 ∧ o = v :: o2 := by
  cases x with
  | none => simp at h
  | some o2 =>
    simp only [Option.map_some', Option.some.injEq] at h
    exact ⟨o2, rfl, h.symm⟩

/-- The loop of `u8dec` stores at most one value per byte read, and one more
for a sequence that was pending. -/
theorem scan_length (r : Bool) : ∀ (rest : List Nat) (need seen cp lo hi : Nat) (o : List Nat),
    scan r need seen cp lo hi rest = some o →
    o.length ≤ rest.length + (if need = 0 then 0 else 1) := by
  intro rest
  induction rest with
  | nil =>
    intro need seen cp lo hi o h
    rw [scan_nil] at h
    by_cases hn : need = 0
    · rw [if_neg (by omega)] at h
      simp only [Option.some.injEq] at h
      rw [← h]
      simp
    · rw [if_pos (by omega)] at h
      obtain ⟨o2, h1, h2⟩ := onError_some r _ o h
      simp only [Option.some.injEq] at h1
      rw [h2, ← h1, if_neg hn]
      simp
  | cons b rest ih =>
    have fresh : ∀ (seen cp lo hi : Nat) (o : List Nat),
        scan r 0 seen cp lo hi (b :: rest) = some o → o.length ≤ rest.length + 1 := by
      intro seen cp lo hi o h
      rw [scan_fresh] at h
      by_cases c1 : b ≤ 0x7F
      · rw [if_pos c1] at h
        obtain ⟨o2, h1, h2⟩ := map_cons_some _ _ _ h
        have := ih _ _ _ _ _ _ h1
        rw [h2]
        simp only [List.length_cons]
        simpa using this
      · rw [if_neg c1] at h
        by_cases c2 : 0xC2 ≤ b ∧ b ≤ 0xDF
        · rw [if_pos c2] at h
          have := ih _ _ _ _ _ _ h
          simpa using this
        · rw [if_neg c2] at h
          by_cases c3 : 0xE0 ≤ b ∧ b ≤ 0xEF
          · rw [if_pos c3] at h
            have := ih _ _ _ _ _ _ h
            simpa using this
          · rw [if_neg c3] at h
            by_cases c4 : 0xF0 ≤ b ∧ b ≤ 0xF4
            · rw [if_pos c4] at h
              have := ih _ _ _ _ _ _ h
              simpa using this
            · rw [if_neg c4] at h
              obtain ⟨o2, h1, h2⟩ := onError_some r _ o h
              have := ih _ _ _ _ _ _ h1
              rw [h2]
              simp only [List.length_cons]
              simpa using this
    intro need seen cp lo hi o h
    simp only [List.length_cons]
    by_cases hn : need = 0
    · rw [hn] at h
      have := fresh _ _ _ _ _ h
      rw [if_pos hn]
      omega
    · rw [if_neg hn]
      by_cases hr : b < lo ∨ hi < b
      · rw [scan_break r _ _ _ _ _ b rest hn hr] at h
        obtain ⟨o2, h1, h2⟩ := onError_some r _ o h
        have := fresh _ _ _ _ _ h1
        rw [h2]
        simp only [List.length_cons]
        omega
      · rw [scan_cont r _ _ _ _ _ b rest hn (by omega) (by omega)] at h
        by_cases hm : seen + 1 ≠ need
        · rw [if_pos hm] at h
          have := ih _ _ _ _ _ _ h
          rw [if_neg hn] at this
          omega
        · rw [if_neg hm] at h
          obtain ⟨o2, h1, h2⟩ := map_cons_some _ _ _ h
          have := ih _ _ _ _ _ _ h1
          rw [h2]
          simp only [List.length_cons]
          simp only [if_true] at this
          omega

/-- The values `u8dec` stores for a string are at most as many as its bytes. -/
theorem decodeBytes_length (r : Bool) (s o : List Nat) (h : decodeBytes r s = some o) :
    o.length ≤ s.length := by
  have := scan_length r s 0 0 0 0x80 0xBF o h
  simpa using this

/-! ### The comparison that guards `dest++` -/

theorem guard_finish (src : List Nat) (r : Bool) (n fuel rcp dest : Nat)
    (ctx ctx2 : u8_decoder_ctx) (buf : List Nat) (h : u8_decode_once ctx src = (rcp, ctx2))
    (hst : ctx2.state = .U8_DECODE_FINISH) :
    u8dec_guard src r n (fuel + 1) ctx buf dest = true := by
  rw [u8dec_guard]
  simp only [h, hst, if_true]

theorem guard_ok (src : List Nat) (r : Bool) (n fuel rcp : Nat) (ctx ctx2 : u8_decoder_ctx)
    (out : List Nat) (h : u8_decode_once ctx src = (rcp, ctx2))
    (hst : ctx2.state = .U8_DECODE_OK) (hl : out.length < n) :
    u8dec_guard src r n (fuel + 1) ctx (pad n out) out.length
      = u8dec_guard src r n fuel ctx2 (pad n (out ++ [rcp])) (out ++ [rcp]).length := by
  rw [u8dec_guard]
  simp only [h, hst, reduceCtorEq, if_false, ne_eq, not_false_eq_true, true_and, hl, if_true]
  by_cases hr : rcp > 0
  · simp only [hr, if_true, store_pad out n rcp hl]
    simp
  · have : rcp = 0 := by omega
    subst this
    simp only [lt_irrefl, if_false, gt_iff_lt, ← pad_skip out n hl]
    simp

theorem guard_error (src : List Nat) (r : Bool) (n fuel : Nat) (ctx ctx2 : u8_decoder_ctx)
    (out : List Nat) (h : u8_decode_once ctx src = (0, ctx2))
    (hst : ctx2.state = .U8_DECODE_ERROR) (hl : out.length < n) :
    u8dec_guard src r n (fuel + 1) ctx (pad n out) out.length
      = if r then u8dec_guard src r n fuel ctx2 (pad n (out ++ [0xFFFD])) (out ++ [0xFFFD]).length
        else true := by
  rw [u8dec_guard]
  simp only [h, hst, reduceCtorEq, if_false, ne_eq, not_false_eq_true, true_and, hl, if_true,
    gt_iff_lt, lt_irrefl, store_pad out n _ hl]
  simp

theorem guard_continue (src : List Nat) (r : Bool) (n fuel : Nat) (ctx ctx2 : u8_decoder_ctx)
    (out : List Nat) (h : u8_decode_once ctx src = (0, ctx2))
    (hst : ctx2.state = .U8_DECODE_CONTINUE) :
    u8dec_guard src r n (fuel + 1) ctx (pad n out) out.length
      = u8dec_guard src r n fuel ctx2 (pad n out) out.length := by
  rw [u8dec_guard]
  simp only [h, hst, reduceCtorEq, if_false, ne_eq, not_true_eq_false, false_and,
    gt_iff_lt, lt_irrefl]
  simp

/-- On a NUL-free string the comparison `(dest - start) < dest_len` holds
whenever the loop of `u8dec` evaluates it, however long the loop is run. -/
theorem guard_holds (src : List Nat) (r : Bool) (hs : NulFree src) :
    ∀ (rest : List Nat) (fuel : Nat) (ctx : u8_decoder_ctx) (out : List Nat) (p : Nat),
      ctx.saveptr = some p → src.drop p = rest →
      out.length + (if ctx.need = 0 then 0 else 1) + rest.length ≤ src.length →
      u8dec_guard src r (src.length + 1) fuel ctx (pad (src.length + 1) out) out.length
        = true := by
  intro rest
  induction rest with
  | nil =>
    intro fuel ctx out p hp hd hlen
    have h0 := getD_of_drop_nil src p hd
    cases fuel with
    | zero => rw [u8dec_guard]
    | succ f =>
      by_cases hn : ctx.need = 0
      · exact guard_finish src r _ _ _ _ ctx _ _ (once_nul ctx src p hp h0 hn) rfl
      · simp only [if_neg hn] at hlen
        have hl : out.length < src.length + 1 := by simp at hlen; omega
        rw [guard_error src r _ _ ctx _ out (once_nul_pending ctx src p hp h0 hn) rfl hl]
        cases r with
        | false => simp
        | true =>
          simp only [if_true]
          cases f with
          | zero => rw [u8dec_guard]
          | succ f2 =>
            exact guard_finish src true _ _ _ _ _ _ _ (once_nul _ src p rfl h0 rfl) rfl
  | cons b rest ih =>
    intro fuel ctx out p hp hd hlen
    obtain ⟨hb, hd1, hmem⟩ := getD_of_drop_cons src p b rest hd
    obtain ⟨hb0, hb256⟩ := hs b hmem
    simp only [List.length_cons] at hlen
    -- reading `b` as a lead byte
    have fresh : ∀ (fuel : Nat) (ctx : u8_decoder_ctx) (out : List Nat),
        ctx.saveptr = some p → ctx.need = 0 → out.length + 1 + rest.length ≤ src.length →
        u8dec_guard src r (src.length + 1) fuel ctx (pad (src.length + 1) out) out.length
          = true := by
      intro fuel ctx out hp hn hlen
      cases fuel with
      | zero => rw [u8dec_guard]
      | succ f =>
        have hl : out.length < src.length + 1 := by omega
        have hstep := once_lead ctx src p b hp hb hb0 hb256 hn
        by_cases c1 : b ≤ 0x7F
        · rw [if_pos c1] at hstep
          rw [guard_ok src r _ _ _ ctx _ out hstep rfl hl]
          exact ih f _ (out ++ [b]) (p + 1) rfl hd1 (by simp [hn]; omega)
        · rw [if_neg c1] at hstep
          by_cases c2 : 0xC2 ≤ b ∧ b ≤ 0xDF
          · rw [if_pos c2] at hstep
            rw [guard_continue src r _ _ ctx _ out hstep rfl]
            exact ih f _ out (p + 1) rfl hd1 (by simp; omega)
          · rw [if_neg c2] at hstep
            by_cases c3 : 0xE0 ≤ b ∧ b ≤ 0xEF
            · rw [if_pos c3] at hstep
              rw [guard_continue src r _ _ ctx _ out hstep rfl]
              exact ih f _ out (p + 1) rfl hd1 (by simp; omega)
            · rw [if_neg c3] at hstep
              by_cases c4 : 0xF0 ≤ b ∧ b ≤ 0xF4
              · rw [if_pos c4] at hstep
                rw [guard_continue src r _ _ ctx _ out hstep rfl]
                exact ih f _ out (p + 1) rfl hd1 (by simp; omega)
              · rw [if_neg c4] at hstep
                rw [guard_error src r _ _ ctx _ out hstep rfl hl]
                cases r with
                | false => simp
                | true =>
                  simp only [if_true]
                  exact ih f _ (out ++ [0xFFFD]) (p + 1) rfl hd1 (by simp [hn]; omega)
    by_cases hn : ctx.need = 0
    · exact fresh fuel ctx out hp hn (by simp [hn] at hlen; omega)
    · simp only [if_neg hn] at hlen
      cases fuel with
      | zero => rw [u8dec_guard]
      | succ f =>
        have hl : out.length < src.length + 1 := by omega
        by_cases hr : b < ctx.lower ∨ ctx.upper < b
        · rw [guard_error src r _ _ ctx _ out (once_break ctx src p b hp hb hb0 hb256 hn hr)
            rfl hl]
          cases r with
          | false => simp
          | true =>
            simp only [if_true]
            exact fresh f _ (out ++ [0xFFFD]) rfl rfl (by simp; omega)
        · have h1 : ctx.lower ≤ b := by omega
          have h2 : b ≤ ctx.upper := by omega
          have hstep := once_cont ctx src p b hp hb hb0 hb256 hn h1 h2
          by_cases hm : ctx.seen + 1 ≠ ctx.need
          · rw [if_pos hm] at hstep
            rw [guard_continue src r _ _ ctx _ out hstep rfl]
            exact ih f _ out (p + 1) rfl hd1 (by simp [hn]; omega)
          · rw [if_neg hm] at hstep
            rw [guard_ok src r _ _ _ ctx _ out hstep rfl hl]
            exact ih f _ (out ++ [_]) (p + 1) rfl hd1 (by simp; omega)

theorem guard_null_saveptr (src : List Nat) (r : Bool) (n fuel : Nat) (ctx : u8_decoder_ctx)
    (buf : List Nat) (pos : Nat) (h : ctx.saveptr = none) :
    u8dec_guard src r n fuel ctx buf pos
      = u8dec_guard src r n fuel { ctx with saveptr := some 0 } buf pos := by
  cases fuel with
  | zero => simp [u8dec_guard]
  | succ f => rw [u8dec_guard, u8dec_guard, once_null_saveptr ctx src h]

/-- The comparison holds throughout a call of `u8dec` on a NUL-free string. -/
theorem u8dec_guard_nulFree (s : List Nat) (r : Bool) (hs : NulFree s) (fuel : Nat) :
    u8dec_guard s r (s.length + 1) fuel u8_decode_ctx (List.replicate (s.length + 1) 0) 0
      = true := by
  have h := guard_holds s r hs s fuel { u8_decode_ctx with saveptr := some 0 } []
    0 rfl rfl (by simp [u8_decode_ctx])
  simp only [pad, List.nil_append, List.length_nil, Nat.sub_zero] at h
  rw [guard_null_saveptr _ _ _ _ _ _ _ rfl]
  exact h

/-! ### The iterator invariant -/

theorem window_append (mem : List Nat) (a b c : Nat) (h1 : a ≤ b) (h2 : b ≤ c) :
    window mem a c = window mem a b ++ window mem b c := by
  apply List.ext_getElem
  · simp only [List.length_append, window_length]; omega
  · intro i hi1 hi2
    rw [window_length] at hi1
    by_cases hi : i < b - a
    · rw [List.getElem_append_left (by rw [window_length]; exact hi)]
      simp [window]
    · rw [List.getElem_append_right (by rw [window_length]; omega)]
      simp only [window, List.getElem_map, List.getElem_range, List.length_map,
        List.length_range]
      congr 1
      omega

/-- The cases in which `utf8_decode_sequence` returns 0, with what it leaves
in `*codepoint` and `*bytes_consumed`. -/
theorem utf8_decode_sequence_at_cases (mem : List Nat) (p e c n : Nat)
    (h : (utf8_decode_sequence_at mem p e c n).ret = 0) :
    (mem.getD p 0 % 256 ≤ 0x7F ∧ p + 1 ≤ e ∧
      utf8_decode_sequence_at mem p e c n = ⟨0, mem.getD p 0 % 256, 1⟩) ∨
    (¬ mem.getD p 0 % 256 ≤ 0x7F ∧ mem.getD p 0 % 256 &&& 0xE0 = 0xC0 ∧ p + 2 ≤ e ∧
      mem.getD (p + 1) 0 % 256 &&& 0xC0 = 0x80 ∧
      utf8_decode_sequence_at mem p e c n
        = ⟨0, (((mem.getD p 0 % 256 &&& 0x1F) <<< 6)
              ||| (mem.getD (p + 1) 0 % 256 &&& 0x3F)) % 4294967296, 2⟩) ∨
    (¬ mem.getD p 0 % 256 ≤ 0x7F ∧ ¬ mem.getD p 0 % 256 &&& 0xE0 = 0xC0 ∧
      mem.getD p 0 % 256 &&& 0xF0 = 0xE0 ∧ p + 3 ≤ e ∧
      mem.getD (p + 1) 0 % 256 &&& 0xC0 = 0x80 ∧ mem.getD (p + 2) 0 % 256 &&& 0xC0 = 0x80 ∧
      utf8_decode_sequence_at mem p e c n
        = ⟨0, (((mem.getD p 0 % 256 &&& 0x0F) <<< 12)
              ||| ((mem.getD (p + 1) 0 % 256 &&& 0x3F) <<< 6)
              ||| (mem.getD (p + 2) 0 % 256 &&& 0x3F)) % 4294967296, 3⟩) ∨
    (¬ mem.getD p 0 % 256 ≤ 0x7F ∧ ¬ mem.getD p 0 % 256 &&& 0xE0 = 0xC0 ∧
      ¬ mem.getD p 0 % 256 &&& 0xF0 = 0xE0 ∧ mem.getD p 0 % 256 &&& 0xF8 = 0xF0 ∧ p + 4 ≤ e ∧
      mem.getD (p + 1) 0 % 256 &&& 0xC0 = 0x80 ∧ mem.getD (p + 2) 0 % 256 &&& 0xC0 = 0x80 ∧
      mem.getD (p + 3) 0 % 256 &&& 0xC0 = 0x80 ∧
      utf8_decode_sequence_at mem p e c n
        = ⟨0, (((mem.getD p 0 % 256 &&& 0x07) <<< 18)
              ||| ((mem.getD (p + 1) 0 % 256 &&& 0x3F) <<< 12)
              ||| ((mem.getD (p + 2) 0 % 256 &&& 0x3F) <<< 6)
              ||| (mem.getD (p + 3) 0 % 256 &&& 0x3F)) % 4294967296, 4⟩) := by
  have neg : ∀ (a b : Nat), ¬ ((⟨-1, a, b⟩ : seq_result).ret = 0) := by
    intro a b hh
    simp at hh
  unfold utf8_decode_sequence_at at h ⊢
  by_cases h0 : p ≥ e
  · rw [if_pos h0] at h
    exact absurd h (neg _ _)
  · rw [if_neg h0] at h ⊢
    simp only [] at h ⊢
    by_cases c1 : mem.getD p 0 % 256 ≤ 0x7F
    · rw [if_pos c1]
      exact Or.inl ⟨c1, by omega, rfl⟩
    · rw [if_neg c1] at h ⊢
      by_cases c2 : mem.getD p 0 % 256 &&& 0xE0 = 0xC0
      · rw [if_pos c2] at h ⊢
        by_cases b2 : p + 2 > e
        · rw [if_pos b2] at h
          exact absurd h (neg _ _)
        · rw [if_neg b2] at h ⊢
          by_cases d2 : mem.getD (p + 1) 0 % 256 &&& 0xC0 ≠ 0x80
          · rw [if_pos d2] at h
            exact absurd h (neg _ _)
          · rw [if_neg d2]
            exact Or.inr (Or.inl ⟨c1, c2, by omega, not_not.mp d2, rfl⟩)
      · rw [if_neg c2] at h ⊢
        by_cases c3 : mem.getD p 0 % 256 &&& 0xF0 = 0xE0
        · rw [if_pos c3] at h ⊢
          by_cases b3 : p + 3 > e
          · rw [if_pos b3] at h
            exact absurd h (neg _ _)
          · rw [if_neg b3] at h ⊢
            by_cases d3 : mem.getD (p + 1) 0 % 256 &&& 0xC0 ≠ 0x80 ∨
                mem.getD (p + 2) 0 % 256 &&& 0xC0 ≠ 0x80
            · rw [if_pos d3] at h
              exact absurd h (neg _ _)
            · rw [if_neg d3]
              exact Or.inr (Or.inr (Or.inl ⟨c1, c2, c3, by omega,
                not_not.mp (not_or.mp d3).1, not_not.mp (not_or.mp d3).2, rfl⟩))
        · rw [if_neg c3] at h ⊢
          by_cases c4 : mem.getD p 0 % 256 &&& 0xF8 = 0xF0
          · rw [if_pos c4] at h ⊢
            by_cases b4 : p + 4 > e
            · rw [if_pos b4] at h
              exact absurd h (neg _ _)
            · rw [if_neg b4] at h ⊢
              by_cases d4 : mem.getD (p + 1) 0 % 256 &&& 0xC0 ≠ 0x80 ∨
                  mem.getD (p + 2) 0 % 256 &&& 0xC0 ≠ 0x80 ∨
                  mem.getD (p + 3) 0 % 256 &&& 0xC0 ≠ 0x80
              · rw [if_pos d4] at h
                exact absurd h (neg _ _)
              · rw [if_neg d4]
                exact Or.inr (Or.inr (Or.inr ⟨c1, c2, c3, c4, by omega,
                  not_not.mp (not_or.mp d4).1, not_not.mp (not_or.mp (not_or.mp d4).2).1,
                  not_not.mp (not_or.mp (not_or.mp d4).2).2, rfl⟩))
          · rw [if_neg c4] at h
            exact absurd h (neg _ _)

/-- A successful `utf8_decode_sequence` does not depend on where the data end,
as long as the bytes it consumed are inside, nor on what `*codepoint` and
`*bytes_consumed` held before. -/
theorem utf8_decode_sequence_at_indep (mem : List Nat) (p e c n e2 c2 n2 : Nat)
    (h : (utf8_decode_sequence_at mem p e c n).ret = 0)
    (h2 : p + (utf8_decode_sequence_at mem p e c n).bytes_consumed ≤ e2) :
    utf8_decode_sequence_at mem p e2 c2 n2 = utf8_decode_sequence_at mem p e c n := by
  rcases utf8_decode_sequence_at_cases mem p e c n h with
    ⟨c1, _, hr⟩ | ⟨c1, k2, _, d1, hr⟩ | ⟨c1, k2, k3, _, d1, d2, hr⟩ |
    ⟨c1, k2, k3, k4, _, d1, d2, d3, hr⟩
  all_goals rw [hr] at h2 ⊢
  all_goals dsimp only at h2
  all_goals unfold utf8_decode_sequence_at
  all_goals rw [if_neg (by omega)]
  all_goals simp only []
  · rw [if_pos c1]
  · rw [if_neg c1, if_pos k2, if_neg (by omega), if_neg (not_not.mpr d1)]
  · rw [if_neg c1, if_neg k2, if_pos k3, if_neg (by omega),
      if_neg (not_or.mpr ⟨not_not.mpr d1, not_not.mpr d2⟩)]
  · rw [if_neg c1, if_neg k2, if_neg k3, if_pos k4, if_neg (by omega),
      if_neg (not_or.mpr ⟨not_not.mpr d1, not_or.mpr ⟨not_not.mpr d2, not_not.mpr d3⟩⟩)]

/-- The bytes a successful `utf8_decode_sequence` consumed: the first is no
continuation byte, the others are. -/
theorem utf8_decode_sequence_at_shape (mem : List Nat) (p e c n : Nat)
    (h : (utf8_decode_sequence_at mem p e c n).ret = 0) :
    ¬ (mem.getD p 0 % 256 &&& 0xC0 = 0x80) ∧
    ∀ j, 1 ≤ j → j < (utf8_decode_sequence_at mem p e c n).bytes_consumed →
      mem.getD (p + j) 0 % 256 &&& 0xC0 = 0x80 := by
  have hx : mem.getD p 0 % 256 < 256 := Nat.mod_lt _ (by decide)
  have lead := not_cont_of_lead (mem.getD p 0 % 256) hx
  rw [Nat.mod_mod] at lead
  rcases utf8_decode_sequence_at_cases mem p e c n h with
    ⟨c1, _, hr⟩ | ⟨c1, k2, _, d1, hr⟩ | ⟨c1, k2, k3, _, d1, d2, hr⟩ |
    ⟨c1, k2, k3, k4, _, d1, d2, d3, hr⟩
  all_goals rw [hr]
  all_goals dsimp only
  · exact ⟨lead (by omega), fun j h1 h2 => by omega⟩
  · refine ⟨lead (by have := (lead2_iff _ hx).mp k2; omega), fun j h1 h2 => ?_⟩
    obtain rfl : j = 1 := by omega
    exact d1
  · refine ⟨lead (by have := (lead3_iff _ hx).mp k3; omega), fun j h1 h2 => ?_⟩
    obtain rfl | rfl : j = 1 ∨ j = 2 := by omega
    · exact d1
    · exact d2
  · refine ⟨lead (by have := (lead4_iff _ hx).mp k4; omega), fun j h1 h2 => ?_⟩
    obtain rfl | rfl | rfl : j = 1 ∨ j = 2 ∨ j = 3 := by omega
    · exact d1
    · exact d2
    · exact d3

theorem accepted_window (mem : List Nat) (p e c n : Nat)
    (h : (utf8_decode_sequence_at mem p e c n).ret = 0) :
    Accepted (window mem p (p + (utf8_decode_sequence_at mem p e c n).bytes_consumed)) := by
  unfold Accepted
  rw [← utf8_decode_sequence_at_eq,
    utf8_decode_sequence_at_indep mem p e c n _ 0 0 h (le_refl _), window_length]
  exact ⟨h, by omega⟩

theorem splitsInto_nil (mem : List Nat) (data : Nat) : SplitsInto mem data data 0 :=
  ⟨[], by simp, by simp [window], rfl⟩

/-- One more accepted sequence behind a split. -/
theorem splitsInto_snoc (mem : List Nat) (d p n e c m : Nat) (hs : SplitsInto mem d p n)
    (hd : d ≤ p) (h : (utf8_decode_sequence_at mem p e c m).ret = 0) :
    SplitsInto mem d (p + (utf8_decode_sequence_at mem p e c m).bytes_consumed) (n + 1) := by
  obtain ⟨qs, hq, hw, hl⟩ := hs
  refine ⟨qs ++ [window mem p (p + (utf8_decode_sequence_at mem p e c m).bytes_consumed)],
    ?_, ?_, by simp [hl]⟩
  · intro q hqm
    rcases List.mem_append.mp hqm with h1 | h1
    · exact hq q h1
    · rw [List.mem_singleton.mp h1]
      exact accepted_window mem p e c m h
  · rw [window_append mem d p _ hd (by omega), hw]
    simp

/-- The last sequence of a split that is not empty: it starts at most 4 bytes
back, and `utf8_decode_sequence` accepts it there. -/
theorem splitsInto_last (mem : List Nat) (d cur n : Nat) (hs : SplitsInto mem d cur n)
    (hd : d < cur) :
    ∃ k, 1 ≤ k ∧ d + k ≤ cur ∧ 1 ≤ n ∧ SplitsInto mem d (cur - k) (n - 1) ∧
      (utf8_decode_sequence_at mem (cur - k) cur 0 0).ret = 0 ∧
      (utf8_decode_sequence_at mem (cur - k) cur 0 0).bytes_consumed = k := by
  obtain ⟨qs, hq, hw, hl⟩ := hs
  have hlen : qs.flatten.length = cur - d := by rw [← hw, window_length]
  have hne : qs ≠ [] := by
    intro h0
    rw [h0] at hlen
    simp at hlen
    omega
  obtain ⟨qs2, q, rfl⟩ : ∃ qs2 q, qs = qs2 ++ [q] :=
    ⟨qs.dropLast, qs.getLast hne, (List.dropLast_append_getLast hne).symm⟩
  have hacc : Accepted q := hq q (by simp)
  simp only [List.flatten_append, List.flatten_cons, List.flatten_nil, List.append_nil,
    List.length_append] at hlen hw
  have hk1 : 1 ≤ q.length := by
    have h1 := hacc.1
    have h2 := hacc.2
    by_contra hc
    have : q = [] := List.length_eq_zero.mp (by omega)
    rw [this] at h1
    simp [utf8_decode_sequence] at h1
  have hsplit := window_append mem d (cur - q.length) cur (by omega) (by omega)
  rw [hsplit] at hw
  have hwl : (window mem (cur - q.length) cur).length = q.length := by
    rw [window_length]; omega
  obtain ⟨hw1, hw2⟩ := List.append_inj' hw hwl
  have hdec : utf8_decode_sequence_at mem (cur - q.length) cur 0 0
      = utf8_decode_sequence q 0 0 := by
    rw [utf8_decode_sequence_at_eq, hw2]
  refine ⟨q.length, hk1, by omega, ?_, ⟨qs2, fun x hx => hq x (by simp [hx]), hw1, ?_⟩, ?_, ?_⟩
  · rw [← hl]; simp
  · rw [← hl]; simp
  · rw [hdec]; exact hacc.1
  · rw [hdec]; exact hacc.2

theorem iterInv_new (mem : List Nat) : IterInv mem (u8i_new mem) := by
  unfold IterInv u8i_new
  exact ⟨by simp, fun _ => ⟨le_refl _, by simp, splitsInto_nil mem 0⟩⟩

theorem iterInv_new_with_length (mem : List Nat) (byte_len : Nat) :
    IterInv mem (u8i_new_with_length byte_len) := by
  unfold IterInv u8i_new_with_length
  exact ⟨by simp, fun _ => ⟨le_refl _, by simp, splitsInto_nil mem 0⟩⟩

/-- The invariant holds after `u8i_next`. -/
theorem iterInv_next (mem : List Nat) (iter : utf8_iterator) (h : IterInv mem iter) :
    IterInv mem (u8i_next mem iter).2 := by
  obtain ⟨h1, h2⟩ := h
  unfold u8i_next
  by_cases he : iter.error ≠ 0
  · rw [if_pos he]; exact ⟨h1, h2⟩
  · rw [if_neg he]
    obtain ⟨i1, i2, i3⟩ := h2 (not_not.mp he)
    by_cases hc : iter.current ≥ iter.end_
    · rw [if_pos hc]; exact ⟨h1, h2⟩
    · rw [if_neg hc]
      simp only
      by_cases hr : (utf8_decode_sequence_at mem iter.current iter.end_ iter.codepoint 0).ret ≠ 0
      · rw [if_pos hr]
        exact ⟨h1, fun hx => absurd hx (by simp)⟩
      · rw [if_neg hr]
        have hr0 := not_not.mp hr
        have hk := utf8_decode_sequence_at_consumed mem _ _ _ _ hr0
        exact ⟨h1, fun _ => ⟨by dsimp only; omega, hk.2.2,
          splitsInto_snoc mem _ _ _ _ _ _ i3 i1 hr0⟩⟩

/-- On a state that satisfies the invariant and has the error flag clear,
`u8i_prev` leaves the flag clear, keeps the invariant, and takes 1 off
`position` only when it is at least 1. -/
theorem iterInv_prev (mem : List Nat) (iter : utf8_iterator) (h : IterInv mem iter)
    (he : iter.error = 0) :
    (u8i_prev mem iter).2.error = 0 ∧ IterInv mem (u8i_prev mem iter).2 ∧
    ((u8i_prev mem iter).1 = 0 ∧ (u8i_prev mem iter).2 = iter ∨
      (u8i_prev mem iter).1 = 1 ∧ 1 ≤ iter.position ∧
        (u8i_prev mem iter).2.position = iter.position - 1) := by
  obtain ⟨h1, h2⟩ := h
  obtain ⟨i1, i2, i3⟩ := h2 he
  unfold u8i_prev
  rw [if_neg (not_not.mpr he)]
  by_cases hc : iter.current ≤ iter.data
  · rw [if_pos hc]
    exact ⟨he, ⟨h1, h2⟩, Or.inl ⟨rfl, rfl⟩⟩
  · rw [if_neg hc]
    obtain ⟨k, k1, k2, k3, k4, k5, k6⟩ := splitsInto_last mem _ _ _ i3 (by omega)
    have hk := utf8_decode_sequence_at_consumed mem _ _ _ _ k5
    rw [k6] at hk
    obtain ⟨s1, s2⟩ := utf8_decode_sequence_at_shape mem _ _ _ _ k5
    rw [k6] at s2
    have hfind : utf8_find_prev_start mem iter.current iter.data = some (iter.current - k) := by
      apply utf8_find_prev_start_spec mem iter.current iter.data k k1 hk.2.1 k2
      · intro j hj1 hj2
        have := s2 (k - j) (by omega) (by omega)
        have e : iter.current - k + (k - j) = iter.current - j := by omega
        rwa [e] at this
      · exact s1
    have hdec := utf8_decode_sequence_at_indep mem (iter.current - k) iter.current 0 0
      iter.end_ iter.codepoint 0 k5 (by rw [k6]; omega)
    rw [hfind]
    simp only
    rw [hdec, if_neg (not_not.mpr k5), if_neg (by omega)]
    refine ⟨he, ⟨h1, fun _ => ⟨by dsimp only; omega, by dsimp only; omega, k4⟩⟩,
      Or.inr ⟨rfl, k3, rfl⟩⟩

/-- The invariant holds after `u8i_reset`, also from a state with the error
flag set. -/
theorem iterInv_reset (mem : List Nat) (iter : utf8_iterator) (h : IterInv mem iter) :
    IterInv mem (u8i_reset mem iter).2 := by
  obtain ⟨h1, _⟩ := h
  unfold u8i_reset
  simp only
  by_cases hc : iter.data < iter.end_
  · rw [if_pos hc]
    by_cases hr : (utf8_decode_sequence_at mem iter.data iter.end_ iter.codepoint 0).ret ≠ 0
    · rw [if_pos hr]
      exact ⟨h1, fun hx => absurd hx (by simp)⟩
    · rw [if_neg hr]
      exact ⟨h1, fun _ => ⟨le_refl _, h1, splitsInto_nil mem _⟩⟩
  · rw [if_neg hc]
    exact ⟨h1, fun _ => ⟨le_refl _, h1, splitsInto_nil mem _⟩⟩

theorem iterInv_seek_loop (mem : List Nat) : ∀ (todo : Nat) (iter : utf8_iterator),
    IterInv mem iter → IterInv mem (u8i_seek_loop mem todo iter).2 := by
  intro todo
  induction todo with
  | zero => intro iter h; exact h
  | succ t ih =>
    intro iter h
    rw [u8i_seek_loop]
    by_cases hn : u8i_has_next iter ≠ 0
    · rw [if_pos hn]
      simp only
      by_cases hr : (u8i_next mem iter).1 < 0
      · rw [if_pos hr]
        exact iterInv_next mem iter h
      · rw [if_neg hr]
        exact ih _ (iterInv_next mem iter h)
    · rw [if_neg hn]
      exact h

/-- The invariant holds after `u8i_seek`. -/
theorem iterInv_seek (mem : List Nat) (iter : utf8_iterator) (position : Nat)
    (h : IterInv mem iter) : IterInv mem (u8i_seek mem iter position).2 := by
  unfold u8i_seek
  simp only
  by_cases hr : (u8i_reset mem iter).1 ≠ 0
  · rw [if_pos hr]
    exact iterInv_reset mem iter h
  · rw [if_neg hr]
    exact iterInv_seek_loop mem position _ (iterInv_reset mem iter h)

/-- Every state of an iterator satisfies the invariant. -/
theorem iterReachable_inv (mem : List Nat) (iter : utf8_iterator)
    (h : IterReachable mem iter) : IterInv mem iter := by
  induction h with
  | new => exact iterInv_new mem
  | new_with_length n => exact iterInv_new_with_length mem n
  | next iter _ ih => exact iterInv_next mem iter ih
  | prev iter _ ih =>
    by_cases he : iter.error = 0
    · exact (iterInv_prev mem iter ih he).2.1
    · rw [u8i_prev_of_error mem iter he]
      exact ih
  | reset iter _ ih => exact iterInv_reset mem iter ih
  | seek iter position _ ih => exact iterInv_seek mem iter position ih

/-! ### Substring lengths that wrap around -/

/-- When `start_byte + len_bytes` leaves `size_t`, the clamp of
`u8s_substr_bytes` does not fire and the copy leaves the block. -/
theorem u8s_substr_bytes_wraps (a : allocator) (str : utf8_string) (start len : Nat)
    (hinv : Terminated str) (ha : a.ok = true) (hstart : start < str.byte_len)
    (hwrap : 18446744073709551616 ≤ start + len) (hlen : len < 18446744073709551616)
    (hcap : str.capacity < 18446744073709551616) :
    u8s_substr_bytes a str start len = none := by
  obtain ⟨block, hdata, hbl, hlt, -⟩ := id hinv
  have hm : (start + len) % 18446744073709551616 = start + len - 18446744073709551616 := by
    rw [Nat.mod_eq_sub_mod hwrap, Nat.mod_eq_of_lt (by omega)]
  have hc : ¬ (start + len - 18446744073709551616 > str.byte_len) := by omega
  have h0 : ¬ len = 0 := by omega
  have hr : mem_read block start len = none := by
    unfold mem_read
    rw [if_neg (by omega)]
  have hge : ¬ start ≥ str.byte_len := by omega
  unfold u8s_substr_bytes
  rw [if_neg hge, if_neg h0]
  simp only [hm]
  rw [if_neg hc, if_neg (by simp [ha]), hdata]
  simp only
  rw [hr]

/-- When `start + len` leaves `size_t`, the clamp of `u8s_substr` does not
fire and the copy leaves the array of codepoints. -/
theorem u8s_substr_wraps (a : allocator) (str : utf8_string) (qs : List (List Nat))
    (hp : Parsed str qs) (start len : Nat) (ha : a.ok = true) (hstart : start < qs.length)
    (hwrap : 18446744073709551616 ≤ start + len) (hlen : len < 18446744073709551616)
    (hcap : str.capacity < 18446744073709551616) :
    u8s_substr a str start len = none := by
  obtain ⟨block, hdata, hblen, hbl, hlt, htake, hterm, -⟩ := parsed_block str qs hp
  have hqs := hp.1
  have hs := wellFormed_nulFree _ ⟨qs, hqs, rfl⟩
  have hnl := length_le_flatten qs (fun q hq => (isSeq_bytes q (hqs q hq)).1)
  have hm : (start + len) % 18446744073709551616 = start + len - 18446744073709551616 := by
    rw [Nat.mod_eq_sub_mod hwrap, Nat.mod_eq_of_lt (by omega)]
  have hc : ¬ (start + len - 18446744073709551616 > qs.length) := by omega
  have h0 : ¬ len = 0 := by omega
  have hpl : (pad (qs.flatten.length + 1) (qs.map seqValue)).length
      = qs.flatten.length + 1 := pad_length _ _ (by rw [List.length_map]; omega)
  have hr : mem_read (pad (qs.flatten.length + 1) (qs.map seqValue)) start len = none := by
    unfold mem_read
    rw [if_neg (by rw [hpl]; omega)]
  unfold u8s_substr
  rw [hp.2.2.2, if_neg (by omega), if_neg h0]
  simp only [hdata]
  rw [block_strlen_terminated block qs.flatten str.byte_len htake hterm hs]
  simp only [ha, not_true_eq_false, if_false, htake, u8dec_wellFormed false qs hqs, hm,
    if_neg hc, hr]

/-! ## The claims -/

/-- C1. Round trip: for every NUL-free byte string `s` that is well-formed
UTF-8, `u8dec s` in reject mode returns an array, and `u8enc` applied to that
array returns exactly `s`. -/
theorem roundtrip_decode_encode (s : List Nat) (hs : NulFree s) (hwf : WellFormed s) :
    ∃ dest, u8dec s false = .ok dest ∧ u8enc dest = some s := by
  obtain ⟨qs, hqs, rfl⟩ := hwf
  refine ⟨_, u8dec_wellFormed false qs hqs, ?_⟩
  unfold u8enc pad
  rw [u8enc_loop_scalars _ _ _ (fun c hc => by
    obtain ⟨q, hq, rfl⟩ := List.mem_map.mp hc
    exact (seqValue_layout q (hqs q hq)).1)]
  rw [u8enc_loop_zeros, flatten_layout qs hqs]
  simp

theorem roundtrip_decode_encode_witness :
    NulFree [0x41, 0xC3, 0xA9, 0xF0, 0x9F, 0x98, 0x80] ∧
    WellFormed [0x41, 0xC3, 0xA9, 0xF0, 0x9F, 0x98, 0x80] ∧
    ∃ dest, u8dec [0x41, 0xC3, 0xA9, 0xF0, 0x9F, 0x98, 0x80] false = .ok dest ∧
      u8enc dest = some [0x41, 0xC3, 0xA9, 0xF0, 0x9F, 0x98, 0x80] :=
  have hwf : WellFormed [0x41, 0xC3, 0xA9, 0xF0, 0x9F, 0x98, 0x80] :=
    ⟨[[0x41], [0xC3, 0xA9], [0xF0, 0x9F, 0x98, 0x80]], by simp [IsSeq], by simp⟩
  ⟨by decide, hwf,
    roundtrip_decode_encode [0x41, 0xC3, 0xA9, 0xF0, 0x9F, 0x98, 0x80] (by decide) hwf⟩

/-- C2. Reject-mode acceptance equals the UTF-8 grammar: for a NUL-free byte
string `s`, `u8dec s` in reject mode returns an array if and only if `s` is a
concatenation of well-formed sequences, and returns `NULL` otherwise; when
`s` is the concatenation of the sequences `qs`, the array holds the scalar
values of `qs` in order, followed by the terminating 0. -/
theorem u8dec_reject_iff_grammar (s : List Nat) (hs : NulFree s) :
    ((∃ dest, u8dec s false = .ok dest) ↔ WellFormed s) ∧
    (¬ WellFormed s → u8dec s false = .null) ∧
    (∀ qs : List (List Nat), (∀ q ∈ qs, IsSeq q) → s = qs.flatten →
      ∃ dest, u8dec s false = .ok dest ∧
        dest.take (qs.length + 1) = qs.map seqValue ++ [0] ∧
        codepoints dest = qs.map seqValue) := by
  have key := u8dec_eq_decodeBytes s false hs
  have hiff := decodeBytes_reject_iff s hs
  refine ⟨?_, ?_, ?_⟩
  · rw [← hiff, key]
    constructor
    · rintro ⟨dest, hd⟩
      cases hdb : decodeBytes false s with
      | none => rw [hdb] at hd; simp [finish] at hd
      | some o => exact ⟨o, rfl⟩
    · rintro ⟨o, ho⟩
      rw [ho]
      exact ⟨_, rfl⟩
  · intro hn
    rw [key]
    cases hdb : decodeBytes false s with
    | none => rfl
    | some o => exact absurd (hiff.mp ⟨o, hdb⟩) hn
  · rintro qs hqs rfl
    exact u8dec_wellFormed_read qs hqs

theorem u8dec_reject_iff_grammar_witness :
    NulFree [0x41, 0xF0, 0x9F, 0x98, 0x80, 0x42] ∧
    (((∃ dest, u8dec [0x41, 0xF0, 0x9F, 0x98, 0x80, 0x42] false = .ok dest)
        ↔ WellFormed [0x41, 0xF0, 0x9F, 0x98, 0x80, 0x42]) ∧
      (¬ WellFormed [0x41, 0xF0, 0x9F, 0x98, 0x80, 0x42]
        → u8dec [0x41, 0xF0, 0x9F, 0x98, 0x80, 0x42] false = .null) ∧
      (∀ qs : List (List Nat), (∀ q ∈ qs, IsSeq q) →
        [0x41, 0xF0, 0x9F, 0x98, 0x80, 0x42] = qs.flatten →
        ∃ dest, u8dec [0x41, 0xF0, 0x9F, 0x98, 0x80, 0x42] false = .ok dest ∧
          dest.take (qs.length + 1) = qs.map seqValue ++ [0] ∧
          codepoints dest = qs.map seqValue)) :=
  ⟨by decide, u8dec_reject_iff_grammar [0x41, 0xF0, 0x9F, 0x98, 0x80, 0x42] (by decide)⟩

/-- C3. Encode then decode is the identity on scalar values: for every list
`cps` of values in `1 .. 0x10FFFF` outside the surrogates, `u8enc (cps ++ [0])`
returns a string, and `u8dec` of that string in reject mode returns an array
that starts with `cps ++ [0]`; this covers the boundary values 0x7F, 0x80,
0x7FF, 0x800, 0xFFFF, 0x10000 and 0x10FFFF. -/
theorem roundtrip_encode_decode (cps : List Nat) (h : ∀ c ∈ cps, IsScalar c) :
    ∃ bytes, u8enc (cps ++ [0]) = some bytes ∧
      ∃ dest, u8dec bytes false = .ok dest ∧
        dest.take (cps.length + 1) = cps ++ [0] ∧ codepoints dest = cps := by
  have hqs : ∀ q ∈ cps.map layout, IsSeq q := by
    intro q hq
    obtain ⟨c, hc, rfl⟩ := List.mem_map.mp hq
    exact (layout_isSeq c (h c hc)).1
  have hval : (cps.map layout).map seqValue = cps := by
    rw [List.map_map]
    calc cps.map (seqValue ∘ layout) = cps.map id :=
          List.map_congr_left (fun c hc => (layout_isSeq c (h c hc)).2)
      _ = cps := List.map_id cps
  refine ⟨(cps.map layout).flatten, ?_, ?_⟩
  · unfold u8enc
    rw [u8enc_loop_scalars cps [0] [] h]
    simp [u8enc_loop]
  · obtain ⟨dest, hd, ht, hc⟩ :=
      u8dec_wellFormed_read _ hqs
    rw [hval, List.length_map] at ht
    rw [hval] at hc
    exact ⟨dest, hd, ht, hc⟩

theorem roundtrip_encode_decode_witness :
    (∀ c ∈ [0x7F, 0x80, 0x7FF, 0x800, 0xFFFF, 0x10000, 0x10FFFF], IsScalar c) ∧
    ∃ bytes, u8enc ([0x7F, 0x80, 0x7FF, 0x800, 0xFFFF, 0x10000, 0x10FFFF] ++ [0]) = some bytes ∧
      ∃ dest, u8dec bytes false = .ok dest ∧
        dest.take ([0x7F, 0x80, 0x7FF, 0x800, 0xFFFF, 0x10000, 0x10FFFF].length + 1)
          = [0x7F, 0x80, 0x7FF, 0x800, 0xFFFF, 0x10000, 0x10FFFF] ++ [0] ∧
        codepoints dest = [0x7F, 0x80, 0x7FF, 0x800, 0xFFFF, 0x10000, 0x10FFFF] :=
  have h : ∀ c ∈ [0x7F, 0x80, 0x7FF, 0x800, 0xFFFF, 0x10000, 0x10FFFF], IsScalar c := by
    simp [IsScalar]
  ⟨h, roundtrip_encode_decode [0x7F, 0x80, 0x7FF, 0x800, 0xFFFF, 0x10000, 0x10FFFF] h⟩

/-- C4. `u8enc` fails exactly on non-scalar values: it returns `NULL` if and
only if some element before the first 0 is a surrogate (`0xD800 .. 0xDFFF`) or
greater than `0x10FFFF`; when it returns a string, every element before the
first 0 has been encoded, in order, none skipped and none replaced. -/
theorem u8enc_fails_iff (src : List Nat) :
    (u8enc src = none ↔
      ∃ c ∈ src.takeWhile (fun c => c ≠ 0), (0xD800 ≤ c ∧ c ≤ 0xDFFF) ∨ 0x10FFFF < c) ∧
    (∀ bytes, u8enc src = some bytes →
      bytes = ((src.takeWhile (fun c => c ≠ 0)).map layout).flatten) ∧
    u8enc [0x41, 0x110000, 0] = none ∧ u8enc [0x41, 0xD800, 0x42, 0] = none := by
  obtain ⟨h1, h2⟩ := u8enc_loop_spec src []
  exact ⟨h1, fun bytes hb => by simpa using h2 bytes hb, by decide, by decide⟩

/-- C5. `u8enc` produces the standard UTF-8 layout: for every list of scalar
values the output is the concatenation, in order, of the layouts of the
values; a layout has 1 byte up to 0x7F, 2 bytes `110xxxxx 10xxxxxx` up to
0x7FF, 3 bytes `1110xxxx 10xxxxxx 10xxxxxx` up to 0xFFFF and 4 bytes
`11110xxx 10xxxxxx 10xxxxxx 10xxxxxx` above, the `x` bits being the bits of
the value from most to least significant. -/
theorem u8enc_layout (cps : List Nat) (h : ∀ c ∈ cps, IsScalar c) :
    u8enc (cps ++ [0]) = some (cps.map layout).flatten ∧
    (∀ c ∈ cps,
      (c ≤ 0x7F → layout c = [c]) ∧
      (0x7F < c → c ≤ 0x7FF → layout c = [0xC0 + c / 64, 0x80 + c % 64] ∧ c / 64 < 32) ∧
      (0x7FF < c → c ≤ 0xFFFF →
        layout c = [0xE0 + c / 4096, 0x80 + c / 64 % 64, 0x80 + c % 64] ∧ c / 4096 < 16) ∧
      (0xFFFF < c →
        layout c = [0xF0 + c / 262144, 0x80 + c / 4096 % 64, 0x80 + c / 64 % 64, 0x80 + c % 64]
          ∧ c / 262144 < 8)) ∧
    u8enc [0x80, 0x7FF, 0x800, 0xFFFF, 0x10000, 0x10FFFF, 0]
      = some [0xC2, 0x80, 0xDF, 0xBF, 0xE0, 0xA0, 0x80, 0xEF, 0xBF, 0xBF,
              0xF0, 0x90, 0x80, 0x80, 0xF4, 0x8F, 0xBF, 0xBF] ∧
    u8enc [0x1F600, 0] = some [0xF0, 0x9F, 0x98, 0x80] := by
  refine ⟨?_, ?_, by decide, by decide⟩
  · unfold u8enc
    rw [u8enc_loop_scalars cps [0] [] h]
    simp [u8enc_loop]
  · intro c hc
    obtain ⟨h0, h1, h2⟩ := h c hc
    refine ⟨?_, ?_, ?_, ?_⟩
    · intro c1; simp only [layout, if_pos c1]
    · intro c1 c2
      refine ⟨?_, by omega⟩
      simp only [layout]; rw [if_neg (by omega), if_pos c2]
    · intro c1 c2
      refine ⟨?_, by omega⟩
      simp only [layout]; rw [if_neg (by omega), if_neg (by omega), if_pos c2]
    · intro c1
      refine ⟨?_, by omega⟩
      simp only [layout]; rw [if_neg (by omega), if_neg (by omega), if_neg (by omega)]

theorem u8enc_layout_witness :
    (∀ c ∈ [0x41, 0xE9, 0x4F60, 0x1F680], IsScalar c) ∧
    u8enc ([0x41, 0xE9, 0x4F60, 0x1F680] ++ [0])
      = some ([0x41, 0xE9, 0x4F60, 0x1F680].map layout).flatten :=
  have h : ∀ c ∈ [0x41, 0xE9, 0x4F60, 0x1F680], IsScalar c := by simp [IsScalar]
  ⟨h, (u8enc_layout [0x41, 0xE9, 0x4F60, 0x1F680] h).1⟩

/-- C6. Overlong and surrogate rejection by the bulk decoder: for every
overlong encoding (`C0`/`C1` and a continuation byte; `E0 80-9F` and a
continuation byte; `F0 80-8F` and two continuation bytes) and every 3-byte
encoding of a surrogate (`ED A0-BF` and a continuation byte), `u8dec` returns
`NULL` in reject mode, and in replace mode returns an array that holds one
U+FFFD per input byte and then the terminator, so that every element before
the terminator is 0xFFFD. -/
theorem u8dec_overlong_surrogate (s : List Nat) (h : IsOverlongOrSurrogate s) :
    u8dec s false = .null ∧
    u8dec s true = .ok (List.replicate s.length 0xFFFD ++ [0]) ∧
    ∃ dest, u8dec s true = .ok dest ∧ codepoints dest ≠ [] ∧
      ∀ c ∈ codepoints dest, c = 0xFFFD := by
  have hs := overlong_nulFree s h
  have hf : u8dec s false = .null := by
    rw [u8dec_eq_decodeBytes s false hs, decodeBytes, scan_overlong false s h]
    rfl
  have ht : u8dec s true = .ok (List.replicate s.length 0xFFFD ++ [0]) := by
    rw [u8dec_eq_decodeBytes s true hs, decodeBytes, scan_overlong true s h]
    simp [finish, pad]
  refine ⟨hf, ht, _, ht, ?_, ?_⟩
  · have hne : s ≠ [] := by
      rintro rfl
      simp [IsOverlongOrSurrogate] at h
    obtain ⟨a, t, rfl⟩ := List.exists_cons_of_ne_nil hne
    simp [codepoints, List.replicate_succ]
  · intro c hc
    have hc2 := List.mem_takeWhile_imp hc
    have hc3 := (List.takeWhile_prefix _).subset hc
    simp only [List.mem_append, List.mem_replicate, List.mem_singleton] at hc3
    rcases hc3 with h1 | h1
    · exact h1.2
    · subst h1; simp at hc2

theorem u8dec_overlong_surrogate_witness :
    IsOverlongOrSurrogate [0xC0, 0x80] ∧
    u8dec [0xC0, 0x80] false = .null ∧
    u8dec [0xC0, 0x80] true = .ok (List.replicate [0xC0, 0x80].length 0xFFFD ++ [0]) ∧
    ∃ dest, u8dec [0xC0, 0x80] true = .ok dest ∧ codepoints dest ≠ [] ∧
      ∀ c ∈ codepoints dest, c = 0xFFFD :=
  have h : IsOverlongOrSurrogate [0xC0, 0x80] := by simp [IsOverlongOrSurrogate]
  ⟨h, u8dec_overlong_surrogate [0xC0, 0x80] h⟩

/-- C7. The replace flag only matters on malformed input: for every NUL-free
byte string `s`, `u8dec s` in replace mode returns an array (it never
fails), and whenever reject mode returns an array, replace mode returns the
same array. -/
theorem u8dec_replace_refines (s : List Nat) (hs : NulFree s) :
    (∃ dest, u8dec s true = .ok dest) ∧
    (∀ dest, u8dec s false = .ok dest → u8dec s true = .ok dest) := by
  rw [u8dec_eq_decodeBytes s true hs, u8dec_eq_decodeBytes s false hs]
  obtain ⟨o, ho⟩ := scan_replace_total s 0 0 0 0x80 0xBF
  constructor
  · exact ⟨_, by rw [decodeBytes, ho]; rfl⟩
  · intro dest hd
    cases hf : decodeBytes false s with
    | none => rw [hf] at hd; simp [finish] at hd
    | some o2 =>
      rw [hf] at hd
      have := scan_reject_agree s 0 0 0 0x80 0xBF o2 hf
      rw [decodeBytes, this]
      exact hd

theorem u8dec_replace_refines_witness :
    NulFree [0x41, 0xC3, 0xA9, 0x42] ∧
    (∃ dest, u8dec [0x41, 0xC3, 0xA9, 0x42] true = .ok dest) ∧
    (∀ dest, u8dec [0x41, 0xC3, 0xA9, 0x42] false = .ok dest →
      u8dec [0x41, 0xC3, 0xA9, 0x42] true = .ok dest) :=
  ⟨by decide, u8dec_replace_refines [0x41, 0xC3, 0xA9, 0x42] (by decide)⟩

/-- C8. An invalid lead byte costs exactly one replacement character: for
well-formed strings `u` and `v` and a byte `b` in `80 .. C1` or `F5 .. FF`,
`u8dec (u ++ [b] ++ v)` returns `NULL` in reject mode, and in replace mode
returns the codepoints of `u`, then U+FFFD, then the codepoints of `v`;
`"A\xFFB"` gives `[0x41, 0xFFFD, 0x42]`. -/
theorem u8dec_invalid_lead (u v : List Nat) (b : Nat) (hu : WellFormed u) (hv : WellFormed v)
    (hb : (0x80 ≤ b ∧ b ≤ 0xC1) ∨ (0xF5 ≤ b ∧ b ≤ 0xFF)) :
    (u8dec (u ++ [b] ++ v) false = .null ∧
     ∃ du dv dest, u8dec u false = .ok du ∧ u8dec v false = .ok dv ∧
      u8dec (u ++ [b] ++ v) true = .ok dest ∧
      codepoints dest = codepoints du ++ [0xFFFD] ++ codepoints dv) ∧
    u8dec [0x41, 0xFF, 0x42] true = .ok [0x41, 0xFFFD, 0x42, 0] := by
  refine ⟨u8dec_one_error u [b] v hu hv ?_ ?_ (wellFormed_head v hv), by decide⟩
  · intro x hx
    simp only [List.mem_singleton] at hx
    omega
  · intro r rest _
    exact scan_bad_lead r b rest (by omega)

theorem u8dec_invalid_lead_witness :
    WellFormed [0xC3, 0xA9] ∧ WellFormed [0x42] ∧
    ((0x80 ≤ 0x80 ∧ 0x80 ≤ 0xC1) ∨ (0xF5 ≤ 0x80 ∧ 0x80 ≤ 0xFF)) ∧
    ((u8dec ([0xC3, 0xA9] ++ [0x80] ++ [0x42]) false = .null ∧
     ∃ du dv dest, u8dec [0xC3, 0xA9] false = .ok du ∧ u8dec [0x42] false = .ok dv ∧
      u8dec ([0xC3, 0xA9] ++ [0x80] ++ [0x42]) true = .ok dest ∧
      codepoints dest = codepoints du ++ [0xFFFD] ++ codepoints dv) ∧
    u8dec [0x41, 0xFF, 0x42] true = .ok [0x41, 0xFFFD, 0x42, 0]) :=
  have hu : WellFormed [0xC3, 0xA9] := ⟨[[0xC3, 0xA9]], by simp [IsSeq], by simp⟩
  have hv : WellFormed [0x42] := ⟨[[0x42]], by simp [IsSeq], by simp⟩
  ⟨hu, hv, by decide, u8dec_invalid_lead [0xC3, 0xA9] [0x42] 0x80 hu hv (by decide)⟩

/-- C9. Resynchronisation after a truncated sequence: for well-formed strings
`u` and `v` (`v` possibly empty) and a proper non-empty prefix `p` of a
well-formed multi-byte sequence `p ++ t`, `u8dec (u ++ p ++ v)` returns `NULL`
in reject mode, and in replace mode returns the codepoints of `u`, then one
U+FFFD, then the codepoints of `v`: the byte that breaks the sequence is read
again as a lead byte, and a sequence cut off by the terminator is an error. -/
theorem u8dec_truncated_resync (u v p t : List Nat) (hu : WellFormed u) (hv : WellFormed v)
    (hp : p ≠ []) (ht : t ≠ []) (hseq : IsSeq (p ++ t)) :
    u8dec (u ++ p ++ v) false = .null ∧
    ∃ du dv dest, u8dec u false = .ok du ∧ u8dec v false = .ok dv ∧
      u8dec (u ++ p ++ v) true = .ok dest ∧
      codepoints dest = codepoints du ++ [0xFFFD] ++ codepoints dv :=
  u8dec_one_error u p v hu hv (isSeq_prefix_nulFree p t hseq)
    (fun r rest hrest => scan_truncated r p t rest hp ht hseq hrest) (wellFormed_head v hv)

theorem u8dec_truncated_resync_witness :
    WellFormed [0x41] ∧ WellFormed [] ∧ [0xE2, 0x82] ≠ [] ∧ [0xAC] ≠ [] ∧
    IsSeq ([0xE2, 0x82] ++ [0xAC]) ∧
    u8dec ([0x41] ++ [0xE2, 0x82] ++ []) false = .null ∧
    ∃ du dv dest, u8dec [0x41] false = .ok du ∧ u8dec [] false = .ok dv ∧
      u8dec ([0x41] ++ [0xE2, 0x82] ++ []) true = .ok dest ∧
      codepoints dest = codepoints du ++ [0xFFFD] ++ codepoints dv :=
  have hu : WellFormed [0x41] := ⟨[[0x41]], by simp [IsSeq], by simp⟩
  have hv : WellFormed [] := ⟨[], by simp, by simp⟩
  have hseq : IsSeq ([0xE2, 0x82] ++ [0xAC]) := by simp [IsSeq]
  ⟨hu, hv, by simp, by simp, hseq,
    u8dec_truncated_resync [0x41] [] [0xE2, 0x82] [0xAC] hu hv (by simp) (by simp) hseq⟩

/-- C10. The single-codepoint decoder does not apply the exclusions of the bulk
decoder: `utf8_decode_sequence` returns 0 (success) on the overlong forms
`C0 80`, `E0 80 80` and `F0 80 80 80` with codepoint 0, on the encoded
surrogate `ED A0 80` with codepoint 0xD800, on `F4 90 80 80` with codepoint
0x110000 and on the lead `F5` with codepoint 0x140000, while `u8dec` in reject
mode returns `NULL` on each of these strings. -/
theorem utf8_decode_sequence_accepts_excluded :
    utf8_decode_sequence [0xC0, 0x80] 0 0 = ⟨0, 0, 2⟩ ∧
    utf8_decode_sequence [0xE0, 0x80, 0x80] 0 0 = ⟨0, 0, 3⟩ ∧
    utf8_decode_sequence [0xF0, 0x80, 0x80, 0x80] 0 0 = ⟨0, 0, 4⟩ ∧
    utf8_decode_sequence [0xED, 0xA0, 0x80] 0 0 = ⟨0, 0xD800, 3⟩ ∧
    utf8_decode_sequence [0xF4, 0x90, 0x80, 0x80] 0 0 = ⟨0, 0x110000, 4⟩ ∧
    utf8_decode_sequence [0xF5, 0x80, 0x80, 0x80] 0 0 = ⟨0, 0x140000, 4⟩ ∧
    u8dec [0xC0, 0x80] false = .null ∧
    u8dec [0xE0, 0x80, 0x80] false = .null ∧
    u8dec [0xF0, 0x80, 0x80, 0x80] false = .null ∧
    u8dec [0xED, 0xA0, 0x80] false = .null ∧
    u8dec [0xF4, 0x90, 0x80, 0x80] false = .null ∧
    u8dec [0xF5, 0x80, 0x80, 0x80] false = .null := by
  decide

/-- C11. `u8_valid_cstr` against the bulk decoder at the inputs that separate
them: `u8_valid_cstr` returns 1 on the overlong `C0 80`, on the overlong
`E0 80 80`, on the encoded surrogate `ED A0 80` and on `F4 90 80 80`, while
`u8dec` in reject mode returns `NULL` on each of them; on the truncated
sequence `E2 82` and on `FF FF` it returns 0. -/
theorem u8_valid_cstr_accepts_excluded :
    u8_valid_cstr [0xC0, 0x80] = some 1 ∧ u8dec [0xC0, 0x80] false = .null ∧
    u8_valid_cstr [0xE0, 0x80, 0x80] = some 1 ∧ u8dec [0xE0, 0x80, 0x80] false = .null ∧
    u8_valid_cstr [0xED, 0xA0, 0x80] = some 1 ∧ u8dec [0xED, 0xA0, 0x80] false = .null ∧
    u8_valid_cstr [0xF4, 0x90, 0x80, 0x80] = some 1 ∧
    u8dec [0xF4, 0x90, 0x80, 0x80] false = .null ∧
    u8_valid_cstr [0xE2, 0x82] = some 0 ∧ u8_valid_cstr [0xFF, 0xFF] = some 0 ∧
    u8_valid_cstr [0x48, 0x65, 0x6C, 0x6C, 0x6F] = some 1 := by
  decide

/-- C12. The single-codepoint decoder never looks past the window: when
`utf8_decode_sequence` succeeds, `bytes_consumed` is between 1 and 4 and
`data + bytes_consumed <= end`; it fails when the lead byte announces 2, 3 or
4 bytes and fewer remain before `end`; and its whole result is the same for
two memories that agree on `[data, end)`, so no byte at or beyond `end` (or
before `data`) influences it. -/
theorem utf8_decode_sequence_stays_in_window (mem : List Nat) (data end_ cp0 n0 : Nat) :
    ((utf8_decode_sequence_at mem data end_ cp0 n0).ret = 0 →
      1 ≤ (utf8_decode_sequence_at mem data end_ cp0 n0).bytes_consumed ∧
      (utf8_decode_sequence_at mem data end_ cp0 n0).bytes_consumed ≤ 4 ∧
      data + (utf8_decode_sequence_at mem data end_ cp0 n0).bytes_consumed ≤ end_) ∧
    (mem.getD data 0 % 256 &&& 0xE0 = 0xC0 → data + 2 > end_ →
      (utf8_decode_sequence_at mem data end_ cp0 n0).ret = -1) ∧
    (mem.getD data 0 % 256 &&& 0xF0 = 0xE0 → data + 3 > end_ →
      (utf8_decode_sequence_at mem data end_ cp0 n0).ret = -1) ∧
    (mem.getD data 0 % 256 &&& 0xF8 = 0xF0 → data + 4 > end_ →
      (utf8_decode_sequence_at mem data end_ cp0 n0).ret = -1) ∧
    (∀ mem2 : List Nat, (∀ i, data ≤ i → i < end_ → mem.getD i 0 = mem2.getD i 0) →
      utf8_decode_sequence_at mem2 data end_ cp0 n0
        = utf8_decode_sequence_at mem data end_ cp0 n0) := by
  have hb : mem.getD data 0 % 256 < 256 := Nat.mod_lt _ (by decide)
  refine ⟨utf8_decode_sequence_at_consumed mem data end_ cp0 n0, ?_, ?_, ?_, ?_⟩
  · intro h2 hlen
    have hr := (lead2_iff _ hb).mp h2
    unfold utf8_decode_sequence_at
    by_cases h0 : data ≥ end_
    · rw [if_pos h0]
    · rw [if_neg h0]
      simp only []
      rw [if_neg (by omega), if_pos h2, if_pos hlen]
  · intro h3 hlen
    have hr := (lead3_iff _ hb).mp h3
    have n2 : ¬ (mem.getD data 0 % 256 &&& 0xE0 = 0xC0) := fun e => by
      have := (lead2_iff _ hb).mp e; omega
    unfold utf8_decode_sequence_at
    by_cases h0 : data ≥ end_
    · rw [if_pos h0]
    · rw [if_neg h0]
      simp only []
      rw [if_neg (by omega), if_neg n2, if_pos h3, if_pos hlen]
  · intro h4 hlen
    have hr := (lead4_iff _ hb).mp h4
    have n2 : ¬ (mem.getD data 0 % 256 &&& 0xE0 = 0xC0) := fun e => by
      have := (lead2_iff _ hb).mp e; omega
    have n3 : ¬ (mem.getD data 0 % 256 &&& 0xF0 = 0xE0) := fun e => by
      have := (lead3_iff _ hb).mp e; omega
    unfold utf8_decode_sequence_at
    by_cases h0 : data ≥ end_
    · rw [if_pos h0]
    · rw [if_neg h0]
      simp only []
      rw [if_neg (by omega), if_neg n2, if_neg n3, if_pos h4, if_pos hlen]
  · intro mem2 hagree
    rw [utf8_decode_sequence_at_eq, utf8_decode_sequence_at_eq,
      window_congr mem mem2 data end_ hagree]

/-- C15. Sticky error: a call of `u8i_next` or `u8i_prev` that returns -1
leaves the error flag set (the second `u8i_next` on `"A\xFFB"` does); on an
iterator whose error flag is set `u8i_next` and `u8i_prev` return -1 and
leave every field as it was, and `u8i_has_next` and `u8i_has_prev` return 0;
`u8i_reset` and `u8i_seek` leave the flag clear whenever they return 0, as
`u8i_reset` does on an iterator with the flag set over `"AB"`. -/
theorem sticky_error (mem : List Nat) (iter : utf8_iterator) :
    ((u8i_next mem iter).1 = -1 → (u8i_next mem iter).2.error ≠ 0) ∧
    ((u8i_prev mem iter).1 = -1 → (u8i_prev mem iter).2.error ≠ 0) ∧
    (iter.error ≠ 0 →
      u8i_next mem iter = (-1, iter) ∧ u8i_prev mem iter = (-1, iter) ∧
      u8i_has_next iter = 0 ∧ u8i_has_prev iter = 0) ∧
    ((u8i_reset mem iter).1 = 0 → (u8i_reset mem iter).2.error = 0) ∧
    (∀ n, (u8i_seek mem iter n).1 = 0 → (u8i_seek mem iter n).2.error = 0) ∧
    (calls (u8i_next [0x41, 0xFF, 0x42]) 2 (u8i_new [0x41, 0xFF, 0x42])).map
        (fun r => (r.1, r.2.error)) = [(1, 0), (-1, 1)] ∧
    u8i_reset [0x41, 0x42]
        { data := 0, current := 1, end_ := 2, codepoint := 0, position := 1, error := 1 }
      = (0, { data := 0, current := 0, end_ := 2, codepoint := 0x41, position := 0,
              error := 0 }) := by
  refine ⟨u8i_next_fail_error mem iter, u8i_prev_fail_error mem iter, ?_,
    fun h => (u8i_reset_ok mem iter h).1, ?_, by decide, by decide⟩
  · intro he
    exact ⟨u8i_next_of_error mem iter he, u8i_prev_of_error mem iter he,
      u8i_has_next_of_error iter he, u8i_has_prev_of_error iter he⟩
  · intro n h
    unfold u8i_seek at h ⊢
    simp only [] at h ⊢
    by_cases hr : (u8i_reset mem iter).1 ≠ 0
    · rw [if_pos hr] at h; exact absurd h (by simp)
    · rw [if_neg hr] at h ⊢
      exact (u8i_seek_loop_ok mem n _ (u8i_reset_ok mem iter (by simpa using hr)).1 h).1

theorem sticky_error_witness :
    u8i_next [0x41, 0xFF, 0x42]
        { data := 0, current := 1, end_ := 3, codepoint := 0, position := 1, error := 1 }
      = (-1, { data := 0, current := 1, end_ := 3, codepoint := 0, position := 1, error := 1 }) :=
  ((sticky_error [0x41, 0xFF, 0x42]
    { data := 0, current := 1, end_ := 3, codepoint := 0, position := 1, error := 1 }).2.2.1
      (by decide)).1

/-- C13. Iterator symmetry: for a well-formed NUL-free string `s` whose decode
has `n` codepoints, starting from `u8i_new s`, the `n` calls of `u8i_next` and
the `n` calls of `u8i_prev` that follow all return 1; the codepoints recorded
by the `u8i_next` calls are the codepoints of `s`, those recorded by the
`u8i_prev` calls are the same in reverse order; afterwards the position is 0,
the cursor is at the start of the data and the error flag is clear. -/
theorem iterator_symmetry (s : List Nat) (hs : NulFree s) (hwf : WellFormed s)
    (dest : List Nat) (hd : u8dec s false = .ok dest) :
    let n := (codepoints dest).length
    let fw := calls (u8i_next s) n (u8i_new s)
    let bw := calls (u8i_prev s) n (lastIter (u8i_new s) fw)
    let final := lastIter (lastIter (u8i_new s) fw) bw
    (∀ r ∈ fw, r.1 = 1) ∧ (∀ r ∈ bw, r.1 = 1) ∧
    fw.map (fun r => r.2.codepoint) = codepoints dest ∧
    bw.map (fun r => r.2.codepoint) = (fw.map (fun r => r.2.codepoint)).reverse ∧
    final.position = 0 ∧ final.current = final.data ∧ final.error = 0 := by
  obtain ⟨qs, hqs, rfl⟩ := hwf
  have hcp := u8dec_codepoints qs hqs dest hd
  have hn : (codepoints dest).length = qs.length := by rw [hcp]; simp
  simp only [hn]
  obtain ⟨c, hlast⟩ := forward_last qs hqs
  rw [hlast, forward_trace qs hqs, calls_prev_iterAt qs hqs qs.length qs.length c
    (le_refl _) (le_refl _)]
  have hfw : ((List.range qs.length).map (fun j =>
      ((1 : Int), iterAt qs.flatten qs (j + 1) (seqValue (qs.getD j []))))).map
        (fun r => r.2.codepoint) = qs.map seqValue := by
    rw [List.map_map]
    apply List.ext_getElem
    · simp
    · intro i h1 h2
      simp only [List.length_map, List.length_range] at h1
      simp [iterAt, List.getElem?_eq_getElem h1]
  refine ⟨?_, ?_, ?_, ?_, ?_⟩
  · intro r hr
    obtain ⟨j, _, rfl⟩ := List.mem_map.mp hr
    rfl
  · intro r hr
    obtain ⟨j, _, rfl⟩ := List.mem_map.mp hr
    rfl
  · rw [hfw, hcp]
  · rw [hfw, List.map_map]
    have := range_map_reverse qs.length (fun j => seqValue (qs.getD j []))
    rw [← hfw, List.map_map]
    simpa [Function.comp, iterAt] using this
  · by_cases h0 : 0 < qs.length
    · have e : qs.length - (qs.length - 1 + 1) = 0 := by omega
      rw [lastIter_map _ _ _ h0]
      simp [iterAt, e, boundary_zero]
    · have : qs = [] := List.length_eq_zero.mp (by omega)
      subst this
      simp [lastIter, iterAt, boundary]

theorem iterator_symmetry_witness :
    let s := [0x41, 0xF0, 0x9F, 0x98, 0x80, 0x42]
    let fw := calls (u8i_next s) 3 (u8i_new s)
    let bw := calls (u8i_prev s) 3 (lastIter (u8i_new s) fw)
    fw.map (fun r => r.2.codepoint) = [0x41, 0x1F600, 0x42] ∧
    bw.map (fun r => r.2.codepoint) = (fw.map (fun r => r.2.codepoint)).reverse :=
  have h := iterator_symmetry [0x41, 0xF0, 0x9F, 0x98, 0x80, 0x42] (by decide)
    ⟨[[0x41], [0xF0, 0x9F, 0x98, 0x80], [0x42]], by simp [IsSeq], by simp⟩
    [0x41, 0x1F600, 0x42, 0, 0, 0, 0] (by decide)
  ⟨h.2.2.1, h.2.2.2.1⟩

/-- C14. Forward iteration reproduces the bulk decode: for a well-formed
NUL-free string `s` whose reject-mode decode is `c1 .. cn`, starting from
`u8i_new s` the `i`-th call of `u8i_next` returns 1 and leaves the codepoint
`ci`, the position `i` and the cursor behind the encodings of `c1 .. ci` (so
each call moves it by the byte length of `ci`); every further call returns 0
and leaves the iterator as it is, with the error flag clear. -/
theorem forward_iteration (s : List Nat) (hs : NulFree s) (hwf : WellFormed s)
    (dest : List Nat) (hd : u8dec s false = .ok dest) :
    let cs := codepoints dest
    let fw := calls (u8i_next s) cs.length (u8i_new s)
    let final := lastIter (u8i_new s) fw
    fw = (List.range cs.length).map (fun i =>
      ((1 : Int),
        ({ data := 0,
           current := ((cs.take (i + 1)).map (fun c => (layout c).length)).sum,
           end_ := s.length, codepoint := cs.getD i 0, position := i + 1,
           error := 0 } : utf8_iterator))) ∧
    final.error = 0 ∧ ∀ k, calls (u8i_next s) k final = List.replicate k (0, final) := by
  obtain ⟨qs, hqs, rfl⟩ := hwf
  have hcp := u8dec_codepoints qs hqs dest hd
  simp only [hcp, List.length_map]
  obtain ⟨c, hlast⟩ := forward_last qs hqs
  rw [hlast, forward_trace qs hqs]
  refine ⟨?_, rfl, ?_⟩
  · apply List.map_congr_left
    intro i hi
    have hi2 := List.mem_range.mp hi
    simp only [iterAt, boundary_eq_sum qs hqs, getD_map_seqValue qs i hi2]
  · intro k
    induction k with
    | zero => simp [calls]
    | succ k ih => rw [calls, u8i_next_iterAt_end, ih, List.replicate_succ]

theorem forward_iteration_witness :
    calls (u8i_next [0x41, 0xF0, 0x9F, 0x98, 0x80, 0x42]) 3
        (u8i_new [0x41, 0xF0, 0x9F, 0x98, 0x80, 0x42])
      = (List.range 3).map (fun i =>
        ((1 : Int),
          ({ data := 0,
             current := (([0x41, 0x1F600, 0x42].take (i + 1)).map
               (fun c => (layout c).length)).sum,
             end_ := 6, codepoint := [0x41, 0x1F600, 0x42].getD i 0, position := i + 1,
             error := 0 } : utf8_iterator))) :=
  (forward_iteration [0x41, 0xF0, 0x9F, 0x98, 0x80, 0x42] (by decide)
    ⟨[[0x41], [0xF0, 0x9F, 0x98, 0x80], [0x42]], by simp [IsSeq], by simp⟩
    [0x41, 0x1F600, 0x42, 0, 0, 0, 0] (by decide)).1

/-- C16, the input that breaks the claim: `u8i_seek` to index 5 on `"AB"`, which
holds 2 codepoints, returns 0 (success) and leaves the position 2. -/
theorem u8i_seek_past_end_succeeds :
    (u8i_seek [0x41, 0x42] (u8i_new [0x41, 0x42]) 5).1 = 0 ∧
    (u8i_seek [0x41, 0x42] (u8i_new [0x41, 0x42]) 5).2.position = 2 ∧
    ¬ ((u8i_seek [0x41, 0x42] (u8i_new [0x41, 0x42]) 5).1 = 0 →
        (u8i_seek [0x41, 0x42] (u8i_new [0x41, 0x42]) 5).2.position = 5) := by
  decide

/-- C16 as amended. When `u8i_seek iter n` returns 0 the error flag is clear,
the position is at most `n`, and it is less than `n` only with the cursor at
the end of the data. On well-formed data with `m` codepoints `u8i_seek`
returns 0 with position `min n m` and, for `n >= 1` and `m >= 1`, with the
codepoint number `min n m` of the data; `u8i_seek` to 2 on
`"A\xF0\x9F\x98\x80B"` gives position 2 and codepoint 0x1F600. -/
theorem u8i_seek_clamped (mem : List Nat) (iter : utf8_iterator) (n : Nat) :
    ((u8i_seek mem iter n).1 = 0 →
      (u8i_seek mem iter n).2.error = 0 ∧ (u8i_seek mem iter n).2.position ≤ n ∧
      ((u8i_seek mem iter n).2.position = n ∨
        (u8i_seek mem iter n).2.end_ ≤ (u8i_seek mem iter n).2.current)) ∧
    (∀ s dest : List Nat, NulFree s → WellFormed s → u8dec s false = .ok dest →
      iter.data = 0 → iter.end_ = s.length →
      (u8i_seek s iter n).1 = 0 ∧
      (u8i_seek s iter n).2.position = min n (codepoints dest).length ∧
      (u8i_seek s iter n).2.error = 0 ∧
      (1 ≤ n → 1 ≤ (codepoints dest).length →
        (u8i_seek s iter n).2.codepoint
          = (codepoints dest).getD (min n (codepoints dest).length - 1) 0)) ∧
    u8i_seek [0x41, 0xF0, 0x9F, 0x98, 0x80, 0x42]
        (u8i_new [0x41, 0xF0, 0x9F, 0x98, 0x80, 0x42]) 2
      = (0, { data := 0, current := 5, end_ := 6, codepoint := 0x1F600, position := 2,
              error := 0 }) := by
  refine ⟨?_, ?_, by decide⟩
  · intro h
    unfold u8i_seek at h ⊢
    simp only [] at h ⊢
    by_cases hr : (u8i_reset mem iter).1 ≠ 0
    · rw [if_pos hr] at h; exact absurd h (by simp)
    · rw [if_neg hr] at h ⊢
      obtain ⟨r1, r2, _⟩ := u8i_reset_ok mem iter (by simpa using hr)
      have := u8i_seek_loop_ok mem n _ r1 h
      rw [r2, Nat.zero_add] at this
      exact this
  · intro s dest _ hwf hdest hd he
    obtain ⟨qs, hqs, rfl⟩ := hwf
    have hcp := u8dec_codepoints qs hqs dest hdest
    obtain ⟨c, hseek, hc⟩ := u8i_seek_wellFormed qs hqs iter hd he n
    rw [hseek, hcp, List.length_map]
    refine ⟨rfl, rfl, rfl, ?_⟩
    intro h1 h2
    rw [getD_map_seqValue qs _ (by omega)]
    exact hc h1 h2

/-- C17. `u8i_remaining` counts what is left: for a well-formed string `s` with
`n` codepoints, after `k <= n` calls of `u8i_next` from `u8i_new s` the
position is `k`, `u8i_remaining` returns `n - k` and `u8_len_cstr s` returns
`n`, the sum of the two; after `u8i_reset` it returns `n`; and it returns 0
whenever the error flag is set. -/
theorem u8i_remaining_counts (s : List Nat) (hs : NulFree s) (hwf : WellFormed s)
    (dest : List Nat) (hd : u8dec s false = .ok dest) :
    (∀ k, k ≤ (codepoints dest).length →
      (lastIter (u8i_new s) (calls (u8i_next s) k (u8i_new s))).position = k ∧
      u8i_remaining s (lastIter (u8i_new s) (calls (u8i_next s) k (u8i_new s)))
        = some ((codepoints dest).length - k) ∧
      u8_len_cstr s = some (k + ((codepoints dest).length - k))) ∧
    (∀ iter : utf8_iterator, iter.data = 0 → iter.end_ = s.length →
      (u8i_reset s iter).1 = 0 ∧
      u8i_remaining s (u8i_reset s iter).2 = some (codepoints dest).length) ∧
    (∀ (mem : List Nat) (iter : utf8_iterator), iter.error ≠ 0 →
      u8i_remaining mem iter = some 0) := by
  obtain ⟨qs, hqs, rfl⟩ := hwf
  have hcp := u8dec_codepoints qs hqs dest hd
  rw [hcp, List.length_map]
  refine ⟨?_, ?_, ?_⟩
  · intro k hk
    obtain ⟨c, hc⟩ := calls_next_last qs hqs k hk
    rw [hc, u8i_remaining_iterAt qs hqs k c hk, u8_len_cstr_wellFormed qs hqs]
    refine ⟨rfl, rfl, ?_⟩
    congr 1
    omega
  · intro iter hd0 he
    rw [u8i_reset_iterAt qs hqs iter hd0 he,
      u8i_remaining_iterAt qs hqs 0 _ (Nat.zero_le _)]
    exact ⟨rfl, rfl⟩
  · intro mem iter he
    unfold u8i_remaining
    rw [if_pos he]

theorem u8i_remaining_counts_witness :
    u8i_remaining [0x41, 0xF0, 0x9F, 0x98, 0x80, 0x42]
        (lastIter (u8i_new [0x41, 0xF0, 0x9F, 0x98, 0x80, 0x42])
          (calls (u8i_next [0x41, 0xF0, 0x9F, 0x98, 0x80, 0x42]) 1
            (u8i_new [0x41, 0xF0, 0x9F, 0x98, 0x80, 0x42])))
      = some (([0x41, 0x1F600, 0x42] : List Nat).length - 1) :=
  ((u8i_remaining_counts [0x41, 0xF0, 0x9F, 0x98, 0x80, 0x42] (by decide)
    ⟨[[0x41], [0xF0, 0x9F, 0x98, 0x80], [0x42]], by simp [IsSeq], by simp⟩
    [0x41, 0x1F600, 0x42, 0, 0, 0, 0] (by decide)).1 1 (by decide)).2.1

/-- C18. `u8i_at` with a byte offset: on an iterator with the error flag clear
and for a signed offset `d`, when `current + d` lies in `[data, end)` and
`utf8_decode_sequence` succeeds there, `u8i_at` returns the codepoint it
decodes; `u8i_at` returns 0 when `current + d` is outside `[data, end)` and
when the byte at `current + d` is a continuation byte; on
`"A\xF0\x9F\x98\x80B"` at the start, offset 0 gives 0x41, offset 1 gives
0x1F600 and offset 2 gives 0. -/
theorem u8i_at_byte_offset (mem : List Nat) (iter : utf8_iterator) (d : Int)
    (he : iter.error = 0) :
    ((iter.data : Int) ≤ iter.current + d → (iter.current : Int) + d < iter.end_ →
      (utf8_decode_sequence_at mem ((iter.current : Int) + d).toNat iter.end_ 0 0).ret = 0 →
      u8i_at mem iter d true
        = (utf8_decode_sequence_at mem ((iter.current : Int) + d).toNat iter.end_ 0
            0).codepoint) ∧
    ((iter.current : Int) + d < iter.data ∨ (iter.end_ : Int) ≤ iter.current + d →
      u8i_at mem iter d true = 0) ∧
    ((iter.data : Int) ≤ iter.current + d → (iter.current : Int) + d < iter.end_ →
      mem.getD ((iter.current : Int) + d).toNat 0 % 256 &&& 0xC0 = 0x80 →
      u8i_at mem iter d true = 0) ∧
    u8i_at [0x41, 0xF0, 0x9F, 0x98, 0x80, 0x42]
      (u8i_reset [0x41, 0xF0, 0x9F, 0x98, 0x80, 0x42]
        (u8i_new [0x41, 0xF0, 0x9F, 0x98, 0x80, 0x42])).2 0 true = 0x41 ∧
    u8i_at [0x41, 0xF0, 0x9F, 0x98, 0x80, 0x42]
      (u8i_reset [0x41, 0xF0, 0x9F, 0x98, 0x80, 0x42]
        (u8i_new [0x41, 0xF0, 0x9F, 0x98, 0x80, 0x42])).2 1 true = 0x1F600 ∧
    u8i_at [0x41, 0xF0, 0x9F, 0x98, 0x80, 0x42]
      (u8i_reset [0x41, 0xF0, 0x9F, 0x98, 0x80, 0x42]
        (u8i_new [0x41, 0xF0, 0x9F, 0x98, 0x80, 0x42])).2 2 true = 0 := by
  refine ⟨?_, ?_, ?_, by decide, by decide, by decide⟩
  · intro h1 h2 hr
    unfold u8i_at
    rw [if_neg (by simp [he]), if_pos rfl]
    simp only []
    rw [if_neg (by omega), if_neg (by simp [hr])]
  · intro h
    unfold u8i_at
    rw [if_neg (by simp [he]), if_pos rfl]
    simp only []
    rw [if_pos (by omega)]
  · intro h1 h2 hc
    have hb : mem.getD ((iter.current : Int) + d).toNat 0 % 256 < 256 :=
      Nat.mod_lt _ (by decide)
    have hrange := (cont_iff _ hb).mp hc
    have hfail : (utf8_decode_sequence_at mem ((iter.current : Int) + d).toNat iter.end_ 0
        0).ret ≠ 0 := by
      have n2 : ¬ (mem.getD ((iter.current : Int) + d).toNat 0 % 256 &&& 0xE0 = 0xC0) :=
        fun e => by have := (lead2_iff _ hb).mp e; omega
      have n3 : ¬ (mem.getD ((iter.current : Int) + d).toNat 0 % 256 &&& 0xF0 = 0xE0) :=
        fun e => by have := (lead3_iff _ hb).mp e; omega
      have n4 : ¬ (mem.getD ((iter.current : Int) + d).toNat 0 % 256 &&& 0xF8 = 0xF0) :=
        fun e => by have := (lead4_iff _ hb).mp e; omega
      unfold utf8_decode_sequence_at
      rw [if_neg (by omega)]
      simp only []
      rw [if_neg (by omega), if_neg n2, if_neg n3, if_neg n4]
      decide
    unfold u8i_at
    rw [if_neg (by simp [he]), if_pos rfl]
    simp only []
    rw [if_neg (by omega), if_pos hfail]

theorem u8i_at_byte_offset_witness :
    u8i_at [0x41, 0xC3, 0xA9]
        { data := 0, current := 0, end_ := 3, codepoint := 0, position := 0, error := 0 }
        2 true = 0 :=
  (u8i_at_byte_offset [0x41, 0xC3, 0xA9]
    { data := 0, current := 0, end_ := 3, codepoint := 0, position := 0, error := 0 }
    2 rfl).2.2.1 (by decide) (by decide) (by decide)

/-- C19, the input that breaks the claim: on `"AB"`, whose codepoints are 0x41
and 0x42, at codepoint offset 1 `u8s_at` on the buffer made by `u8s_new`
returns 0x42, the codepoint of index 1, while `u8i_at` on the iterator just
reset to the start returns 0x41. -/
theorem u8i_at_codepoint_offset_differs :
    NulFree [0x41, 0x42] ∧
    u8dec [0x41, 0x42] false = .ok [0x41, 0x42, 0] ∧
    (u8s_new ⟨true, 0⟩ [0x41, 0x42]).map (Option.map (fun str => u8s_at str 1 false))
      = some (some 0x42) ∧
    u8i_at [0x41, 0x42] (u8i_reset [0x41, 0x42] (u8i_new [0x41, 0x42])).2 1 false = 0x41 := by
  decide

/-- C19 as amended. For a well-formed NUL-free string `s` with codepoints
`c0 .. c(n-1)` and an allocator that serves the request, `u8s_new s` returns a
buffer, and `u8s_at` on it with codepoint offset `k` returns `ck` for `k < n`
and 0 for `k >= n`. `u8i_at` on an iterator just reset to the start of `s`
with codepoint offset `k` returns the codepoint that the last of its `k`
calls of `u8i_next` stepped over: `c0` for `k = 0` and `c(min k n - 1)` for
`k >= 1` (0 when `s` is empty). So for `1 <= k < n` the codepoint `u8i_at`
returns at offset `k` is the one `u8s_at` returns at offset `k - 1`; on
`"A\xF0\x9F\x98\x80B"` offset 2 gives 0x1F600 with `u8i_at` and 0x42 with
`u8s_at`. -/
theorem positional_accessors (s : List Nat) (hs : NulFree s) (hwf : WellFormed s)
    (dest : List Nat) (hd : u8dec s false = .ok dest) (a : allocator) (ha : a.ok = true)
    (k : Nat) (hk : k < 2147483648) :
    let cs := codepoints dest
    (∃ str, u8s_new a s = some (some str) ∧
      u8s_at str k false = (if k < cs.length then cs.getD k 0 else 0) ∧
      (1 ≤ k → k < cs.length →
        u8i_at s (u8i_reset s (u8i_new s)).2 (k : Int) false = u8s_at str (k - 1) false)) ∧
    u8i_at s (u8i_reset s (u8i_new s)).2 (k : Int) false = cs.getD (min k cs.length - 1) 0 ∧
    u8i_at [0x41, 0xF0, 0x9F, 0x98, 0x80, 0x42]
      (u8i_reset [0x41, 0xF0, 0x9F, 0x98, 0x80, 0x42]
        (u8i_new [0x41, 0xF0, 0x9F, 0x98, 0x80, 0x42])).2 2 false = 0x1F600 ∧
    (u8s_new ⟨true, 0⟩ [0x41, 0xF0, 0x9F, 0x98, 0x80, 0x42]).map
      (Option.map (fun str => u8s_at str 2 false)) = some (some 0x42) := by
  obtain ⟨qs, hqs, rfl⟩ := hwf
  have hcp := u8dec_codepoints qs hqs dest hd
  have hlen : (codepoints dest).length = qs.length := by rw [hcp, List.length_map]
  have hget : ∀ j, (codepoints dest).getD j 0
      = if j < qs.length then seqValue (qs.getD j []) else 0 := by
    intro j
    rw [hcp]
    by_cases hj : j < qs.length
    · rw [if_pos hj, getD_map_seqValue qs j hj]
    · rw [if_neg hj, List.getD_eq_default _ _ (by rw [List.length_map]; omega)]
  have hiter := u8i_at_reset_wellFormed qs hqs k
  obtain ⟨str, block, hnew, hdata, hbl, hcl, hmem⟩ := u8s_new_wellFormed qs hqs a ha
  have hat := u8s_at_wellFormed qs hqs str block hdata hbl hcl hmem
  intro cs
  refine ⟨⟨str, hnew, ?_, ?_⟩, ?_, by decide, by decide⟩
  · show u8s_at str k false = if k < (codepoints dest).length then (codepoints dest).getD k 0
      else 0
    rw [hat k, hlen, hget k]
    by_cases h : k < qs.length
    · simp [h]
    · simp [h]
  · intro h1 h2
    have h2b : k < qs.length := by rw [← hlen]; exact h2
    rw [hiter, hat (k - 1), if_neg (by omega), if_pos (by omega), Nat.min_eq_left (by omega)]
  · show _ = (codepoints dest).getD (min k (codepoints dest).length - 1) 0
    rw [hiter, hlen, hget]
    by_cases h0 : qs.length = 0
    · rw [if_pos h0, if_neg (by omega)]
    · rw [if_neg h0, if_pos (by omega)]

/-- The amended C19 on `"A\xF0\x9F\x98\x80B"` at offset 2: `u8s_at` gives the
codepoint of index 2 and `u8i_at` the codepoint of index 1. -/
theorem positional_accessors_witness :
    (∃ str, u8s_new ⟨true, 0⟩ [0x41, 0xF0, 0x9F, 0x98, 0x80, 0x42] = some (some str) ∧
      u8s_at str 2 false
        = (if 2 < ([0x41, 0x1F600, 0x42] : List Nat).length
           then ([0x41, 0x1F600, 0x42] : List Nat).getD 2 0 else 0)) ∧
    u8i_at [0x41, 0xF0, 0x9F, 0x98, 0x80, 0x42]
      (u8i_reset [0x41, 0xF0, 0x9F, 0x98, 0x80, 0x42]
        (u8i_new [0x41, 0xF0, 0x9F, 0x98, 0x80, 0x42])).2 2 false
      = ([0x41, 0x1F600, 0x42] : List Nat).getD 1 0 := by
  have h := positional_accessors [0x41, 0xF0, 0x9F, 0x98, 0x80, 0x42] (by decide)
    ⟨[[0x41], [0xF0, 0x9F, 0x98, 0x80], [0x42]], by simp [IsSeq], by simp⟩
    [0x41, 0x1F600, 0x42, 0, 0, 0, 0] (by decide) ⟨true, 0⟩ rfl 2 (by decide)
  obtain ⟨⟨str, h1, h2, -⟩, h3, -⟩ := h
  exact ⟨⟨str, h1, h2⟩, h3⟩

/-- C21, the inputs that break the claim: `u8s_new` of the string `41 FF`
gives `codepoint_len` 1 while `u8_len(data, byte_len)` is 0; and on the buffer
of the well-formed string `C3 A9`, `u8s_insert_cp` of U+0041 at byte offset 1
returns 0 and leaves the bytes `C3 41 A9` with `codepoint_len` 2 while
`u8_len(data, byte_len)` is 0. -/
theorem codepoint_len_not_recount :
    (u8s_new ⟨true, 0⟩ [0x41, 0xFF]).map
        (Option.map (fun str => (str.codepoint_len, recount str)))
      = some (some (1, some 0)) ∧
    ((u8s_new ⟨true, 0⟩ [0xC3, 0xA9]).bind
        (fun o => o.bind (fun str => u8s_insert_cp ⟨true, 0⟩ str 1 0x41 true))).map
        (fun r => (r.1, contents r.2, r.2.codepoint_len, recount r.2))
      = some (0, [0xC3, 0x41, 0xA9], 2, some 0) := by
  decide

/-- C21 as amended. Codepoint-count invariant on well-formed material: every
buffer made by `u8s_new` from a well-formed string and then passed through any
sequence of `u8s_cat` (with such a buffer), `u8s_cat_cstr` (with a well-formed
string), `u8s_cat_cp`, `u8s_insert_cp` (with a scalar value other than 0),
`u8s_insert_str` (with a well-formed string), `u8s_insert_u8s` (with such a
buffer), each insert at a codepoint offset or at a byte offset that splits the
contents into two well-formed strings, `u8s_substr`, and `u8s_substr_bytes` on
a byte range that is a well-formed string, is in good order, has well-formed
contents, and has `codepoint_len` equal to the recount
`u8_len(data, byte_len)`. -/
theorem codepoint_len_recount (str : utf8_string) (h : WfReachable str) :
    Terminated str ∧ WellFormed (contents str) ∧ recount str = some str.codepoint_len := by
  obtain ⟨qs, hp⟩ := wfReachable_parsed str h
  exact ⟨hp.2.1, ⟨qs, hp.1, hp.2.2.1⟩, recount_parsed str qs hp⟩

/-- The amended C21 on the buffer made by `u8s_new "AB"`, then `u8s_insert_cp`
of U+00E9 at codepoint offset 1, then `u8s_substr` from 1 of length 2: its
bytes are `C3 A9 42` and both counts are 2. -/
theorem codepoint_len_recount_witness :
    WfReachable { data := some [195, 169, 66, 0, 0, 0, 0, 0, 0, 0, 0, 0, 0, 0, 0, 0],
                  byte_len := 3, codepoint_len := 2, capacity := 16 } ∧
    recount { data := some [195, 169, 66, 0, 0, 0, 0, 0, 0, 0, 0, 0, 0, 0, 0, 0],
              byte_len := 3, codepoint_len := 2, capacity := 16 } = some 2 :=
  have hr : WfReachable { data := some [195, 169, 66, 0, 0, 0, 0, 0, 0, 0, 0, 0, 0, 0, 0, 0],
                          byte_len := 3, codepoint_len := 2, capacity := 16 } :=
    WfReachable.substr ⟨true, 0⟩
      { data := some [65, 195, 169, 66, 0, 0, 0, 0, 0, 0, 0, 0, 0, 0, 0, 0],
        byte_len := 4, codepoint_len := 3, capacity := 16 } 1 2 _
      (WfReachable.insert_cp ⟨true, 0⟩
        { data := some [65, 66, 0, 0, 0, 0, 0, 0, 0, 0, 0, 0, 0, 0, 0, 0],
          byte_len := 2, codepoint_len := 2, capacity := 16 }
        1 0xE9 false
        (0, { data := some [65, 195, 169, 66, 0, 0, 0, 0, 0, 0, 0, 0, 0, 0, 0, 0],
              byte_len := 4, codepoint_len := 3, capacity := 16 })
        (WfReachable.new ⟨true, 0⟩ [0x41, 0x42] _
          ⟨[[0x41], [0x42]], by simp [IsSeq], by simp⟩ (by decide))
        ⟨by decide, by decide, by decide⟩ (fun h => absurd h (by decide)) (by decide))
      (by decide) (by decide)
  ⟨hr, (codepoint_len_recount _ hr).2.2⟩

/-- C22, the input that breaks the claim: after `u8s_move(dest, src)` with
`src` the buffer of `"AB"`, `src` has a null `data` and capacity 0, so
`byte_len < capacity` fails and there is no `data[byte_len]`. -/
theorem u8s_move_source_not_valid :
    (u8s_move
        { data := some [0, 0, 0, 0, 0, 0, 0, 0, 0, 0, 0, 0, 0, 0, 0, 0], byte_len := 0,
          codepoint_len := 0, capacity := 16 }
        { data := some [65, 66, 0, 0, 0, 0, 0, 0, 0, 0, 0, 0, 0, 0, 0, 0], byte_len := 2,
          codepoint_len := 2, capacity := 16 }).2
      = { data := none, byte_len := 0, codepoint_len := 0, capacity := 0 } ∧
    ¬ ((0 : Nat) < 0) := by
  decide

/-- C22 as amended. After `u8s_move(dest, src)` on two distinct buffers `dest`
has the block, `byte_len`, `codepoint_len` and `capacity` that `src` had, so it
is in good order when `src` was; `src` has a null `data`, `byte_len` 0,
`codepoint_len` 0 and `capacity` 0, which is not a buffer in good order:
`byte_len < capacity` fails and there is no `data[byte_len]`. `u8s_clear` on
this `src` stores through the null pointer, while `u8s_cat_cstr` allocates a
fresh block for it. -/
theorem u8s_move_transfers (dest src : utf8_string) :
    (u8s_move dest src).1 = src ∧
    ((u8s_move dest src).1.data = src.data ∧
      (u8s_move dest src).1.byte_len = src.byte_len ∧
      (u8s_move dest src).1.codepoint_len = src.codepoint_len ∧
      (u8s_move dest src).1.capacity = src.capacity) ∧
    (Terminated src → Terminated (u8s_move dest src).1) ∧
    (u8s_move dest src).2
      = { data := none, byte_len := 0, codepoint_len := 0, capacity := 0 } ∧
    ¬ Terminated (u8s_move dest src).2 ∧
    ¬ ((u8s_move dest src).2.byte_len < (u8s_move dest src).2.capacity) ∧
    u8s_clear { data := none, byte_len := 0, codepoint_len := 0, capacity := 0 } = none ∧
    u8s_cat_cstr ⟨true, 0⟩ { data := none, byte_len := 0, codepoint_len := 0, capacity := 0 }
        [0x41]
      = some (0, { data := some [65, 0, 0, 0, 0, 0, 0, 0, 0, 0, 0, 0, 0, 0, 0, 0],
                   byte_len := 1, codepoint_len := 1, capacity := 16 }) := by
  refine ⟨rfl, ⟨rfl, rfl, rfl, rfl⟩, fun h => h, rfl, ?_, by simp [u8s_move], by decide,
    by decide⟩
  rintro ⟨block, hdata, -⟩
  simp [u8s_move] at hdata

/-- C23. Atomic failure of buffer mutations: whenever `u8s_insert_cp`,
`u8s_insert_str`, `u8s_insert_u8s` or `u8s_cat_cp` returns, its value is 0 or
-1, and when it is -1 the struct and its block are what they were before the
call. The value is -1 for `u8s_insert_cp` with a byte offset beyond `byte_len`,
a codepoint offset beyond `codepoint_len` or a codepoint above 0x10FFFF, for
`u8s_cat_cp` with a surrogate or a codepoint above 0x10FFFF, and for
`u8s_insert_str` with a non-empty source for which `u8_len` returns 0 (as for
the string `FF`); it is also -1 when the allocator fails. -/
theorem atomic_failure (a : allocator) (str : utf8_string) (offset cp : Nat) (b : Bool)
    (src : List Nat) (srcbuf : utf8_string) (r : Int × utf8_string) :
    (u8s_insert_cp a str offset cp b = some r → (r.1 = 0 ∨ r.1 = -1) ∧ (r.1 = -1 → r.2 = str)) ∧
    (u8s_insert_str a str offset src b = some r →
      (r.1 = 0 ∨ r.1 = -1) ∧ (r.1 = -1 → r.2 = str)) ∧
    (u8s_insert_u8s a str offset srcbuf b = some r →
      (r.1 = 0 ∨ r.1 = -1) ∧ (r.1 = -1 → r.2 = str)) ∧
    (u8s_cat_cp a str cp = some r → (r.1 = 0 ∨ r.1 = -1) ∧ (r.1 = -1 → r.2 = str)) ∧
    (str.byte_len < offset → u8s_insert_cp a str offset cp true = some (-1, str)) ∧
    (str.codepoint_len < offset → u8s_insert_cp a str offset cp false = some (-1, str)) ∧
    (0x10FFFF < cp → u8s_insert_cp a str offset cp b = some (-1, str)) ∧
    ((0xD800 ≤ cp ∧ cp ≤ 0xDFFF) ∨ 0x10FFFF < cp → u8s_cat_cp a str cp = some (-1, str)) ∧
    (strlen src ≠ 0 → u8_len src (strlen src) = some 0 →
      u8s_insert_str a str offset src b = some (-1, str)) ∧
    u8s_insert_str ⟨true, 0⟩
        { data := some [65, 66, 0, 0, 0, 0, 0, 0, 0, 0, 0, 0, 0, 0, 0, 0], byte_len := 2,
          codepoint_len := 2, capacity := 16 } 0 [0xFF] true
      = some (-1, { data := some [65, 66, 0, 0, 0, 0, 0, 0, 0, 0, 0, 0, 0, 0, 0, 0],
                    byte_len := 2, codepoint_len := 2, capacity := 16 }) ∧
    u8s_insert_cp ⟨false, 0⟩
        { data := some [65, 65, 65, 65, 65, 65, 65, 65, 65, 65, 65, 65, 65, 65, 65, 0],
          byte_len := 15, codepoint_len := 15, capacity := 16 } 0 0x41 true
      = some (-1, { data := some [65, 65, 65, 65, 65, 65, 65, 65, 65, 65, 65, 65, 65, 65, 65, 0],
                    byte_len := 15, codepoint_len := 15, capacity := 16 }) := by
  have key : ∀ r : Int × utf8_string, (r.1 = 0 ∨ r = (-1, str)) →
      (r.1 = 0 ∨ r.1 = -1) ∧ (r.1 = -1 → r.2 = str) := by
    intro r h
    rcases h with h | h
    · exact ⟨Or.inl h, fun h1 => by omega⟩
    · rw [h]
      exact ⟨Or.inr rfl, fun _ => rfl⟩
  refine ⟨fun h => key r (u8s_insert_cp_fail _ _ _ _ _ _ h),
    fun h => key r (u8s_insert_str_fail _ _ _ _ _ _ h),
    fun h => key r (u8s_insert_u8s_fail _ _ _ _ _ _ h),
    fun h => key r (u8s_cat_cp_fail _ _ _ _ h), ?_, ?_, ?_, ?_, ?_, by decide, by decide⟩
  · intro h
    unfold u8s_insert_cp insert_byte_offset
    cases str.data with
    | none => rfl
    | some block => simp [h]
  · intro h
    unfold u8s_insert_cp insert_byte_offset
    cases str.data with
    | none => rfl
    | some block => simp [h]
  · intro h
    have he : encode_codepoint cp = none := by
      unfold encode_codepoint
      rw [if_neg (by omega), if_neg (by omega), if_neg (by omega), if_neg (by omega)]
    unfold u8s_insert_cp
    cases str.data with
    | none => rfl
    | some block =>
      simp only
      cases insert_byte_offset str offset b with
      | none => rfl
      | some bo => simp only [he]
  · intro h
    unfold u8s_cat_cp
    by_cases hok : ¬ a.ok = true
    · rw [if_pos hok]
    · rw [if_neg hok, u8enc_single, if_neg (by omega), if_pos h]
  · intro h0 hl
    unfold u8s_insert_str
    cases str.data with
    | none => rfl
    | some block =>
      simp only [if_neg h0, hl, if_true]

/-- C24, the input that breaks the claim: on a buffer of capacity 16,
`u8s_reserve` of `2 ^ 63 + 1` bytes never returns. The least `16 * 2 ^ k` that
reaches the request is `2 ^ 64`, which no `size_t` holds: the doubling wraps
to 0 and the loop runs on, whatever number of iterations it is given. -/
theorem u8s_reserve_overflow :
    u8s_new_with_capacity ⟨true, 0⟩ 16
      = some { data := some [0, 0, 0, 0, 0, 0, 0, 0, 0, 0, 0, 0, 0, 0, 0, 0], byte_len := 0,
               codepoint_len := 0, capacity := 16 } ∧
    u8s_reserve ⟨true, 0⟩
        { data := some [0, 0, 0, 0, 0, 0, 0, 0, 0, 0, 0, 0, 0, 0, 0, 0], byte_len := 0,
          codepoint_len := 0, capacity := 16 } 9223372036854775809 = none ∧
    (∀ fuel, 65 ≤ fuel → grow_loop fuel 16 9223372036854775809 = none) := by
  refine ⟨by decide, by decide, ?_⟩
  intro fuel hf
  rw [grow_loop_65 _ _ _ hf]
  decide

/-- C24 as amended. Geometric growth: `u8s_new_with_capacity n` yields
capacity `max n 16`. For a buffer in good order with capacity `c`,
`u8s_reserve` and `utf8_string_ensure_capacity` (the growth step of
`u8s_cat_cstr`) with request `n` return 0 and leave the struct as it is when
`n <= c`; when `c < n` a call that returns either returns -1 and leaves the
struct as it is, or returns 0 with bytes, `byte_len` and `codepoint_len`
unchanged and, provided some `c * 2 ^ K` below `2 ^ 64` reaches `n`, with
capacity `c * 2 ^ k` for the least `k >= 1` with `c * 2 ^ k >= n`. With a
serving allocator and `n <= 2 ^ 63` both return 0. -/
theorem geometric_growth (a : allocator) (str : utf8_string) (n : Nat)
    (hinv : Terminated str) :
    (∀ s, u8s_new_with_capacity a n = some s → s.capacity = max n 16) ∧
    (n ≤ str.capacity →
      u8s_reserve a str n = some (0, str) ∧
      utf8_string_ensure_capacity a str n = some (0, str)) ∧
    (∀ r, str.capacity < n →
      (u8s_reserve a str n = some r ∨ utf8_string_ensure_capacity a str n = some r) →
      r = (-1, str) ∨
      (r.1 = 0 ∧ contents r.2 = contents str ∧ r.2.byte_len = str.byte_len ∧
        r.2.codepoint_len = str.codepoint_len ∧ Terminated r.2 ∧
        ∀ K, n ≤ str.capacity * 2 ^ K → str.capacity * 2 ^ K < 18446744073709551616 →
          ∃ k, 1 ≤ k ∧ r.2.capacity = str.capacity * 2 ^ k ∧ n ≤ str.capacity * 2 ^ k ∧
            ∀ j, j < k → str.capacity * 2 ^ j < n)) ∧
    (a.ok = true → n ≤ 9223372036854775808 →
      (∃ d, u8s_reserve a str n = some (0, d)) ∧
      (∃ d, utf8_string_ensure_capacity a str n = some (0, d))) := by
  have hc : 0 < str.capacity := by
    obtain ⟨_, _, _, hlt, _⟩ := hinv
    omega
  have hres : ¬ n ≤ str.capacity →
      u8s_reserve a str n = utf8_string_ensure_capacity a str n := by
    intro h
    unfold u8s_reserve
    rw [if_neg h]
  refine ⟨?_, ?_, ?_, ?_⟩
  · intro s hs
    unfold u8s_new_with_capacity UTF8_STRING_MIN_CAPACITY at hs
    by_cases hok : ¬ a.ok = true
    · rw [if_pos hok] at hs
      exact absurd hs (by simp)
    · rw [if_neg hok] at hs
      injection hs with hs
      rw [← hs]
      simp only
      split_ifs <;> omega
  · intro hle
    constructor
    · unfold u8s_reserve
      rw [if_pos hle]
    · unfold utf8_string_ensure_capacity
      rw [if_pos hle]
  · intro r hlt h
    have he : utf8_string_ensure_capacity a str n = some r := by
      rcases h with h | h
      · rw [hres (by omega)] at h
        exact h
      · exact h
    obtain ⟨h1, h2, h3, h4, -⟩ := ensure_capacity_spec a str n r hinv he
    rcases ensure_capacity_fail a str n r he with h0 | hf
    · exact Or.inr ⟨h0, h4, h2, h3, h1, fun K hK1 hK2 =>
        ensure_capacity_growth a str n K hc hlt hK1 hK2 r he h0⟩
    · exact Or.inl hf
  · intro ha hn
    exact ⟨u8s_reserve_returns a str n ha hn, ensure_capacity_returns a str n ha hn⟩

/-- The amended C24 on the buffer of `"AB"` with capacity 16 and a request of
100 bytes: the new capacity is `16 * 2 ^ 3 = 128`. -/
theorem geometric_growth_witness :
    (u8s_reserve ⟨true, 0⟩
        { data := some [65, 66, 0, 0, 0, 0, 0, 0, 0, 0, 0, 0, 0, 0, 0, 0], byte_len := 2,
          codepoint_len := 2, capacity := 16 } 100).map (fun r => (r.1, r.2.capacity))
      = some (0, 16 * 2 ^ 3) ∧
    ∃ d, u8s_reserve ⟨true, 0⟩
        { data := some [65, 66, 0, 0, 0, 0, 0, 0, 0, 0, 0, 0, 0, 0, 0, 0], byte_len := 2,
          codepoint_len := 2, capacity := 16 } 100 = some (0, d) :=
  ⟨by decide,
    ((geometric_growth ⟨true, 0⟩
      { data := some [65, 66, 0, 0, 0, 0, 0, 0, 0, 0, 0, 0, 0, 0, 0, 0], byte_len := 2,
        codepoint_len := 2, capacity := 16 } 100
      ⟨_, rfl, by decide, by decide, by decide⟩).2.2.2 rfl (by decide)).1⟩

/-- C25. Append of a string: for a buffer `d` in good order, a well-formed
string `t`, a serving allocator and at most `2 ^ 63` bytes in all,
`u8s_cat_cstr` returns 0, the bytes of `d` are then the old bytes followed by
`t`, `byte_len` has grown by the length of `t` and `codepoint_len` by
`u8_len_cstr t`; and `u8s_cat` with a buffer `b` in good order is
`u8s_cat_cstr` with the bytes of `b`. -/
theorem u8s_cat_cstr_appends (a : allocator) (d : utf8_string) (t : List Nat)
    (hd : Terminated d) (ht : WellFormed t) (ha : a.ok = true)
    (hsz : d.byte_len + t.length + 1 ≤ 9223372036854775808) :
    (∃ d' n, u8s_cat_cstr a d t = some (0, d') ∧ Terminated d' ∧
      contents d' = contents d ++ t ∧ d'.byte_len = d.byte_len + t.length ∧
      u8_len_cstr t = some n ∧ d'.codepoint_len = d.codepoint_len + n) ∧
    (∀ b, Terminated b → NulFree (contents b) →
      u8s_cat a d b = u8s_cat_cstr a d (contents b)) := by
  obtain ⟨ts, hts, rfl⟩ := ht
  have hnf := wellFormed_nulFree _ ⟨ts, hts, rfl⟩
  obtain ⟨hspec, hret⟩ := u8s_cat_cstr_spec a d ts.flatten hd hnf
  obtain ⟨d', he⟩ := hret ha hsz
  refine ⟨?_, fun b hb hs => u8s_cat_eq a d b hb hs⟩
  rcases hspec _ he with hf | ⟨-, hterm, hcont, hbl, c, hc, hcl⟩
  · injection hf with hf
    exact absurd hf (by decide)
  · have := count_of_parse ts hts ts.flatten (fun _ _ => rfl)
    rw [hc] at this
    injection this with this
    exact ⟨d', ts.length, he, hterm, hcont, hbl, u8_len_cstr_wellFormed ts hts, by
      rw [hcl, this]⟩

/-- C25 on the buffer of `"AB"` and the string `C3 A9`. -/
theorem u8s_cat_cstr_appends_witness :
    ∃ d' n, u8s_cat_cstr ⟨true, 0⟩
        { data := some [65, 66, 0, 0, 0, 0, 0, 0, 0, 0, 0, 0, 0, 0, 0, 0], byte_len := 2,
          codepoint_len := 2, capacity := 16 } [0xC3, 0xA9] = some (0, d') ∧
      Terminated d' ∧
      contents d' = contents
        { data := some [65, 66, 0, 0, 0, 0, 0, 0, 0, 0, 0, 0, 0, 0, 0, 0], byte_len := 2,
          codepoint_len := 2, capacity := 16 } ++ [0xC3, 0xA9] ∧
      d'.byte_len = 2 + [0xC3, 0xA9].length ∧
      u8_len_cstr [0xC3, 0xA9] = some n ∧ d'.codepoint_len = 2 + n :=
  (u8s_cat_cstr_appends ⟨true, 0⟩
    { data := some [65, 66, 0, 0, 0, 0, 0, 0, 0, 0, 0, 0, 0, 0, 0, 0], byte_len := 2,
      codepoint_len := 2, capacity := 16 } [0xC3, 0xA9]
    ⟨_, rfl, by decide, by decide, by decide⟩
    ⟨[[0xC3, 0xA9]], by simp [IsSeq], by simp⟩ rfl (by decide)).1

/-- C26. Append of a single codepoint, as the code has it: `u8s_cat_cp` hands
the array `{cp, 0}` to the string encoder `u8enc`, which reads a 0 as the
terminator. For `cp = 0` the encoding is the empty string, `u8s_cat_cstr`
returns 0 at once, and the call reports success with the buffer as it was:
`codepoint_len` has not grown by 1 and `byte_len` has not grown by
`u8_cp_bytelen(0)`, which is 1. The per-codepoint encoder `u8_encode_codepoint`
encodes 0 as the byte 00, and the sibling `u8s_insert_cp` at the end of the
same buffer stores that byte and counts it. For every other value the claim
holds: when the call returns 0 the value is a scalar value, `codepoint_len`
has grown by 1, `byte_len` by `u8_cp_bytelen(cp)`, and the appended bytes are
the UTF-8 encoding of `cp`; it returns 0 for every such value with a serving
allocator and at most `2 ^ 63` bytes in all, and -1 for a surrogate and above
0x10FFFF. -/
theorem u8s_cat_cp_drops_zero :
    u8s_cat_cp ⟨true, 0⟩
        { data := some [65, 66, 0, 0, 0, 0, 0, 0, 0, 0, 0, 0, 0, 0, 0, 0], byte_len := 2,
          codepoint_len := 2, capacity := 16 } 0
      = some (0, { data := some [65, 66, 0, 0, 0, 0, 0, 0, 0, 0, 0, 0, 0, 0, 0, 0],
                   byte_len := 2, codepoint_len := 2, capacity := 16 }) ∧
    u8_cp_bytelen 0 = 1 ∧ u8_encode_codepoint 0 = some [0] ∧ u8enc [0, 0] = some [] ∧
    u8s_insert_cp ⟨true, 0⟩
        { data := some [65, 66, 0, 0, 0, 0, 0, 0, 0, 0, 0, 0, 0, 0, 0, 0], byte_len := 2,
          codepoint_len := 2, capacity := 16 } 2 0 false
      = some (0, { data := some [65, 66, 0, 0, 0, 0, 0, 0, 0, 0, 0, 0, 0, 0, 0, 0],
                   byte_len := 3, codepoint_len := 3, capacity := 16 }) ∧
    (∀ (a : allocator) (d : utf8_string), a.ok = true → u8s_cat_cp a d 0 = some (0, d)) ∧
    (∀ (a : allocator) (d : utf8_string) (cp : Nat) (r : Int × utf8_string),
      Terminated d → cp ≠ 0 → u8s_cat_cp a d cp = some r → r.1 = 0 →
      IsScalar cp ∧ Terminated r.2 ∧ r.2.codepoint_len = d.codepoint_len + 1 ∧
        r.2.byte_len = d.byte_len + u8_cp_bytelen cp ∧
        contents r.2 = contents d ++ layout cp) ∧
    (∀ (a : allocator) (d : utf8_string) (cp : Nat),
      Terminated d → IsScalar cp → a.ok = true → d.byte_len + 5 ≤ 9223372036854775808 →
      ∃ d2, u8s_cat_cp a d cp = some (0, d2)) ∧
    (∀ (a : allocator) (d : utf8_string) (cp : Nat),
      (0xD800 ≤ cp ∧ cp ≤ 0xDFFF) ∨ 0x10FFFF < cp → u8s_cat_cp a d cp = some (-1, d)) := by
  refine ⟨by decide, by decide, by decide, by decide, by decide, ?_, ?_,
    fun a d cp hd hsc ha hsz => u8s_cat_cp_returns a d cp hd hsc ha hsz, ?_⟩
  · intro a d ha
    unfold u8s_cat_cp
    rw [if_neg (by simp [ha]), u8enc_single, if_pos rfl]
    simp [u8s_cat_cstr, strlen]
  · intro a d cp r hd hne h hr
    rcases u8s_cat_cp_spec a d cp hd r h with hf | ⟨h0, -⟩ | ⟨-, hsc, hterm, hcont, hbl, hcl⟩
    · rw [hf] at hr
      exact absurd hr (by simp)
    · exact absurd h0 hne
    · rw [layout_length cp hsc.2.1] at hbl
      exact ⟨hsc, hterm, hcl, hbl, hcont⟩
  · intro a d cp h
    unfold u8s_cat_cp
    by_cases hok : ¬ a.ok = true
    · rw [if_pos hok]
    · rw [if_neg hok, u8enc_single, if_neg (by omega), if_pos h]

/-- C27. Substring by codepoints: for the buffer `u8s_new` builds from a
well-formed NUL-free string `s` whose decode is `c0 .. c(n-1)`, with a serving
allocator and `start + len` inside `size_t`: when `start < n`, `u8s_substr`
returns a buffer in good order whose bytes are the UTF-8 encoding of
`c(start) .. c(min (start + len) n - 1)` and whose `codepoint_len` is
`min len (n - start)`; when `start >= n` it returns the null pointer. -/
theorem u8s_substr_codepoints (s : List Nat) (hs : NulFree s) (hwf : WellFormed s)
    (dest : List Nat) (hd : u8dec s false = .ok dest) (a : allocator) (ha : a.ok = true)
    (str : utf8_string) (hstr : u8s_new a s = some (some str)) (start len : Nat)
    (hov : start + len < 18446744073709551616) :
    (start < (codepoints dest).length →
      ∃ r, u8s_substr a str start len = some (some r) ∧ Terminated r ∧
        contents r = ((((codepoints dest).drop start).take len).map layout).flatten ∧
        r.codepoint_len = min len ((codepoints dest).length - start)) ∧
    ((codepoints dest).length ≤ start → u8s_substr a str start len = some none) := by
  obtain ⟨qs, hqs, rfl⟩ := hwf
  have hcp := u8dec_codepoints qs hqs dest hd
  have hlen : (codepoints dest).length = qs.length := by rw [hcp, List.length_map]
  have hp := u8s_new_parsed a qs hqs str hstr
  have hsub : ∀ q ∈ (qs.drop start).take len, IsSeq q :=
    fun q hq => hqs q (List.mem_of_mem_drop (List.mem_of_mem_take hq))
  rw [u8s_substr_parsed a str qs hp start len hov, hlen]
  constructor
  · intro hlt
    rw [if_neg (by omega)]
    obtain ⟨r, hr, hpr, -⟩ := u8s_new_parsed_returns a _ hsub ha
    refine ⟨r, hr, hpr.2.1, ?_, ?_⟩
    · rw [hpr.2.2.1, hcp, ← List.map_drop, ← List.map_take, flatten_layout _ hsub]
    · rw [hpr.2.2.2, List.length_take, List.length_drop]
  · intro hge
    rw [if_pos hge]

/-- C27 on `"A\xC3\xA9B"`, from codepoint 1, length 5: the substring holds
the 2 codepoints U+00E9 and U+0042. -/
theorem u8s_substr_codepoints_witness :
    ∃ r, u8s_substr ⟨true, 0⟩
        { data := some [65, 195, 169, 66, 0, 0, 0, 0, 0, 0, 0, 0, 0, 0, 0, 0], byte_len := 4,
          codepoint_len := 3, capacity := 16 } 1 5 = some (some r) ∧ Terminated r ∧
      contents r = (((([0x41, 0xE9, 0x42] : List Nat).drop 1).take 5).map layout).flatten ∧
      r.codepoint_len = min 5 (([0x41, 0xE9, 0x42] : List Nat).length - 1) :=
  (u8s_substr_codepoints [0x41, 0xC3, 0xA9, 0x42] (by decide)
    ⟨[[0x41], [0xC3, 0xA9], [0x42]], by simp [IsSeq], by simp⟩
    [0x41, 0xE9, 0x42, 0, 0] (by decide) ⟨true, 0⟩ rfl _ (by decide) 1 5 (by decide)).1
    (by decide)

/-- C28. Substring by bytes: for a buffer in good order with NUL-free
contents, a serving allocator and `start_byte + len_bytes` inside `size_t`:
when `start_byte < byte_len`, `u8s_substr_bytes` returns a buffer in good
order whose bytes are
`data[start_byte .. start_byte + min len_bytes (byte_len - start_byte))` and
whose `byte_len` is that length; when `start_byte >= byte_len` it returns the
null pointer. -/
theorem u8s_substr_bytes_slices (a : allocator) (str : utf8_string) (start len : Nat)
    (hinv : Terminated str) (hs : NulFree (contents str)) (ha : a.ok = true)
    (hov : start + len < 18446744073709551616) :
    (start < str.byte_len →
      ∃ r, u8s_substr_bytes a str start len = some (some r) ∧ Terminated r ∧
        contents r = ((contents str).drop start).take (min len (str.byte_len - start)) ∧
        r.byte_len = min len (str.byte_len - start)) ∧
    (str.byte_len ≤ start → u8s_substr_bytes a str start len = some none) := by
  have hcl := contents_length str hinv
  have hsl : NulFree (((contents str).drop start).take len) :=
    nulFree_sublist _ _ hs (fun b hb => List.mem_of_mem_drop (List.mem_of_mem_take hb))
  rw [u8s_substr_bytes_spec a str start len hinv hs hov]
  constructor
  · intro hlt
    rw [if_neg (by omega)]
    obtain ⟨r, hr, hterm, hcont, hbl, -⟩ := (u8s_new_spec a _ hsl).2 ha
    have e : ((contents str).drop start).take (min len (str.byte_len - start))
        = ((contents str).drop start).take len := by
      rw [← List.take_take, List.take_of_length_le (l := (contents str).drop start)
        (by rw [List.length_drop, hcl])]
    refine ⟨r, hr, hterm, by rw [hcont, e], ?_⟩
    rw [hbl, List.length_take, List.length_drop, hcl]
  · intro hge
    rw [if_pos hge]

/-- C28 on the buffer of `"A\xC3\xA9B"`, from byte 1, 2 bytes. -/
theorem u8s_substr_bytes_slices_witness :
    ∃ r, u8s_substr_bytes ⟨true, 0⟩
        { data := some [65, 195, 169, 66, 0, 0, 0, 0, 0, 0, 0, 0, 0, 0, 0, 0], byte_len := 4,
          codepoint_len := 3, capacity := 16 } 1 2 = some (some r) ∧ Terminated r ∧
      contents r = ((contents
        { data := some [65, 195, 169, 66, 0, 0, 0, 0, 0, 0, 0, 0, 0, 0, 0, 0], byte_len := 4,
          codepoint_len := 3, capacity := 16 }).drop 1).take (min 2 (4 - 1)) ∧
      r.byte_len = min 2 (4 - 1) :=
  (u8s_substr_bytes_slices ⟨true, 0⟩
    { data := some [65, 195, 169, 66, 0, 0, 0, 0, 0, 0, 0, 0, 0, 0, 0, 0], byte_len := 4,
      codepoint_len := 3, capacity := 16 } 1 2
    ⟨_, rfl, by decide, by decide, by decide⟩ (by decide) rfl (by decide)).1 (by decide)

/-- C29. `u8s_at` by codepoint offset: for the buffer `u8s_new` builds from a
well-formed NUL-free string `s` whose decode is `c0 .. c(n-1)`: for `k < n`,
`u8s_at str k false` is `ck` and equals `u8s_at str b true` for the byte
offset `b` at which sequence `k` starts, the sum of the encoded lengths of
`c0 .. c(k-1)`; for `k >= n` it returns 0. Offset 1 of `"ABC"` is 0x42.
`u8s_at` is a function of the struct and its block and stores nothing. -/
theorem u8s_at_codepoint_offset (s : List Nat) (hs : NulFree s) (hwf : WellFormed s)
    (dest : List Nat) (hd : u8dec s false = .ok dest) (a : allocator)
    (str : utf8_string) (hstr : u8s_new a s = some (some str)) (k : Nat) :
    (k < (codepoints dest).length →
      u8s_at str k false = (codepoints dest).getD k 0 ∧
      u8s_at str ((((codepoints dest).take k).map (fun c => (layout c).length)).sum) true
        = u8s_at str k false) ∧
    ((codepoints dest).length ≤ k → u8s_at str k false = 0) ∧
    (u8s_new ⟨true, 0⟩ [0x41, 0x42, 0x43]).map
        (Option.map (fun b => (u8s_at b 1 false, u8s_at b 1 true)))
      = some (some (0x42, 0x42)) := by
  obtain ⟨qs, hqs, rfl⟩ := hwf
  have hcp := u8dec_codepoints qs hqs dest hd
  have hlen : (codepoints dest).length = qs.length := by rw [hcp, List.length_map]
  have hp := u8s_new_parsed a qs hqs str hstr
  refine ⟨?_, ?_, by decide⟩
  · intro hk
    rw [hlen] at hk
    have h1 : u8s_at str k false = seqValue (qs.getD k []) := by
      rw [u8s_at_codepoint_parsed str qs hp k, if_pos hk]
    refine ⟨?_, ?_⟩
    · rw [h1, hcp, getD_map_seqValue qs k hk]
    · rw [hcp, ← boundary_eq_sum qs hqs k, u8s_at_byte_parsed str qs hp k hk, h1]
  · intro hk
    rw [hlen] at hk
    rw [u8s_at_codepoint_parsed str qs hp k, if_neg (by omega)]

/-- C29 on `"A\xC3\xA9B"` at codepoint offset 2: the codepoint is U+0042, at
byte offset 3. -/
theorem u8s_at_codepoint_offset_witness :
    u8s_at
        { data := some [65, 195, 169, 66, 0, 0, 0, 0, 0, 0, 0, 0, 0, 0, 0, 0], byte_len := 4,
          codepoint_len := 3, capacity := 16 } 2 false
      = ([0x41, 0xE9, 0x42] : List Nat).getD 2 0 ∧
    u8s_at
        { data := some [65, 195, 169, 66, 0, 0, 0, 0, 0, 0, 0, 0, 0, 0, 0, 0], byte_len := 4,
          codepoint_len := 3, capacity := 16 }
        (((([0x41, 0xE9, 0x42] : List Nat).take 2).map (fun c => (layout c).length)).sum) true
      = u8s_at
        { data := some [65, 195, 169, 66, 0, 0, 0, 0, 0, 0, 0, 0, 0, 0, 0, 0], byte_len := 4,
          codepoint_len := 3, capacity := 16 } 2 false :=
  (u8s_at_codepoint_offset [0x41, 0xC3, 0xA9, 0x42] (by decide)
    ⟨[[0x41], [0xC3, 0xA9], [0x42]], by simp [IsSeq], by simp⟩
    [0x41, 0xE9, 0x42, 0, 0] (by decide) ⟨true, 0⟩ _ (by decide) 2).1 (by decide)

/-- C30. Insert of a codepoint at a codepoint offset: for the buffer `u8s_new`
builds from a well-formed NUL-free string `s` of less than `2 ^ 62 - 4` bytes
whose decode is `c0 .. c(n-1)`, for `k <= n`, a scalar value `cp` in
`1 .. 0x10FFFF` outside the surrogates and a serving allocator,
`u8s_insert_cp str k cp false` returns 0; afterwards the buffer is in good
order, its bytes decode in reject mode to `c0 .. c(k-1), cp, ck .. c(n-1)`,
`codepoint_len` is `n + 1` and `byte_len` has grown by the encoded length of
`cp`, which is `u8_cp_bytelen cp`. -/
theorem u8s_insert_cp_codepoint_offset (s : List Nat) (hs : NulFree s)
    (hwf : WellFormed s) (dest : List Nat) (hd : u8dec s false = .ok dest)
    (a : allocator) (ha : a.ok = true) (str : utf8_string)
    (hstr : u8s_new a s = some (some str)) (k cp : Nat)
    (hk : k ≤ (codepoints dest).length) (hcp : IsScalar cp)
    (hsz : s.length + 4 < 4611686018427387904) :
    ∃ d' dest', u8s_insert_cp a str k cp false = some (0, d') ∧ Terminated d' ∧
      u8dec (contents d') false = .ok dest' ∧
      codepoints dest' = (codepoints dest).take k ++ [cp] ++ (codepoints dest).drop k ∧
      d'.codepoint_len = (codepoints dest).length + 1 ∧
      d'.byte_len = str.byte_len + (layout cp).length ∧
      (layout cp).length = u8_cp_bytelen cp := by
  obtain ⟨qs, hqs, rfl⟩ := hwf
  have hcps := u8dec_codepoints qs hqs dest hd
  have hlen : (codepoints dest).length = qs.length := by rw [hcps, List.length_map]
  rw [hlen] at hk
  have hp := u8s_new_parsed a qs hqs str hstr
  obtain ⟨-, -, -, hbl, -⟩ := u8s_new_result a _ hs str hstr
  obtain ⟨d', he⟩ := u8s_insert_cp_returns a str qs hp k cp hk hcp ha (by rw [hbl]; exact hsz)
  rcases u8s_insert_cp_parsed a str qs hp k cp false hcp (fun h => absurd h (by simp))
    _ he with hf | ⟨-, qs1, qs2, hpar, hbl2, hq⟩
  · injection hf with hf
    exact absurd hf (by decide)
  · obtain ⟨e1, e2, -⟩ := hq rfl
    subst e1 e2
    simp only at hpar hbl2
    obtain ⟨dest', hd', -, hcp'⟩ := u8dec_wellFormed_read _ hpar.1
    refine ⟨d', dest', he, hpar.2.1, by rw [hpar.2.2.1]; exact hd', ?_, ?_, hbl2,
      layout_length cp hcp.2.1⟩
    · rw [hcp', hcps, List.map_append, List.map_append, List.map_take, List.map_drop]
      simp only [List.map_cons, List.map_nil, (layout_isSeq cp hcp).2]
    · rw [hpar.2.2.2, hlen]
      simp only [List.length_append, List.length_take, List.length_drop, List.length_cons,
        List.length_nil]
      omega

/-- C30 on `"AB"`, inserting U+00E9 at codepoint offset 1: the decode becomes
`41, E9, 42`. -/
theorem u8s_insert_cp_codepoint_offset_witness :
    ∃ d' dest', u8s_insert_cp ⟨true, 0⟩
        { data := some [65, 66, 0, 0, 0, 0, 0, 0, 0, 0, 0, 0, 0, 0, 0, 0], byte_len := 2,
          codepoint_len := 2, capacity := 16 } 1 0xE9 false = some (0, d') ∧
      Terminated d' ∧ u8dec (contents d') false = .ok dest' ∧
      codepoints dest' = ([0x41, 0x42] : List Nat).take 1 ++ [0xE9]
        ++ ([0x41, 0x42] : List Nat).drop 1 ∧
      d'.codepoint_len = ([0x41, 0x42] : List Nat).length + 1 ∧
      d'.byte_len = 2 + (layout 0xE9).length ∧
      (layout 0xE9).length = u8_cp_bytelen 0xE9 :=
  u8s_insert_cp_codepoint_offset [0x41, 0x42] (by decide)
    ⟨[[0x41], [0x42]], by simp [IsSeq], by simp⟩ [0x41, 0x42, 0] (by decide) ⟨true, 0⟩ rfl _
    (by decide) 1 0xE9 (by decide) ⟨by decide, by decide, by decide⟩ (by decide)

/-- C31. Character search, as the code has it: `u8_chr` compares `cp` with the
codepoint the iterator holds and returns `current`. After the `u8i_next` that
decoded an occurrence, `current` stands behind that sequence, so for a
well-formed string and `cp >= 1` the pointer returned for the first occurrence
is the one behind it, not its first byte: in `"Hello"`, `'H'` gives index 1
(the byte `'e'`), `'o'` gives index 5 (the terminator) and `'l'` gives index 3
(the second `'l'`, which is why the test of the repository passes). The other
half of the claim holds: when `cp` does not occur, `NULL` is returned. -/
theorem u8_chr_returns_position_behind :
    u8_chr [0x48, 0x65, 0x6C, 0x6C, 0x6F] 0x48 = some (some 1) ∧
    u8_chr [0x48, 0x65, 0x6C, 0x6C, 0x6F] 0x6F = some (some 5) ∧
    u8_chr [0x48, 0x65, 0x6C, 0x6C, 0x6F] 0x6C = some (some 3) ∧
    u8_chr [0x41, 0xC3, 0xA9, 0x42] 0xE9 = some (some 3) ∧
    (∀ (qs : List (List Nat)) (cp j : Nat), (∀ q ∈ qs, IsSeq q) → 1 ≤ cp → j < qs.length →
      seqValue (qs.getD j []) = cp → (∀ m, m < j → seqValue (qs.getD m []) ≠ cp) →
      u8_chr qs.flatten cp = some (some (boundary qs (j + 1)))) ∧
    (∀ (qs : List (List Nat)) (cp : Nat), (∀ q ∈ qs, IsSeq q) → 1 ≤ cp →
      (∀ m, m < qs.length → seqValue (qs.getD m []) ≠ cp) →
      u8_chr qs.flatten cp = some none) := by
  refine ⟨by decide, by decide, by decide, by decide, ?_, ?_⟩
  · intro qs cp j hqs hcp hj hv hmin
    exact (u8_chr_wellFormed qs hqs cp hcp).1 j hj hv hmin
  · intro qs cp hqs hcp hno
    exact (u8_chr_wellFormed qs hqs cp hcp).2 hno

/-- C32. Substring search is a first-match byte search: for a haystack of
`h` bytes and a NUL-free needle of `m` bytes, `u8_str_n` returns the start of
the haystack when `m = 0`, `NULL` when `m > h` or when no `i` with
`i + m <= h` has `haystack[i .. i + m)` equal to the needle, and otherwise the
least such `i`. Nothing is asked of the bytes of either operand beyond being
bytes. -/
theorem u8_str_n_first_match (haystack needle : List Nat) (h : Nat)
    (hh : h ≤ haystack.length) (hb : ∀ b ∈ haystack, b < 256) (hn : NulFree needle) :
    (needle.length = 0 → u8_str_n haystack h needle = some (some 0)) ∧
    (needle.length > h → u8_str_n haystack h needle = some none) ∧
    (needle.length ≠ 0 →
      (∀ i, i + needle.length ≤ h → (haystack.drop i).take needle.length ≠ needle) →
      u8_str_n haystack h needle = some none) ∧
    (∀ i, needle.length ≠ 0 → i + needle.length ≤ h →
      (haystack.drop i).take needle.length = needle →
      (∀ j, j < i → (haystack.drop j).take needle.length ≠ needle) →
      u8_str_n haystack h needle = some (some i)) := by
  have hsl := strlen_nulFree needle hn
  have hslice : ∀ i, i + needle.length ≤ h →
      (memcmp (haystack.drop i) needle needle.length = 0
        ↔ (haystack.drop i).take needle.length = needle) :=
    fun i hi => memcmp_slice haystack needle i hb hn (by omega)
  refine ⟨?_, ?_, ?_, ?_⟩
  · intro h0
    unfold u8_str_n
    simp only [hsl]
    rw [if_pos h0]
  · intro hgt
    unfold u8_str_n
    simp only [hsl]
    rw [if_neg (by omega), if_pos hgt]
  · intro h0 hno
    by_cases hgt : needle.length > h
    · unfold u8_str_n
      simp only [hsl]
      rw [if_neg h0, if_pos hgt]
    · unfold u8_str_n
      simp only [hsl]
      rw [if_neg h0, if_neg hgt]
      apply (u8_str_loop_spec haystack needle h needle.length _ 0 (by omega) (by omega)).2
      intro t _ ht hm
      exact hno t (by omega) ((hslice t (by omega)).mp hm)
  · intro i h0 hi heq hmin
    unfold u8_str_n
    simp only [hsl]
    rw [if_neg h0, if_neg (by omega)]
    apply (u8_str_loop_spec haystack needle h needle.length _ 0 (by omega) (by omega)).1 i
      (Nat.zero_le _) (by omega) ((hslice i hi).mpr heq)
    intro t _ ht hm
    exact hmin t ht ((hslice t (by omega)).mp hm)

/-- C32 on the haystack `FF 41 42 00 41 42` with the needle `41 42`, neither of
them well-formed UTF-8 as a whole: the first match is at index 1. -/
theorem u8_str_n_first_match_witness :
    u8_str_n [0xFF, 0x41, 0x42, 0x00, 0x41, 0x42] 6 [0x41, 0x42] = some (some 1) :=
  (u8_str_n_first_match [0xFF, 0x41, 0x42, 0x00, 0x41, 0x42] [0x41, 0x42] 6
    (by decide) (by decide) (by decide)).2.2.2 1 (by decide) (by decide) (by decide)
    (by decide)

/-- C33. Length counting agrees with decoding: for a well-formed NUL-free
string `s`, `u8dec(s, 0)` returns an array, `u8_len_cstr(s)` is the number of
codepoints in it, and so is the `codepoint_len` of the buffer `u8s_new(s)`
returns (which it does when the allocator serves); `u8_len_cstr("Hello")` is
5; and for any data on which a call of `u8i_next`, made in succession from the
fresh iterator, returns -1, `u8_len` returns 0. -/
theorem u8_len_agrees_with_decoding (s : List Nat) (hs : NulFree s) (hwf : WellFormed s) :
    (∃ dest, u8dec s false = .ok dest ∧ u8_len_cstr s = some (codepoints dest).length ∧
      (∀ (a : allocator) (str : utf8_string), u8s_new a s = some (some str) →
        str.codepoint_len = (codepoints dest).length) ∧
      (∀ a : allocator, a.ok = true → ∃ str, u8s_new a s = some (some str))) ∧
    u8_len_cstr [0x48, 0x65, 0x6C, 0x6C, 0x6F] = some 5 ∧
    (∀ (data : List Nat) (byte_len : Nat),
      (∃ n, ∃ r ∈ calls (u8i_next data) n (u8i_new_with_length byte_len), r.1 = -1) →
      u8_len data byte_len = some 0) := by
  obtain ⟨qs, hqs, rfl⟩ := hwf
  obtain ⟨dest, hd, -, hcp⟩ := u8dec_wellFormed_read qs hqs
  refine ⟨⟨dest, hd, ?_, ?_, ?_⟩, by decide, fun data n h => u8_len_rejected data n h⟩
  · rw [u8_len_cstr_wellFormed qs hqs, hcp, List.length_map]
  · intro a str hstr
    rw [(u8s_new_parsed a qs hqs str hstr).2.2.2, hcp, List.length_map]
  · intro a ha
    obtain ⟨str, hstr, -⟩ := u8s_new_parsed_returns a qs hqs ha
    exact ⟨str, hstr⟩

/-- C33 on `"A\xC3\xA9\xF0\x9F\x98\x80"`: three codepoints by each count. -/
theorem u8_len_agrees_with_decoding_witness :
    ∃ dest, u8dec [0x41, 0xC3, 0xA9, 0xF0, 0x9F, 0x98, 0x80] false = .ok dest ∧
      u8_len_cstr [0x41, 0xC3, 0xA9, 0xF0, 0x9F, 0x98, 0x80] = some (codepoints dest).length ∧
      (∀ (a : allocator) (str : utf8_string),
        u8s_new a [0x41, 0xC3, 0xA9, 0xF0, 0x9F, 0x98, 0x80] = some (some str) →
        str.codepoint_len = (codepoints dest).length) ∧
      (∀ a : allocator, a.ok = true →
        ∃ str, u8s_new a [0x41, 0xC3, 0xA9, 0xF0, 0x9F, 0x98, 0x80] = some (some str)) :=
  (u8_len_agrees_with_decoding [0x41, 0xC3, 0xA9, 0xF0, 0x9F, 0x98, 0x80] (by decide)
    ⟨[[0x41], [0xC3, 0xA9], [0xF0, 0x9F, 0x98, 0x80]], by simp [IsSeq], by simp⟩).1

/-- C34. Case conversion touches only basic Latin letters: for a well-formed
NUL-free string `s`, `u8_upper(s)` returns the string in which every byte
`'a'..'z'` of `s` is replaced by the corresponding `'A'..'Z'` and every other
byte is as in `s` (so the byte length is that of `s`); `u8_lower(s)` does the
same with `'A'..'Z'` and `'a'..'z'`; and `u8_upper` of the string `u8_upper`
returned is that string again. -/
theorem case_conversion_basic_latin (s : List Nat) (hs : NulFree s) (hwf : WellFormed s) :
    u8_upper s = some (some (s.map (fun b => if 97 ≤ b ∧ b ≤ 122 then b - 97 + 65 else b))) ∧
    u8_lower s = some (some (s.map (fun b => if 65 ≤ b ∧ b ≤ 90 then b - 65 + 97 else b))) ∧
    (∀ t, u8_upper s = some (some t) → t.length = s.length ∧ u8_upper t = some (some t)) := by
  obtain ⟨qs, hqs, rfl⟩ := hwf
  refine ⟨u8_upper_wellFormed qs hqs, u8_lower_wellFormed qs hqs, ?_⟩
  intro t ht
  rw [u8_upper_wellFormed qs hqs] at ht
  simp only [Option.some.injEq] at ht
  rw [← ht]
  refine ⟨List.length_map _ _, ?_⟩
  rw [← map_flatten_seqs, u8_upper_wellFormed _ (upper_wellFormed qs hqs), map_flatten_seqs,
    List.map_map]
  congr 3
  funext b
  simp only [Function.comp]
  split_ifs <;> omega

/-- C34 on `"az\xC3\xA9{Z"`: the two letters change, the two bytes of U+00E9,
the brace and the capital stay. -/
theorem case_conversion_basic_latin_witness :
    u8_upper [0x61, 0x7A, 0xC3, 0xA9, 0x7B, 0x5A]
      = some (some (([0x61, 0x7A, 0xC3, 0xA9, 0x7B, 0x5A] : List Nat).map
          (fun b => if 97 ≤ b ∧ b ≤ 122 then b - 97 + 65 else b))) ∧
    ([0x61, 0x7A, 0xC3, 0xA9, 0x7B, 0x5A] : List Nat).map
        (fun b => if 97 ≤ b ∧ b ≤ 122 then b - 97 + 65 else b)
      = [0x41, 0x5A, 0xC3, 0xA9, 0x7B, 0x5A] :=
  ⟨(case_conversion_basic_latin [0x61, 0x7A, 0xC3, 0xA9, 0x7B, 0x5A] (by decide)
    ⟨[[0x61], [0x7A], [0xC3, 0xA9], [0x7B], [0x5A]], by simp [IsSeq], by simp⟩).1, by decide⟩

/-- C35. Per-codepoint byte conversion, as the code has it: `u8_cp_to_bytes`
returns -1 for the codepoint 0 whatever the buffer, although `u8_cp_bytelen(0)`
is 1 and `u8_encode_codepoint` encodes 0 as the byte 00: the string encoder it
calls reads 0 as the terminator and returns the empty string, whose length 0 is
not the 1 that is needed. For every scalar value from 1 on and a buffer of at
least 4 bytes the claim holds: the return value is `u8_cp_bytelen(cp)` and the
bytes `u8enc` produces for `cp` are stored at the front of the buffer, the
rest of which is untouched; surrogates and values above 0x10FFFF give -1. -/
theorem u8_cp_to_bytes_rejects_zero :
    (∀ (buffer : List Nat) (n : Nat), u8_cp_to_bytes 0 buffer n = some (-1, buffer)) ∧
    u8_cp_bytelen 0 = 1 ∧ u8_encode_codepoint 0 = some [0] ∧ u8enc [0, 0] = some [] ∧
    u8_cp_to_bytes 0x41 [0xAA, 0xAA, 0xAA, 0xAA] 4 = some (1, [0x41, 0xAA, 0xAA, 0xAA]) ∧
    u8_cp_to_bytes 0x1F600 [0xAA, 0xAA, 0xAA, 0xAA] 4 = some (4, [0xF0, 0x9F, 0x98, 0x80]) ∧
    (∀ (cp : Nat) (buffer : List Nat) (n : Nat), IsScalar cp → 4 ≤ n → n ≤ buffer.length →
      ∃ encoded, u8enc [cp, 0] = some encoded ∧ encoded.length = u8_cp_bytelen cp ∧
        u8_cp_to_bytes cp buffer n
          = some ((u8_cp_bytelen cp : Int), encoded ++ buffer.drop (u8_cp_bytelen cp))) ∧
    (∀ (cp : Nat) (buffer : List Nat) (n : Nat),
      (0xD800 ≤ cp ∧ cp ≤ 0xDFFF) ∨ 0x10FFFF < cp →
      u8_cp_to_bytes cp buffer n = some (-1, buffer)) := by
  refine ⟨u8_cp_to_bytes_zero, by decide, by decide, by decide, by decide, by decide, ?_,
    fun cp buffer n h => u8_cp_to_bytes_invalid cp buffer n h⟩
  intro cp buffer n hsc hn hb
  have h4 : u8_cp_bytelen cp ≤ 4 := by
    unfold u8_cp_bytelen
    split_ifs <;> omega
  refine ⟨layout cp, ?_, layout_length cp hsc.2.1,
    u8_cp_to_bytes_scalar cp hsc buffer n (by omega) (by omega)⟩
  rw [u8enc_single, if_neg (by have := hsc.1; omega), if_neg (by
    have := hsc.2.1
    have := hsc.2.2
    omega)]

/-- C36. Length clamping, as the code has it: the test `start + len > length`
is made in `size_t`. For `start >= 1` and `len >= 2^64 - start` the sum wraps
to a value below `start`, the clamp does not fire, and the copy is made with
the unclamped length: on the buffer of `"A\xC3\xA9B"`, `u8s_substr` from
codepoint 1 and `u8s_substr_bytes` from byte 1, each with length `SIZE_MAX`,
run their `memcpy` out of the source instead of returning the 2 codepoints
(3 bytes) that remain. With `start = 0` the sum does not wrap and `SIZE_MAX`
is clamped as claimed. The same holds for every buffer with well-formed
contents, a capacity inside `size_t` and a serving allocator. -/
theorem substr_clamp_wraps :
    u8s_substr ⟨true, 0⟩
      { data := some [65, 195, 169, 66, 0, 0, 0, 0, 0, 0, 0, 0, 0, 0, 0, 0], byte_len := 4,
        codepoint_len := 3, capacity := 16 } 1 18446744073709551615 = none ∧
    u8s_substr_bytes ⟨true, 0⟩
      { data := some [65, 195, 169, 66, 0, 0, 0, 0, 0, 0, 0, 0, 0, 0, 0, 0], byte_len := 4,
        codepoint_len := 3, capacity := 16 } 1 18446744073709551615 = none ∧
    (u8s_substr ⟨true, 0⟩
      { data := some [65, 195, 169, 66, 0, 0, 0, 0, 0, 0, 0, 0, 0, 0, 0, 0], byte_len := 4,
        codepoint_len := 3, capacity := 16 } 0 18446744073709551615).map
        (Option.map (fun r => (contents r, r.codepoint_len)))
      = some (some ([65, 195, 169, 66], 3)) ∧
    (∀ (a : allocator) (str : utf8_string) (qs : List (List Nat)) (start len : Nat),
      Parsed str qs → a.ok = true → str.capacity < 18446744073709551616 →
      start < str.codepoint_len → len < 18446744073709551616 →
      18446744073709551616 ≤ start + len → u8s_substr a str start len = none) ∧
    (∀ (a : allocator) (str : utf8_string) (start len : Nat),
      Terminated str → a.ok = true → str.capacity < 18446744073709551616 →
      start < str.byte_len → len < 18446744073709551616 →
      18446744073709551616 ≤ start + len → u8s_substr_bytes a str start len = none) := by
  refine ⟨by decide, by decide, by decide, ?_, ?_⟩
  · intro a str qs start len hp ha hcap hstart hlen hwrap
    rw [hp.2.2.2] at hstart
    exact u8s_substr_wraps a str qs hp start len ha hstart hwrap hlen hcap
  · intro a str start len hinv ha hcap hstart hlen hwrap
    exact u8s_substr_bytes_wraps a str start len hinv ha hstart hwrap hlen hcap

/-- C37. The two encoders, as the code has them: `encode_codepoint` of
`utf8_string.c` has no test for surrogates, so for every `cp` in
`0xD800..0xDFFF` it succeeds with three bytes (`ED A0 80` for 0xD800) where
`u8_encode_codepoint` of `akutf.c` fails, and `u8s_insert_cp` of 0xD800 into
the buffer of `"A"` returns 0 and leaves the bytes `ED A0 80 41`. Outside the
surrogates the two encoders agree, and `u8s_insert_cp` returns -1 with the
buffer unchanged for every `cp` above 0x10FFFF. -/
theorem encode_codepoint_accepts_surrogates :
    encode_codepoint 0xD800 = some [0xED, 0xA0, 0x80] ∧ u8_encode_codepoint 0xD800 = none ∧
    encode_codepoint 0xDFFF = some [0xED, 0xBF, 0xBF] ∧ u8_encode_codepoint 0xDFFF = none ∧
    u8s_insert_cp ⟨true, 0⟩
      { data := some [65, 0, 0, 0, 0, 0, 0, 0, 0, 0, 0, 0, 0, 0, 0, 0], byte_len := 1,
        codepoint_len := 1, capacity := 16 } 0 0xD800 false
      = some (0, { data := some [0xED, 0xA0, 0x80, 65, 0, 0, 0, 0, 0, 0, 0, 0, 0, 0, 0, 0],
                   byte_len := 4, codepoint_len := 2, capacity := 16 }) ∧
    (∀ cp : Nat, 0xD800 ≤ cp → cp ≤ 0xDFFF →
      u8_encode_codepoint cp = none ∧ ∃ b1 b2 b3, encode_codepoint cp = some [b1, b2, b3]) ∧
    (∀ cp : Nat, ¬ (0xD800 ≤ cp ∧ cp ≤ 0xDFFF) →
      encode_codepoint cp = u8_encode_codepoint cp) ∧
    (∀ (a : allocator) (str : utf8_string) (offset cp : Nat) (b : Bool), 0x10FFFF < cp →
      u8s_insert_cp a str offset cp b = some (-1, str)) := by
  refine ⟨by decide, by decide, by decide, by decide, by decide, ?_,
    fun cp h => encode_codepoint_eq cp h, ?_⟩
  · intro cp h1 h2
    refine ⟨(u8_encode_codepoint_none cp).mpr (Or.inl ⟨h1, h2⟩), ?_⟩
    unfold encode_codepoint
    rw [if_neg (by omega), if_neg (by omega), if_pos (by omega)]
    exact ⟨_, _, _, rfl⟩
  · intro a str offset cp b hcp
    have henc : encode_codepoint cp = none := by
      unfold encode_codepoint
      rw [if_neg (by omega), if_neg (by omega), if_neg (by omega), if_neg (by omega)]
    unfold u8s_insert_cp
    cases str.data with
    | none => rfl
    | some block =>
      simp only
      cases insert_byte_offset str offset b with
      | none => rfl
      | some bo => simp only [henc]

/-- C38. The decode loop terminates within its output buffer: for a NUL-free
string `s` of `L` bytes and either value of `replace`, `2 * L + 2` calls of
`u8_decode_once` are enough for the loop of `u8dec` to return; what it returns
is the null pointer (in reject mode only) or the array of `L + 1` elements
that holds the stored values, at most `L` of them, then the terminating 0 and
the elements no store has reached, so no store went to an index `>= L + 1`;
and the comparison `(dest - start) < dest_len` comes out true every time it
is evaluated, however long the loop is run. -/
theorem u8dec_loop_within_output (s : List Nat) (hs : NulFree s) (replace : Bool) :
    (∀ fuel, 2 * s.length + 2 ≤ fuel →
      u8dec_loop s replace (s.length + 1) fuel u8_decode_ctx
        (List.replicate (s.length + 1) 0) 0 = u8dec s replace) ∧
    ((∃ o, o.length ≤ s.length ∧
        u8dec s replace = .ok (o ++ 0 :: List.replicate (s.length - o.length) 0)) ∨
      (replace = false ∧ u8dec s replace = .null)) ∧
    (∀ fuel, u8dec_guard s replace (s.length + 1) fuel u8_decode_ctx
      (List.replicate (s.length + 1) 0) 0 = true) := by
  refine ⟨fun fuel hf => u8dec_loop_fuel s replace hs fuel hf, ?_,
    fun fuel => u8dec_guard_nulFree s replace hs fuel⟩
  rw [u8dec_eq_decodeBytes s replace hs]
  cases hd : decodeBytes replace s with
  | none =>
    right
    refine ⟨?_, rfl⟩
    cases replace with
    | false => rfl
    | true =>
      obtain ⟨o, ho⟩ := scan_replace_total s 0 0 0 0x80 0xBF
      unfold decodeBytes at hd
      rw [ho] at hd
      exact absurd hd (by simp)
  | some o =>
    left
    have hl := decodeBytes_length replace s o hd
    refine ⟨o, hl, ?_⟩
    simp only [finish]
    have e : s.length + 1 - o.length - 1 = s.length - o.length := by omega
    rw [pad_eq _ _ (by omega), e]

/-- C38 on `E2 41 FF` in replace mode: a truncated sequence whose breaking
byte is read twice, and an invalid lead byte. -/
theorem u8dec_loop_within_output_witness :
    (∃ o, o.length ≤ ([0xE2, 0x41, 0xFF] : List Nat).length ∧
        u8dec [0xE2, 0x41, 0xFF] true
          = .ok (o ++ 0 :: List.replicate (([0xE2, 0x41, 0xFF] : List Nat).length - o.length) 0)) ∨
      (true = false ∧ u8dec [0xE2, 0x41, 0xFF] true = .null) :=
  (u8dec_loop_within_output [0xE2, 0x41, 0xFF] (by decide) true).2.1

/-- C39. Iterator reachable-state invariant: for every memory and every state
reached from `u8i_new` or `u8i_new_with_length` by calls of `u8i_next`,
`u8i_prev`, `u8i_reset` and `u8i_seek`, if the error flag is clear then
`data <= current <= end`, the bytes of `[data, current)` are the concatenation
of exactly `u8i_position` sequences each accepted by `utf8_decode_sequence`,
and `u8i_prev` on that state leaves the error flag clear and either returns 0
without changing the state or returns 1 from a `position` of at least 1, which
it lowers by 1. -/
theorem iterator_reachable_invariant (mem : List Nat) (iter : utf8_iterator)
    (h : IterReachable mem iter) (he : u8i_error iter = 0) :
    iter.data ≤ iter.current ∧ iter.current ≤ iter.end_ ∧
    (∃ qs : List (List Nat), (∀ q ∈ qs, Accepted q) ∧
      window mem iter.data iter.current = qs.flatten ∧ qs.length = u8i_position iter) ∧
    u8i_error (u8i_prev mem iter).2 = 0 ∧
    ((u8i_prev mem iter).1 = 0 ∧ (u8i_prev mem iter).2 = iter ∨
      (u8i_prev mem iter).1 = 1 ∧ 1 ≤ u8i_position iter ∧
        u8i_position (u8i_prev mem iter).2 = u8i_position iter - 1) := by
  have hinv := iterReachable_inv mem iter h
  obtain ⟨i1, i2, i3⟩ := hinv.2 he
  obtain ⟨p1, -, p3⟩ := iterInv_prev mem iter hinv he
  exact ⟨i1, i2, i3, p1, p3⟩

/-- C39 on the memory `41 C3 A9 80` (the last byte is no sequence) after
`u8i_new`, `u8i_seek` to 2 and one `u8i_prev`. -/
theorem iterator_reachable_invariant_witness :
    IterReachable [0x41, 0xC3, 0xA9, 0x80]
      (u8i_prev [0x41, 0xC3, 0xA9, 0x80]
        (u8i_seek [0x41, 0xC3, 0xA9, 0x80] (u8i_new [0x41, 0xC3, 0xA9, 0x80]) 2).2).2 ∧
    u8i_position (u8i_prev [0x41, 0xC3, 0xA9, 0x80]
        (u8i_seek [0x41, 0xC3, 0xA9, 0x80] (u8i_new [0x41, 0xC3, 0xA9, 0x80]) 2).2).2 = 1 ∧
    u8i_error (u8i_prev [0x41, 0xC3, 0xA9, 0x80] (u8i_prev [0x41, 0xC3, 0xA9, 0x80]
        (u8i_seek [0x41, 0xC3, 0xA9, 0x80] (u8i_new [0x41, 0xC3, 0xA9, 0x80]) 2).2).2).2 = 0 :=
  have hr : IterReachable [0x41, 0xC3, 0xA9, 0x80]
      (u8i_prev [0x41, 0xC3, 0xA9, 0x80]
        (u8i_seek [0x41, 0xC3, 0xA9, 0x80] (u8i_new [0x41, 0xC3, 0xA9, 0x80]) 2).2).2 :=
    IterReachable.prev _ (IterReachable.seek _ 2 IterReachable.new)
  ⟨hr, by decide, (iterator_reachable_invariant _ _ hr (by decide)).2.2.2.1⟩

/-- C40. The length-bounded case converters, as the code has them:
`utf8_transform_case` reads `len` only in the test `len == 0` and hands the
whole string to `u8dec`, so for every `len` other than 0 `u8_upper_n(s, len)`
is `u8_upper(s)` and `u8_lower_n(s, len)` is `u8_lower(s)`: on `"abc"` with
`len = 1` the result is `"ABC"`, not `"A"`, and the bytes behind `len` do
influence the result. For a well-formed string and any `len >= 1` the result
is the conversion of the whole string; only `len = 0` gives the empty
string. -/
theorem u8_upper_n_ignores_len :
    u8_upper_n [0x61, 0x62, 0x63] 1 = some (some [0x41, 0x42, 0x43]) ∧
    u8_lower_n [0x41, 0x42, 0x43] 2 = some (some [0x61, 0x62, 0x63]) ∧
    u8_upper_n [0x61, 0xC3, 0xA9, 0x62] 1 = some (some [0x41, 0xC3, 0xA9, 0x42]) ∧
    u8_upper_n [0x61, 0xFF] 1 = some none ∧
    u8_upper_n [0x61, 0x62, 0x63] 0 = some (some []) ∧
    (∀ (s : List Nat) (len : Nat), len ≠ 0 → strlen s ≠ 0 →
      u8_upper_n s len = u8_upper s ∧ u8_lower_n s len = u8_lower s) ∧
    (∀ (s : List Nat) (len : Nat), WellFormed s → 1 ≤ len →
      u8_upper_n s len
        = some (some (s.map (fun b => if 97 ≤ b ∧ b ≤ 122 then b - 97 + 65 else b))) ∧
      u8_lower_n s len
        = some (some (s.map (fun b => if 65 ≤ b ∧ b ≤ 90 then b - 65 + 97 else b)))) := by
  refine ⟨by decide, by decide, by decide, by decide, by decide, ?_, ?_⟩
  · intro s len hlen hs
    exact ⟨utf8_transform_case_len s len _ _ hlen hs, utf8_transform_case_len s len _ _ hlen hs⟩
  · intro s len hwf hlen
    obtain ⟨qs, hqs, rfl⟩ := hwf
    exact ⟨u8_upper_n_wellFormed qs hqs len (by omega),
      u8_lower_n_wellFormed qs hqs len (by omega)⟩

end AkUTF
